import Mathlib

/-!
# bitpack: a growable, bit-addressable buffer

Shallow embedding of `ext/bitpack.c` and `ext/bitpack.h`.

Conventions of the embedding

* The C data model is LP64: `unsigned long` has 64 bits, `int` has 32 bits and
  `unsigned char` has 8 bits.  Machine integers are natural numbers; every
  `unsigned long` operation that can wrap is written with an explicit
  `% ULONG_MOD`.
* An `int` shift `a << k` is evaluated the way LP64 processors evaluate the 32-bit
  shift instruction: the count is taken modulo 32 and the result is truncated to
  32 bits (`int_shl`).  Converting that `int` to `unsigned long` sign-extends
  (`int_to_ulong`).
* `pow(2, num_bits) - 1` and the conversion of `value` to `double` are modelled
  exactly by rounding to 53 significant bits, ties to even (`to_double`); all
  numbers involved are non-negative integers.
* The heap is a parameter (`Heap`): it says which requests succeed and what the
  indeterminate content of newly obtained memory is.
* `bp->data` is the list of the bytes of the allocated block; a `NULL` pointer is
  the empty list.  An access outside the block ends the call with
  `Res.undefined`.
* A pair `(unsigned char *value, unsigned long num_bytes)` is a list of bytes,
  `num_bytes` being its length.
-/

namespace Bitpack

/-! ## Constants and types of `bitpack.h` -/

/-- Return value of a successful call. -/
def BITPACK_RV_SUCCESS : Nat := 1

/-- Return value of a failed call. -/
def BITPACK_RV_ERROR : Nat := 0

/-- Bytes allocated by `bitpack_init_default`. -/
def BITPACK_DEFAULT_MEM_SIZE : Nat := 32

/-- Size of the error string buffer. -/
def BITPACK_ERR_BUF_SIZE : Nat := 100

/-- Number of values of an `unsigned long`. -/
def ULONG_MOD : Nat := 2 ^ 64

/-- Width of an `unsigned long` in bits, `sizeof(unsigned long) * 8`. -/
def ULONG_BITS : Nat := 64

/-- The error kinds, in the order of the C enumeration (values 0 to 6). -/
inductive bitpack_err_t where
  | BITPACK_ERR_CLEAR
  | BITPACK_ERR_MALLOC_FAILED
  | BITPACK_ERR_INVALID_INDEX
  | BITPACK_ERR_VALUE_TOO_BIG
  | BITPACK_ERR_RANGE_TOO_BIG
  | BITPACK_ERR_READ_PAST_END
  | BITPACK_ERR_EMPTY
  deriving DecidableEq, Repr

open bitpack_err_t

/-- Numeric value of an error kind in the C enumeration. -/
def bitpack_err_t.toNat : bitpack_err_t → Nat
  | BITPACK_ERR_CLEAR => 0
  | BITPACK_ERR_MALLOC_FAILED => 1
  | BITPACK_ERR_INVALID_INDEX => 2
  | BITPACK_ERR_VALUE_TOO_BIG => 3
  | BITPACK_ERR_RANGE_TOO_BIG => 4
  | BITPACK_ERR_READ_PAST_END => 5
  | BITPACK_ERR_EMPTY => 6

/-- The object `struct _bitpack_t`: `data` holds the bytes of the allocated block
(the empty list stands for `NULL`), `error_str` the text before the first NUL. -/
structure bitpack_t where
  size : Nat
  read_pos : Nat
  data_size : Nat
  data : List Nat
  error : bitpack_err_t
  error_str : String
  deriving DecidableEq, Repr

/-- Outcome of a call on a bitpack object: `success` is `BITPACK_RV_SUCCESS` with the
value written through the output parameter, `error` is `BITPACK_RV_ERROR` (the output
parameter is not written), `undefined` is an access outside the allocated block. -/
inductive Res (α : Type) where
  | success (bp : bitpack_t) (out : α)
  | error (bp : bitpack_t)
  | undefined
  deriving DecidableEq, Repr

/-- The C return value of an outcome, when there is one. -/
def Res.rv {α : Type} : Res α → Option Nat
  | .success _ _ => some BITPACK_RV_SUCCESS
  | .error _ => some BITPACK_RV_ERROR
  | .undefined => none

/-- The object after the call, when the call has a defined outcome. -/
def Res.state {α : Type} : Res α → Option bitpack_t
  | .success bp _ => some bp
  | .error bp => some bp
  | .undefined => none

/-- The value written through the output parameter by a successful call. -/
def Res.value {α : Type} : Res α → Option α
  | .success _ v => some v
  | .error _ => none
  | .undefined => none

/-! ## The heap -/

/-- The allocator: `avail n` tells whether a request for `n` bytes succeeds, `fresh k`
is the indeterminate content of byte `k` of newly obtained memory. -/
structure Heap where
  avail : Nat → Bool
  fresh : Nat → Nat

/-- Size of `struct _bitpack_t` under LP64: four 8-byte fields, a 4-byte enumeration and
a 100-byte character array. -/
def sizeof_bitpack_t : Nat := 136

/-- The call `malloc(n)`: a block of `n` bytes of indeterminate content, or `NULL`. -/
def malloc (h : Heap) (n : Nat) : Option (List Nat) :=
  if h.avail n then some ((List.range n).map fun k => h.fresh k % 256) else none

/-- The call `realloc(data, n)`: the old bytes, cut or extended to `n` bytes by bytes of
indeterminate content, or `NULL`. -/
def realloc (h : Heap) (data : List Nat) (n : Nat) : Option (List Nat) :=
  if h.avail n then
    some (data.take n ++ (List.range (n - data.length)).map fun k => h.fresh k % 256)
  else none

/-- The call `memset(data + off, c, n)`; `none` when the range leaves the block. -/
def memset (data : List Nat) (off c n : Nat) : Option (List Nat) :=
  if off + n ≤ data.length then
    some (data.take off ++ List.replicate n c ++ data.drop (off + n))
  else none

/-- The call `memcpy(data + off, src, n)` with `n` the length of `src`; `none` when the
range leaves the block. -/
def memcpy (data : List Nat) (off : Nat) (src : List Nat) : Option (List Nat) :=
  if off + src.length ≤ data.length then
    some (data.take off ++ src ++ data.drop (off + src.length))
  else none

/-- Reading `n` bytes at `data + off`, as the source of a `memcpy`; `none` when the range
leaves the block. -/
def memread (data : List Nat) (off n : Nat) : Option (List Nat) :=
  if off + n ≤ data.length then some ((data.drop off).take n) else none

/-! ## Machine arithmetic -/

/-- The `int` expression `a << k`: bit pattern of the 32-bit result, the shift count taken
modulo 32. -/
def int_shl (a k : Nat) : Nat := (a <<< (k % 32)) % 2 ^ 32

/-- Conversion of an `int`, given by its 32-bit pattern, to `unsigned long`
(sign extension). -/
def int_to_ulong (x : Nat) : Nat := if x < 2 ^ 31 then x else x + (2 ^ 64 - 2 ^ 32)

/-- The `int` expression `~x` on a non-negative `int`: its 32-bit pattern. -/
def int_not (x : Nat) : Nat := 2 ^ 32 - 1 - x % 2 ^ 32

/-- Number of bits of `n` above the 53 a `double` keeps: 0 below `2 ^ 53`, else
`⌊log₂ n⌋ - 52`; computed for `n < 2 ^ (53 + fuel)`. -/
def excess_bits : Nat → Nat → Nat
  | 0, _ => 0
  | fuel + 1, n => if n < 2 ^ 53 then 0 else excess_bits fuel (n / 2) + 1

/-- Conversion of a non-negative integer below `2 ^ 65` to `double`, rounding to nearest,
ties to even; the result is an integer again. -/
def to_double (n : Nat) : Nat :=
  let e := excess_bits 12 n
  let q := n / 2 ^ e
  let r := n % 2 ^ e
  if 2 * r < 2 ^ e ∨ (2 * r = 2 ^ e ∧ q % 2 = 0) then q * 2 ^ e else (q + 1) * 2 ^ e

/-- The `double` expression `pow(2, num_bits) - 1` for `num_bits ≤ 64`: the power is
exact, the difference is rounded. -/
def pow2_minus_1 (num_bits : Nat) : Nat := to_double (2 ^ num_bits - 1)

/-! ## `bitpack.c` -/

/-- Round up to the nearest multiple of 8 (`round8`). -/
def round8 (v : Nat) : Nat :=
  if v % 8 ≠ 0 then (v + (8 - v % 8)) % ULONG_MOD else v

/-- Clear any previous error (`_bitpack_err_clear`). -/
def _bitpack_err_clear (bp : bitpack_t) : bitpack_t :=
  if bp.error ≠ BITPACK_ERR_CLEAR then
    { bp with error := BITPACK_ERR_CLEAR, error_str := "" }
  else bp

/-- Increase the size, allocating more memory if necessary (`_bitpack_resize`).  When
`realloc` fails the data pointer has already been overwritten with `NULL`. -/
def _bitpack_resize (h : Heap) (bp : bitpack_t) (new_size : Nat) : Res Unit :=
  let new_data_size := round8 new_size / 8
  if new_data_size > bp.data_size then
    match realloc h bp.data new_data_size with
    | none =>
      .error { bp with data := [], error := BITPACK_ERR_MALLOC_FAILED,
                       error_str := "memory allocation failed" }
    | some data =>
      match memset data bp.data_size 0 (new_data_size - bp.data_size) with
      | none => .undefined
      | some data =>
        .success { bp with data := data, data_size := new_data_size, size := new_size } ()
  else
    .success { bp with size := new_size } ()

/-- The constructor `bitpack_init`; `none` is the `NULL` result. -/
def bitpack_init (h : Heap) (num_bytes : Nat) : Option bitpack_t :=
  if h.avail sizeof_bitpack_t then
    match malloc h num_bytes with
    | none => none
    | some data =>
      match memset data 0 0 num_bytes with
      | none => none
      | some data =>
        some { size := 0, read_pos := 0, data_size := num_bytes, data := data,
               error := BITPACK_ERR_CLEAR, error_str := "" }
  else none

/-- The constructor `bitpack_init_default`. -/
def bitpack_init_default (h : Heap) : Option bitpack_t :=
  bitpack_init h BITPACK_DEFAULT_MEM_SIZE

/-- The constructor `bitpack_init_from_bytes`, `num_bytes` being the length of `bytes`;
`none` is the `NULL` result. -/
def bitpack_init_from_bytes (h : Heap) (bytes : List Nat) : Option bitpack_t :=
  let num_bytes := bytes.length
  match bitpack_init h num_bytes with
  | none => none
  | some bp =>
    match memcpy bp.data 0 bytes with
    | none => none
    | some data => some { bp with data := data, size := (num_bytes * 8) % ULONG_MOD }

/-- Accessor `bitpack_size`. -/
def bitpack_size (bp : bitpack_t) : Nat := bp.size

/-- Accessor `bitpack_data_size`. -/
def bitpack_data_size (bp : bitpack_t) : Nat := bp.data_size

/-- Accessor `bitpack_read_pos`. -/
def bitpack_read_pos (bp : bitpack_t) : Nat := bp.read_pos

/-- Reset the read position (`bitpack_reset_read_pos`). -/
def bitpack_reset_read_pos (bp : bitpack_t) : bitpack_t := { bp with read_pos := 0 }

/-- Accessor `bitpack_get_error`. -/
def bitpack_get_error (bp : bitpack_t) : bitpack_err_t := bp.error

/-- Accessor `bitpack_get_error_str`. -/
def bitpack_get_error_str (bp : bitpack_t) : String := bp.error_str

/-- The size minus one as the C code prints it, `bitpack_size(bp) - 1` in
`unsigned long`. -/
def size_minus_1 (bp : bitpack_t) : Nat := (bitpack_size bp + ULONG_MOD - 1) % ULONG_MOD

/-- Text of the invalid-index message. -/
def invalid_index_str (index : Nat) (bp : bitpack_t) : String :=
  "invalid index (" ++ toString index ++ "), max index is " ++ toString (size_minus_1 bp)

/-- Text of the read-past-end message. -/
def read_past_end_str (bp : bitpack_t) : String :=
  "attempted to read past end of bitpack (last index is " ++ toString (size_minus_1 bp) ++ ")"

/-- Text of the range-too-big message. -/
def range_too_big_str (num_bits : Nat) : String :=
  "range size " ++ toString num_bits ++ " bits is too large (maximum size is "
    ++ toString ULONG_BITS ++ " bits)"

/-- Text of the value-too-big message. -/
def value_too_big_str (value num_bits : Nat) : String :=
  "value " ++ toString value ++ " does not fit in " ++ toString num_bits ++ " bits"

/-- The growth step shared by `bitpack_on` and `bitpack_off`: resize to `index + 1` when
the object is empty or `index` is beyond its last bit. -/
def grow_for_bit (h : Heap) (bp : bitpack_t) (index : Nat) : Res Unit :=
  if bitpack_size bp = 0 ∨ index > bitpack_size bp - 1 then
    _bitpack_resize h bp ((index + 1) % ULONG_MOD)
  else .success bp ()

/-- Set the bit at `index` (`bitpack_on`). -/
def bitpack_on (h : Heap) (bp : bitpack_t) (index : Nat) : Res Unit :=
  match grow_for_bit h (_bitpack_err_clear bp) index with
  | .error bp => .error bp
  | .undefined => .undefined
  | .success bp _ =>
    let byte_offset := index / 8
    let bit_offset := index % 8
    match bp.data[byte_offset]? with
    | none => .undefined
    | some b =>
      let b := (b ||| (0x80 >>> bit_offset)) % 256
      .success { bp with data := bp.data.set byte_offset b } ()

/-- Clear the bit at `index` (`bitpack_off`). -/
def bitpack_off (h : Heap) (bp : bitpack_t) (index : Nat) : Res Unit :=
  match grow_for_bit h (_bitpack_err_clear bp) index with
  | .error bp => .error bp
  | .undefined => .undefined
  | .success bp _ =>
    let byte_offset := index / 8
    let bit_offset := index % 8
    match bp.data[byte_offset]? with
    | none => .undefined
    | some b =>
      let b := (b &&& int_not (0x80 >>> bit_offset)) % 256
      .success { bp with data := bp.data.set byte_offset b } ()

/-- Read the bit at `index` (`bitpack_get`). -/
def bitpack_get (bp : bitpack_t) (index : Nat) : Res Nat :=
  let bp := _bitpack_err_clear bp
  if bitpack_size bp = 0 then
    .error { bp with error := BITPACK_ERR_EMPTY, error_str := "bitpack is empty" }
  else if index > bitpack_size bp - 1 then
    .error { bp with error := BITPACK_ERR_INVALID_INDEX,
                     error_str := invalid_index_str index bp }
  else
    let byte_offset := index / 8
    let bit_offset := index % 8
    match bp.data[byte_offset]? with
    | none => .undefined
    | some b => if b &&& (0x80 >>> bit_offset) ≠ 0 then .success bp 1 else .success bp 0

/-- The loop of `bitpack_set_bits`: `for (i = num_bits; i != 0; i--)`.  The first argument
is the loop variable `i`; in the step from `i + 1` the mask is the `int` value
`1 << ((i + 1) - 1)` converted to `unsigned long`. -/
def bitpack_set_bits_loop (h : Heap) (value : Nat) : Nat → bitpack_t → Nat → Res Unit
  | 0, bp, _ => .success bp ()
  | i + 1, bp, index =>
    let mask := int_to_ulong (int_shl 1 i)
    let r := if value &&& mask ≠ 0 then bitpack_on h bp index else bitpack_off h bp index
    match r with
    | .error bp => .error bp
    | .undefined => .undefined
    | .success bp _ => bitpack_set_bits_loop h value i bp ((index + 1) % ULONG_MOD)

/-- Pack `value` into `num_bits` bits starting at `index` (`bitpack_set_bits`). -/
def bitpack_set_bits (h : Heap) (bp : bitpack_t) (value num_bits index : Nat) : Res Unit :=
  let bp := _bitpack_err_clear bp
  if num_bits > ULONG_BITS then
    .error { bp with error := BITPACK_ERR_RANGE_TOO_BIG,
                     error_str := range_too_big_str num_bits }
  else if to_double value > pow2_minus_1 num_bits then
    .error { bp with error := BITPACK_ERR_VALUE_TOO_BIG,
                     error_str := value_too_big_str value num_bits }
  else
    let grown : Res Unit :=
      if bitpack_size bp < (index + num_bits) % ULONG_MOD then
        _bitpack_resize h bp ((index + num_bits) % ULONG_MOD)
      else .success bp ()
    match grown with
    | .error bp => .error bp
    | .undefined => .undefined
    | .success bp _ => bitpack_set_bits_loop h value num_bits bp index

/-- The loop of the unaligned path of `bitpack_set_bytes`: `for (i = 0; i < num_bytes; i++)`.
The first argument counts the iterations left, the second is `i`. -/
def bitpack_set_bytes_loop (h : Heap) (value : List Nat) (index : Nat) :
    Nat → Nat → bitpack_t → Res Unit
  | 0, _, bp => .success bp ()
  | n + 1, i, bp =>
    match value[i]? with
    | none => .undefined
    | some b =>
      match bitpack_set_bits h bp b 8 ((index + (i * 8) % ULONG_MOD) % ULONG_MOD) with
      | .error bp => .error bp
      | .undefined => .undefined
      | .success bp _ => bitpack_set_bytes_loop h value index n (i + 1) bp

/-- Pack the byte array `value` starting at `index` (`bitpack_set_bytes`). -/
def bitpack_set_bytes (h : Heap) (bp : bitpack_t) (value : List Nat) (index : Nat) : Res Unit :=
  let num_bytes := value.length
  let bp := _bitpack_err_clear bp
  let new_size := (index + (num_bytes * 8) % ULONG_MOD) % ULONG_MOD
  let grown : Res Unit :=
    if bitpack_size bp < new_size then _bitpack_resize h bp new_size else .success bp ()
  match grown with
  | .error bp => .error bp
  | .undefined => .undefined
  | .success bp _ =>
    if index % 8 = 0 then
      match memcpy bp.data (index / 8) value with
      | none => .undefined
      | some data => .success { bp with data := data } ()
    else
      bitpack_set_bytes_loop h value index num_bytes 0 bp

/-- The loop of `bitpack_get_bits`: `for (i = 0; i < num_bits; i++)`.  The first argument
counts the iterations left, the second is `i`; `bit` is the local variable, `none` while it
has not been written.  The return value of `bitpack_get` is ignored, a failed call leaves
`bit` as it was. -/
def bitpack_get_bits_loop (num_bits index : Nat) :
    Nat → Nat → bitpack_t → Nat → Option Nat → Res Nat
  | 0, _, bp, v, _ => .success bp v
  | n + 1, i, bp, v, bit =>
    match bitpack_get bp ((index + i) % ULONG_MOD) with
    | .undefined => .undefined
    | .error bp =>
      match bit with
      | none => .undefined
      | some b =>
        let v := if b = 1 then v ||| int_to_ulong (int_shl b (num_bits - i - 1)) else v
        bitpack_get_bits_loop num_bits index n (i + 1) bp v (some b)
    | .success bp b =>
      let v := if b = 1 then v ||| int_to_ulong (int_shl b (num_bits - i - 1)) else v
      bitpack_get_bits_loop num_bits index n (i + 1) bp v (some b)

/-- Unpack `num_bits` bits at `index` (`bitpack_get_bits`). -/
def bitpack_get_bits (bp : bitpack_t) (num_bits index : Nat) : Res Nat :=
  let bp := _bitpack_err_clear bp
  if index ≥ bitpack_size bp then
    .error { bp with error := BITPACK_ERR_INVALID_INDEX,
                     error_str := invalid_index_str index bp }
  else if (index + num_bits) % ULONG_MOD > bitpack_size bp then
    .error { bp with error := BITPACK_ERR_READ_PAST_END, error_str := read_past_end_str bp }
  else if num_bits > ULONG_BITS then
    .error { bp with error := BITPACK_ERR_RANGE_TOO_BIG,
                     error_str := range_too_big_str num_bits }
  else
    bitpack_get_bits_loop num_bits index num_bits 0 bp 0 none

/-- The loop of the unaligned path of `bitpack_get_bytes`:
`for (i = 0; i < num_bytes; i++)`.  The first argument counts the iterations left, the
second is `i`; `byte` is the local variable, `none` while it has not been written, and
`unpacked` the bytes stored so far.  The return value of `bitpack_get_bits` is ignored. -/
def bitpack_get_bytes_loop (index : Nat) :
    Nat → Nat → bitpack_t → Option Nat → List Nat → Res (List Nat)
  | 0, _, bp, _, unpacked => .success bp unpacked
  | n + 1, i, bp, byte, unpacked =>
    match bitpack_get_bits bp 8 ((index + (i * 8) % ULONG_MOD) % ULONG_MOD) with
    | .undefined => .undefined
    | .error bp =>
      match byte with
      | none => .undefined
      | some b => bitpack_get_bytes_loop index n (i + 1) bp (some b) (unpacked ++ [b % 256])
    | .success bp b =>
      bitpack_get_bytes_loop index n (i + 1) bp (some b) (unpacked ++ [b % 256])

/-- Unpack `num_bytes` bytes at `index` (`bitpack_get_bytes`). -/
def bitpack_get_bytes (h : Heap) (bp : bitpack_t) (num_bytes index : Nat) : Res (List Nat) :=
  let bp := _bitpack_err_clear bp
  if index ≥ bitpack_size bp then
    .error { bp with error := BITPACK_ERR_INVALID_INDEX,
                     error_str := invalid_index_str index bp }
  else if (index + (num_bytes * 8) % ULONG_MOD) % ULONG_MOD > bitpack_size bp then
    .error { bp with error := BITPACK_ERR_READ_PAST_END, error_str := read_past_end_str bp }
  else
    match malloc h num_bytes with
    | none =>
      .error { bp with error := BITPACK_ERR_MALLOC_FAILED,
                       error_str := "memory allocation failed" }
    | some _ =>
      if index % 8 = 0 then
        match memread bp.data (index / 8) num_bytes with
        | none => .undefined
        | some unpacked => .success bp unpacked
      else
        bitpack_get_bytes_loop index num_bytes 0 bp none []

/-- The call `bitpack_append_bits(bp, value, num_bits)`. -/
def bitpack_append_bits (h : Heap) (bp : bitpack_t) (value num_bits : Nat) : Res Unit :=
  bitpack_set_bits h bp value num_bits (bitpack_size bp)

/-- The call `bitpack_append_bytes(bp, value, num_bytes)`. -/
def bitpack_append_bytes (h : Heap) (bp : bitpack_t) (value : List Nat) : Res Unit :=
  bitpack_set_bytes h bp value (bitpack_size bp)

/-- Unpack `num_bits` bits at the read position and advance it (`bitpack_read_bits`). -/
def bitpack_read_bits (bp : bitpack_t) (num_bits : Nat) : Res Nat :=
  let bp := _bitpack_err_clear bp
  if (bp.read_pos + num_bits) % ULONG_MOD > bitpack_size bp then
    .error { bp with error := BITPACK_ERR_READ_PAST_END, error_str := read_past_end_str bp }
  else
    match bitpack_get_bits bp num_bits bp.read_pos with
    | .success bp v => .success { bp with read_pos := (bp.read_pos + num_bits) % ULONG_MOD } v
    | .error bp => .error bp
    | .undefined => .undefined

/-- Unpack `num_bytes` bytes at the read position and advance it (`bitpack_read_bytes`). -/
def bitpack_read_bytes (h : Heap) (bp : bitpack_t) (num_bytes : Nat) : Res (List Nat) :=
  let bp := _bitpack_err_clear bp
  if (bp.read_pos + (num_bytes * 8) % ULONG_MOD) % ULONG_MOD > bitpack_size bp then
    .error { bp with error := BITPACK_ERR_READ_PAST_END, error_str := read_past_end_str bp }
  else
    match bitpack_get_bytes h bp num_bytes bp.read_pos with
    | .success bp v =>
      .success { bp with read_pos := (bp.read_pos + (num_bytes * 8) % ULONG_MOD) % ULONG_MOD } v
    | .error bp => .error bp
    | .undefined => .undefined

/-- The loop of `bitpack_to_bin`: `for (i = 0; i < bitpack_size(bp); i++)`.  The first
argument counts the iterations left, the second is `i`; `bit` is the local variable, `none`
while it has not been written, and `string` the characters appended so far.  The character
appended is the first character of the decimal text of `bit`. -/
def bitpack_to_bin_loop : Nat → Nat → bitpack_t → Option Nat → String → Res String
  | 0, _, bp, _, string => .success bp string
  | n + 1, i, bp, bit, string =>
    match bitpack_get bp i with
    | .undefined => .undefined
    | .error bp =>
      match bit with
      | none => .undefined
      | some b => bitpack_to_bin_loop n (i + 1) bp (some b) (string ++ (toString b).take 1)
    | .success bp b => bitpack_to_bin_loop n (i + 1) bp (some b) (string ++ (toString b).take 1)

/-- Convert to a string of 1s and 0s (`bitpack_to_bin`).  The string buffer has
`bitpack_size(bp) + 1` bytes; storing its terminator needs at least one. -/
def bitpack_to_bin (h : Heap) (bp : bitpack_t) : Res String :=
  let bp := _bitpack_err_clear bp
  match malloc h ((bitpack_size bp + 1) % ULONG_MOD) with
  | none =>
    .error { bp with error := BITPACK_ERR_MALLOC_FAILED,
                     error_str := "memory allocation failed" }
  | some string =>
    if string.length = 0 then .undefined
    else bitpack_to_bin_loop (bitpack_size bp) 0 bp none ""

/-- Convert to a byte array (`bitpack_to_bytes`); the output is the array and the value
stored in `num_bytes`. -/
def bitpack_to_bytes (h : Heap) (bp : bitpack_t) : Res (List Nat × Nat) :=
  let bytes_size := round8 bp.size / 8
  let bp := _bitpack_err_clear bp
  match malloc h bytes_size with
  | none =>
    .error { bp with error := BITPACK_ERR_MALLOC_FAILED,
                     error_str := "memory allocation failed" }
  | some _ =>
    match memread bp.data 0 bytes_size with
    | none => .undefined
    | some bytes => .success bp (bytes, bytes_size)


/-! ## Notions used by the statements -/

/-- The bit at index `k` of a block of bytes, most significant bit of each byte first:
1 when `data[k / 8] & (0x80 >> (k % 8))` is non-zero, else 0; a byte outside the block
counts as 0. -/
def raw_bit (data : List Nat) (k : Nat) : Nat :=
  if data.getD (k / 8) 0 &&& (0x80 >>> (k % 8)) ≠ 0 then 1 else 0

/-- Well-formed object: the fields are `unsigned long` values, `data` is a block of
`data_size` bytes (each below 256), and the bits of the object fit in the block. -/
def WF (bp : bitpack_t) : Prop :=
  bp.size < ULONG_MOD ∧ bp.read_pos < ULONG_MOD ∧ bp.data_size < ULONG_MOD ∧
  bp.data.length = bp.data_size ∧ bp.size ≤ 8 * bp.data_size ∧ ∀ b ∈ bp.data, b < 256

instance (bp : bitpack_t) : Decidable (WF bp) := by
  unfold WF
  infer_instance

/-- Every request to the allocator succeeds. -/
def Heap.unlimited (h : Heap) : Prop := ∀ n, h.avail n = true

/-- A heap on which every request succeeds; new memory holds the byte 0xAA. -/
def plenty : Heap := ⟨fun _ => true, fun _ => 0xAA⟩

/-- The object `_bitpack_resize` produces when it succeeds. -/
def resized (bp : bitpack_t) (new_size : Nat) : bitpack_t :=
  { bp with size := new_size,
            data := bp.data ++ List.replicate (round8 new_size / 8 - bp.data_size) 0,
            data_size := max bp.data_size (round8 new_size / 8) }

/-- The object `_bitpack_resize` leaves when `realloc` fails. -/
def resize_failed (bp : bitpack_t) : bitpack_t :=
  { bp with data := [], error := BITPACK_ERR_MALLOC_FAILED,
            error_str := "memory allocation failed" }


/-- The common shape of `bitpack_on` and `bitpack_off`: grow for the bit, then replace the
byte `b` holding it by `f b (index % 8)`. -/
def poke (f : Nat → Nat → Nat) (h : Heap) (bp : bitpack_t) (index : Nat) : Res Unit :=
  match grow_for_bit h (_bitpack_err_clear bp) index with
  | .error bp => .error bp
  | .undefined => .undefined
  | .success bp _ =>
    match bp.data[index / 8]? with
    | none => .undefined
    | some b => .success { bp with data := bp.data.set (index / 8) (f b (index % 8)) } ()

/-- The byte update of `bitpack_on`. -/
def on_byte (b o : Nat) : Nat := (b ||| (0x80 >>> o)) % 256

/-- The byte update of `bitpack_off`. -/
def off_byte (b o : Nat) : Nat := (b &&& int_not (0x80 >>> o)) % 256

/-- A byte update that writes the bit `v` and keeps the other bits of the byte. -/
def writes_bit (f : Nat → Nat → Nat) (v : Nat) : Prop :=
  (∀ b o, f b o < 256) ∧
  ∀ (data : List Nat) (i b : Nat), data[i / 8]? = some b → b < 256 →
    ∀ k, raw_bit (data.set (i / 8) (f b (i % 8))) k = if k = i then v else raw_bit data k

/-- An object of 10 bits `1010101010`, as built by the test `test_bitpack_get_on_off`. -/
def bp_1010101010 : bitpack_t :=
  { size := 10, read_pos := 0, data_size := 32,
    data := [0xAA, 0x80] ++ List.replicate 30 0,
    error := BITPACK_ERR_CLEAR, error_str := "" }

/-- An empty object with 32 bytes of storage, as `bitpack_init_default` builds it. -/
def bp_empty32 : bitpack_t :=
  { size := 0, read_pos := 0, data_size := 32, data := List.replicate 32 0,
    error := BITPACK_ERR_CLEAR, error_str := "" }

/-- The bit the loop of `bitpack_set_bits` writes at offset `j` of a field of `n` bits: the
loop variable is then `n - j` and the mask `1 << (n - j - 1)`. -/
def field_bit (value n j : Nat) : Nat :=
  if value &&& int_to_ulong (int_shl 1 (n - 1 - j)) ≠ 0 then 1 else 0

/-- Sequencing of calls: continue with `f` after a success, pass on a failure or an
undefined outcome. -/
def Res.andThen {α β : Type} (r : Res α) (f : bitpack_t → α → Res β) : Res β :=
  match r with
  | .success bp v => f bp v
  | .error bp => .error bp
  | .undefined => .undefined

/-- The 10-bit object `1010101010` after `bitpack_set_bits(bp, 6, 3, 4)`: `1010101010`
with the bits 4, 5, 6 replaced by `110`. -/
def bp_1010101010_set : bitpack_t :=
  { size := 10, read_pos := 0, data_size := 32,
    data := [0xAC, 0x80] ++ List.replicate 30 0,
    error := BITPACK_ERR_CLEAR, error_str := "" }

/-- The value the loop of `bitpack_get_bits` accumulates from the bits of a block: the
first argument counts the iterations left, the second is `i`, the third is `v`. -/
def gather (data : List Nat) (num_bits index : Nat) : Nat → Nat → Nat → Nat
  | 0, _, v => v
  | n + 1, i, v =>
    gather data num_bits index n (i + 1)
      (if raw_bit data (index + i) = 1 then v ||| int_to_ulong (int_shl 1 (num_bits - i - 1))
       else v)

/-- The part of `bitpack_set_bytes` after the growth: the bulk copy for an index at the
start of a byte, the loop over the bytes otherwise. -/
def set_bytes_body (h : Heap) (value : List Nat) (index : Nat) (bp : bitpack_t) : Res Unit :=
  if index % 8 = 0 then
    match memcpy bp.data (index / 8) value with
    | none => .undefined
    | some data => .success { bp with data := data } ()
  else
    bitpack_set_bytes_loop h value index value.length 0 bp

/-- The bytes a successful `bitpack_get_bytes` returns, in terms of the 8-bit fields of the
block: byte `i` is the value accumulated from the bits `index + 8 * i` to
`index + 8 * i + 7`. -/
def unpacked_bytes (data : List Nat) (num_bytes index : Nat) : List Nat :=
  (List.range num_bytes).map fun i => gather data 8 (index + 8 * i) 8 0 0

/-- The 10-bit object `1010101010` after `bitpack_set_bytes(bp, {0xAA, 0xBB}, 2, 3)`: the
19 bits `101 10101010 10111011`. -/
def bp_after_set_bytes : bitpack_t :=
  { size := 19, read_pos := 0, data_size := 32,
    data := [0xB5, 0x57, 0x60] ++ List.replicate 29 0,
    error := BITPACK_ERR_CLEAR, error_str := "" }

/-- The object the test `test_bitpack_get_set_bytes` has built before it reads six bytes at
bit 50. -/
def bp_test_bytes : bitpack_t :=
  { size := 98, read_pos := 0, data_size := 13,
    data := [1, 2, 3, 255, 254, 253, 42, 174, 243, 55, 123, 191, 192],
    error := BITPACK_ERR_CLEAR, error_str := "" }

/-- The sum the specification gives for the value of a field: the bit at `index + j`, as
`bitpack_get` returns it, times `2 ^ (num_bits - 1 - j)`, summed over `j < num_bits`. -/
def msb_first_sum (bp : bitpack_t) (num_bits index : Nat) : Nat :=
  ((List.range num_bits).map fun j =>
    (bitpack_get bp (index + j)).value.getD 0 * 2 ^ (num_bits - 1 - j)).sum

/-- A new object with 4 bytes of storage, as `bitpack_init(4)` builds it. -/
def bp_new4 : bitpack_t :=
  { size := 0, read_pos := 0, data_size := 4, data := [0, 0, 0, 0],
    error := BITPACK_ERR_CLEAR, error_str := "" }

/-- An object of 4 bytes holding the given bytes as its 32 bits. -/
def bp_of_4_bytes (b0 b1 b2 b3 : Nat) : bitpack_t :=
  { size := 32, read_pos := 0, data_size := 4, data := [b0, b1, b2, b3],
    error := BITPACK_ERR_CLEAR, error_str := "" }

/-- The object `bitpack_set_bits(0x100000000, 33, 0)` builds from a new object of 4 bytes:
33 bits of which only the bit at index 1 is set. -/
def bp_33_bits : bitpack_t :=
  { size := 33, read_pos := 0, data_size := 5, data := [0x40, 0, 0, 0, 0],
    error := BITPACK_ERR_CLEAR, error_str := "" }


/-- The 10-bit object `1010101010` after the failing call `bitpack_set_bits(bp, 8, 3, 0)`:
only the error is recorded. -/
def bp_1010101010_value_too_big : bitpack_t :=
  { bp_1010101010 with error := BITPACK_ERR_VALUE_TOO_BIG,
                       error_str := "value 8 does not fit in 3 bits" }

/-- The 144-bit object on which the test `test_bitpack_get_set_bits` reads 65 bits. -/
def bp_144_bits : bitpack_t :=
  { size := 144, read_pos := 0, data_size := 18,
    data := [0x00, 0xB5] ++ List.replicate 16 0xFF,
    error := BITPACK_ERR_CLEAR, error_str := "" }

/-- The size and the allocated size after a successful write of extent `e`. -/
def grown_to (bp bp' : bitpack_t) (e : Nat) : Prop :=
  (bp.size < e → bp'.size = e ∧ bp'.data_size = max bp.data_size ((e + 7) / 8)) ∧
  (e ≤ bp.size → bp'.size = bp.size ∧ bp'.data_size = bp.data_size)

/-- The 16-bit object of the test `test_bitpack_get_set_bits`, in 4 bytes of storage. -/
def bp_16_bits : bitpack_t :=
  { size := 16, read_pos := 0, data_size := 4, data := [0xFF, 0xB5, 0, 0],
    error := BITPACK_ERR_CLEAR, error_str := "" }

/-- The 16-bit object after `bitpack_set_bits(bp, 0xffffffff, 32, 16)`: 48 bits in 6 bytes
of storage. -/
def bp_48_bits : bitpack_t :=
  { size := 48, read_pos := 0, data_size := 6, data := [0xFF, 0xB5, 0xFF, 0xFF, 0xFF, 0xFF],
    error := BITPACK_ERR_CLEAR, error_str := "" }

/-- The 10-bit object `1010101010` after `bitpack_off(bp, 2)`. -/
def bp_1000101010 : bitpack_t :=
  { size := 10, read_pos := 0, data_size := 32,
    data := [0x8A, 0x80] ++ List.replicate 30 0,
    error := BITPACK_ERR_CLEAR, error_str := "" }

/-- A new object of 4 bytes after `bitpack_set_bits(bp, 0xff, 8, 0)`, as in the test
`test_bitpack_get_set_bits`: 8 bits in 4 bytes of storage. -/
def bp_8_bits : bitpack_t :=
  { size := 8, read_pos := 0, data_size := 4, data := [0xFF, 0, 0, 0],
    error := BITPACK_ERR_CLEAR, error_str := "" }

/-- A call of a public function of `bitpack.h` on an object, with its arguments.  The
macros `bitpack_append_bits` and `bitpack_append_bytes` are the calls `set_bits` and
`set_bytes` at the index `bitpack_size(bp)`. -/
inductive Op where
  | on (index : Nat)
  | off (index : Nat)
  | get (index : Nat)
  | set_bits (value num_bits index : Nat)
  | set_bytes (value : List Nat) (index : Nat)
  | get_bits (num_bits index : Nat)
  | get_bytes (num_bytes index : Nat)
  | read_bits (num_bits : Nat)
  | read_bytes (num_bytes : Nat)
  | reset_read_pos
  | to_bin
  | to_bytes
  deriving DecidableEq, Repr

/-- The outcome of a call without the value it wrote through its output parameter. -/
def Res.forget {α : Type} : Res α → Res Unit
  | .success bp _ => .success bp ()
  | .error bp => .error bp
  | .undefined => .undefined

/-- The outcome of a call of a public function. -/
def Op.call (h : Heap) (bp : bitpack_t) : Op → Res Unit
  | .on index => bitpack_on h bp index
  | .off index => bitpack_off h bp index
  | .get index => (bitpack_get bp index).forget
  | .set_bits value num_bits index => bitpack_set_bits h bp value num_bits index
  | .set_bytes value index => bitpack_set_bytes h bp value index
  | .get_bits num_bits index => (bitpack_get_bits bp num_bits index).forget
  | .get_bytes num_bytes index => (bitpack_get_bytes h bp num_bytes index).forget
  | .read_bits num_bits => (bitpack_read_bits bp num_bits).forget
  | .read_bytes num_bytes => (bitpack_read_bytes h bp num_bytes).forget
  | .reset_read_pos => .success (bitpack_reset_read_pos bp) ()
  | .to_bin => (bitpack_to_bin h bp).forget
  | .to_bytes => (bitpack_to_bytes h bp).forget

/-- The writes among the calls. -/
def Op.is_write : Op → Bool
  | .on _ => true
  | .off _ => true
  | .set_bits _ _ _ => true
  | .set_bytes _ _ => true
  | _ => false

/-- The extent of a write: one past the highest bit it covers, `index + width`; 0 for the
other calls. -/
def Op.extent : Op → Nat
  | .on index => index + 1
  | .off index => index + 1
  | .set_bits _ num_bits index => index + num_bits
  | .set_bytes value index => index + 8 * value.length
  | _ => 0

/-- The arguments of a call are in range: the bytes of a byte array are below 256, and the
extent of a write, rounded up to a multiple of 8, is an `unsigned long`. -/
def Op.in_range : Op → Prop
  | .on index => index + 1 + 7 < ULONG_MOD
  | .off index => index + 1 + 7 < ULONG_MOD
  | .set_bits _ num_bits index => index + num_bits + 7 < ULONG_MOD
  | .set_bytes value index =>
    index + 8 * value.length + 7 < ULONG_MOD ∧ ∀ b ∈ value, b < 256
  | _ => True

instance (op : Op) : Decidable op.in_range := by
  cases op <;> unfold Op.in_range <;> infer_instance

/-- The object after a sequence of calls, successful or failing; `none` when a call has no
defined outcome. -/
def run_ops (h : Heap) : bitpack_t → List Op → Option bitpack_t
  | bp, [] => some bp
  | bp, op :: ops =>
    match (op.call h bp).state with
    | none => none
    | some bp' => run_ops h bp' ops

/-- The object after a sequence of successful calls; `none` when a call does not return
success. -/
def run_successful (h : Heap) : bitpack_t → List Op → Option bitpack_t
  | bp, [] => some bp
  | bp, op :: ops =>
    match op.call h bp with
    | .success bp' _ => run_successful h bp' ops
    | _ => none

/-- The largest extent among the calls of a sequence. -/
def max_extent : List Op → Nat
  | [] => 0
  | op :: ops => max op.extent (max_extent ops)

/-- The objects the constructors return: `bitpack_init(n)` for an `unsigned long` `n`, and
`bitpack_init_from_bytes` for an array of bytes whose number of bits is an
`unsigned long`. -/
def Created (h : Heap) (bp : bitpack_t) : Prop :=
  (∃ n, n < ULONG_MOD ∧ bitpack_init h n = some bp) ∨
  (∃ bytes : List Nat, (∀ b ∈ bytes, b < 256) ∧ 8 * bytes.length < ULONG_MOD ∧
    bitpack_init_from_bytes h bytes = some bp)

/-- The storage and cursor invariant: the object is well-formed, every bit of the storage
at or past the size is zero, and the read position is not past the size. -/
def Inv (bp : bitpack_t) : Prop :=
  WF bp ∧ (∀ k, bp.size ≤ k → raw_bit bp.data k = 0) ∧ bp.read_pos ≤ bp.size

/-- Two objects with the same size, read position, allocated size and stored bytes. -/
def same_core (a b : bitpack_t) : Prop :=
  a.size = b.size ∧ a.read_pos = b.read_pos ∧ a.data_size = b.data_size ∧ a.data = b.data

/-- From `bp` to `bp'` the size and the allocated size have not decreased and the read
position has not changed. -/
def grows (bp bp' : bitpack_t) : Prop :=
  bp.size ≤ bp'.size ∧ bp.data_size ≤ bp'.data_size ∧ bp'.read_pos = bp.read_pos

/-- The object a new object of 4 bytes becomes by the calls `bitpack_on(0)`,
`bitpack_off(1)`, `bitpack_set_bits(8, 3, 0)` (which fails), `bitpack_set_bytes({0xAA}, 3)`,
`bitpack_get(100)` (which fails) and `bitpack_read_bits(2)`. -/
def bp_after_calls : bitpack_t :=
  { size := 11, read_pos := 2, data_size := 4, data := [0x95, 0x40, 0, 0],
    error := BITPACK_ERR_CLEAR, error_str := "" }

/-- The calls that lead from a new object of 4 bytes to `bp_after_calls`. -/
def some_calls : List Op :=
  [.on 0, .off 1, .set_bits 8 3 0, .set_bytes [0xAA] 3, .get 100, .read_bits 2]

/-- The four writes of the test `test_bitpack_get_set_bits` that lead from a new object of
4 bytes to the 48-bit object. -/
def test_writes : List Op :=
  [.set_bits 0xff 8 0, .set_bits 5 3 8, .set_bits 21 5 11, .set_bits 0xffffffff 32 16]

/-- The size, the allocated size, the read position and the length of the block are the
same in both objects, and the bytes of the second block are below 256 if those of the first
are. -/
def same_block (a b : bitpack_t) : Prop :=
  b.size = a.size ∧ b.data_size = a.data_size ∧ b.read_pos = a.read_pos ∧
  b.data.length = a.data.length ∧ ((∀ x ∈ a.data, x < 256) → ∀ x ∈ b.data, x < 256)

/-- Number of bits a write covers. -/
def Op.width : Op → Nat
  | .on _ => 1
  | .off _ => 1
  | .set_bits _ num_bits _ => num_bits
  | .set_bytes value _ => 8 * value.length
  | _ => 0

/-- The arguments of a write are in range: its bytes are below 256, its extent is an
`unsigned long`, and so is its extent rounded up to a multiple of 8 when the write covers
no bit. -/
def Op.fits : Op → Prop
  | .set_bytes value index =>
    (∀ b ∈ value, b < 256) ∧ index + 8 * value.length < ULONG_MOD ∧
      (value.length = 0 → index + 7 < ULONG_MOD)
  | .set_bits _ num_bits index =>
    index + num_bits < ULONG_MOD ∧ (num_bits = 0 → index + 7 < ULONG_MOD)
  | .on index => index + 1 < ULONG_MOD
  | .off index => index + 1 < ULONG_MOD
  | _ => True

instance (op : Op) : Decidable op.fits := by
  cases op <;> unfold Op.fits <;> infer_instance

/-- No block of the heap has 2^61 bytes or more: every bit of a block has an index that is
an `unsigned long`. -/
def Heap.bounded (h : Heap) : Prop := ∀ n, h.avail n = true → 8 * n < ULONG_MOD

/-- A heap on which every request for less than 2^61 bytes succeeds; new memory holds the
byte 0xAA. -/
def roomy : Heap := ⟨fun n => decide (8 * n < ULONG_MOD), fun _ => 0xAA⟩

/-- The object a new object of 4 bytes becomes by `bitpack_set_bits(bp, 0, 0, ULONG_MAX)`. -/
def bp_oversized : bitpack_t :=
  { size := 2 ^ 64 - 1, read_pos := 0, data_size := 4, data := [0, 0, 0, 0],
    error := BITPACK_ERR_CLEAR, error_str := "" }

/-! ## Notions used by the claims on reading and converting -/

/-- What a call gives its caller: the value of a successful call, or the kind of error
of a failed one; `none` when the call reads or writes outside a block. -/
def Res.outcome {α : Type} : Res α → Option (bitpack_err_t ⊕ α)
  | .success _ v => some (.inr v)
  | .error bp => some (.inl bp.error)
  | .undefined => none

/-- The result of a call with its value transformed. -/
def Res.map {α β : Type} (f : α → β) : Res α → Res β
  | .success bp v => .success bp (f v)
  | .error bp => .error bp
  | .undefined => .undefined

/-- A call at the read position: `bitpack_read_bits` or `bitpack_read_bytes`. -/
inductive Read where
  | bits (num_bits : Nat)
  | bytes (num_bytes : Nat)
  deriving DecidableEq, Repr

/-- The value a call at the read position returns. -/
inductive ReadValue where
  | bits (value : Nat)
  | bytes (value : List Nat)
  deriving DecidableEq, Repr

/-- The call a `Read` stands for. -/
def Read.call (h : Heap) (bp : bitpack_t) : Read → Res ReadValue
  | .bits num_bits => (bitpack_read_bits bp num_bits).map .bits
  | .bytes num_bytes => (bitpack_read_bytes h bp num_bytes).map .bytes

/-- Run a sequence of calls at the read position, each on the object the one before left,
whether it succeeded or failed; the result is the last object and the outcomes of the
calls in order, `none` when a call reads outside a block. -/
def run_reads (h : Heap) :
    bitpack_t → List Read → Option (bitpack_t × List (bitpack_err_t ⊕ ReadValue))
  | bp, [] => some (bp, [])
  | bp, r :: rs =>
    match (r.call h bp).state, (r.call h bp).outcome with
    | some bp', some o =>
      match run_reads h bp' rs with
      | some (bp'', os) => some (bp'', o :: os)
      | none => none
    | _, _ => none

/-- The character `bitpack_to_bin` appends for a bit. -/
def bit_char (b : Nat) : Char := if b = 1 then '1' else '0'

/-- The text of the bits `i`, ..., `i + n - 1` of a block. -/
def bin_text (data : List Nat) (i n : Nat) : String :=
  String.mk ((List.range' i n).map fun k => bit_char (raw_bit data k))

/-- The 8-character binary form of a byte, most significant bit first. -/
def byte_text (b : Nat) : List Char :=
  (List.range 8).map fun j => bit_char (b / 2 ^ (7 - j) % 2)

/-- The 8-character binary form of each byte in order, most significant bit first. -/
def bytes_text (bytes : List Nat) : String :=
  String.mk (bytes.flatMap byte_text)

/-- The number of bits a successful call at the read position advances it by, in
`unsigned long`. -/
def Read.width : Read → Nat
  | .bits num_bits => num_bits
  | .bytes num_bytes => (num_bytes * 8) % ULONG_MOD

/-- The 48-bit object of the test `test_bitpack_read_bits` with its read position at `r`. -/
def bp_48_bits_at (r : Nat) : bitpack_t := { bp_48_bits with read_pos := r }

/-- The 10-bit object `1010101010` after a failed `bitpack_get(bp, 10)`. -/
def bp_1010101010_invalid_index : bitpack_t :=
  { bp_1010101010 with error := BITPACK_ERR_INVALID_INDEX,
                       error_str := invalid_index_str 10 bp_1010101010 }

/-- The reads of the test `test_bitpack_read_bits`, with its failing read of one bit at the
end. -/
def test_reads : List Read := [.bits 8, .bits 3, .bits 5, .bits 32, .bits 1]

/-- The outcomes of the reads of the test `test_bitpack_read_bits` as the code gives them:
the 32-bit field comes back sign-extended. -/
def test_outcomes : List (bitpack_err_t ⊕ ReadValue) :=
  [.inr (.bits 0xff), .inr (.bits 5), .inr (.bits 21), .inr (.bits 0xffffffffffffffff),
   .inl BITPACK_ERR_READ_PAST_END]

/-- The 48-bit object after the reads of the test `test_bitpack_read_bits`. -/
def bp_48_bits_read_out : bitpack_t :=
  { bp_48_bits with read_pos := 48, error := BITPACK_ERR_READ_PAST_END,
                    error_str := read_past_end_str bp_48_bits }

/-- The object of the test `test_bitpack_append_bytes` after its first three bytes. -/
def bp_24_bits : bitpack_t :=
  { size := 24, read_pos := 0, data_size := 4, data := [1, 2, 3, 0],
    error := BITPACK_ERR_CLEAR, error_str := "" }

/-- The object of the test `test_bitpack_append_bytes` after its next three bytes. -/
def bp_24_plus_24_bits : bitpack_t :=
  { size := 48, read_pos := 0, data_size := 6, data := [1, 2, 3, 0xff, 0xfe, 0xfd],
    error := BITPACK_ERR_CLEAR, error_str := "" }

/-- The object `bitpack_init_from_bytes` builds from the bytes of the test
`test_bitpack_constructor`. -/
def bp_abcdef12 : bitpack_t :=
  { size := 32, read_pos := 0, data_size := 4, data := [0xab, 0xcd, 0xef, 0x12],
    error := BITPACK_ERR_CLEAR, error_str := "" }

/-- The object of the second half of the test `test_bitpack_to_bytes`: eight bytes and one
bit in 100 bytes of storage. -/
def bp_65_bits : bitpack_t :=
  { size := 65, read_pos := 0, data_size := 100,
    data := [0xde, 0xad, 0xbe, 0xef, 0xfe, 0xed, 0xfa, 0xce, 0x80] ++ List.replicate 91 0,
    error := BITPACK_ERR_CLEAR, error_str := "" }

/-- The 10-bit object `1010101010` after `bitpack_append_bytes` of the bytes 0xC3, 0x01. -/
def bp_10_plus_16_bits : bitpack_t :=
  { size := 26, read_pos := 0, data_size := 32,
    data := [0xAA, 0xB0, 0xC0, 0x40] ++ List.replicate 28 0,
    error := BITPACK_ERR_CLEAR, error_str := "" }


/-! ## The error state, the binding's exception table and further sample objects -/

/-- The error state of an object says "no error": the kind is `BITPACK_ERR_CLEAR` and the
message is empty. -/
def clean (bp : bitpack_t) : Prop :=
  bitpack_get_error bp = BITPACK_ERR_CLEAR ∧ bitpack_get_error_str bp = ""

/-- The message is empty whenever the kind is `BITPACK_ERR_CLEAR`.  `bitpack_init` establishes
this (it zeroes the message), and `_bitpack_err_clear` relies on it: it leaves the message
alone when the kind is already clear. -/
def err_consistent (bp : bitpack_t) : Prop :=
  bp.error = BITPACK_ERR_CLEAR → bp.error_str = ""

/-- The return value agrees with the error state: a success leaves a clean error state, a
failure leaves a kind other than `BITPACK_ERR_CLEAR`. -/
def Res.flagged {α : Type} : Res α → Prop
  | .success bp _ => clean bp
  | .error bp => bitpack_get_error bp ≠ BITPACK_ERR_CLEAR
  | .undefined => True

/-- The calls that return `BITPACK_RV_SUCCESS` or `BITPACK_RV_ERROR`: all but
`bitpack_reset_read_pos`, which returns nothing. -/
def Op.fallible : Op → Bool
  | .reset_read_pos => false
  | _ => true

/-- The end of the range a read checks against the size, `index + num_bits` or
`index + num_bytes * 8` computed without wrapping; 0 for the other calls. -/
def Op.reach (bp : bitpack_t) : Op → Nat
  | .get_bits num_bits index => index + num_bits
  | .get_bytes num_bytes index => index + 8 * num_bytes
  | .read_bits num_bits => bp.read_pos + num_bits
  | .read_bytes num_bytes => bp.read_pos + 8 * num_bytes
  | _ => 0

/-- The decimal text of a number, as `%lu` prints it. -/
def decimal (n : Nat) : String := String.mk (Nat.toDigits 10 n)

/-- A heap with no memory left: every request fails. -/
def exhausted : Heap := ⟨fun _ => false, fun _ => 0⟩

/-- The 10-bit object `1010101010` after a `bitpack_on(bp, 300)` for which `realloc` failed:
the data pointer is `NULL`, the size and the allocated size are as before. -/
def bp_1010101010_lost : bitpack_t :=
  { size := 10, read_pos := 0, data_size := 32, data := [],
    error := BITPACK_ERR_MALLOC_FAILED, error_str := "memory allocation failed" }

/-- The 10-bit object `1010101010` after `bitpack_set_bits(bp, 5, 3, 20)`: the bits 10 to 19
are 0, the bits 20 to 22 are `101`. -/
def bp_1010101010_gap : bitpack_t :=
  { size := 23, read_pos := 0, data_size := 32,
    data := [0xAA, 0x80, 0x0A] ++ List.replicate 29 0,
    error := BITPACK_ERR_CLEAR, error_str := "" }

/-- The empty object after a failed zero-width `bitpack_read_bits(bp, 0)`. -/
def bp_empty32_invalid_index : bitpack_t :=
  { bp_empty32 with error := BITPACK_ERR_INVALID_INDEX,
                    error_str := invalid_index_str 0 bp_empty32 }

/-- The empty object after a failed `bitpack_get(bp, 0)`. -/
def bp_empty32_empty : bitpack_t :=
  { bp_empty32 with error := BITPACK_ERR_EMPTY, error_str := "bitpack is empty" }

/-- The Ruby exception classes the binding `bitpack_ext.c` registers. -/
inductive rb_exception where
  | rb_eNoMemError
  | rb_eRangeError
  | rb_eArgError
  deriving DecidableEq, Repr

open rb_exception

/-- The array `static VALUE bp_exceptions[6]` of `bitpack_ext.c` before `Init_bitpack` has
run: six entries, none of them assigned. -/
def bp_exceptions : List (Option rb_exception) := List.replicate 6 none

/-- The assignment `table[kind] = exc`; `none` when the index is outside the array. -/
def table_store (table : List (Option rb_exception)) (kind : bitpack_err_t)
    (exc : rb_exception) : Option (List (Option rb_exception)) :=
  if kind.toNat < table.length then some (table.set kind.toNat (some exc)) else none

/-- The expression `table[bitpack_get_error(bp)]` the binding methods pass to `rb_raise`;
`none` when the index is outside the array. -/
def table_lookup (table : List (Option rb_exception)) (bp : bitpack_t) :
    Option (Option rb_exception) :=
  table[(bitpack_get_error bp).toNat]?

/-- The first five assignments to `bp_exceptions` in `Init_bitpack`, for the kinds
`BITPACK_ERR_MALLOC_FAILED` to `BITPACK_ERR_READ_PAST_END`. -/
def Init_bitpack_first_five : Option (List (Option rb_exception)) :=
  (((table_store bp_exceptions BITPACK_ERR_MALLOC_FAILED rb_eNoMemError).bind
    fun t => table_store t BITPACK_ERR_INVALID_INDEX rb_eRangeError).bind
    fun t => table_store t BITPACK_ERR_VALUE_TOO_BIG rb_eArgError).bind
    (fun t => (table_store t BITPACK_ERR_RANGE_TOO_BIG rb_eRangeError).bind
    fun t => table_store t BITPACK_ERR_READ_PAST_END rb_eRangeError)

/-- The six assignments to `bp_exceptions` in `Init_bitpack`; `none` when one of them is
outside the array. -/
def Init_bitpack : Option (List (Option rb_exception)) :=
  Init_bitpack_first_five.bind fun t => table_store t BITPACK_ERR_EMPTY rb_eRangeError

/-- The array after the five assignments of `Init_bitpack` that are inside it. -/
def bp_exceptions_filled : List (Option rb_exception) :=
  [none, some rb_eNoMemError, some rb_eRangeError, some rb_eArgError, some rb_eRangeError,
   some rb_eRangeError]

/-- The 10-bit object `1010101010` after a successful `bitpack_read_bits(bp, 8)`, a
`bitpack_read_bits(bp, 8)` that fails with `BITPACK_ERR_READ_PAST_END` and
`bitpack_reset_read_pos(bp)`. -/
def bp_1010101010_past_end : bitpack_t :=
  { bp_1010101010 with error := BITPACK_ERR_READ_PAST_END,
                       error_str := read_past_end_str bp_1010101010 }

/-- The index at which a write starts; 0 for the other calls. -/
def Op.start : Op → Nat
  | .on index => index
  | .off index => index
  | .set_bits _ _ index => index
  | .set_bytes _ index => index
  | _ => 0

/-- The 48-bit object of the test `test_bitpack_get_set_bits` after the failing
`bitpack_set_bits(bp, 0, 65, 0)`. -/
def bp_48_bits_range_too_big : bitpack_t :=
  { bp_48_bits with error := BITPACK_ERR_RANGE_TOO_BIG, error_str := range_too_big_str 65 }

/-- A new object of 4 bytes after `bitpack_on(bp, 0)` and `bitpack_off(bp, 1)`: the two bits
`10`. -/
def bp_2_bits : bitpack_t :=
  { size := 2, read_pos := 0, data_size := 4, data := [0x80, 0, 0, 0],
    error := BITPACK_ERR_CLEAR, error_str := "" }

/-- No block of the heap has more than 2^60 bytes: the bits of two blocks together have
indices that are `unsigned long` values. -/
def Heap.modest (h : Heap) : Prop := ∀ n, h.avail n = true → 16 * n ≤ ULONG_MOD

/-- A heap on which every request for at most 2^60 bytes succeeds; new memory holds the byte
0xAA. -/
def ample : Heap := ⟨fun n => decide (16 * n ≤ ULONG_MOD), fun _ => 0xAA⟩

/-- The method `bp_get` of the binding, with the array `bp_exceptions` as a parameter: the
bit, or the exception class passed to `rb_raise` with the message; `none` when the lookup
is outside the array or `bitpack_get` has no defined outcome. -/
def bp_get (table : List (Option rb_exception)) (bp : bitpack_t) (index : Nat) :
    Option (Nat ⊕ (Option rb_exception × String)) :=
  match bitpack_get bp index with
  | .success _ bit => some (.inl bit)
  | .error bp =>
    match table_lookup table bp with
    | none => none
    | some exc => some (.inr (exc, bitpack_get_error_str bp))
  | .undefined => none


/-! ## Basic facts -/

@[simp] theorem err_clear_size (bp : bitpack_t) : (_bitpack_err_clear bp).size = bp.size := by
  unfold _bitpack_err_clear; split <;> rfl

@[simp] theorem err_clear_data (bp : bitpack_t) : (_bitpack_err_clear bp).data = bp.data := by
  unfold _bitpack_err_clear; split <;> rfl

@[simp] theorem err_clear_data_size (bp : bitpack_t) :
    (_bitpack_err_clear bp).data_size = bp.data_size := by
  unfold _bitpack_err_clear; split <;> rfl

@[simp] theorem err_clear_read_pos (bp : bitpack_t) :
    (_bitpack_err_clear bp).read_pos = bp.read_pos := by
  unfold _bitpack_err_clear; split <;> rfl

@[simp] theorem err_clear_error (bp : bitpack_t) :
    (_bitpack_err_clear bp).error = BITPACK_ERR_CLEAR := by
  unfold _bitpack_err_clear; split
  · rfl
  · rename_i hc; simpa using hc

@[simp] theorem err_clear_idem (bp : bitpack_t) :
    _bitpack_err_clear (_bitpack_err_clear bp) = _bitpack_err_clear bp := by
  by_cases hc : bp.error = BITPACK_ERR_CLEAR <;> simp [_bitpack_err_clear, hc]

theorem WF_err_clear {bp : bitpack_t} (hw : WF bp) : WF (_bitpack_err_clear bp) := by
  simpa [WF] using hw

theorem plenty_unlimited : plenty.unlimited := fun _ => rfl

/-- A successful `bitpack_get` reads the raw bit and only clears the error. -/
theorem bitpack_get_eq (bp : bitpack_t) (k : Nat) (hk : k < bp.size)
    (hd : k / 8 < bp.data.length) :
    bitpack_get bp k = .success (_bitpack_err_clear bp) (raw_bit bp.data k) := by
  have h0 : bp.size ≠ 0 := by omega
  have h1 : ¬ k > bp.size - 1 := by omega
  obtain ⟨b, hb⟩ : ∃ b, bp.data[k / 8]? = some b :=
    ⟨bp.data[k / 8], List.getElem?_eq_getElem hd⟩
  simp only [bitpack_get, bitpack_size, err_clear_size, err_clear_data, h0, h1, if_false, hb,
    raw_bit, List.getD_eq_getElem?_getD, Option.getD_some]
  split <;> rfl

theorem WF_index {bp : bitpack_t} (hw : WF bp) {k : Nat} (hk : k < bp.size) :
    k / 8 < bp.data.length := by
  obtain ⟨_, _, _, h4, h5, _⟩ := hw
  omega

theorem bitpack_get_WF {bp : bitpack_t} (hw : WF bp) {k : Nat} (hk : k < bp.size) :
    bitpack_get bp k = .success (_bitpack_err_clear bp) (raw_bit bp.data k) :=
  bitpack_get_eq bp k hk (WF_index hw hk)


/-! ## Bits of a block -/

set_option maxRecDepth 1000000 in
theorem byte_on : ∀ b < 256, ∀ o < 8, ∀ o' < 8,
    (if ((b ||| (0x80 >>> o)) % 256) &&& (0x80 >>> o') ≠ 0 then 1 else 0)
      = if o' = o then 1 else (if b &&& (0x80 >>> o') ≠ 0 then 1 else 0) := by decide

set_option maxRecDepth 1000000 in
theorem byte_off : ∀ b < 256, ∀ o < 8, ∀ o' < 8,
    (if ((b &&& int_not (0x80 >>> o)) % 256) &&& (0x80 >>> o') ≠ 0 then 1 else 0)
      = if o' = o then 0 else (if b &&& (0x80 >>> o') ≠ 0 then 1 else 0) := by decide

set_option maxRecDepth 1000000 in
theorem byte_bit : ∀ b < 256, ∀ o < 8,
    (if b &&& (0x80 >>> o) ≠ 0 then 1 else 0) = b / 2 ^ (7 - o) % 2 := by decide

theorem mem_of_getElem?_some {data : List Nat} {i b : Nat} (hb : data[i]? = some b) :
    b ∈ data := by
  obtain ⟨hlt, heq⟩ := List.getElem?_eq_some.mp hb
  rw [← heq]
  exact List.getElem_mem hlt

theorem raw_bit_le_one (data : List Nat) (k : Nat) : raw_bit data k ≤ 1 := by
  unfold raw_bit; split <;> omega

theorem raw_bit_of_getElem? {data : List Nat} {k b : Nat} (hb : data[k / 8]? = some b) :
    raw_bit data k = if b &&& (0x80 >>> (k % 8)) ≠ 0 then 1 else 0 := by
  simp [raw_bit, List.getD_eq_getElem?_getD, hb]

theorem raw_bit_out {data : List Nat} {k : Nat} (hk : data.length ≤ k / 8) :
    raw_bit data k = 0 := by
  have : data[k / 8]? = none := List.getElem?_eq_none hk
  simp [raw_bit, List.getD_eq_getElem?_getD, this]

theorem raw_bit_eq_div {data : List Nat} (hd : ∀ b ∈ data, b < 256) {k b : Nat}
    (hb : data[k / 8]? = some b) : raw_bit data k = b / 2 ^ (7 - k % 8) % 2 := by
  rw [raw_bit_of_getElem? hb]
  have hlt : b < 256 := hd b (mem_of_getElem?_some hb)
  exact byte_bit b hlt (k % 8) (Nat.mod_lt _ (by norm_num))

/-- Appending zero bytes changes no bit. -/
theorem raw_bit_append_zeros (data : List Nat) (n k : Nat) :
    raw_bit (data ++ List.replicate n 0) k = raw_bit data k := by
  unfold raw_bit
  have : (data ++ List.replicate n 0).getD (k / 8) 0 = data.getD (k / 8) 0 := by
    simp only [List.getD_eq_getElem?_getD, List.getElem?_append, List.getElem?_replicate]
    by_cases h1 : k / 8 < data.length
    · simp [h1]
    · have : data[k / 8]? = none := List.getElem?_eq_none (by omega)
      simp only [h1, if_false, this]
      split <;> rfl
  rw [this]

theorem raw_bit_set_other {data : List Nat} {i k x : Nat} (hne : k / 8 ≠ i / 8) :
    raw_bit (data.set (i / 8) x) k = raw_bit data k := by
  unfold raw_bit
  have hget : (data.set (i / 8) x)[k / 8]? = data[k / 8]? := by
    rw [List.getElem?_set]
    exact if_neg (fun h => hne h.symm)
  simp only [List.getD_eq_getElem?_getD, hget]

theorem raw_bit_set_on {data : List Nat} {i b : Nat} (hb : data[i / 8]? = some b)
    (hlt : b < 256) (k : Nat) :
    raw_bit (data.set (i / 8) ((b ||| (0x80 >>> (i % 8))) % 256)) k
      = if k = i then 1 else raw_bit data k := by
  by_cases hbyte : k / 8 = i / 8
  · have hlen : i / 8 < data.length := by
      by_contra hc
      have := List.getElem?_eq_none (l := data) (n := i / 8) (by omega)
      simp [this] at hb
    have hb' : data[k / 8]? = some b := by rw [hbyte]; exact hb
    rw [raw_bit_of_getElem? hb']
    have hs : (data.set (i / 8) ((b ||| (0x80 >>> (i % 8))) % 256))[k / 8]?
        = some ((b ||| (0x80 >>> (i % 8))) % 256) := by
      rw [hbyte, List.getElem?_set]; simp [hlen]
    rw [raw_bit_of_getElem? hs]
    have := byte_on b hlt (i % 8) (Nat.mod_lt _ (by norm_num)) (k % 8) (Nat.mod_lt _ (by norm_num))
    rw [this]
    have : (k % 8 = i % 8) ↔ k = i := by omega
    simp only [this]
  · rw [raw_bit_set_other hbyte]
    have : k ≠ i := fun h => hbyte (by rw [h])
    simp [this]

theorem raw_bit_set_off {data : List Nat} {i b : Nat} (hb : data[i / 8]? = some b)
    (hlt : b < 256) (k : Nat) :
    raw_bit (data.set (i / 8) ((b &&& int_not (0x80 >>> (i % 8))) % 256)) k
      = if k = i then 0 else raw_bit data k := by
  by_cases hbyte : k / 8 = i / 8
  · have hlen : i / 8 < data.length := by
      by_contra hc
      have := List.getElem?_eq_none (l := data) (n := i / 8) (by omega)
      simp [this] at hb
    have hb' : data[k / 8]? = some b := by rw [hbyte]; exact hb
    rw [raw_bit_of_getElem? hb']
    have hs : (data.set (i / 8) ((b &&& int_not (0x80 >>> (i % 8))) % 256))[k / 8]?
        = some ((b &&& int_not (0x80 >>> (i % 8))) % 256) := by
      rw [hbyte, List.getElem?_set]; simp [hlen]
    rw [raw_bit_of_getElem? hs]
    have := byte_off b hlt (i % 8) (Nat.mod_lt _ (by norm_num)) (k % 8) (Nat.mod_lt _ (by norm_num))
    rw [this]
    have : (k % 8 = i % 8) ↔ k = i := by omega
    simp only [this]
  · rw [raw_bit_set_other hbyte]
    have : k ≠ i := fun h => hbyte (by rw [h])
    simp [this]

theorem bytes_set {data : List Nat} (hd : ∀ b ∈ data, b < 256) (i x : Nat) :
    ∀ b ∈ data.set i (x % 256), b < 256 := by
  intro b hb
  rcases List.mem_or_eq_of_mem_set hb with h | h
  · exact hd b h
  · rw [h]; exact Nat.mod_lt _ (by norm_num)


/-! ## Growth -/

theorem round8_eq {v : Nat} (hv : v + 7 < ULONG_MOD) : round8 v = (v + 7) / 8 * 8 := by
  unfold round8
  unfold ULONG_MOD at *
  split
  · rw [Nat.mod_eq_of_lt (by omega)]; omega
  · omega

theorem round8_div {v : Nat} (hv : v + 7 < ULONG_MOD) : round8 v / 8 = (v + 7) / 8 := by
  rw [round8_eq hv]; omega

theorem round8_lt (v : Nat) (hv : v < ULONG_MOD) : round8 v < ULONG_MOD := by
  unfold round8
  split
  · exact Nat.mod_lt _ (by unfold ULONG_MOD; norm_num)
  · exact hv

theorem resize_cases (h : Heap) (bp : bitpack_t) (n : Nat) (hlen : bp.data.length = bp.data_size) :
    _bitpack_resize h bp n =
      if round8 n / 8 > bp.data_size ∧ h.avail (round8 n / 8) = false then
        .error (resize_failed bp)
      else .success (resized bp n) () := by
  unfold _bitpack_resize resized resize_failed
  by_cases hg : round8 n / 8 > bp.data_size
  · by_cases ha : h.avail (round8 n / 8) = true
    · have hm : max bp.data_size (round8 n / 8) = round8 n / 8 := by omega
      simp only [hg, ha, realloc, memset, if_true, hm, true_and, Bool.true_eq_false, if_false]
      have htake : List.take (round8 n / 8) bp.data = bp.data :=
        List.take_of_length_le (by omega)
      rw [htake]
      have hl : (bp.data ++ List.map (fun k => h.fresh k % 256)
          (List.range (round8 n / 8 - bp.data.length))).length = round8 n / 8 := by
        simp; omega
      have hle : bp.data_size + (round8 n / 8 - bp.data_size)
          ≤ (bp.data ++ List.map (fun k => h.fresh k % 256)
            (List.range (round8 n / 8 - bp.data.length))).length := by
        rw [hl]; omega
      rw [if_pos hle]
      have h1 : List.take bp.data_size (bp.data ++ List.map (fun k => h.fresh k % 256)
          (List.range (round8 n / 8 - bp.data.length))) = bp.data := by
        rw [← hlen]; exact List.take_left' rfl
      have h2 : List.drop (bp.data_size + (round8 n / 8 - bp.data_size))
          (bp.data ++ List.map (fun k => h.fresh k % 256)
            (List.range (round8 n / 8 - bp.data.length))) = [] := by
        apply List.drop_eq_nil_of_le
        rw [hl]; omega
      simp only [h1, h2, List.append_nil]
    · have ha' : h.avail (round8 n / 8) = false := by simpa using ha
      simp [hg, ha', realloc]
  · have hm : max bp.data_size (round8 n / 8) = bp.data_size := by omega
    have hz : round8 n / 8 - bp.data_size = 0 := by omega
    simp [hg, hm, hz]

theorem resize_unlimited {h : Heap} (hu : h.unlimited) (bp : bitpack_t) (n : Nat)
    (hlen : bp.data.length = bp.data_size) :
    _bitpack_resize h bp n = .success (resized bp n) () := by
  rw [resize_cases h bp n hlen, if_neg]
  rintro ⟨_, hf⟩
  rw [hu _] at hf
  exact Bool.noConfusion hf

theorem resize_success {h : Heap} {bp bp' : bitpack_t} {n : Nat}
    (hlen : bp.data.length = bp.data_size)
    (hs : _bitpack_resize h bp n = .success bp' ()) : bp' = resized bp n := by
  rw [resize_cases h bp n hlen] at hs
  split at hs
  · exact Res.noConfusion hs
  · injection hs with h1; exact h1.symm

theorem resize_error {h : Heap} {bp bp' : bitpack_t} {n : Nat}
    (hlen : bp.data.length = bp.data_size)
    (hs : _bitpack_resize h bp n = .error bp') :
    bp' = resize_failed bp ∧ round8 n / 8 > bp.data_size ∧ h.avail (round8 n / 8) = false := by
  rw [resize_cases h bp n hlen] at hs
  split at hs
  · rename_i hc
    injection hs with h1
    exact ⟨h1.symm, hc⟩
  · exact Res.noConfusion hs

theorem resize_defined (h : Heap) (bp : bitpack_t) (n : Nat)
    (hlen : bp.data.length = bp.data_size) : _bitpack_resize h bp n ≠ .undefined := by
  rw [resize_cases h bp n hlen]
  split <;> exact fun hc => Res.noConfusion hc

@[simp] theorem resized_size (bp : bitpack_t) (n : Nat) : (resized bp n).size = n := rfl

@[simp] theorem resized_read_pos (bp : bitpack_t) (n : Nat) :
    (resized bp n).read_pos = bp.read_pos := rfl

@[simp] theorem resized_error (bp : bitpack_t) (n : Nat) : (resized bp n).error = bp.error := rfl

@[simp] theorem resized_error_str (bp : bitpack_t) (n : Nat) :
    (resized bp n).error_str = bp.error_str := rfl

theorem resized_data (bp : bitpack_t) (n : Nat) :
    (resized bp n).data = bp.data ++ List.replicate (round8 n / 8 - bp.data_size) 0 := rfl

theorem resized_data_size (bp : bitpack_t) (n : Nat) :
    (resized bp n).data_size = max bp.data_size (round8 n / 8) := rfl

theorem resized_length (bp : bitpack_t) (n : Nat) (hlen : bp.data.length = bp.data_size) :
    (resized bp n).data.length = (resized bp n).data_size := by
  simp only [resized, List.length_append, List.length_replicate]
  omega

theorem resized_raw_bit (bp : bitpack_t) (n k : Nat) :
    raw_bit (resized bp n).data k = raw_bit bp.data k :=
  raw_bit_append_zeros _ _ _

theorem resized_bytes (bp : bitpack_t) (n : Nat) (hd : ∀ b ∈ bp.data, b < 256) :
    ∀ b ∈ (resized bp n).data, b < 256 := by
  intro b hb
  rw [resized_data, List.mem_append] at hb
  rcases hb with hb | hb
  · exact hd b hb
  · rw [List.eq_of_mem_replicate hb]; norm_num


/-! ## Single bits -/

theorem bitpack_on_eq_poke (h : Heap) (bp : bitpack_t) (index : Nat) :
    bitpack_on h bp index = poke on_byte h bp index := rfl

theorem bitpack_off_eq_poke (h : Heap) (bp : bitpack_t) (index : Nat) :
    bitpack_off h bp index = poke off_byte h bp index := rfl

theorem on_byte_writes : writes_bit on_byte 1 :=
  ⟨fun _ _ => Nat.mod_lt _ (by norm_num), fun _ _ _ hb hlt k => raw_bit_set_on hb hlt k⟩

theorem off_byte_writes : writes_bit off_byte 0 :=
  ⟨fun _ _ => Nat.mod_lt _ (by norm_num), fun _ _ _ hb hlt k => raw_bit_set_off hb hlt k⟩

theorem grow_for_bit_eq (h : Heap) (bp : bitpack_t) (index : Nat) :
    grow_for_bit h bp index =
      if bp.size ≤ index then _bitpack_resize h bp ((index + 1) % ULONG_MOD)
      else .success bp () := by
  unfold grow_for_bit bitpack_size
  by_cases hc : bp.size ≤ index
  · have : bp.size = 0 ∨ index > bp.size - 1 := by omega
    rw [if_pos this, if_pos hc]
  · have : ¬ (bp.size = 0 ∨ index > bp.size - 1) := by omega
    rw [if_neg this, if_neg hc]

/-- What a successful `bitpack_on` or `bitpack_off` leaves. -/
theorem poke_success {f : Nat → Nat → Nat} {v : Nat} (hf : writes_bit f v) {h : Heap}
    {bp bp' : bitpack_t} {index : Nat} (hw : WF bp) (hi : index + 1 < ULONG_MOD)
    (hs : poke f h bp index = .success bp' ()) :
    WF bp' ∧ bp'.size = max bp.size (index + 1) ∧ bp'.read_pos = bp.read_pos ∧
    bp'.error = BITPACK_ERR_CLEAR ∧ bp'.error_str = (_bitpack_err_clear bp).error_str ∧
    bp'.data_size =
      (if bp.size ≤ index then max bp.data_size (round8 (index + 1) / 8) else bp.data_size) ∧
    ∀ k, raw_bit bp'.data k = if k = index then v else raw_bit bp.data k := by
  obtain ⟨w1, w2, w3, w4, w5, w6⟩ := hw
  have hmod : (index + 1) % ULONG_MOD = index + 1 := Nat.mod_eq_of_lt hi
  unfold poke at hs
  rw [grow_for_bit_eq, hmod] at hs
  by_cases hc : bp.size ≤ index
  · simp only [err_clear_size, hc, if_true] at hs
    have hlen : (_bitpack_err_clear bp).data.length = (_bitpack_err_clear bp).data_size := by
      simpa using w4
    rw [resize_cases h _ _ hlen] at hs
    by_cases hav : round8 (index + 1) / 8 > (_bitpack_err_clear bp).data_size ∧
        h.avail (round8 (index + 1) / 8) = false
    · rw [if_pos hav] at hs
      exact Res.noConfusion hs
    · rw [if_neg hav] at hs
      simp only at hs
      split at hs
      · exact Res.noConfusion hs
      · rename_i b hb
        injection hs with hs1
        subst hs1
        have hin : index / 8 < (resized (_bitpack_err_clear bp) (index + 1)).data.length := by
          by_contra hcon
          rw [List.getElem?_eq_none (by omega)] at hb
          exact Option.noConfusion hb
        have hrl := resized_length (_bitpack_err_clear bp) (index + 1) hlen
        have hrb := resized_bytes (_bitpack_err_clear bp) (index + 1) (by simpa using w6)
        have hrd := resized_data_size (_bitpack_err_clear bp) (index + 1)
        have hr8 := round8_lt (index + 1) hi
        simp only [err_clear_data_size] at hrd
        refine ⟨⟨?_, ?_, ?_, ?_, ?_, ?_⟩, ?_, ?_, ?_, ?_, ?_, ?_⟩
        · simp only [resized_size]; exact hi
        · simpa using w2
        · simp only [hrd]; omega
        · simp only [List.length_set]; exact hrl
        · simp only [resized_size]; rw [← hrl]; omega
        · intro x hx
          rcases List.mem_or_eq_of_mem_set hx with hx | hx
          · exact hrb x hx
          · rw [hx]; exact hf.1 _ _
        · simp only [resized_size]; omega
        · simp
        · simp
        · simp
        · simp only [hrd, hc, if_true]
        · intro k
          have := hf.2 _ index b hb (hrb b (mem_of_getElem?_some hb)) k
          simp only [this, resized_raw_bit, err_clear_data]
  · simp only [err_clear_size, hc, if_false] at hs
    split at hs
    · exact Res.noConfusion hs
    · rename_i b hb
      injection hs with hs1
      subst hs1
      simp only [err_clear_data] at hb
      refine ⟨⟨?_, ?_, ?_, ?_, ?_, ?_⟩, ?_, ?_, ?_, ?_, ?_, ?_⟩
      · simpa using w1
      · simpa using w2
      · simpa using w3
      · simpa using w4
      · simpa using w5
      · intro x hx
        simp only [err_clear_data] at hx
        rcases List.mem_or_eq_of_mem_set hx with hx | hx
        · exact w6 x hx
        · rw [hx]; exact hf.1 _ _
      · simp only [err_clear_size]; omega
      · simp
      · simp
      · simp
      · simp [hc]
      · intro k
        have := hf.2 _ index b hb (w6 b (mem_of_getElem?_some hb)) k
        simpa using this

/-- With room for the rounded size and a heap that never refuses, `bitpack_on` and
`bitpack_off` succeed. -/
theorem poke_ok (f : Nat → Nat → Nat) {h : Heap} (hu : h.unlimited) {bp : bitpack_t}
    {index : Nat} (hw : WF bp) (hi : index + 8 < ULONG_MOD) :
    ∃ bp', poke f h bp index = .success bp' () := by
  obtain ⟨w1, w2, w3, w4, w5, w6⟩ := hw
  have hmod : (index + 1) % ULONG_MOD = index + 1 := Nat.mod_eq_of_lt (by omega)
  unfold poke
  rw [grow_for_bit_eq, hmod]
  by_cases hc : bp.size ≤ index
  · simp only [err_clear_size, hc, if_true]
    have hlen : (_bitpack_err_clear bp).data.length = (_bitpack_err_clear bp).data_size := by
      simpa using w4
    rw [resize_unlimited hu _ _ hlen]
    have hrl := resized_length (_bitpack_err_clear bp) (index + 1) hlen
    have hrd := resized_data_size (_bitpack_err_clear bp) (index + 1)
    have hr8 : round8 (index + 1) / 8 = (index + 1 + 7) / 8 := round8_div (by omega)
    have hin : index / 8 < (resized (_bitpack_err_clear bp) (index + 1)).data.length := by
      rw [hrl, hrd, hr8]; omega
    simp only [List.getElem?_eq_getElem hin]
    exact ⟨_, rfl⟩
  · simp only [err_clear_size, hc, if_false, err_clear_data]
    have hin : index / 8 < bp.data.length := by omega
    simp only [List.getElem?_eq_getElem hin]
    exact ⟨_, rfl⟩


/-! ## C10 and C9: single-bit access -/

/-- C10: `bitpack_get` fails with `BITPACK_ERR_EMPTY` when the size is 0, for every index;
it fails with `BITPACK_ERR_INVALID_INDEX` when the size is positive and the index is not
below it; otherwise, on a well-formed object, it succeeds and returns 1 if
`data[index / 8] & (0x80 >> (index % 8))` is non-zero and 0 if it is zero. -/
theorem C10_get_bit (bp : bitpack_t) (index : Nat) :
    (bp.size = 0 →
      ∃ bp', bitpack_get bp index = .error bp' ∧ bp'.error = BITPACK_ERR_EMPTY) ∧
    (0 < bp.size → bp.size ≤ index →
      ∃ bp', bitpack_get bp index = .error bp' ∧ bp'.error = BITPACK_ERR_INVALID_INDEX) ∧
    (WF bp → index < bp.size →
      ∃ b bp', bp.data[index / 8]? = some b ∧
        bitpack_get bp index
          = .success bp' (if b &&& (0x80 >>> (index % 8)) ≠ 0 then 1 else 0)) := by
  refine ⟨?_, ?_, ?_⟩
  · intro h0
    refine ⟨{ _bitpack_err_clear bp with error := BITPACK_ERR_EMPTY,
                                         error_str := "bitpack is empty" }, ?_, rfl⟩
    unfold bitpack_get bitpack_size
    simp only [err_clear_size, h0, if_true]
  · intro hpos hle
    have h0 : bp.size ≠ 0 := by omega
    have h1 : index > bp.size - 1 := by omega
    refine ⟨{ _bitpack_err_clear bp with
                error := BITPACK_ERR_INVALID_INDEX,
                error_str := invalid_index_str index (_bitpack_err_clear bp) }, ?_, rfl⟩
    unfold bitpack_get bitpack_size
    simp only [err_clear_size, h0, h1, if_true, if_false]
  · intro hw hlt
    have hin := WF_index hw hlt
    refine ⟨bp.data[index / 8], _bitpack_err_clear bp, List.getElem?_eq_getElem hin, ?_⟩
    rw [bitpack_get_WF hw hlt, raw_bit_of_getElem? (List.getElem?_eq_getElem hin)]

/-- Witness of C10: on the empty object, and at the indices 10 and 8 of the 10-bit object
`1010101010`. -/
theorem C10_get_bit_witness :
    (∃ bp', bitpack_get bp_empty32 10 = .error bp' ∧ bp'.error = BITPACK_ERR_EMPTY) ∧
    (∃ bp', bitpack_get bp_1010101010 10 = .error bp' ∧
      bp'.error = BITPACK_ERR_INVALID_INDEX) ∧
    (∃ b bp', bp_1010101010.data[8 / 8]? = some b ∧
      bitpack_get bp_1010101010 8
        = .success bp' (if b &&& (0x80 >>> (8 % 8)) ≠ 0 then 1 else 0)) :=
  ⟨(C10_get_bit bp_empty32 10).1 rfl,
   (C10_get_bit bp_1010101010 10).2.1 (by decide) (by decide),
   (C10_get_bit bp_1010101010 8).2.2 (by decide) (by decide)⟩

/-- The value a successful `bitpack_get` returns, on a well-formed object. -/
theorem bitpack_get_value {bp : bitpack_t} (hw : WF bp) {k : Nat} (hk : k < bp.size) :
    (bitpack_get bp k).value = some (raw_bit bp.data k) := by
  rw [bitpack_get_WF hw hk]; rfl

/-- Either single-bit write succeeds, the bit then reads as the value written, the size
becomes `index + 1` when the index was not below it and is unchanged otherwise, and every
other bit below the old size keeps its value. -/
theorem poke_spec {f : Nat → Nat → Nat} {v : Nat} (hf : writes_bit f v) {h : Heap}
    (hu : h.unlimited) {bp : bitpack_t} {index : Nat} (hw : WF bp)
    (hi : index + 8 < ULONG_MOD) :
    ∃ bp', poke f h bp index = .success bp' () ∧
      (bitpack_get bp' index).value = some v ∧
      bp'.size = (if bp.size ≤ index then index + 1 else bp.size) ∧
      ∀ k, k < bp.size → k ≠ index →
        ∃ b, (bitpack_get bp k).value = some b ∧ (bitpack_get bp' k).value = some b := by
  obtain ⟨bp', hs⟩ := poke_ok f hu hw hi
  obtain ⟨hw', hsz, -, -, -, -, hbits⟩ := poke_success hf hw (by omega) hs
  refine ⟨bp', hs, ?_, ?_, ?_⟩
  · rw [bitpack_get_value hw' (by omega), hbits, if_pos rfl]
  · rw [hsz]; split <;> omega
  · intro k hk hne
    refine ⟨raw_bit bp.data k, bitpack_get_value hw hk, ?_⟩
    rw [bitpack_get_value hw' (by omega), hbits, if_neg hne]

/-- Away from the end of the index range `bitpack_on` and `bitpack_off` do what they
should.  On a well-formed object, for an index whose rounded size `index + 8` is an
`unsigned long`, and with allocation succeeding: `bitpack_on` succeeds and makes
`bitpack_get` return 1 at the index, `bitpack_off` succeeds and makes it return 0; the size
becomes exactly `index + 1` if the index was not below the size (the empty object
included) and is unchanged otherwise; every other bit below the old size keeps its
value. -/
theorem set_clear_bit_in_range (h : Heap) (bp : bitpack_t) (index : Nat) (hu : h.unlimited)
    (hw : WF bp) (hi : index + 8 < ULONG_MOD) :
    (∃ bp', bitpack_on h bp index = .success bp' () ∧
      (bitpack_get bp' index).value = some 1 ∧
      bp'.size = (if bp.size ≤ index then index + 1 else bp.size) ∧
      ∀ k, k < bp.size → k ≠ index →
        ∃ b, (bitpack_get bp k).value = some b ∧ (bitpack_get bp' k).value = some b) ∧
    (∃ bp', bitpack_off h bp index = .success bp' () ∧
      (bitpack_get bp' index).value = some 0 ∧
      bp'.size = (if bp.size ≤ index then index + 1 else bp.size) ∧
      ∀ k, k < bp.size → k ≠ index →
        ∃ b, (bitpack_get bp k).value = some b ∧ (bitpack_get bp' k).value = some b) :=
  ⟨poke_spec on_byte_writes hu hw hi, poke_spec off_byte_writes hu hw hi⟩

/-- Setting and clearing bit 12 of the 10-bit object `1010101010`. -/
theorem set_clear_bit_in_range_example :
    (∃ bp', bitpack_on plenty bp_1010101010 12 = .success bp' () ∧
      (bitpack_get bp' 12).value = some 1 ∧
      bp'.size = (if bp_1010101010.size ≤ 12 then 12 + 1 else bp_1010101010.size) ∧
      ∀ k, k < bp_1010101010.size → k ≠ 12 →
        ∃ b, (bitpack_get bp_1010101010 k).value = some b ∧
          (bitpack_get bp' k).value = some b) ∧
    (∃ bp', bitpack_off plenty bp_1010101010 12 = .success bp' () ∧
      (bitpack_get bp' 12).value = some 0 ∧
      bp'.size = (if bp_1010101010.size ≤ 12 then 12 + 1 else bp_1010101010.size) ∧
      ∀ k, k < bp_1010101010.size → k ≠ 12 →
        ∃ b, (bitpack_get bp_1010101010 k).value = some b ∧
          (bitpack_get bp' k).value = some b) :=
  set_clear_bit_in_range plenty bp_1010101010 12 plenty_unlimited (by decide) (by decide)

/-- C9 at a failing input: on a new object of 4 bytes, `bitpack_on(bp, ULONG_MAX - 1)` and
`bitpack_off(bp, ULONG_MAX - 1)` do not return success.  The index is not below the size,
so they call `_bitpack_resize(bp, ULONG_MAX)`, where `round8(ULONG_MAX)` wraps to 0: the
size becomes `2 ^ 64 - 1` and no storage is allocated.  They then access
`data[2 ^ 61 - 1]`, outside the block of 4 bytes. -/
theorem C9_set_bit_last_index :
    bitpack_init plenty 4 = some bp_new4 ∧
    grow_for_bit plenty bp_new4 (2 ^ 64 - 2) = .success bp_oversized () ∧
    bp_oversized.data[(2 ^ 64 - 2) / 8]? = none ∧
    bitpack_on plenty bp_new4 (2 ^ 64 - 2) = .undefined ∧
    bitpack_off plenty bp_new4 (2 ^ 64 - 2) = .undefined :=
  ⟨by decide, by decide, by decide, by decide, by decide⟩


/-! ## Fields of bits: writing -/

theorem WF_resized {bp : bitpack_t} (hw : WF bp) {n : Nat} (hn : n + 7 < ULONG_MOD) :
    WF (resized bp n) := by
  obtain ⟨w1, w2, w3, w4, w5, w6⟩ := hw
  have hr8 : round8 n / 8 = (n + 7) / 8 := round8_div hn
  refine ⟨?_, w2, ?_, resized_length bp n w4, ?_, resized_bytes bp n w6⟩
  · simp only [resized_size]; omega
  · simp only [resized_data_size, hr8]; omega
  · simp only [resized_size, resized_data_size, hr8]; omega

theorem err_clear_of_clear {bp : bitpack_t} (hc : bp.error = BITPACK_ERR_CLEAR) :
    _bitpack_err_clear bp = bp := by
  simp [_bitpack_err_clear, hc]

/-- Inside the object `bitpack_on` and `bitpack_off` need no growth and cannot fail. -/
theorem poke_inside (f : Nat → Nat → Nat) (h : Heap) {bp : bitpack_t} {index : Nat}
    (hw : WF bp) (hi : index < bp.size) : ∃ bp', poke f h bp index = .success bp' () := by
  obtain ⟨w1, w2, w3, w4, w5, w6⟩ := hw
  unfold poke
  rw [grow_for_bit_eq]
  have hc : ¬ bp.size ≤ index := by omega
  simp only [err_clear_size, hc, if_false, err_clear_data]
  have hin : index / 8 < bp.data.length := by omega
  simp only [List.getElem?_eq_getElem hin]
  exact ⟨_, rfl⟩

@[simp] theorem andThen_success {α β : Type} (bp : bitpack_t) (v : α)
    (f : bitpack_t → α → Res β) : (Res.success bp v).andThen f = f bp v := rfl

@[simp] theorem andThen_error {α β : Type} (bp : bitpack_t) (f : bitpack_t → α → Res β) :
    (Res.error bp : Res α).andThen f = .error bp := rfl

@[simp] theorem andThen_undefined {α β : Type} (f : bitpack_t → α → Res β) :
    (Res.undefined : Res α).andThen f = .undefined := rfl

theorem set_bits_loop_step (h : Heap) (value i : Nat) (bp : bitpack_t) (index : Nat) :
    bitpack_set_bits_loop h value (i + 1) bp index =
      (poke (if field_bit value (i + 1) 0 = 1 then on_byte else off_byte) h bp index).andThen
        fun bp _ => bitpack_set_bits_loop h value i bp ((index + 1) % ULONG_MOD) := by
  conv_lhs => unfold bitpack_set_bits_loop
  unfold field_bit
  simp only [Nat.add_sub_cancel, Nat.sub_zero]
  by_cases hm : value &&& int_to_ulong (int_shl 1 i) ≠ 0
  · rw [if_pos hm, if_pos hm, if_pos rfl, bitpack_on_eq_poke]
    cases poke on_byte h bp index <;> rfl
  · rw [if_neg hm, if_neg hm, if_neg (by decide), bitpack_off_eq_poke]
    cases poke off_byte h bp index <;> rfl

theorem field_bit_writes (value n : Nat) :
    writes_bit (if field_bit value n 0 = 1 then on_byte else off_byte) (field_bit value n 0) := by
  by_cases hm : field_bit value n 0 = 1
  · rw [if_pos hm, hm]; exact on_byte_writes
  · have h0 : field_bit value n 0 = 0 := by
      unfold field_bit at hm ⊢
      by_cases hv : value &&& int_to_ulong (int_shl 1 (n - 1 - 0)) ≠ 0
      · rw [if_pos hv] at hm; exact absurd rfl hm
      · rw [if_neg hv]
    rw [if_neg hm, h0]; exact off_byte_writes

theorem field_bit_succ (value i j : Nat) :
    field_bit value (i + 1) (j + 1) = field_bit value i j := by
  unfold field_bit
  have : i + 1 - 1 - (j + 1) = i - 1 - j := by omega
  rw [this]

/-- What the loop of `bitpack_set_bits` leaves when it runs inside the object. -/
theorem set_bits_loop_success (h : Heap) (value : Nat) :
    ∀ (i : Nat) (bp bp' : bitpack_t) (index : Nat), WF bp → index + i ≤ bp.size →
      bitpack_set_bits_loop h value i bp index = .success bp' () →
      WF bp' ∧ bp'.size = bp.size ∧ bp'.data_size = bp.data_size ∧
      bp'.read_pos = bp.read_pos ∧
      (bp.error = BITPACK_ERR_CLEAR →
        bp'.error = BITPACK_ERR_CLEAR ∧ bp'.error_str = bp.error_str) ∧
      ∀ k, raw_bit bp'.data k =
        if index ≤ k ∧ k < index + i then field_bit value i (k - index)
        else raw_bit bp.data k := by
  intro i
  induction i with
  | zero =>
    intro bp bp' index hw _ hs
    unfold bitpack_set_bits_loop at hs
    injection hs with hs1
    subst hs1
    refine ⟨hw, rfl, rfl, rfl, fun hc => ⟨hc, rfl⟩, ?_⟩
    intro k
    have : ¬ (index ≤ k ∧ k < index + 0) := by omega
    rw [if_neg this]
  | succ i ih =>
    intro bp bp' index hw hi hs
    rw [set_bits_loop_step] at hs
    have hM : index + 1 < ULONG_MOD := by
      have := hw.1
      omega
    obtain ⟨bp1, h1⟩ := poke_inside (if field_bit value (i + 1) 0 = 1 then on_byte else off_byte)
      h hw (show index < bp.size by omega)
    rw [h1, andThen_success, Nat.mod_eq_of_lt hM] at hs
    obtain ⟨hw1, hsz1, hrp1, he1, hes1, hds1, hb1⟩ :=
      poke_success (field_bit_writes value (i + 1)) hw hM h1
    have hsz1' : bp1.size = bp.size := by rw [hsz1]; omega
    have hds1' : bp1.data_size = bp.data_size := by
      rw [hds1, if_neg (by omega)]
    obtain ⟨hw2, hsz2, hds2, hrp2, he2, hb2⟩ := ih bp1 bp' (index + 1) hw1 (by omega) hs
    refine ⟨hw2, by omega, by omega, by omega, ?_, ?_⟩
    · intro hc
      obtain ⟨e1, e2⟩ := he2 he1
      refine ⟨e1, ?_⟩
      rw [e2, hes1, err_clear_of_clear hc]
    · intro k
      rw [hb2 k, hb1 k]
      by_cases hk0 : k = index
      · subst hk0
        have c1 : ¬ (k + 1 ≤ k ∧ k < k + 1 + i) := by omega
        have c2 : k ≤ k ∧ k < k + (i + 1) := by omega
        rw [if_neg c1, if_pos rfl, if_pos c2, Nat.sub_self]
      · by_cases hr : index + 1 ≤ k ∧ k < index + 1 + i
        · have c2 : index ≤ k ∧ k < index + (i + 1) := by omega
          rw [if_pos hr, if_pos c2]
          have : k - index = (k - (index + 1)) + 1 := by omega
          rw [this, field_bit_succ]
        · have c2 : ¬ (index ≤ k ∧ k < index + (i + 1)) := by omega
          rw [if_neg hr, if_neg hk0, if_neg c2]

/-- Inside the object the loop of `bitpack_set_bits` succeeds. -/
theorem set_bits_loop_ok (h : Heap) (value : Nat) :
    ∀ (i : Nat) (bp : bitpack_t) (index : Nat), WF bp → index + i ≤ bp.size →
      ∃ bp', bitpack_set_bits_loop h value i bp index = .success bp' () := by
  intro i
  induction i with
  | zero =>
    intro bp index _ _
    exact ⟨bp, by unfold bitpack_set_bits_loop; rfl⟩
  | succ i ih =>
    intro bp index hw hi
    rw [set_bits_loop_step]
    have hM : index + 1 < ULONG_MOD := by
      have := hw.1
      omega
    obtain ⟨bp1, h1⟩ := poke_inside (if field_bit value (i + 1) 0 = 1 then on_byte else off_byte)
      h hw (show index < bp.size by omega)
    rw [h1, andThen_success, Nat.mod_eq_of_lt hM]
    obtain ⟨hw1, hsz1, -⟩ := poke_success (field_bit_writes value (i + 1)) hw hM h1
    exact ih bp1 (index + 1) hw1 (by rw [hsz1]; omega)


/-- The object on which the loop of `bitpack_set_bits` starts: the error cleared and the
size raised to `index + num_bits` when it was smaller. -/
theorem set_bits_unfold (h : Heap) (bp : bitpack_t) (value num_bits index : Nat)
    (hn : num_bits ≤ ULONG_BITS) (hv : to_double value ≤ pow2_minus_1 num_bits)
    (hi : index + num_bits < ULONG_MOD) :
    bitpack_set_bits h bp value num_bits index =
      (if bp.size < index + num_bits then
          _bitpack_resize h (_bitpack_err_clear bp) (index + num_bits)
        else .success (_bitpack_err_clear bp) ()).andThen
        fun bp _ => bitpack_set_bits_loop h value num_bits bp index := by
  unfold bitpack_set_bits bitpack_size
  have h1 : ¬ num_bits > ULONG_BITS := by omega
  have h2 : ¬ to_double value > pow2_minus_1 num_bits := by omega
  simp only [h1, h2, if_false, Nat.mod_eq_of_lt hi, err_clear_size]
  cases (if bp.size < index + num_bits then
      _bitpack_resize h (_bitpack_err_clear bp) (index + num_bits)
    else Res.success (_bitpack_err_clear bp) ()) <;> rfl

/-- What a successful `bitpack_set_bits` leaves. -/
theorem set_bits_success {h : Heap} {bp bp' : bitpack_t} {value num_bits index : Nat}
    (hw : WF bp) (hi : index + num_bits ≤ bp.size ∨ index + num_bits + 7 < ULONG_MOD)
    (hs : bitpack_set_bits h bp value num_bits index = .success bp' ()) :
    num_bits ≤ ULONG_BITS ∧ to_double value ≤ pow2_minus_1 num_bits ∧ WF bp' ∧
    bp'.size = max bp.size (index + num_bits) ∧
    bp'.data_size =
      (if bp.size < index + num_bits then max bp.data_size ((index + num_bits + 7) / 8)
       else bp.data_size) ∧
    bp'.read_pos = bp.read_pos ∧ bp'.error = BITPACK_ERR_CLEAR ∧
    bp'.error_str = (_bitpack_err_clear bp).error_str ∧
    ∀ k, raw_bit bp'.data k =
      if index ≤ k ∧ k < index + num_bits then field_bit value num_bits (k - index)
      else raw_bit bp.data k := by
  have hn : num_bits ≤ ULONG_BITS := by
    by_contra hc
    unfold bitpack_set_bits at hs
    rw [if_pos (by omega)] at hs
    exact Res.noConfusion hs
  have hv : to_double value ≤ pow2_minus_1 num_bits := by
    by_contra hc
    unfold bitpack_set_bits at hs
    rw [if_neg (by omega), if_pos (by omega)] at hs
    exact Res.noConfusion hs
  have hM : index + num_bits < ULONG_MOD := by
    have := hw.1
    omega
  rw [set_bits_unfold h bp value num_bits index hn hv hM] at hs
  have hwc := WF_err_clear hw
  by_cases hg : bp.size < index + num_bits
  · have hi : index + num_bits + 7 < ULONG_MOD := by omega
    rw [if_pos hg, resize_cases h _ _ hwc.2.2.2.1] at hs
    by_cases hav : round8 (index + num_bits) / 8 > (_bitpack_err_clear bp).data_size ∧
        h.avail (round8 (index + num_bits) / 8) = false
    · rw [if_pos hav] at hs
      exact Res.noConfusion hs
    · rw [if_neg hav, andThen_success] at hs
      have hwr := WF_resized hwc (n := index + num_bits) hi
      obtain ⟨hw2, hsz2, hds2, hrp2, he2, hb2⟩ :=
        set_bits_loop_success h value num_bits _ bp' index hwr (by simp) hs
      refine ⟨hn, hv, hw2, ?_, ?_, ?_, ?_, ?_, ?_⟩
      · rw [hsz2, resized_size]; omega
      · rw [hds2, resized_data_size, if_pos hg, round8_div hi, err_clear_data_size]
      · rw [hrp2]; simp
      · exact (he2 (by simp)).1
      · rw [(he2 (by simp)).2]; simp
      · intro k
        rw [hb2 k, resized_raw_bit, err_clear_data]
  · rw [if_neg hg, andThen_success] at hs
    obtain ⟨hw2, hsz2, hds2, hrp2, he2, hb2⟩ :=
      set_bits_loop_success h value num_bits _ bp' index hwc (by simp; omega) hs
    refine ⟨hn, hv, hw2, ?_, ?_, ?_, ?_, ?_, ?_⟩
    · rw [hsz2, err_clear_size]; omega
    · rw [hds2, if_neg hg, err_clear_data_size]
    · rw [hrp2]; simp
    · exact (he2 (by simp)).1
    · rw [(he2 (by simp)).2]
    · intro k
      rw [hb2 k, err_clear_data]

/-- With the width and the value accepted, room for the rounded size and a heap that never
refuses, `bitpack_set_bits` succeeds. -/
theorem set_bits_ok {h : Heap} (hu : h.unlimited) {bp : bitpack_t} {value num_bits index : Nat}
    (hw : WF bp) (hi : index + num_bits + 7 < ULONG_MOD) (hn : num_bits ≤ ULONG_BITS)
    (hv : to_double value ≤ pow2_minus_1 num_bits) :
    ∃ bp', bitpack_set_bits h bp value num_bits index = .success bp' () := by
  rw [set_bits_unfold h bp value num_bits index hn hv (by omega)]
  have hwc := WF_err_clear hw
  by_cases hg : bp.size < index + num_bits
  · rw [if_pos hg, resize_unlimited hu _ _ hwc.2.2.2.1, andThen_success]
    exact set_bits_loop_ok h value num_bits _ index (WF_resized hwc hi) (by simp)
  · rw [if_neg hg, andThen_success]
    exact set_bits_loop_ok h value num_bits _ index hwc (by simp; omega)

/-- Inside the object, with the width and the value accepted, `bitpack_set_bits` succeeds
whatever the heap. -/
theorem set_bits_inside (h : Heap) {bp : bitpack_t} {value num_bits index : Nat}
    (hw : WF bp) (hi : index + num_bits ≤ bp.size) (hn : num_bits ≤ ULONG_BITS)
    (hv : to_double value ≤ pow2_minus_1 num_bits) :
    ∃ bp', bitpack_set_bits h bp value num_bits index = .success bp' () := by
  have hM : index + num_bits < ULONG_MOD := by
    have := hw.1
    omega
  rw [set_bits_unfold h bp value num_bits index hn hv hM, if_neg (by omega), andThen_success]
  exact set_bits_loop_ok h value num_bits _ index (WF_err_clear hw) (by simp; omega)

/-! ## C6: `bitpack_set_bits` touches only its field -/

/-- C6: a successful `bitpack_set_bits(value, num_bits, index)` on a well-formed object,
the rounded end `index + num_bits + 7` of the field being an `unsigned long`, changes no bit
outside the field: every bit index below the old size that lies outside
`[index, index + num_bits)` reads the same before and after, and the new size is the
maximum of the old size and `index + num_bits`. -/
theorem C6_set_bits_frame (h : Heap) (bp bp' : bitpack_t) (value num_bits index : Nat)
    (hw : WF bp) (hi : index + num_bits + 7 < ULONG_MOD)
    (hs : bitpack_set_bits h bp value num_bits index = .success bp' ()) :
    bp'.size = max bp.size (index + num_bits) ∧
    ∀ k, k < bp.size → (k < index ∨ index + num_bits ≤ k) →
      ∃ b, (bitpack_get bp k).value = some b ∧ (bitpack_get bp' k).value = some b := by
  obtain ⟨-, -, hw', hsz, -, -, -, -, hbits⟩ := set_bits_success hw (Or.inr hi) hs
  refine ⟨hsz, ?_⟩
  intro k hk hout
  refine ⟨raw_bit bp.data k, bitpack_get_value hw hk, ?_⟩
  rw [bitpack_get_value hw' (by omega), hbits, if_neg (by omega)]


/-- Witness of C6: writing the 3-bit field 6 at index 4 of the 10-bit object `1010101010`. -/
theorem C6_set_bits_frame_witness :
    bp_1010101010_set.size = max bp_1010101010.size (4 + 3) ∧
    ∀ k, k < bp_1010101010.size → (k < 4 ∨ 4 + 3 ≤ k) →
      ∃ b, (bitpack_get bp_1010101010 k).value = some b ∧
        (bitpack_get bp_1010101010_set k).value = some b :=
  C6_set_bits_frame plenty bp_1010101010 bp_1010101010_set 6 3 4 (by decide) (by decide)
    (by decide)


/-! ## Fields of bits: reading -/

/-- Inside a well-formed object whose error is clear, the loop of `bitpack_get_bits` returns
the accumulated value and leaves the object as it is. -/
theorem get_bits_loop_eq (num_bits index : Nat) :
    ∀ (n i : Nat) (bp : bitpack_t) (v : Nat) (bit : Option Nat), WF bp →
      bp.error = BITPACK_ERR_CLEAR → index + i + n ≤ bp.size →
      bitpack_get_bits_loop num_bits index n i bp v bit
        = .success bp (gather bp.data num_bits index n i v) := by
  intro n
  induction n with
  | zero =>
    intro i bp v bit _ _ _
    unfold bitpack_get_bits_loop gather
    rfl
  | succ n ih =>
    intro i bp v bit hw hc hi
    have hM : index + i < ULONG_MOD := by
      have := hw.1
      omega
    unfold bitpack_get_bits_loop gather
    rw [Nat.mod_eq_of_lt hM, bitpack_get_WF hw (by omega), err_clear_of_clear hc]
    simp only
    rw [ih (i + 1) bp _ _ hw hc (by omega)]
    by_cases hb : raw_bit bp.data (index + i) = 1
    · simp only [hb, if_true]
    · simp only [hb, if_false]

/-- A read of `num_bits ≤ 64` bits that lies inside a well-formed object succeeds, returns
the accumulated value and only clears the error. -/
theorem get_bits_eq {bp : bitpack_t} (hw : WF bp) {num_bits index : Nat}
    (hi : index < bp.size) (he : index + num_bits ≤ bp.size) (hn : num_bits ≤ ULONG_BITS) :
    bitpack_get_bits bp num_bits index
      = .success (_bitpack_err_clear bp) (gather bp.data num_bits index num_bits 0 0) := by
  have hM : index + num_bits < ULONG_MOD := by
    have := hw.1
    omega
  unfold bitpack_get_bits bitpack_size
  have h1 : ¬ index ≥ bp.size := by omega
  have h2 : ¬ index + num_bits > bp.size := by omega
  have h3 : ¬ num_bits > ULONG_BITS := by omega
  simp only [err_clear_size, h1, h2, h3, if_false, Nat.mod_eq_of_lt hM]
  rw [get_bits_loop_eq num_bits index num_bits 0 _ 0 none (WF_err_clear hw) (by simp)
    (by simp; omega)]
  simp

theorem int_mask_small {k : Nat} (hk : k < 31) : int_to_ulong (int_shl 1 k) = 2 ^ k := by
  unfold int_to_ulong int_shl
  have h1 : k % 32 = k := Nat.mod_eq_of_lt (by omega)
  have h2 : 2 ^ k < 2 ^ 31 := Nat.pow_lt_pow_right (by norm_num) hk
  rw [h1, Nat.one_shiftLeft, Nat.mod_eq_of_lt (by omega), if_pos h2]

/-- Bits of the accumulated value for a width below 32: bit `t` of the result is the bit of
the block at offset `num_bits - 1 - t` of the field. -/
theorem gather_testBit (data : List Nat) (num_bits index : Nat) (hn : num_bits ≤ 31) :
    ∀ (n i v t : Nat), i + n = num_bits →
      (gather data num_bits index n i v).testBit t
        = (v.testBit t || (decide (t < n) && decide (raw_bit data (index + (num_bits - 1 - t)) = 1)))
      := by
  intro n
  induction n with
  | zero =>
    intro i v t _
    unfold gather
    simp
  | succ n ih =>
    intro i v t hin
    unfold gather
    rw [ih (i + 1) _ t (by omega)]
    have hk : num_bits - i - 1 = n := by omega
    rw [hk, int_mask_small (by omega)]
    by_cases htn : t = n
    · subst htn
      have hidx : num_bits - 1 - t = i := by omega
      rw [hidx]
      by_cases hb : raw_bit data (index + i) = 1
      · simp [hb, Nat.testBit_lor, Nat.testBit_two_pow]
      · simp [hb]
    · by_cases hb : raw_bit data (index + i) = 1
      · have : (2 ^ n).testBit t = false := by
          rw [Nat.testBit_two_pow]; simp; omega
        simp only [hb, if_true, Nat.testBit_lor, this, Bool.or_false]
        have : (decide (t < n + 1)) = decide (t < n) := by
          apply decide_eq_decide.mpr; omega
        rw [this]
      · simp only [hb, if_false]
        have : (decide (t < n + 1)) = decide (t < n) := by
          apply decide_eq_decide.mpr; omega
        rw [this]

/-- The value read from a field of fewer than 32 bits, bit by bit. -/
theorem gather_field_testBit (data : List Nat) {num_bits : Nat} (index : Nat)
    (hn : num_bits ≤ 31) (t : Nat) :
    (gather data num_bits index num_bits 0 0).testBit t
      = (decide (t < num_bits) && decide (raw_bit data (index + (num_bits - 1 - t)) = 1)) := by
  rw [gather_testBit data num_bits index hn num_bits 0 0 t (by omega)]
  simp

theorem gather_lt (data : List Nat) {num_bits : Nat} (index : Nat) (hn : num_bits ≤ 31) :
    gather data num_bits index num_bits 0 0 < 2 ^ num_bits := by
  apply Nat.lt_pow_two_of_testBit
  intro t ht
  rw [gather_field_testBit data index hn]
  have : ¬ t < num_bits := by omega
  simp [this]


/-! ## Byte arrays: writing -/

theorem excess_bits_small (fuel : Nat) {n : Nat} (hn : n < 2 ^ 53) : excess_bits fuel n = 0 := by
  cases fuel with
  | zero => rfl
  | succ f => unfold excess_bits; rw [if_pos hn]

theorem to_double_small {n : Nat} (hn : n < 2 ^ 53) : to_double n = n := by
  unfold to_double
  rw [excess_bits_small 12 hn]
  simp [Nat.mod_one]

theorem pow2_minus_1_small {n : Nat} (hn : n ≤ 53) : pow2_minus_1 n = 2 ^ n - 1 := by
  unfold pow2_minus_1
  apply to_double_small
  have : 2 ^ n ≤ 2 ^ 53 := Nat.pow_le_pow_right (by norm_num) hn
  have : 0 < 2 ^ n := Nat.two_pow_pos n
  omega

/-- A value below `2 ^ num_bits`, for a width up to 53, passes the range check of
`bitpack_set_bits`. -/
theorem value_fits {value num_bits : Nat} (hn : num_bits ≤ 53) (hv : value < 2 ^ num_bits) :
    to_double value ≤ pow2_minus_1 num_bits := by
  have : 2 ^ num_bits ≤ 2 ^ 53 := Nat.pow_le_pow_right (by norm_num) hn
  rw [pow2_minus_1_small hn, to_double_small (by omega)]
  omega

/-- For the widths whose masks stay below bit 31 the bit written at offset `j` is bit
`n - 1 - j` of the value. -/
theorem field_bit_eq (value : Nat) {n j : Nat} (hj : n - 1 - j < 31) :
    field_bit value n j = value / 2 ^ (n - 1 - j) % 2 := by
  unfold field_bit
  rw [int_mask_small hj, Nat.and_two_pow, ← Nat.toNat_testBit]
  have hpos : 0 < 2 ^ (n - 1 - j) := Nat.two_pow_pos _
  cases hb : value.testBit (n - 1 - j)
  · simp
  · simp only [Bool.toNat_true, Nat.one_mul]
    rw [if_pos (by omega)]

theorem set_bytes_unfold (h : Heap) (bp : bitpack_t) (value : List Nat) (index : Nat)
    (hi : index + 8 * value.length < ULONG_MOD) :
    bitpack_set_bytes h bp value index =
      (if bp.size < index + 8 * value.length then
          _bitpack_resize h (_bitpack_err_clear bp) (index + 8 * value.length)
        else .success (_bitpack_err_clear bp) ()).andThen
        fun bp _ => set_bytes_body h value index bp := by
  unfold bitpack_set_bytes bitpack_size set_bytes_body
  have h1 : (value.length * 8) % ULONG_MOD = 8 * value.length := by
    rw [Nat.mod_eq_of_lt (by omega)]; omega
  simp only [h1, Nat.mod_eq_of_lt hi, err_clear_size]
  cases (if bp.size < index + 8 * value.length then
      _bitpack_resize h (_bitpack_err_clear bp) (index + 8 * value.length)
    else Res.success (_bitpack_err_clear bp) ()) <;> rfl

/-- The loop of the unaligned path of `bitpack_set_bytes`, run inside the object, succeeds
and copies the bits of the remaining bytes. -/
theorem set_bytes_loop_spec (h : Heap) (value : List Nat) (index : Nat)
    (hv : ∀ b ∈ value, b < 256) :
    ∀ (n i : Nat) (bp : bitpack_t), WF bp → i + n = value.length →
      index + 8 * value.length ≤ bp.size →
      ∃ bp', bitpack_set_bytes_loop h value index n i bp = .success bp' () ∧
        WF bp' ∧ bp'.size = bp.size ∧ bp'.data_size = bp.data_size ∧
        bp'.read_pos = bp.read_pos ∧
        (bp.error = BITPACK_ERR_CLEAR →
          bp'.error = BITPACK_ERR_CLEAR ∧ bp'.error_str = bp.error_str) ∧
        ∀ k, raw_bit bp'.data k =
          if index + 8 * i ≤ k ∧ k < index + 8 * (i + n) then raw_bit value (k - index)
          else raw_bit bp.data k := by
  intro n
  induction n with
  | zero =>
    intro i bp hw _ _
    refine ⟨bp, by unfold bitpack_set_bytes_loop; rfl, hw, rfl, rfl, rfl, fun hc => ⟨hc, rfl⟩, ?_⟩
    intro k
    rw [if_neg (by omega)]
  | succ n ih =>
    intro i bp hw hin hsz
    have hM := hw.1
    have hil : i < value.length := by omega
    have hb : value[i]? = some value[i] := List.getElem?_eq_getElem hil
    have hblt : value[i] < 256 := hv _ (List.getElem_mem hil)
    have hidx : (index + (i * 8) % ULONG_MOD) % ULONG_MOD = index + 8 * i := by
      rw [Nat.mod_eq_of_lt (show i * 8 < ULONG_MOD by omega), Nat.mod_eq_of_lt (by omega)]
      omega
    have hfit : to_double value[i] ≤ pow2_minus_1 8 :=
      value_fits (by norm_num) (by norm_num; exact hblt)
    obtain ⟨bp1, h1⟩ := @set_bits_inside h bp value[i] 8 (index + 8 * i) hw (by omega)
      (by unfold ULONG_BITS; norm_num) hfit
    obtain ⟨-, -, hw1, hsz1, hds1, hrp1, he1, hes1, hb1⟩ :=
      set_bits_success hw (Or.inl (by omega)) h1
    have hsz1' : bp1.size = bp.size := by rw [hsz1]; omega
    have hds1' : bp1.data_size = bp.data_size := by rw [hds1, if_neg (by omega)]
    obtain ⟨bp', h2, hw2, hsz2, hds2, hrp2, he2, hb2⟩ :=
      ih (i + 1) bp1 hw1 (by omega) (by omega)
    refine ⟨bp', ?_, hw2, by omega, by omega, by omega, ?_, ?_⟩
    · unfold bitpack_set_bytes_loop
      rw [hb]
      simp only [hidx, h1]
      exact h2
    · intro hc
      obtain ⟨e1, e2⟩ := he2 he1
      exact ⟨e1, by rw [e2, hes1, err_clear_of_clear hc]⟩
    · intro k
      rw [hb2 k, hb1 k]
      by_cases hr : index + 8 * (i + 1) ≤ k ∧ k < index + 8 * (i + 1 + n)
      · rw [if_pos hr, if_pos (by omega)]
      · rw [if_neg hr]
        by_cases hk : index + 8 * i ≤ k ∧ k < index + 8 * i + 8
        · rw [if_pos hk, if_pos (by omega)]
          rw [field_bit_eq _ (by omega)]
          have hq : (k - index) / 8 = i := by omega
          have hbk : value[(k - index) / 8]? = some value[i] := by rw [hq]; exact hb
          rw [raw_bit_eq_div hv hbk]
          have : 8 - 1 - (k - (index + 8 * i)) = 7 - (k - index) % 8 := by omega
          rw [this]
        · rw [if_neg hk, if_neg (by omega)]


theorem memcpy_getElem? (data : List Nat) (off : Nat) (src : List Nat)
    (hle : off + src.length ≤ data.length) (m : Nat) :
    (data.take off ++ src ++ data.drop (off + src.length))[m]? =
      if off ≤ m ∧ m < off + src.length then src[m - off]? else data[m]? := by
  have hl1 : (data.take off).length = off := by
    rw [List.length_take]; omega
  by_cases h1 : m < off
  · rw [if_neg (by omega), List.append_assoc, List.getElem?_append_left (by omega),
      List.getElem?_take, if_pos h1]
  · by_cases h2 : m < off + src.length
    · rw [if_pos (by omega), List.append_assoc, List.getElem?_append_right (by omega),
        List.getElem?_append_left (by omega), hl1]
    · rw [if_neg (by omega), List.getElem?_append_right (by simp; omega),
        List.getElem?_drop]
      congr 1
      simp only [List.length_append, hl1]
      omega

theorem memcpy_raw_bit (data : List Nat) (off : Nat) (src : List Nat)
    (hle : off + src.length ≤ data.length) (k : Nat) :
    raw_bit (data.take off ++ src ++ data.drop (off + src.length)) k =
      if 8 * off ≤ k ∧ k < 8 * (off + src.length) then raw_bit src (k - 8 * off)
      else raw_bit data k := by
  unfold raw_bit
  simp only [List.getD_eq_getElem?_getD, memcpy_getElem? data off src hle]
  by_cases hr : 8 * off ≤ k ∧ k < 8 * (off + src.length)
  · have h1 : off ≤ k / 8 ∧ k / 8 < off + src.length := by omega
    have h2 : (k - 8 * off) / 8 = k / 8 - off := by omega
    have h3 : (k - 8 * off) % 8 = k % 8 := by omega
    rw [if_pos h1, if_pos hr, h2, h3]
  · have h1 : ¬ (off ≤ k / 8 ∧ k / 8 < off + src.length) := by omega
    rw [if_neg h1, if_neg hr]

/-- After the growth both paths of `bitpack_set_bytes` succeed and copy the bits of the
byte array to the bits `[index, index + 8 * len)`. -/
theorem set_bytes_body_spec (h : Heap) (value : List Nat) (index : Nat)
    (hv : ∀ b ∈ value, b < 256) (bp : bitpack_t) (hw : WF bp)
    (hsz : index + 8 * value.length ≤ bp.size) :
    ∃ bp', set_bytes_body h value index bp = .success bp' () ∧
      WF bp' ∧ bp'.size = bp.size ∧ bp'.data_size = bp.data_size ∧
      bp'.read_pos = bp.read_pos ∧
      (bp.error = BITPACK_ERR_CLEAR →
        bp'.error = BITPACK_ERR_CLEAR ∧ bp'.error_str = bp.error_str) ∧
      ∀ k, raw_bit bp'.data k =
        if index ≤ k ∧ k < index + 8 * value.length then raw_bit value (k - index)
        else raw_bit bp.data k := by
  unfold set_bytes_body
  by_cases ha : index % 8 = 0
  · rw [if_pos ha]
    obtain ⟨w1, w2, w3, w4, w5, w6⟩ := hw
    have hle : index / 8 + value.length ≤ bp.data.length := by omega
    unfold memcpy
    rw [if_pos hle]
    refine ⟨_, rfl, ⟨w1, w2, w3, ?_, w5, ?_⟩, rfl, rfl, rfl, fun hc => ⟨hc, rfl⟩, ?_⟩
    · simp only [List.length_append, List.length_take, List.length_drop]
      omega
    · intro b hb
      simp only [List.mem_append] at hb
      rcases hb with (hb | hb) | hb
      · exact w6 b (List.mem_of_mem_take hb)
      · exact hv b hb
      · exact w6 b (List.mem_of_mem_drop hb)
    · intro k
      simp only
      rw [memcpy_raw_bit bp.data (index / 8) value hle k]
      have h8 : 8 * (index / 8) = index := by omega
      have h9 : 8 * (index / 8 + value.length) = index + 8 * value.length := by omega
      rw [h8, h9]
  · rw [if_neg ha]
    obtain ⟨bp', h1, hw1, hsz1, hds1, hrp1, he1, hb1⟩ :=
      set_bytes_loop_spec h value index hv value.length 0 bp hw (by omega) hsz
    refine ⟨bp', h1, hw1, hsz1, hds1, hrp1, he1, ?_⟩
    intro k
    rw [hb1 k]
    simp only [Nat.mul_zero, Nat.add_zero, Nat.zero_add]

/-- What a successful `bitpack_set_bytes` leaves. -/
theorem set_bytes_success {h : Heap} {bp bp' : bitpack_t} {value : List Nat} {index : Nat}
    (hw : WF bp) (hv : ∀ b ∈ value, b < 256)
    (hi : index + 8 * value.length + 7 < ULONG_MOD)
    (hs : bitpack_set_bytes h bp value index = .success bp' ()) :
    WF bp' ∧ bp'.size = max bp.size (index + 8 * value.length) ∧
    bp'.data_size =
      (if bp.size < index + 8 * value.length then
        max bp.data_size ((index + 8 * value.length + 7) / 8)
       else bp.data_size) ∧
    bp'.read_pos = bp.read_pos ∧ bp'.error = BITPACK_ERR_CLEAR ∧
    bp'.error_str = (_bitpack_err_clear bp).error_str ∧
    ∀ k, raw_bit bp'.data k =
      if index ≤ k ∧ k < index + 8 * value.length then raw_bit value (k - index)
      else raw_bit bp.data k := by
  rw [set_bytes_unfold h bp value index (by omega)] at hs
  have hwc := WF_err_clear hw
  by_cases hg : bp.size < index + 8 * value.length
  · rw [if_pos hg, resize_cases h _ _ hwc.2.2.2.1] at hs
    by_cases hav : round8 (index + 8 * value.length) / 8 > (_bitpack_err_clear bp).data_size ∧
        h.avail (round8 (index + 8 * value.length) / 8) = false
    · rw [if_pos hav] at hs
      exact Res.noConfusion hs
    · rw [if_neg hav, andThen_success] at hs
      have hwr := WF_resized hwc (n := index + 8 * value.length) hi
      obtain ⟨bp2, h2, hw2, hsz2, hds2, hrp2, he2, hb2⟩ :=
        set_bytes_body_spec h value index hv _ hwr (by simp)
      rw [h2] at hs
      injection hs with hs1
      subst hs1
      refine ⟨hw2, ?_, ?_, ?_, ?_, ?_, ?_⟩
      · rw [hsz2, resized_size]; omega
      · rw [hds2, resized_data_size, if_pos hg, round8_div hi, err_clear_data_size]
      · rw [hrp2]; simp
      · exact (he2 (by simp)).1
      · rw [(he2 (by simp)).2]; simp
      · intro k
        rw [hb2 k, resized_raw_bit, err_clear_data]
  · rw [if_neg hg, andThen_success] at hs
    obtain ⟨bp2, h2, hw2, hsz2, hds2, hrp2, he2, hb2⟩ :=
      set_bytes_body_spec h value index hv _ hwc (by simp; omega)
    rw [h2] at hs
    injection hs with hs1
    subst hs1
    refine ⟨hw2, ?_, ?_, ?_, ?_, ?_, ?_⟩
    · rw [hsz2, err_clear_size]; omega
    · rw [hds2, if_neg hg, err_clear_data_size]
    · rw [hrp2]; simp
    · exact (he2 (by simp)).1
    · rw [(he2 (by simp)).2]
    · intro k
      rw [hb2 k, err_clear_data]

/-- With room for the rounded size and a heap that never refuses, `bitpack_set_bytes`
succeeds. -/
theorem set_bytes_ok {h : Heap} (hu : h.unlimited) {bp : bitpack_t} {value : List Nat}
    {index : Nat} (hw : WF bp) (hv : ∀ b ∈ value, b < 256)
    (hi : index + 8 * value.length + 7 < ULONG_MOD) :
    ∃ bp', bitpack_set_bytes h bp value index = .success bp' () := by
  rw [set_bytes_unfold h bp value index (by omega)]
  have hwc := WF_err_clear hw
  by_cases hg : bp.size < index + 8 * value.length
  · rw [if_pos hg, resize_unlimited hu _ _ hwc.2.2.2.1, andThen_success]
    obtain ⟨bp2, h2, -⟩ :=
      set_bytes_body_spec h value index hv _ (WF_resized hwc (n := index + 8 * value.length) hi)
        (by simp)
    exact ⟨bp2, h2⟩
  · rw [if_neg hg, andThen_success]
    obtain ⟨bp2, h2, -⟩ := set_bytes_body_spec h value index hv _ hwc (by simp; omega)
    exact ⟨bp2, h2⟩

/-! ## C7: the bits `bitpack_set_bytes` writes -/

/-- C7: after a successful `bitpack_set_bytes(bytes, index)` on a well-formed object, the
rounded end `index + 8 * len + 7` being an `unsigned long`: for every `i < len` and every
`j < 8` the bit at `index + 8 * i + j` equals bit `7 - j` of `bytes[i]`, on the byte-aligned
bulk-copy path and on the unaligned per-byte path alike; the size becomes the maximum of
the old size and `index + 8 * len`, and every bit below the old size that lies outside
`[index, index + 8 * len)` is unchanged. -/
theorem C7_set_bytes_bits (h : Heap) (bp bp' : bitpack_t) (bytes : List Nat) (index : Nat)
    (hw : WF bp) (hv : ∀ b ∈ bytes, b < 256)
    (hi : index + 8 * bytes.length + 7 < ULONG_MOD)
    (hs : bitpack_set_bytes h bp bytes index = .success bp' ()) :
    (∀ i j, i < bytes.length → j < 8 →
      (bitpack_get bp' (index + 8 * i + j)).value = some (bytes.getD i 0 / 2 ^ (7 - j) % 2)) ∧
    bp'.size = max bp.size (index + 8 * bytes.length) ∧
    ∀ k, k < bp.size → (k < index ∨ index + 8 * bytes.length ≤ k) →
      ∃ b, (bitpack_get bp k).value = some b ∧ (bitpack_get bp' k).value = some b := by
  obtain ⟨hw', hsz, -, -, -, -, hbits⟩ := set_bytes_success hw hv hi hs
  refine ⟨?_, hsz, ?_⟩
  · intro i j hil hj
    rw [bitpack_get_value hw' (by omega), hbits, if_pos (by omega)]
    have hq : (index + 8 * i + j - index) / 8 = i := by omega
    have hr : (index + 8 * i + j - index) % 8 = j := by omega
    have hb : bytes[(index + 8 * i + j - index) / 8]? = some bytes[i] := by
      rw [hq]; exact List.getElem?_eq_getElem hil
    rw [raw_bit_eq_div hv hb, hr, List.getD_eq_getElem?_getD, List.getElem?_eq_getElem hil]
    rfl
  · intro k hk hout
    refine ⟨raw_bit bp.data k, bitpack_get_value hw hk, ?_⟩
    rw [bitpack_get_value hw' (by omega), hbits, if_neg (by omega)]


/-! ## Byte arrays: reading -/

/-- An 8-bit field whose bits are those of the byte `x`, most significant first, reads as
`x`. -/
theorem gather_eq_byte (data : List Nat) (idx x : Nat) (hx : x < 256)
    (hb : ∀ j, j < 8 → raw_bit data (idx + j) = x / 2 ^ (7 - j) % 2) :
    gather data 8 idx 8 0 0 = x := by
  apply Nat.eq_of_testBit_eq
  intro t
  rw [gather_field_testBit data idx (by norm_num)]
  by_cases ht : t < 8
  · have h7 : 7 - (8 - 1 - t) = t := by omega
    rw [hb (8 - 1 - t) (by omega), h7, ← Nat.toNat_testBit]
    cases x.testBit t <;> simp [ht]
  · have : x.testBit t = false :=
      Nat.testBit_lt_two_pow (Nat.lt_of_lt_of_le hx (by
        calc 256 = 2 ^ 8 := by norm_num
          _ ≤ 2 ^ t := Nat.pow_le_pow_right (by norm_num) (by omega)))
    simp [ht, this]

/-- At the start of a byte an 8-bit field reads as that byte. -/
theorem gather_aligned (data : List Nat) (hd : ∀ b ∈ data, b < 256) (m : Nat)
    (hm : m < data.length) : gather data 8 (8 * m) 8 0 0 = data[m] := by
  apply gather_eq_byte data (8 * m) data[m] (hd _ (List.getElem_mem hm))
  intro j hj
  have hq : (8 * m + j) / 8 = m := by omega
  have hr : (8 * m + j) % 8 = j := by omega
  have hb : data[(8 * m + j) / 8]? = some data[m] := by
    rw [hq]; exact List.getElem?_eq_getElem hm
  rw [raw_bit_eq_div hd hb, hr]

theorem unpacked_bytes_length (data : List Nat) (num_bytes index : Nat) :
    (unpacked_bytes data num_bytes index).length = num_bytes := by
  simp [unpacked_bytes]

theorem unpacked_bytes_getElem? (data : List Nat) (num_bytes index : Nat) {i : Nat}
    (hi : i < num_bytes) :
    (unpacked_bytes data num_bytes index)[i]? = some (gather data 8 (index + 8 * i) 8 0 0) := by
  simp [unpacked_bytes, List.getElem?_map, List.getElem?_range hi]

/-- The loop of the unaligned path of `bitpack_get_bytes`, run inside a well-formed object
whose error is clear, appends the 8-bit fields. -/
theorem get_bytes_loop_eq (index : Nat) :
    ∀ (n i : Nat) (bp : bitpack_t) (byte : Option Nat) (acc : List Nat), WF bp →
      bp.error = BITPACK_ERR_CLEAR → index + 8 * (i + n) ≤ bp.size →
      bitpack_get_bytes_loop index n i bp byte acc
        = .success bp
            (acc ++ (List.range n).map fun m => gather bp.data 8 (index + 8 * (i + m)) 8 0 0)
      := by
  intro n
  induction n with
  | zero =>
    intro i bp byte acc _ _ _
    unfold bitpack_get_bytes_loop
    simp
  | succ n ih =>
    intro i bp byte acc hw hc hsz
    have hM := hw.1
    have hidx : (index + (i * 8) % ULONG_MOD) % ULONG_MOD = index + 8 * i := by
      rw [Nat.mod_eq_of_lt (show i * 8 < ULONG_MOD by omega), Nat.mod_eq_of_lt (by omega)]
      omega
    unfold bitpack_get_bytes_loop
    rw [hidx, get_bits_eq hw (by omega) (by omega) (by unfold ULONG_BITS; norm_num),
      err_clear_of_clear hc]
    simp only
    rw [ih (i + 1) bp _ _ hw hc (by omega)]
    have hlt := @gather_lt bp.data 8 (index + 8 * i) (by norm_num)
    have hmod : gather bp.data 8 (index + 8 * i) 8 0 0 % 256
        = gather bp.data 8 (index + 8 * i) 8 0 0 := Nat.mod_eq_of_lt (by omega)
    rw [hmod, List.range_succ_eq_map, List.map_cons, List.map_map, List.append_assoc]
    congr 2
    rw [List.singleton_append, Nat.add_zero]
    congr 1
    apply List.map_congr_left
    intro m _
    simp only [Function.comp]
    have : i + 1 + m = i + m.succ := by omega
    rw [this]

/-- A read of bytes that lies inside a well-formed object, its buffer allocated, succeeds on
both paths, returns the 8-bit fields and only clears the error. -/
theorem get_bytes_eq (h : Heap) {bp : bitpack_t} (hw : WF bp) {num_bytes index : Nat}
    (hi : index < bp.size) (he : index + 8 * num_bytes ≤ bp.size)
    (ha : h.avail num_bytes = true) :
    bitpack_get_bytes h bp num_bytes index
      = .success (_bitpack_err_clear bp) (unpacked_bytes bp.data num_bytes index) := by
  have hM := hw.1
  obtain ⟨w1, w2, w3, w4, w5, w6⟩ := hw
  unfold bitpack_get_bytes bitpack_size malloc
  have h1 : ¬ index ≥ bp.size := by omega
  have hmul : (num_bytes * 8) % ULONG_MOD = 8 * num_bytes := by
    rw [Nat.mod_eq_of_lt (by omega)]; omega
  have h2 : ¬ (index + 8 * num_bytes) % ULONG_MOD > bp.size := by
    rw [Nat.mod_eq_of_lt (by omega)]; omega
  simp only [err_clear_size, h1, hmul, h2, if_false, ha, if_true, err_clear_data]
  by_cases hal : index % 8 = 0
  · rw [if_pos hal]
    have hle : index / 8 + num_bytes ≤ bp.data.length := by omega
    unfold memread
    rw [if_pos hle]
    simp only
    congr 1
    apply List.ext_getElem?
    intro i
    by_cases hin : i < num_bytes
    · rw [unpacked_bytes_getElem? _ _ _ hin, List.getElem?_take, if_pos hin,
        List.getElem?_drop]
      have hlt : index / 8 + i < bp.data.length := by omega
      rw [List.getElem?_eq_getElem hlt]
      have h8 : index + 8 * i = 8 * (index / 8 + i) := by omega
      rw [h8, gather_aligned bp.data w6 _ hlt]
    · rw [List.getElem?_eq_none (by simp; omega),
        List.getElem?_eq_none (by rw [unpacked_bytes_length]; omega)]
  · rw [if_neg hal]
    rw [get_bytes_loop_eq index num_bytes 0 _ none [] (WF_err_clear ⟨w1, w2, w3, w4, w5, w6⟩)
      (by simp) (by simp; omega)]
    simp [unpacked_bytes]

/-- The checks a successful `bitpack_get_bytes` has passed. -/
theorem get_bytes_checks {h : Heap} {bp bp' : bitpack_t} {num_bytes index : Nat}
    {out : List Nat} (hi : index + 8 * num_bytes < ULONG_MOD)
    (hs : bitpack_get_bytes h bp num_bytes index = .success bp' out) :
    index < bp.size ∧ index + 8 * num_bytes ≤ bp.size ∧ h.avail num_bytes = true := by
  have hmul : (num_bytes * 8) % ULONG_MOD = 8 * num_bytes := by
    rw [Nat.mod_eq_of_lt (by omega)]; omega
  unfold bitpack_get_bytes bitpack_size malloc at hs
  simp only [err_clear_size, hmul, Nat.mod_eq_of_lt hi] at hs
  by_cases h1 : index ≥ bp.size
  · rw [if_pos h1] at hs; exact Res.noConfusion hs
  · rw [if_neg h1] at hs
    by_cases h2 : index + 8 * num_bytes > bp.size
    · rw [if_pos h2] at hs; exact Res.noConfusion hs
    · rw [if_neg h2] at hs
      by_cases h3 : h.avail num_bytes = true
      · exact ⟨by omega, by omega, h3⟩
      · simp only [h3] at hs
        exact Res.noConfusion hs

/-! ## C8: `bitpack_get_bytes` returns the 8-bit fields -/

/-- C8: whenever `bitpack_get_bytes(num_bytes, index)` succeeds on a well-formed object,
`index + 8 * num_bytes` being an `unsigned long`, it returns exactly `num_bytes` bytes, and
for every `i < num_bytes` byte `i` equals the value `bitpack_get_bits(8, index + 8 * i)`
returns on the same object; this holds on the bulk-copy path of a byte-aligned index as on
the bit-by-bit path. -/
theorem C8_get_bytes_fields (h : Heap) (bp bp' : bitpack_t) (num_bytes index : Nat)
    (out : List Nat) (hw : WF bp) (hi : index + 8 * num_bytes < ULONG_MOD)
    (hs : bitpack_get_bytes h bp num_bytes index = .success bp' out) :
    out.length = num_bytes ∧
    ∀ i, i < num_bytes →
      ∃ b, out[i]? = some b ∧ (bitpack_get_bits bp 8 (index + 8 * i)).value = some b := by
  obtain ⟨h1, h2, h3⟩ := get_bytes_checks hi hs
  rw [get_bytes_eq h hw h1 h2 h3] at hs
  injection hs with _ hout
  subst hout
  refine ⟨unpacked_bytes_length _ _ _, ?_⟩
  intro i hin
  refine ⟨_, unpacked_bytes_getElem? _ _ _ hin, ?_⟩
  rw [get_bits_eq hw (by omega) (by omega) (by unfold ULONG_BITS; norm_num)]
  rfl


/-- Witness of C7: writing the bytes `0xAA, 0xBB` at the unaligned index 3 of the 10-bit
object `1010101010`. -/
theorem C7_set_bytes_bits_witness :
    (∀ i j, i < [0xAA, 0xBB].length → j < 8 →
      (bitpack_get bp_after_set_bytes (3 + 8 * i + j)).value
        = some ([0xAA, 0xBB].getD i 0 / 2 ^ (7 - j) % 2)) ∧
    bp_after_set_bytes.size = max bp_1010101010.size (3 + 8 * [0xAA, 0xBB].length) ∧
    ∀ k, k < bp_1010101010.size → (k < 3 ∨ 3 + 8 * [0xAA, 0xBB].length ≤ k) →
      ∃ b, (bitpack_get bp_1010101010 k).value = some b ∧
        (bitpack_get bp_after_set_bytes k).value = some b :=
  C7_set_bytes_bits plenty bp_1010101010 bp_after_set_bytes [0xAA, 0xBB] 3 (by decide)
    (by decide) (by decide) (by decide)

/-- Witness of C8: reading six bytes at the unaligned index 50 of the object of the test
`test_bitpack_get_set_bytes`. -/
theorem C8_get_bytes_fields_witness :
    [0xaa, 0xbb, 0xcc, 0xdd, 0xee, 0xff].length = 6 ∧
    ∀ i, i < 6 →
      ∃ b, [0xaa, 0xbb, 0xcc, 0xdd, 0xee, 0xff][i]? = some b ∧
        (bitpack_get_bits bp_test_bytes 8 (50 + 8 * i)).value = some b :=
  C8_get_bytes_fields plenty bp_test_bytes bp_test_bytes 6 50
    [0xaa, 0xbb, 0xcc, 0xdd, 0xee, 0xff] (by decide) (by decide) (by decide)

/-! ## C2: byte round trip -/

/-- C2 as stated fails for the empty byte array written at the end of the object: on the
empty object `bitpack_set_bytes` with no bytes at index 0 succeeds and leaves the size 0, and
the following `bitpack_get_bytes(0, 0)` fails with `BITPACK_ERR_INVALID_INDEX`. -/
theorem C2_counterexample :
    ∃ bp' bp'', bitpack_set_bytes plenty bp_empty32 [] 0 = .success bp' () ∧
      bitpack_get_bytes plenty bp' 0 0 = .error bp'' ∧
      bp''.error = BITPACK_ERR_INVALID_INDEX :=
  ⟨bp_empty32,
   { bp_empty32 with error := BITPACK_ERR_INVALID_INDEX,
                     error_str := invalid_index_str 0 bp_empty32 },
   by decide, by decide, rfl⟩

/-- C2, amended: on a well-formed object, for a byte array `b` that is not empty or is
written at an index below the size, the rounded end `i + 8 * len(b) + 7` being an
`unsigned long`, and with allocation succeeding, byte-aligned or not:
`bitpack_set_bytes(b, i)` succeeds, and a following `bitpack_get_bytes(len(b), i)` on the
resulting object succeeds and returns exactly `b`. -/
theorem C2_bytes_round_trip (h : Heap) (bp : bitpack_t) (b : List Nat) (i : Nat)
    (hu : h.unlimited) (hw : WF bp) (hb : ∀ x ∈ b, x < 256)
    (hne : b ≠ [] ∨ i < bp.size) (hi : i + 8 * b.length + 7 < ULONG_MOD) :
    ∃ bp' bp'', bitpack_set_bytes h bp b i = .success bp' () ∧
      bitpack_get_bytes h bp' b.length i = .success bp'' b := by
  obtain ⟨bp', hs⟩ := set_bytes_ok hu hw hb hi
  obtain ⟨hw', hsz, -, -, -, -, hbits⟩ := set_bytes_success hw hb hi hs
  have hlt : i < bp'.size := by
    rcases hne with hne | hne
    · have : 0 < b.length := List.length_pos.mpr hne
      omega
    · omega
  refine ⟨bp', _bitpack_err_clear bp', hs, ?_⟩
  rw [get_bytes_eq h hw' hlt (by omega) (hu _)]
  congr 1
  apply List.ext_getElem?
  intro m
  by_cases hm : m < b.length
  · rw [unpacked_bytes_getElem? _ _ _ hm, List.getElem?_eq_getElem hm]
    congr 1
    apply gather_eq_byte _ _ _ (hb _ (List.getElem_mem hm))
    intro j hj
    have hidx : i + 8 * m + j - i = 8 * m + j := by omega
    rw [hbits, if_pos (by omega), hidx]
    have hq : (8 * m + j) / 8 = m := by omega
    have hr : (8 * m + j) % 8 = j := by omega
    have hbm : b[(8 * m + j) / 8]? = some b[m] := by
      rw [hq]; exact List.getElem?_eq_getElem hm
    rw [raw_bit_eq_div hb hbm, hr]
  · rw [List.getElem?_eq_none (by rw [unpacked_bytes_length]; omega),
      List.getElem?_eq_none (by omega)]

/-- Witness of C2, amended: the bytes `0xAA, 0xBB` written at the unaligned index 3 of the
10-bit object `1010101010` and read back. -/
theorem C2_bytes_round_trip_witness :
    ∃ bp' bp'', bitpack_set_bytes plenty bp_1010101010 [0xAA, 0xBB] 3 = .success bp' () ∧
      bitpack_get_bytes plenty bp' [0xAA, 0xBB].length 3 = .success bp'' [0xAA, 0xBB] :=
  C2_bytes_round_trip plenty bp_1010101010 [0xAA, 0xBB] 3 plenty_unlimited (by decide)
    (by decide) (Or.inl (by decide)) (by decide)

/-! ## C1, C3, C4, C5: fields of 32 bits and more -/

/-- C1 at a failing input: on a new object of 4 bytes, `bitpack_set_bits(0xffffffff, 32, 0)`
succeeds and the following `bitpack_get_bits(32, 0)` succeeds but returns
`0xffffffffffffffff`, not `0xffffffff`: the `int` value `bit << 31` is negative and is
sign-extended when it is or-ed into the `unsigned long` result. -/
theorem C1_round_trip_32_bits :
    bitpack_init plenty 4 = some bp_new4 ∧
    bitpack_set_bits plenty bp_new4 0xffffffff 32 0
      = .success (bp_of_4_bytes 0xff 0xff 0xff 0xff) () ∧
    bitpack_get_bits (bp_of_4_bytes 0xff 0xff 0xff 0xff) 32 0
      = .success (bp_of_4_bytes 0xff 0xff 0xff 0xff) 0xffffffffffffffff :=
  ⟨by decide, by decide, by decide⟩

/-- C3 at a failing input: on a new object of 4 bytes, `bitpack_append_bits(0xffffffff, 32)`
succeeds and the following `bitpack_read_bits(32)` succeeds and leaves the read position
at 32, but returns `0xffffffffffffffff`, not `0xffffffff`. -/
theorem C3_append_read_32_bits :
    bitpack_init plenty 4 = some bp_new4 ∧
    bitpack_append_bits plenty bp_new4 0xffffffff 32
      = .success (bp_of_4_bytes 0xff 0xff 0xff 0xff) () ∧
    bitpack_read_bits (bp_of_4_bytes 0xff 0xff 0xff 0xff) 32
      = .success { bp_of_4_bytes 0xff 0xff 0xff 0xff with read_pos := 32 }
          0xffffffffffffffff :=
  ⟨by decide, by decide, by decide⟩

/-- C4 at a failing input: on a new object of 4 bytes,
`bitpack_set_bits(0x100000000, 33, 0)` succeeds; bit 32 of the value is 1 and bit 31 is 0,
but the bit at index 0 reads 0 and the bit at index 1 reads 1: the masks `1 << 32` and
`1 << 31` are computed in `int`. -/
theorem C4_set_bits_33_bits :
    bitpack_init plenty 4 = some bp_new4 ∧
    bitpack_set_bits plenty bp_new4 0x100000000 33 0 = .success bp_33_bits () ∧
    0x100000000 / 2 ^ (33 - 1 - 0) % 2 = 1 ∧ (bitpack_get bp_33_bits 0).value = some 0 ∧
    0x100000000 / 2 ^ (33 - 1 - 1) % 2 = 0 ∧ (bitpack_get bp_33_bits 1).value = some 1 :=
  ⟨by decide, by decide, by decide, by decide, by decide, by decide⟩

/-- C5 at a failing input: on the object made from the bytes `0x80, 0, 0, 0`,
`bitpack_get_bits(32, 0)` succeeds and returns `0xffffffff80000000`, while the sum of the
bits read most significant first is `0x80000000`. -/
theorem C5_get_bits_32_bits :
    bitpack_init_from_bytes plenty [0x80, 0, 0, 0] = some (bp_of_4_bytes 0x80 0 0 0) ∧
    bitpack_get_bits (bp_of_4_bytes 0x80 0 0 0) 32 0
      = .success (bp_of_4_bytes 0x80 0 0 0) 0xffffffff80000000 ∧
    msb_first_sum (bp_of_4_bytes 0x80 0 0 0) 32 0 = 0x80000000 :=
  ⟨by decide, by decide, by decide⟩


/-! ## C11, C12, C13: the checks of `bitpack_set_bits` -/

/-- A failed `_bitpack_resize` reports `BITPACK_ERR_MALLOC_FAILED`. -/
theorem resize_error_kind {h : Heap} {bp bp' : bitpack_t} {n : Nat}
    (hs : _bitpack_resize h bp n = .error bp') : bp'.error = BITPACK_ERR_MALLOC_FAILED := by
  unfold _bitpack_resize at hs
  simp only at hs
  split at hs
  · split at hs
    · injection hs with h1
      rw [← h1]
    · split at hs <;> exact Res.noConfusion hs
  · exact Res.noConfusion hs

/-- A failed `bitpack_on` or `bitpack_off` reports `BITPACK_ERR_MALLOC_FAILED`. -/
theorem poke_error_kind {f : Nat → Nat → Nat} {h : Heap} {bp bp' : bitpack_t} {index : Nat}
    (hs : poke f h bp index = .error bp') : bp'.error = BITPACK_ERR_MALLOC_FAILED := by
  unfold poke at hs
  cases hg : grow_for_bit h (_bitpack_err_clear bp) index with
  | undefined => rw [hg] at hs; exact Res.noConfusion hs
  | error bp1 =>
    rw [hg] at hs
    injection hs with h1
    subst h1
    unfold grow_for_bit at hg
    split at hg
    · exact resize_error_kind hg
    · exact Res.noConfusion hg
  | success bp1 u =>
    rw [hg] at hs
    simp only at hs
    split at hs <;> exact Res.noConfusion hs

/-- A failure inside the loop of `bitpack_set_bits` reports `BITPACK_ERR_MALLOC_FAILED`. -/
theorem set_bits_loop_error_kind (h : Heap) (value : Nat) :
    ∀ (i : Nat) (bp bp' : bitpack_t) (index : Nat),
      bitpack_set_bits_loop h value i bp index = .error bp' →
      bp'.error = BITPACK_ERR_MALLOC_FAILED := by
  intro i
  induction i with
  | zero =>
    intro bp bp' index hs
    unfold bitpack_set_bits_loop at hs
    exact Res.noConfusion hs
  | succ i ih =>
    intro bp bp' index hs
    rw [set_bits_loop_step] at hs
    cases hp : poke (if field_bit value (i + 1) 0 = 1 then on_byte else off_byte) h bp index with
    | undefined => rw [hp] at hs; exact Res.noConfusion hs
    | error bp1 =>
      rw [hp, andThen_error] at hs
      injection hs with h1
      subst h1
      exact poke_error_kind hp
    | success bp1 u =>
      rw [hp, andThen_success] at hs
      exact ih _ _ _ hs

/-- The three ways `bitpack_set_bits` fails: the width check, the value check, or a failed
allocation later on. -/
theorem set_bits_error_cases {h : Heap} {bp bp' : bitpack_t} {value num_bits index : Nat}
    (hs : bitpack_set_bits h bp value num_bits index = .error bp') :
    (ULONG_BITS < num_bits ∧
      bp' = { _bitpack_err_clear bp with error := BITPACK_ERR_RANGE_TOO_BIG,
                                         error_str := range_too_big_str num_bits }) ∨
    (num_bits ≤ ULONG_BITS ∧ pow2_minus_1 num_bits < to_double value ∧
      bp' = { _bitpack_err_clear bp with error := BITPACK_ERR_VALUE_TOO_BIG,
                                         error_str := value_too_big_str value num_bits }) ∨
    bp'.error = BITPACK_ERR_MALLOC_FAILED := by
  unfold bitpack_set_bits at hs
  simp only at hs
  by_cases h1 : num_bits > ULONG_BITS
  · rw [if_pos h1] at hs
    injection hs with h2
    exact Or.inl ⟨h1, h2.symm⟩
  · rw [if_neg h1] at hs
    by_cases h2 : to_double value > pow2_minus_1 num_bits
    · rw [if_pos h2] at hs
      injection hs with h3
      exact Or.inr (Or.inl ⟨by omega, h2, h3.symm⟩)
    · rw [if_neg h2] at hs
      refine Or.inr (Or.inr ?_)
      split at hs
      · rename_i bp1 hg
        injection hs with h3
        subst h3
        split at hg
        · exact resize_error_kind hg
        · exact Res.noConfusion hg
      · exact Res.noConfusion hs
      · exact set_bits_loop_error_kind h value _ _ _ _ hs

/-- C12: for every object, value and index, `bitpack_set_bits` with `num_bits` greater than
64, the width of `unsigned long`, fails with `BITPACK_ERR_RANGE_TOO_BIG`. -/
theorem C12_set_bits_range_too_big (h : Heap) (bp : bitpack_t) (value num_bits index : Nat)
    (hn : 64 < num_bits) :
    ∃ bp', bitpack_set_bits h bp value num_bits index = .error bp' ∧
      bp'.error = BITPACK_ERR_RANGE_TOO_BIG := by
  refine ⟨{ _bitpack_err_clear bp with error := BITPACK_ERR_RANGE_TOO_BIG,
                                       error_str := range_too_big_str num_bits }, ?_, rfl⟩
  unfold bitpack_set_bits
  simp only
  rw [if_pos (show num_bits > ULONG_BITS from hn)]

/-- Witness of C12: the call of the test, 65 bits at index 0 of the 10-bit object. -/
theorem C12_set_bits_range_too_big_witness :
    ∃ bp', bitpack_set_bits plenty bp_1010101010 0 65 0 = .error bp' ∧
      bp'.error = BITPACK_ERR_RANGE_TOO_BIG :=
  C12_set_bits_range_too_big plenty bp_1010101010 0 65 0 (by decide)

/-- C13: when `bitpack_set_bits` fails with `BITPACK_ERR_RANGE_TOO_BIG` or
`BITPACK_ERR_VALUE_TOO_BIG`, the size, the allocated size, the stored bytes and the read
position are exactly what they were before the call. -/
theorem C13_set_bits_failure_frame (h : Heap) (bp bp' : bitpack_t)
    (value num_bits index : Nat)
    (hs : bitpack_set_bits h bp value num_bits index = .error bp')
    (he : bp'.error = BITPACK_ERR_RANGE_TOO_BIG ∨ bp'.error = BITPACK_ERR_VALUE_TOO_BIG) :
    bp'.size = bp.size ∧ bp'.data_size = bp.data_size ∧ bp'.data = bp.data ∧
    bp'.read_pos = bp.read_pos := by
  rcases set_bits_error_cases hs with ⟨-, h1⟩ | ⟨-, -, h1⟩ | h1
  · subst h1; simp
  · subst h1; simp
  · rcases he with he | he <;> rw [h1] at he <;> exact bitpack_err_t.noConfusion he

/-- Witness of C13: the failing call `bitpack_set_bits(bp, 8, 3, 0)` of the test, on the
10-bit object. -/
theorem C13_set_bits_failure_frame_witness :
    bp_1010101010_value_too_big.size = bp_1010101010.size ∧
    bp_1010101010_value_too_big.data_size = bp_1010101010.data_size ∧
    bp_1010101010_value_too_big.data = bp_1010101010.data ∧
    bp_1010101010_value_too_big.read_pos = bp_1010101010.read_pos :=
  C13_set_bits_failure_frame plenty bp_1010101010 bp_1010101010_value_too_big 8 3 0
    (by decide) (Or.inr rfl)


/-- For a number of at least `2 ^ 53` the shift `excess_bits` finds leaves at least
`2 ^ 52`. -/
theorem excess_bits_large (fuel : Nat) :
    ∀ n, 2 ^ 53 ≤ n → 1 ≤ excess_bits (fuel + 1) n ∧
      2 ^ 52 ≤ n / 2 ^ excess_bits (fuel + 1) n := by
  induction fuel with
  | zero =>
    intro n hn
    have h1 : ¬ n < 2 ^ 53 := by omega
    simp only [excess_bits, h1, if_false]
    refine ⟨by omega, ?_⟩
    simp only [Nat.zero_add, Nat.pow_one]
    omega
  | succ f ih =>
    intro n hn
    have h1 : ¬ n < 2 ^ 53 := by omega
    rw [excess_bits]
    simp only [h1, if_false]
    refine ⟨by omega, ?_⟩
    by_cases h2 : n / 2 < 2 ^ 53
    · rw [excess_bits]
      simp only [h2, if_true, Nat.zero_add, Nat.pow_one]
      omega
    · obtain ⟨-, h3⟩ := ih (n / 2) (by omega)
      have key : n / 2 ^ (excess_bits (f + 1) (n / 2) + 1)
          = n / 2 / 2 ^ excess_bits (f + 1) (n / 2) := by
        rw [Nat.div_div_eq_div_mul, Nat.pow_succ, Nat.mul_comm]
      rw [key]
      exact h3

/-- The conversion to `double` of a number of at least `2 ^ 53` is at least `2 ^ 53`. -/
theorem to_double_large {n : Nat} (hn : 2 ^ 53 ≤ n) : 2 ^ 53 ≤ to_double n := by
  obtain ⟨h1, h2⟩ := excess_bits_large 11 n hn
  unfold to_double
  simp only
  have hp : 2 ≤ 2 ^ excess_bits 12 n := by
    calc 2 = 2 ^ 1 := by norm_num
      _ ≤ 2 ^ excess_bits 12 n := Nat.pow_le_pow_right (by norm_num) h1
  have hq : 2 ^ 53 ≤ n / 2 ^ excess_bits 12 n * 2 ^ excess_bits 12 n := by
    calc 2 ^ 53 = 2 ^ 52 * 2 := by norm_num
      _ ≤ n / 2 ^ excess_bits 12 n * 2 ^ excess_bits 12 n := Nat.mul_le_mul h2 hp
  split
  · exact hq
  · calc 2 ^ 53 ≤ n / 2 ^ excess_bits 12 n * 2 ^ excess_bits 12 n := hq
      _ ≤ (n / 2 ^ excess_bits 12 n + 1) * 2 ^ excess_bits 12 n :=
        Nat.mul_le_mul_right _ (by omega)

/-- For a width up to 53 the value check of `bitpack_set_bits` is exact: a value above
`2 ^ num_bits - 1` fails with `BITPACK_ERR_VALUE_TOO_BIG`. -/
theorem set_bits_value_too_big (h : Heap) (bp : bitpack_t) {value num_bits : Nat}
    (index : Nat) (hn : num_bits ≤ 53) (hv : 2 ^ num_bits - 1 < value) :
    ∃ bp', bitpack_set_bits h bp value num_bits index = .error bp' ∧
      bp'.error = BITPACK_ERR_VALUE_TOO_BIG := by
  refine ⟨{ _bitpack_err_clear bp with error := BITPACK_ERR_VALUE_TOO_BIG,
                                       error_str := value_too_big_str value num_bits }, ?_, rfl⟩
  have h1 : ¬ num_bits > ULONG_BITS := by unfold ULONG_BITS; omega
  have hp : 2 ^ num_bits ≤ 2 ^ 53 := Nat.pow_le_pow_right (by norm_num) hn
  have h2 : to_double value > pow2_minus_1 num_bits := by
    rw [pow2_minus_1_small hn]
    by_cases hs : value < 2 ^ 53
    · rw [to_double_small hs]; exact hv
    · have := to_double_large (n := value) (by omega)
      have : 0 < 2 ^ num_bits := Nat.two_pow_pos _
      omega
  unfold bitpack_set_bits
  simp only
  rw [if_neg h1, if_pos h2]

/-- C11 at a failing input: `2 ^ 54` does not fit in 54 bits, yet on a new object of 4 bytes
`bitpack_set_bits(bp, 2 ^ 54, 54, 0)` returns success: in `double` both `pow(2, 54) - 1`
and the value are `2 ^ 54`, so the comparison `value > pow(2, num_bits) - 1` is false. -/
theorem C11_value_check_54_bits :
    2 ^ 54 - 1 < 2 ^ 54 ∧ to_double (2 ^ 54) = 2 ^ 54 ∧ pow2_minus_1 54 = 2 ^ 54 ∧
    (bitpack_set_bits plenty bp_new4 (2 ^ 54) 54 0).rv = some BITPACK_RV_SUCCESS :=
  ⟨by decide, by decide, by decide, by decide⟩

/-! ## C14, C15: the checks of `bitpack_get_bits` -/

/-- A read below the size whose `index + num_bits` does not fit in an `unsigned long`
passes the second check, the sum having wrapped below the index, and is rejected by the
width check; the object has at most `2 ^ 64 - 64` bits. -/
theorem get_bits_wrapped {bp : bitpack_t} {num_bits index : Nat} (h1 : index < bp.size)
    (hsz : bp.size + 64 ≤ ULONG_MOD) (hn : num_bits < ULONG_MOD)
    (hwrap : ULONG_MOD ≤ index + num_bits) :
    bitpack_get_bits bp num_bits index
      = .error { _bitpack_err_clear bp with
          error := BITPACK_ERR_RANGE_TOO_BIG, error_str := range_too_big_str num_bits } := by
  have hm : (index + num_bits) % ULONG_MOD = index + num_bits - ULONG_MOD := by
    rw [Nat.mod_eq_sub_mod hwrap, Nat.mod_eq_of_lt (by omega)]
  unfold bitpack_get_bits bitpack_size
  simp only [err_clear_size]
  rw [if_neg (show ¬ index ≥ bp.size by omega),
    if_neg (show ¬ (index + num_bits) % ULONG_MOD > bp.size by omega),
    if_pos (show num_bits > ULONG_BITS by unfold ULONG_BITS; omega)]

/-- C14 as stated fails for a `num_bits` so large that `index + num_bits` does not fit in an
`unsigned long`: on the 10-bit object, `bitpack_get_bits(bp, ULONG_MAX, 3)` has its index
below the size and `index + num_bits` above it, and fails with
`BITPACK_ERR_RANGE_TOO_BIG`, not `BITPACK_ERR_READ_PAST_END`: the sum wraps to 2, the second
check passes and the width check rejects the read. -/
theorem C14_counterexample :
    3 < bitpack_size bp_1010101010 ∧ bitpack_size bp_1010101010 < 3 + (2 ^ 64 - 1) ∧
    (3 + (2 ^ 64 - 1)) % ULONG_MOD = 2 ∧
    (bitpack_get_bits bp_1010101010 (2 ^ 64 - 1) 3).outcome
      = some (.inl BITPACK_ERR_RANGE_TOO_BIG) :=
  ⟨by decide, by decide, by decide, by decide⟩

/-- C14, amended: for every `num_bits`, `bitpack_get_bits(num_bits, index)` fails with
`BITPACK_ERR_INVALID_INDEX` whenever the index is not below the size, and fails with
`BITPACK_ERR_READ_PAST_END` whenever the index is below the size and `index + num_bits`,
the `unsigned long` sum the code compares, is above it; when `index + num_bits` does not
fit in an `unsigned long` the read fails with `BITPACK_ERR_RANGE_TOO_BIG` (on an object of
at most `2 ^ 64 - 64` bits). -/
theorem C14_get_bits_index_checks (bp : bitpack_t) (num_bits index : Nat) :
    (bp.size ≤ index →
      ∃ bp', bitpack_get_bits bp num_bits index = .error bp' ∧
        bp'.error = BITPACK_ERR_INVALID_INDEX) ∧
    (index < bp.size → bp.size < (index + num_bits) % ULONG_MOD →
      ∃ bp', bitpack_get_bits bp num_bits index = .error bp' ∧
        bp'.error = BITPACK_ERR_READ_PAST_END) ∧
    (index < bp.size → bp.size + 64 ≤ ULONG_MOD → num_bits < ULONG_MOD →
      ULONG_MOD ≤ index + num_bits →
      ∃ bp', bitpack_get_bits bp num_bits index = .error bp' ∧
        bp'.error = BITPACK_ERR_RANGE_TOO_BIG) := by
  refine ⟨?_, ?_, fun h1 hsz hn hwrap => ⟨_, get_bits_wrapped h1 hsz hn hwrap, rfl⟩⟩
  · intro h1
    refine ⟨{ _bitpack_err_clear bp with
                error := BITPACK_ERR_INVALID_INDEX,
                error_str := invalid_index_str index (_bitpack_err_clear bp) }, ?_, rfl⟩
    unfold bitpack_get_bits bitpack_size
    simp only [err_clear_size]
    rw [if_pos (show index ≥ bp.size from h1)]
  · intro h1 h2
    refine ⟨{ _bitpack_err_clear bp with
                error := BITPACK_ERR_READ_PAST_END,
                error_str := read_past_end_str (_bitpack_err_clear bp) }, ?_, rfl⟩
    unfold bitpack_get_bits bitpack_size
    simp only [err_clear_size]
    rw [if_neg (show ¬ index ≥ bp.size by omega),
      if_pos (show (index + num_bits) % ULONG_MOD > bp.size from h2)]

/-- Witness of C14, amended: the two failing reads of the test, transposed to the 10-bit
object, 3 bits at index 10 and 8 bits at index 3, and the read of `ULONG_MAX` bits at
index 3. -/
theorem C14_get_bits_index_checks_witness :
    (∃ bp', bitpack_get_bits bp_1010101010 3 10 = .error bp' ∧
      bp'.error = BITPACK_ERR_INVALID_INDEX) ∧
    (∃ bp', bitpack_get_bits bp_1010101010 8 3 = .error bp' ∧
      bp'.error = BITPACK_ERR_READ_PAST_END) ∧
    (∃ bp', bitpack_get_bits bp_1010101010 (2 ^ 64 - 1) 3 = .error bp' ∧
      bp'.error = BITPACK_ERR_RANGE_TOO_BIG) :=
  ⟨(C14_get_bits_index_checks bp_1010101010 3 10).1 (by decide),
   (C14_get_bits_index_checks bp_1010101010 8 3).2.1 (by decide) (by decide),
   (C14_get_bits_index_checks bp_1010101010 (2 ^ 64 - 1) 3).2.2 (by decide) (by decide)
     (by decide) (by decide)⟩

/-- C15 as stated fails when the read does not lie inside the object: on the empty object
`bitpack_get_bits(65, 0)` fails with `BITPACK_ERR_INVALID_INDEX`, and on the 10-bit object
with `BITPACK_ERR_READ_PAST_END`; the index checks come first. -/
theorem C15_counterexample :
    (∃ bp', bitpack_get_bits bp_empty32 65 0 = .error bp' ∧
      bp'.error = BITPACK_ERR_INVALID_INDEX) ∧
    (∃ bp', bitpack_get_bits bp_1010101010 65 0 = .error bp' ∧
      bp'.error = BITPACK_ERR_READ_PAST_END) :=
  ⟨⟨{ bp_empty32 with error := BITPACK_ERR_INVALID_INDEX,
                      error_str := invalid_index_str 0 bp_empty32 }, by decide, rfl⟩,
   ⟨{ bp_1010101010 with error := BITPACK_ERR_READ_PAST_END,
                         error_str := read_past_end_str bp_1010101010 }, by decide, rfl⟩⟩

/-- C15, amended: for every object and every read that passes the two index checks (the
index below the size, and `index + num_bits`, the `unsigned long` sum the code compares,
not above it), `bitpack_get_bits` with `num_bits` greater than 64 fails with
`BITPACK_ERR_RANGE_TOO_BIG`. -/
theorem C15_get_bits_range_too_big (bp : bitpack_t) (num_bits index : Nat)
    (hi : index < bp.size) (he : (index + num_bits) % ULONG_MOD ≤ bp.size)
    (hn : 64 < num_bits) :
    ∃ bp', bitpack_get_bits bp num_bits index = .error bp' ∧
      bp'.error = BITPACK_ERR_RANGE_TOO_BIG := by
  refine ⟨{ _bitpack_err_clear bp with error := BITPACK_ERR_RANGE_TOO_BIG,
                                       error_str := range_too_big_str num_bits }, ?_, rfl⟩
  unfold bitpack_get_bits bitpack_size
  simp only [err_clear_size]
  rw [if_neg (show ¬ index ≥ bp.size by omega),
    if_neg (show ¬ (index + num_bits) % ULONG_MOD > bp.size by omega),
    if_pos (show num_bits > ULONG_BITS from hn)]


/-! ## Writes inside the object, and writes whose rounded extent is not an `unsigned long` -/

theorem same_block_refl (bp : bitpack_t) : same_block bp bp := ⟨rfl, rfl, rfl, rfl, fun hb => hb⟩

theorem same_block_trans {a b c : bitpack_t} (h1 : same_block a b) (h2 : same_block b c) :
    same_block a c :=
  ⟨h2.1.trans h1.1, h2.2.1.trans h1.2.1, h2.2.2.1.trans h1.2.2.1, h2.2.2.2.1.trans h1.2.2.2.1,
   fun hb => h2.2.2.2.2 (h1.2.2.2.2 hb)⟩

theorem same_block_err_clear (bp : bitpack_t) : same_block bp (_bitpack_err_clear bp) :=
  ⟨by simp, by simp, by simp, by simp, by simp⟩

/-- For a size in the last seven values of `unsigned long`, `round8` wraps to 0. -/
theorem round8_wrap {n : Nat} (hn : n < ULONG_MOD) (hw : ULONG_MOD ≤ n + 7) : round8 n = 0 := by
  unfold round8
  unfold ULONG_MOD at *
  have h8 : n % 8 ≠ 0 := by omega
  rw [if_pos h8]
  have h2 : n + (8 - n % 8) = 2 ^ 64 := by omega
  rw [h2, Nat.mod_self]

/-- For a new size in the last seven values of `unsigned long`, `_bitpack_resize` sets the
size and does not grow the storage. -/
theorem resize_wrap (h : Heap) (bp : bitpack_t) {n : Nat} (hn : n < ULONG_MOD)
    (hw : ULONG_MOD ≤ n + 7) : _bitpack_resize h bp n = .success { bp with size := n } () := by
  unfold _bitpack_resize
  simp only [round8_wrap hn hw]
  rw [if_neg (by omega)]

/-- A successful `bitpack_on` or `bitpack_off` at an index below the size changes one byte
of the block, which holds the bit. -/
theorem poke_in {f : Nat → Nat → Nat} (hf : ∀ b o, f b o < 256) {h : Heap}
    {bp bp' : bitpack_t} {index : Nat} (hi : index < bp.size)
    (hs : poke f h bp index = .success bp' ()) :
    same_block bp bp' ∧ index / 8 < bp.data.length := by
  unfold poke at hs
  rw [grow_for_bit_eq] at hs
  simp only [err_clear_size, if_neg (show ¬ bp.size ≤ index by omega), err_clear_data] at hs
  cases hb : bp.data[index / 8]? with
  | none => rw [hb] at hs; exact Res.noConfusion hs
  | some b =>
    rw [hb] at hs
    simp only [Res.success.injEq, and_true] at hs
    have hlt : index / 8 < bp.data.length := by
      by_contra hc
      rw [List.getElem?_eq_none (by omega)] at hb
      exact Option.noConfusion hb
    refine ⟨?_, hlt⟩
    rw [← hs]
    refine ⟨by simp, by simp, by simp, by simp, ?_⟩
    intro hd x hx
    simp only at hx
    rcases List.mem_or_eq_of_mem_set hx with h1 | h1
    · exact hd x h1
    · rw [h1]; exact hf _ _

theorem field_bit_byte (value n : Nat) :
    ∀ b o, (if field_bit value n 0 = 1 then on_byte else off_byte) b o < 256 :=
  (field_bit_writes value n).1

/-- A successful loop of `bitpack_set_bits` that runs inside the object leaves the size and
the shape of the block, and its last bit lies in the block. -/
theorem set_bits_loop_in (h : Heap) (value : Nat) :
    ∀ (i : Nat) (bp bp' : bitpack_t) (index : Nat), bp.size < ULONG_MOD →
      index + i ≤ bp.size → bitpack_set_bits_loop h value i bp index = .success bp' () →
      same_block bp bp' ∧ (0 < i → (index + i - 1) / 8 < bp.data.length) := by
  intro i
  induction i with
  | zero =>
    intro bp bp' index _ _ hs
    unfold bitpack_set_bits_loop at hs
    simp only [Res.success.injEq, and_true] at hs
    rw [← hs]
    exact ⟨same_block_refl _, fun hc => absurd hc (by omega)⟩
  | succ i ih =>
    intro bp bp' index hM hi hs
    rw [set_bits_loop_step] at hs
    cases hp : poke (if field_bit value (i + 1) 0 = 1 then on_byte else off_byte) h bp index with
    | undefined => rw [hp] at hs; exact Res.noConfusion hs
    | error bp1 => rw [hp, andThen_error] at hs; exact Res.noConfusion hs
    | success bp1 u =>
      obtain ⟨hb1, hl1⟩ := poke_in (field_bit_byte value (i + 1)) (show index < bp.size by omega) hp
      rw [hp, andThen_success, Nat.mod_eq_of_lt (by omega)] at hs
      obtain ⟨hb2, hl2⟩ := ih bp1 bp' (index + 1) (by rw [hb1.1]; exact hM)
        (by rw [hb1.1]; omega) hs
      refine ⟨same_block_trans hb1 hb2, fun _ => ?_⟩
      by_cases h0 : i = 0
      · subst h0; simpa using hl1
      · have := hl2 (by omega)
        rw [hb1.2.2.2.1] at this
        have he : index + (i + 1) - 1 = index + 1 + i - 1 := by omega
        rw [he]; exact this

/-- A successful `bitpack_set_bits` inside the object leaves the size and the shape of the
block, and its last bit lies in the block. -/
theorem set_bits_in {h : Heap} {bp bp' : bitpack_t} {value num_bits index : Nat}
    (hM : bp.size < ULONG_MOD) (hi : index + num_bits ≤ bp.size)
    (hs : bitpack_set_bits h bp value num_bits index = .success bp' ()) :
    same_block bp bp' ∧ (0 < num_bits → (index + num_bits - 1) / 8 < bp.data.length) := by
  unfold bitpack_set_bits bitpack_size at hs
  simp only [err_clear_size, Nat.mod_eq_of_lt (show index + num_bits < ULONG_MOD by omega)] at hs
  split at hs
  · exact Res.noConfusion hs
  · split at hs
    · exact Res.noConfusion hs
    · rw [if_neg (by omega)] at hs
      simp only at hs
      obtain ⟨hb, hl⟩ := set_bits_loop_in h value num_bits (_bitpack_err_clear bp) bp' index
        (by simpa using hM) (by simpa using hi) hs
      refine ⟨same_block_trans (same_block_err_clear bp) hb, fun hn => ?_⟩
      simpa using hl hn

/-- A successful loop of the unaligned path of `bitpack_set_bytes` that runs inside the
object leaves the size and the shape of the block, and its last bit lies in the block. -/
theorem set_bytes_loop_in (h : Heap) (value : List Nat) (index : Nat) :
    ∀ (n i : Nat) (bp bp' : bitpack_t), bp.size < ULONG_MOD →
      index + 8 * (i + n) ≤ bp.size →
      bitpack_set_bytes_loop h value index n i bp = .success bp' () →
      same_block bp bp' ∧ (0 < n → (index + 8 * (i + n) - 1) / 8 < bp.data.length) := by
  intro n
  induction n with
  | zero =>
    intro i bp bp' _ _ hs
    unfold bitpack_set_bytes_loop at hs
    simp only [Res.success.injEq, and_true] at hs
    rw [← hs]
    exact ⟨same_block_refl _, fun hc => absurd hc (by omega)⟩
  | succ n ih =>
    intro i bp bp' hM hi hs
    have hidx : (index + (i * 8) % ULONG_MOD) % ULONG_MOD = index + 8 * i := by
      rw [Nat.mod_eq_of_lt (show i * 8 < ULONG_MOD by omega), Nat.mod_eq_of_lt (by omega)]
      omega
    unfold bitpack_set_bytes_loop at hs
    rw [hidx] at hs
    cases hb : value[i]? with
    | none => rw [hb] at hs; exact Res.noConfusion hs
    | some b =>
      rw [hb] at hs
      simp only at hs
      cases hp : bitpack_set_bits h bp b 8 (index + 8 * i) with
      | undefined => rw [hp] at hs; exact Res.noConfusion hs
      | error bp1 => rw [hp] at hs; exact Res.noConfusion hs
      | success bp1 u =>
        obtain ⟨hb1, hl1⟩ := set_bits_in hM (show index + 8 * i + 8 ≤ bp.size by omega) hp
        rw [hp] at hs
        simp only at hs
        obtain ⟨hb2, hl2⟩ := ih (i + 1) bp1 bp' (by rw [hb1.1]; exact hM)
          (by rw [hb1.1]; omega) hs
        refine ⟨same_block_trans hb1 hb2, fun _ => ?_⟩
        by_cases h0 : n = 0
        · subst h0
          have := hl1 (by omega)
          have he : index + 8 * (i + (0 + 1)) - 1 = index + 8 * i + 8 - 1 := by omega
          rw [he]; exact this
        · have := hl2 (by omega)
          rw [hb1.2.2.2.1] at this
          have he : index + 8 * (i + (n + 1)) - 1 = index + 8 * (i + 1 + n) - 1 := by omega
          rw [he]; exact this


/-- A successful `bitpack_set_bits` was given a width and a value that pass its checks. -/
theorem set_bits_accepts {h : Heap} {bp bp' : bitpack_t} {value num_bits index : Nat}
    (hs : bitpack_set_bits h bp value num_bits index = .success bp' ()) :
    num_bits ≤ ULONG_BITS ∧ to_double value ≤ pow2_minus_1 num_bits := by
  unfold bitpack_set_bits at hs
  simp only at hs
  split at hs
  · exact Res.noConfusion hs
  · split at hs
    · exact Res.noConfusion hs
    · omega

/-- What a successful `bitpack_on` or `bitpack_off` leaves of the size and the allocated
size, for every index whose successor is an `unsigned long`. -/
theorem poke_grown {f : Nat → Nat → Nat} {v : Nat} (hf : writes_bit f v) {h : Heap}
    {bp bp' : bitpack_t} {index : Nat} (hw : WF bp) (hi : index + 1 < ULONG_MOD)
    (hs : poke f h bp index = .success bp' ()) :
    WF bp' ∧ bp'.size = max bp.size (index + 1) ∧
    bp'.data_size = max bp.data_size ((index + 1 + 7) / 8) := by
  obtain ⟨hw', hsz, -, -, -, hds, -⟩ := poke_success hf hw hi hs
  refine ⟨hw', hsz, ?_⟩
  have h5 := hw.2.2.2.2.1
  have h5' := hw'.2.2.2.2.1
  by_cases hz : index + 1 + 7 < ULONG_MOD
  · rw [hds, round8_div hz]
    split <;> omega
  · rw [hsz] at h5'
    rw [hds, round8_wrap hi (by omega)] at h5' ⊢
    by_cases hc : bp.size ≤ index
    · rw [if_pos hc] at h5' ⊢
      omega
    · rw [if_neg hc] at h5' ⊢
      omega

/-- In the last seven values of `unsigned long` for the end of the field, a successful
`bitpack_set_bits` of at least one bit leaves the storage as large as it was, and the field
lies in it. -/
theorem set_bits_wrap {h : Heap} {bp bp' : bitpack_t} {value num_bits index : Nat}
    (hw : WF bp) (hM : index + num_bits < ULONG_MOD) (hz : ULONG_MOD ≤ index + num_bits + 7)
    (hn : 0 < num_bits) (hlt : bp.size < index + num_bits)
    (hs : bitpack_set_bits h bp value num_bits index = .success bp' ()) :
    WF bp' ∧ bp'.size = index + num_bits ∧ bp'.data_size = bp.data_size ∧
    index + num_bits ≤ 8 * bp.data_size := by
  obtain ⟨w1, w2, w3, w4, w5, w6⟩ := hw
  obtain ⟨ha, hv⟩ := set_bits_accepts hs
  rw [set_bits_unfold h bp value num_bits index ha hv hM, if_pos hlt, resize_wrap h _ hM hz,
    andThen_success] at hs
  obtain ⟨⟨b1, b2, b3, b4, b5⟩, hl⟩ := set_bits_loop_in h value num_bits _ bp' index
    (show ({ _bitpack_err_clear bp with size := index + num_bits } : bitpack_t).size
      < ULONG_MOD from hM) (Nat.le_refl _) hs
  have hl := hl hn
  simp only [err_clear_data, err_clear_data_size, err_clear_read_pos] at b1 b2 b3 b4 b5 hl
  refine ⟨⟨?_, ?_, ?_, ?_, ?_, b5 w6⟩, b1, b2, ?_⟩
  · rw [b1]; exact hM
  · rw [b3]; exact w2
  · rw [b2]; exact w3
  · rw [b4, b2]; exact w4
  · rw [b1, b2]; omega
  · omega

/-- What a successful `bitpack_set_bits` leaves of the size and the allocated size, for
every field whose end is an `unsigned long`; a field of no bits must end 7 below the last
`unsigned long`. -/
theorem set_bits_grown {h : Heap} {bp bp' : bitpack_t} {value num_bits index : Nat}
    (hw : WF bp) (hM : index + num_bits < ULONG_MOD)
    (hn : 0 < num_bits ∨ index + num_bits + 7 < ULONG_MOD)
    (hs : bitpack_set_bits h bp value num_bits index = .success bp' ()) :
    WF bp' ∧ bp'.size = max bp.size (index + num_bits) ∧
    bp'.data_size = max bp.data_size ((index + num_bits + 7) / 8) := by
  have h5 := hw.2.2.2.2.1
  by_cases hc : index + num_bits ≤ bp.size ∨ index + num_bits + 7 < ULONG_MOD
  · obtain ⟨-, -, hw', hsz, hds, -⟩ := set_bits_success hw hc hs
    refine ⟨hw', hsz, ?_⟩
    rw [hds]
    split <;> omega
  · obtain ⟨hw', hsz, hds, hle⟩ := set_bits_wrap hw hM (by omega) (by omega) (by omega) hs
    exact ⟨hw', by omega, by omega⟩

/-- In the last seven values of `unsigned long` for the end of the bytes, a successful
`bitpack_set_bytes` of at least one byte leaves the storage as large as it was, and the
bytes lie in it. -/
theorem set_bytes_wrap {h : Heap} {bp bp' : bitpack_t} {value : List Nat} {index : Nat}
    (hw : WF bp) (hM : index + 8 * value.length < ULONG_MOD)
    (hz : ULONG_MOD ≤ index + 8 * value.length + 7) (hn : 0 < value.length)
    (hs : bitpack_set_bytes h bp value index = .success bp' ()) :
    WF bp' ∧ bp'.size = max bp.size (index + 8 * value.length) ∧
    bp'.data_size = bp.data_size ∧ index + 8 * value.length ≤ 8 * bp.data_size := by
  obtain ⟨w1, w2, w3, w4, w5, w6⟩ := hw
  have hodd : ¬ index % 8 = 0 := by
    unfold ULONG_MOD at hM hz
    omega
  rw [set_bytes_unfold h bp value index hM] at hs
  by_cases hlt : bp.size < index + 8 * value.length
  · rw [if_pos hlt, resize_wrap h _ hM hz, andThen_success] at hs
    unfold set_bytes_body at hs
    rw [if_neg hodd] at hs
    obtain ⟨⟨b1, b2, b3, b4, b5⟩, hl⟩ := set_bytes_loop_in h value index value.length 0 _ bp'
      (show ({ _bitpack_err_clear bp with size := index + 8 * value.length } : bitpack_t).size
        < ULONG_MOD from hM) (by simp) hs
    have hl := hl hn
    simp only [err_clear_data, err_clear_data_size, err_clear_read_pos, Nat.zero_add]
      at b1 b2 b3 b4 b5 hl
    refine ⟨⟨?_, ?_, ?_, ?_, ?_, b5 w6⟩, by rw [b1]; omega, b2, ?_⟩
    · rw [b1]; exact hM
    · rw [b3]; exact w2
    · rw [b2]; exact w3
    · rw [b4, b2]; exact w4
    · rw [b1, b2]; omega
    · omega
  · rw [if_neg hlt, andThen_success] at hs
    unfold set_bytes_body at hs
    rw [if_neg hodd] at hs
    obtain ⟨⟨b1, b2, b3, b4, b5⟩, -⟩ := set_bytes_loop_in h value index value.length 0 _ bp'
      (show (_bitpack_err_clear bp).size < ULONG_MOD by simpa using w1)
      (by simp; omega) hs
    simp only [err_clear_data, err_clear_data_size, err_clear_read_pos, err_clear_size]
      at b1 b2 b3 b4 b5
    refine ⟨⟨?_, ?_, ?_, ?_, ?_, b5 w6⟩, by rw [b1]; omega, b2, by omega⟩
    · rw [b1]; exact w1
    · rw [b3]; exact w2
    · rw [b2]; exact w3
    · rw [b4, b2]; exact w4
    · rw [b1, b2]; exact w5

/-- What a successful `bitpack_set_bytes` leaves of the size and the allocated size, for
all bytes whose end is an `unsigned long`; an empty array must end 7 below the last
`unsigned long`. -/
theorem set_bytes_grown {h : Heap} {bp bp' : bitpack_t} {value : List Nat} {index : Nat}
    (hw : WF bp) (hv : ∀ b ∈ value, b < 256) (hM : index + 8 * value.length < ULONG_MOD)
    (hn : 0 < value.length ∨ index + 8 * value.length + 7 < ULONG_MOD)
    (hs : bitpack_set_bytes h bp value index = .success bp' ()) :
    WF bp' ∧ bp'.size = max bp.size (index + 8 * value.length) ∧
    bp'.data_size = max bp.data_size ((index + 8 * value.length + 7) / 8) := by
  have h5 := hw.2.2.2.2.1
  by_cases hc : index + 8 * value.length + 7 < ULONG_MOD
  · obtain ⟨hw', hsz, hds, -⟩ := set_bytes_success hw hv hc hs
    refine ⟨hw', hsz, ?_⟩
    rw [hds]
    split <;> omega
  · obtain ⟨hw', hsz, hds, hle⟩ := set_bytes_wrap hw hM (by omega) (by omega) hs
    exact ⟨hw', hsz, by omega⟩

/-- A successful write with arguments in range on a well-formed object leaves a well-formed
object whose size is the larger of the old size and the extent of the write, and whose
allocated size is the larger of the old one and the bytes the extent needs. -/
theorem write_grown {h : Heap} {bp bp' : bitpack_t} (hw : WF bp) (op : Op)
    (hwr : op.is_write = true) (hr : op.fits) (hs : op.call h bp = .success bp' ()) :
    WF bp' ∧ bp'.size = max bp.size op.extent ∧
    bp'.data_size = max bp.data_size ((op.extent + 7) / 8) := by
  rcases op with index | index | index | ⟨value, num_bits, index⟩ | ⟨value, index⟩ |
    ⟨num_bits, index⟩ | ⟨num_bytes, index⟩ | num_bits | num_bytes | _ | _ | _
  · simp only [Op.fits] at hr
    simp only [Op.call, bitpack_on_eq_poke] at hs
    exact poke_grown on_byte_writes hw hr hs
  · simp only [Op.fits] at hr
    simp only [Op.call, bitpack_off_eq_poke] at hs
    exact poke_grown off_byte_writes hw hr hs
  · exact Bool.noConfusion hwr
  · simp only [Op.fits] at hr
    simp only [Op.call] at hs
    exact set_bits_grown hw hr.1 (by omega) hs
  · simp only [Op.fits] at hr
    simp only [Op.call] at hs
    exact set_bytes_grown hw hr.1 hr.2.1 (by omega) hs
  all_goals exact Bool.noConfusion hwr


/-- Witness of C15, amended: the read of 65 bits at index 0 of the 144-bit object of the
test. -/
theorem C15_get_bits_range_too_big_witness :
    ∃ bp', bitpack_get_bits bp_144_bits 65 0 = .error bp' ∧
      bp'.error = BITPACK_ERR_RANGE_TOO_BIG :=
  C15_get_bits_range_too_big bp_144_bits 65 0 (by decide) (by decide) (by decide)

/-! ## C16: the checks of `bitpack_get_bytes` -/

/-- C16 as stated fails for a `num_bytes` so large that `num_bytes * 8` does not fit in an
`unsigned long`: on the 98-bit object of the test, `bitpack_get_bytes(bp, 2^61, 0)` has its
index below the size and `index + 8 * num_bytes` above it, and fails with
`BITPACK_ERR_MALLOC_FAILED`, not `BITPACK_ERR_READ_PAST_END`: the product wraps to 0, the
second check passes and the request for 2^61 bytes is refused. -/
theorem C16_counterexample :
    0 < bitpack_size bp_test_bytes ∧ bitpack_size bp_test_bytes < 0 + 8 * 2 ^ 61 ∧
    (0 + (2 ^ 61 * 8) % ULONG_MOD) % ULONG_MOD = 0 ∧ roomy.avail (2 ^ 61) = false ∧
    (bitpack_get_bytes roomy bp_test_bytes (2 ^ 61) 0).outcome
      = some (.inl BITPACK_ERR_MALLOC_FAILED) :=
  ⟨by decide, by decide, by decide, by decide, by decide⟩

/-- C16, amended: for every `num_bytes`, `bitpack_get_bytes(num_bytes, index)` fails with
`BITPACK_ERR_INVALID_INDEX` whenever the index is not below the size, and fails with
`BITPACK_ERR_READ_PAST_END` whenever the index is below the size and
`index + num_bytes * 8`, the `unsigned long` product and sum the code compares, is above it;
when both checks pass and the result buffer is not granted it fails with
`BITPACK_ERR_MALLOC_FAILED`; when the index is below the size and `index + 8 * num_bytes` is
not above it, on a well-formed object and with the allocation of the result succeeding, it
succeeds. -/
theorem C16_get_bytes_checks (h : Heap) (bp : bitpack_t) (num_bytes index : Nat) :
    (bp.size ≤ index →
      ∃ bp', bitpack_get_bytes h bp num_bytes index = .error bp' ∧
        bp'.error = BITPACK_ERR_INVALID_INDEX) ∧
    (index < bp.size → bp.size < (index + (num_bytes * 8) % ULONG_MOD) % ULONG_MOD →
      ∃ bp', bitpack_get_bytes h bp num_bytes index = .error bp' ∧
        bp'.error = BITPACK_ERR_READ_PAST_END) ∧
    (index < bp.size → (index + (num_bytes * 8) % ULONG_MOD) % ULONG_MOD ≤ bp.size →
      h.avail num_bytes = false →
      ∃ bp', bitpack_get_bytes h bp num_bytes index = .error bp' ∧
        bp'.error = BITPACK_ERR_MALLOC_FAILED) ∧
    (WF bp → h.avail num_bytes = true → index < bp.size → index + 8 * num_bytes ≤ bp.size →
      ∃ bp' out, bitpack_get_bytes h bp num_bytes index = .success bp' out) := by
  refine ⟨?_, ?_, ?_, ?_⟩
  · intro h1
    refine ⟨{ _bitpack_err_clear bp with
                error := BITPACK_ERR_INVALID_INDEX,
                error_str := invalid_index_str index (_bitpack_err_clear bp) }, ?_, rfl⟩
    unfold bitpack_get_bytes bitpack_size
    simp only [err_clear_size]
    rw [if_pos (show index ≥ bp.size from h1)]
  · intro h1 h2
    refine ⟨{ _bitpack_err_clear bp with
                error := BITPACK_ERR_READ_PAST_END,
                error_str := read_past_end_str (_bitpack_err_clear bp) }, ?_, rfl⟩
    unfold bitpack_get_bytes bitpack_size
    simp only [err_clear_size]
    rw [if_neg (show ¬ index ≥ bp.size by omega),
      if_pos (show (index + (num_bytes * 8) % ULONG_MOD) % ULONG_MOD > bp.size from h2)]
  · intro h1 h2 ha
    refine ⟨{ _bitpack_err_clear bp with
                error := BITPACK_ERR_MALLOC_FAILED,
                error_str := "memory allocation failed" }, ?_, rfl⟩
    unfold bitpack_get_bytes bitpack_size malloc
    simp only [err_clear_size]
    rw [if_neg (show ¬ index ≥ bp.size by omega),
      if_neg (show ¬ (index + (num_bytes * 8) % ULONG_MOD) % ULONG_MOD > bp.size by omega)]
    simp only [ha, Bool.false_eq_true, if_false]
  · intro hw ha h1 h2
    exact ⟨_, _, get_bytes_eq h hw h1 h2 ha⟩

/-- Witness of C16, amended: the two failing reads of the test
`test_bitpack_get_set_bytes`, the read of 2^61 bytes at index 0 on a heap that refuses it,
and the successful read of six bytes at index 50. -/
theorem C16_get_bytes_checks_witness :
    (∃ bp', bitpack_get_bytes plenty bp_test_bytes 5 98 = .error bp' ∧
      bp'.error = BITPACK_ERR_INVALID_INDEX) ∧
    (∃ bp', bitpack_get_bytes plenty bp_test_bytes 13 0 = .error bp' ∧
      bp'.error = BITPACK_ERR_READ_PAST_END) ∧
    (∃ bp', bitpack_get_bytes roomy bp_test_bytes (2 ^ 61) 0 = .error bp' ∧
      bp'.error = BITPACK_ERR_MALLOC_FAILED) ∧
    (∃ bp' out, bitpack_get_bytes plenty bp_test_bytes 6 50 = .success bp' out) :=
  ⟨(C16_get_bytes_checks plenty bp_test_bytes 5 98).1 (by decide),
   (C16_get_bytes_checks plenty bp_test_bytes 13 0).2.1 (by decide) (by decide),
   (C16_get_bytes_checks roomy bp_test_bytes (2 ^ 61) 0).2.2.1 (by decide) (by decide)
     (by decide),
   (C16_get_bytes_checks plenty bp_test_bytes 6 50).2.2.2 (by decide) rfl (by decide)
     (by decide)⟩

/-! ## C17: the growth policy -/

theorem grown_to_of {bp bp' : bitpack_t} {e : Nat} (hw : WF bp)
    (hs : bp'.size = max bp.size e) (hd : bp'.data_size = max bp.data_size ((e + 7) / 8)) :
    grown_to bp bp' e := by
  have h5 := hw.2.2.2.2.1
  exact ⟨fun hlt => ⟨by omega, hd⟩, fun hle => ⟨by omega, by omega⟩⟩

/-- C17 at a failing input: on a new object of 4 bytes, of size 0, the call
`bitpack_set_bits(bp, 0, 0, ULONG_MAX)` is a successful write whose extent
`e = index + num_bits = 2 ^ 64 - 1` exceeds the size.  It leaves the size `e`, but the
allocated size stays 4 where `max(4, ceil(e / 8))` is `2 ^ 61`: in `_bitpack_resize`,
`round8(ULONG_MAX)` wraps to 0 and the storage is not grown. -/
theorem C17_growth_policy_broken :
    bitpack_init plenty 4 = some bp_new4 ∧
    bitpack_set_bits plenty bp_new4 0 0 (2 ^ 64 - 1) = .success bp_oversized () ∧
    bitpack_size bp_new4 < 2 ^ 64 - 1 ∧ bitpack_size bp_oversized = 2 ^ 64 - 1 ∧
    round8 (2 ^ 64 - 1) = 0 ∧ bitpack_data_size bp_oversized = 4 ∧
    max (bitpack_data_size bp_new4) ((2 ^ 64 - 1 + 7) / 8) = 2 ^ 61 :=
  ⟨by decide, by decide, by decide, by decide, by decide, by decide, by decide⟩

/-- The growth policy for writes with arguments in range.  On a well-formed object, every
successful write (`bitpack_on`, `bitpack_off`, `bitpack_set_bits`, `bitpack_set_bytes`) whose
extent `e`, one past the highest bit it covers, exceeds the size leaves the size `e` and the
allocated size `max(old allocated size, ceil(e / 8))`; a write whose extent does not exceed
the size leaves both unchanged.  The extent is an `unsigned long`; a write of no bits has
its index as extent and must lie 7 below the last `unsigned long`. -/
theorem growth_policy_in_range (h : Heap) (bp bp' : bitpack_t) (hw : WF bp) :
    (∀ index, index + 1 < ULONG_MOD →
      bitpack_on h bp index = .success bp' () → grown_to bp bp' (index + 1)) ∧
    (∀ index, index + 1 < ULONG_MOD →
      bitpack_off h bp index = .success bp' () → grown_to bp bp' (index + 1)) ∧
    (∀ value num_bits index, index + num_bits < ULONG_MOD →
      (0 < num_bits ∨ index + 7 < ULONG_MOD) →
      bitpack_set_bits h bp value num_bits index = .success bp' () →
      grown_to bp bp' (index + num_bits)) ∧
    (∀ bytes index, (∀ b ∈ bytes, b < 256) → index + 8 * bytes.length < ULONG_MOD →
      (0 < bytes.length ∨ index + 7 < ULONG_MOD) →
      bitpack_set_bytes h bp bytes index = .success bp' () →
      grown_to bp bp' (index + 8 * bytes.length)) := by
  refine ⟨?_, ?_, ?_, ?_⟩
  · intro index hi hs
    rw [bitpack_on_eq_poke] at hs
    obtain ⟨-, hsz, hds⟩ := poke_grown on_byte_writes hw hi hs
    exact grown_to_of hw hsz hds
  · intro index hi hs
    rw [bitpack_off_eq_poke] at hs
    obtain ⟨-, hsz, hds⟩ := poke_grown off_byte_writes hw hi hs
    exact grown_to_of hw hsz hds
  · intro value num_bits index hi hn hs
    obtain ⟨-, hsz, hds⟩ := set_bits_grown hw hi (by omega) hs
    exact grown_to_of hw hsz hds
  · intro bytes index hv hi hn hs
    obtain ⟨-, hsz, hds⟩ := set_bytes_grown hw hv hi (by omega) hs
    exact grown_to_of hw hsz hds


/-- The growing write `bitpack_set_bits(bp, 0xffffffff, 32, 16)` of the
test, from 16 bits in 4 bytes to 48 bits in 6 bytes, and the write `bitpack_off(bp, 2)`
inside the 10-bit object. -/
theorem growth_policy_in_range_example :
    grown_to bp_16_bits bp_48_bits (16 + 32) ∧ grown_to bp_1010101010 bp_1000101010 (2 + 1) :=
  ⟨(growth_policy_in_range plenty bp_16_bits bp_48_bits (by decide)).2.2.1 0xffffffff 32 16
     (by decide) (by decide) (by decide),
   (growth_policy_in_range plenty bp_1010101010 bp_1000101010 (by decide)).2.1 2
     (by decide) (by decide)⟩

/-! ## The state after a read -/

theorem same_core_refl (bp : bitpack_t) : same_core bp bp := ⟨rfl, rfl, rfl, rfl⟩

theorem same_core_trans {a b c : bitpack_t} (h1 : same_core a b) (h2 : same_core b c) :
    same_core a c :=
  ⟨h1.1.trans h2.1, h1.2.1.trans h2.2.1, h1.2.2.1.trans h2.2.2.1, h1.2.2.2.trans h2.2.2.2⟩

theorem same_core_err_clear (bp : bitpack_t) : same_core bp (_bitpack_err_clear bp) :=
  ⟨by simp, by simp, by simp, by simp⟩

/-- Recording an error changes neither the size, the read position nor the storage. -/
theorem same_core_set_error (bp : bitpack_t) (e : bitpack_err_t) (s : String) :
    same_core bp { _bitpack_err_clear bp with error := e, error_str := s } :=
  ⟨by simp, by simp, by simp, by simp⟩

@[simp] theorem forget_state {α : Type} (r : Res α) : r.forget.state = r.state := by
  cases r <;> rfl

/-- Whatever `bitpack_get` returns, it leaves the size, the read position and the storage
as they were. -/
theorem get_state {bp bp' : bitpack_t} {index : Nat}
    (hs : (bitpack_get bp index).state = some bp') : same_core bp bp' := by
  unfold bitpack_get at hs
  simp only at hs
  split at hs
  · injection hs with h1; rw [← h1]; exact same_core_set_error _ _ _
  · split at hs
    · injection hs with h1; rw [← h1]; exact same_core_set_error _ _ _
    · split at hs
      · exact Option.noConfusion hs
      · split at hs <;> (injection hs with h1; rw [← h1]; exact same_core_err_clear _)

/-- Whatever the loop of `bitpack_get_bits` returns, it leaves the size, the read position
and the storage as they were. -/
theorem get_bits_loop_state (num_bits index : Nat) :
    ∀ (n i : Nat) (bp bp' : bitpack_t) (v : Nat) (bit : Option Nat),
      (bitpack_get_bits_loop num_bits index n i bp v bit).state = some bp' →
      same_core bp bp' := by
  intro n
  induction n with
  | zero =>
    intro i bp bp' v bit hs
    unfold bitpack_get_bits_loop at hs
    injection hs with h1
    rw [← h1]; exact same_core_refl _
  | succ n ih =>
    intro i bp bp' v bit hs
    unfold bitpack_get_bits_loop at hs
    cases hg : bitpack_get bp ((index + i) % ULONG_MOD) with
    | undefined => rw [hg] at hs; exact Option.noConfusion hs
    | error bp1 =>
      have h1 : same_core bp bp1 := get_state (by rw [hg]; rfl)
      rw [hg] at hs
      simp only at hs
      cases bit with
      | none => exact Option.noConfusion hs
      | some b => exact same_core_trans h1 (ih _ _ _ _ _ hs)
    | success bp1 b =>
      have h1 : same_core bp bp1 := get_state (by rw [hg]; rfl)
      rw [hg] at hs
      exact same_core_trans h1 (ih _ _ _ _ _ hs)

/-- Whatever `bitpack_get_bits` returns, it leaves the size, the read position and the
storage as they were. -/
theorem get_bits_state {bp bp' : bitpack_t} {num_bits index : Nat}
    (hs : (bitpack_get_bits bp num_bits index).state = some bp') : same_core bp bp' := by
  unfold bitpack_get_bits at hs
  simp only at hs
  split at hs
  · injection hs with h1; rw [← h1]; exact same_core_set_error _ _ _
  · split at hs
    · injection hs with h1; rw [← h1]; exact same_core_set_error _ _ _
    · split at hs
      · injection hs with h1; rw [← h1]; exact same_core_set_error _ _ _
      · exact same_core_trans (same_core_err_clear bp) (get_bits_loop_state _ _ _ _ _ _ _ _ hs)

/-- Whatever the loop of `bitpack_get_bytes` returns, it leaves the size, the read position
and the storage as they were. -/
theorem get_bytes_loop_state (index : Nat) :
    ∀ (n i : Nat) (bp bp' : bitpack_t) (byte : Option Nat) (acc : List Nat),
      (bitpack_get_bytes_loop index n i bp byte acc).state = some bp' →
      same_core bp bp' := by
  intro n
  induction n with
  | zero =>
    intro i bp bp' byte acc hs
    unfold bitpack_get_bytes_loop at hs
    injection hs with h1
    rw [← h1]; exact same_core_refl _
  | succ n ih =>
    intro i bp bp' byte acc hs
    unfold bitpack_get_bytes_loop at hs
    cases hg : bitpack_get_bits bp 8 ((index + (i * 8) % ULONG_MOD) % ULONG_MOD) with
    | undefined => rw [hg] at hs; exact Option.noConfusion hs
    | error bp1 =>
      have h1 : same_core bp bp1 := get_bits_state (by rw [hg]; rfl)
      rw [hg] at hs
      simp only at hs
      cases byte with
      | none => exact Option.noConfusion hs
      | some b => exact same_core_trans h1 (ih _ _ _ _ _ hs)
    | success bp1 b =>
      have h1 : same_core bp bp1 := get_bits_state (by rw [hg]; rfl)
      rw [hg] at hs
      exact same_core_trans h1 (ih _ _ _ _ _ hs)

/-- Whatever `bitpack_get_bytes` returns, it leaves the size, the read position and the
storage as they were. -/
theorem get_bytes_state {h : Heap} {bp bp' : bitpack_t} {num_bytes index : Nat}
    (hs : (bitpack_get_bytes h bp num_bytes index).state = some bp') : same_core bp bp' := by
  unfold bitpack_get_bytes at hs
  simp only at hs
  split at hs
  · injection hs with h1; rw [← h1]; exact same_core_set_error _ _ _
  · split at hs
    · injection hs with h1; rw [← h1]; exact same_core_set_error _ _ _
    · split at hs
      · injection hs with h1; rw [← h1]; exact same_core_set_error _ _ _
      · split at hs
        · split at hs
          · exact Option.noConfusion hs
          · injection hs with h1; rw [← h1]; exact same_core_err_clear _
        · exact same_core_trans (same_core_err_clear bp)
            (get_bytes_loop_state _ _ _ _ _ _ _ hs)

/-- Whatever the loop of `bitpack_to_bin` returns, it leaves the size, the read position and
the storage as they were. -/
theorem to_bin_loop_state :
    ∀ (n i : Nat) (bp bp' : bitpack_t) (bit : Option Nat) (s : String),
      (bitpack_to_bin_loop n i bp bit s).state = some bp' → same_core bp bp' := by
  intro n
  induction n with
  | zero =>
    intro i bp bp' bit s hs
    unfold bitpack_to_bin_loop at hs
    injection hs with h1
    rw [← h1]; exact same_core_refl _
  | succ n ih =>
    intro i bp bp' bit s hs
    unfold bitpack_to_bin_loop at hs
    cases hg : bitpack_get bp i with
    | undefined => rw [hg] at hs; exact Option.noConfusion hs
    | error bp1 =>
      have h1 : same_core bp bp1 := get_state (by rw [hg]; rfl)
      rw [hg] at hs
      simp only at hs
      cases bit with
      | none => exact Option.noConfusion hs
      | some b => exact same_core_trans h1 (ih _ _ _ _ _ hs)
    | success bp1 b =>
      have h1 : same_core bp bp1 := get_state (by rw [hg]; rfl)
      rw [hg] at hs
      exact same_core_trans h1 (ih _ _ _ _ _ hs)

/-- Whatever `bitpack_to_bin` returns, it leaves the size, the read position and the storage
as they were. -/
theorem to_bin_state {h : Heap} {bp bp' : bitpack_t}
    (hs : (bitpack_to_bin h bp).state = some bp') : same_core bp bp' := by
  unfold bitpack_to_bin at hs
  simp only at hs
  split at hs
  · injection hs with h1; rw [← h1]; exact same_core_set_error _ _ _
  · split at hs
    · exact Option.noConfusion hs
    · exact same_core_trans (same_core_err_clear bp) (to_bin_loop_state _ _ _ _ _ _ hs)

/-- Whatever `bitpack_to_bytes` returns, it leaves the size, the read position and the
storage as they were. -/
theorem to_bytes_state {h : Heap} {bp bp' : bitpack_t}
    (hs : (bitpack_to_bytes h bp).state = some bp') : same_core bp bp' := by
  unfold bitpack_to_bytes at hs
  simp only at hs
  split at hs
  · injection hs with h1; rw [← h1]; exact same_core_set_error _ _ _
  · split at hs
    · exact Option.noConfusion hs
    · injection hs with h1; rw [← h1]; exact same_core_err_clear _

/-- Whatever `bitpack_read_bits` returns, it leaves the size and the storage as they were,
and the read position either as it was or at a position not past the size. -/
theorem read_bits_state {bp bp' : bitpack_t} {num_bits : Nat}
    (hs : (bitpack_read_bits bp num_bits).state = some bp') :
    bp'.size = bp.size ∧ bp'.data_size = bp.data_size ∧ bp'.data = bp.data ∧
    (bp'.read_pos = bp.read_pos ∨ bp'.read_pos ≤ bp.size) := by
  unfold bitpack_read_bits bitpack_size at hs
  simp only [err_clear_size, err_clear_read_pos] at hs
  split at hs
  · injection hs with h1
    rw [← h1]
    exact ⟨by simp, by simp, by simp, Or.inl (by simp)⟩
  · rename_i hck
    cases hg : bitpack_get_bits (_bitpack_err_clear bp) num_bits bp.read_pos with
    | undefined => rw [hg] at hs; exact Option.noConfusion hs
    | error bp1 =>
      have h1 : same_core (_bitpack_err_clear bp) bp1 := get_bits_state (by rw [hg]; rfl)
      rw [hg] at hs
      injection hs with h2
      subst h2
      obtain ⟨a, b, c, d⟩ := h1
      simp only [err_clear_size, err_clear_read_pos, err_clear_data_size, err_clear_data] at a b c d
      exact ⟨a.symm, c.symm, d.symm, Or.inl b.symm⟩
    | success bp1 v =>
      have h1 : same_core (_bitpack_err_clear bp) bp1 := get_bits_state (by rw [hg]; rfl)
      rw [hg] at hs
      injection hs with h2
      subst h2
      obtain ⟨a, b, c, d⟩ := h1
      simp only [err_clear_size, err_clear_read_pos, err_clear_data_size, err_clear_data] at a b c d
      refine ⟨a.symm, c.symm, d.symm, Or.inr ?_⟩
      simp only
      rw [← b]
      omega

/-- Whatever `bitpack_read_bytes` returns, it leaves the size and the storage as they were,
and the read position either as it was or at a position not past the size. -/
theorem read_bytes_state {h : Heap} {bp bp' : bitpack_t} {num_bytes : Nat}
    (hs : (bitpack_read_bytes h bp num_bytes).state = some bp') :
    bp'.size = bp.size ∧ bp'.data_size = bp.data_size ∧ bp'.data = bp.data ∧
    (bp'.read_pos = bp.read_pos ∨ bp'.read_pos ≤ bp.size) := by
  unfold bitpack_read_bytes bitpack_size at hs
  simp only [err_clear_size, err_clear_read_pos] at hs
  split at hs
  · injection hs with h1
    rw [← h1]
    exact ⟨by simp, by simp, by simp, Or.inl (by simp)⟩
  · rename_i hck
    cases hg : bitpack_get_bytes h (_bitpack_err_clear bp) num_bytes bp.read_pos with
    | undefined => rw [hg] at hs; exact Option.noConfusion hs
    | error bp1 =>
      have h1 : same_core (_bitpack_err_clear bp) bp1 := get_bytes_state (by rw [hg]; rfl)
      rw [hg] at hs
      injection hs with h2
      subst h2
      obtain ⟨a, b, c, d⟩ := h1
      simp only [err_clear_size, err_clear_read_pos, err_clear_data_size, err_clear_data] at a b c d
      exact ⟨a.symm, c.symm, d.symm, Or.inl b.symm⟩
    | success bp1 v =>
      have h1 : same_core (_bitpack_err_clear bp) bp1 := get_bytes_state (by rw [hg]; rfl)
      rw [hg] at hs
      injection hs with h2
      subst h2
      obtain ⟨a, b, c, d⟩ := h1
      simp only [err_clear_size, err_clear_read_pos, err_clear_data_size, err_clear_data] at a b c d
      refine ⟨a.symm, c.symm, d.symm, Or.inr ?_⟩
      simp only
      rw [← b]
      omega


/-! ## The invariant of the reachable states -/

theorem Inv_of_same_core {bp bp' : bitpack_t} (hi : Inv bp) (hc : same_core bp bp') :
    Inv bp' := by
  obtain ⟨⟨w1, w2, w3, w4, w5, w6⟩, hp, hr⟩ := hi
  obtain ⟨c1, c2, c3, c4⟩ := hc
  refine ⟨⟨?_, ?_, ?_, ?_, ?_, ?_⟩, ?_, ?_⟩
  · rw [← c1]; exact w1
  · rw [← c2]; exact w2
  · rw [← c3]; exact w3
  · rw [← c3, ← c4]; exact w4
  · rw [← c1, ← c3]; exact w5
  · rw [← c4]; exact w6
  · rw [← c1, ← c4]; exact hp
  · rw [← c1, ← c2]; exact hr

/-- The object `bitpack_init` returns. -/
theorem bitpack_init_eq {h : Heap} {n : Nat} {bp : bitpack_t}
    (hs : bitpack_init h n = some bp) :
    bp = { size := 0, read_pos := 0, data_size := n, data := List.replicate n 0,
           error := BITPACK_ERR_CLEAR, error_str := "" } := by
  unfold bitpack_init malloc memset at hs
  by_cases h1 : h.avail sizeof_bitpack_t = true
  · by_cases h2 : h.avail n = true
    · simp only [h1, h2, if_true, List.length_map, List.length_range, Nat.zero_add, Nat.le_refl,
        List.take_zero, List.nil_append] at hs
      have hd : List.drop n (List.map (fun k => h.fresh k % 256) (List.range n)) = [] :=
        List.drop_eq_nil_of_le (by simp)
      rw [hd, List.append_nil] at hs
      injection hs with hs1
      exact hs1.symm
    · simp only [h1, h2, if_true] at hs
      exact Option.noConfusion hs
  · simp only [h1] at hs
    exact Option.noConfusion hs

/-- The object `bitpack_init_from_bytes` returns. -/
theorem bitpack_init_from_bytes_eq {h : Heap} {bytes : List Nat} {bp : bitpack_t}
    (hs : bitpack_init_from_bytes h bytes = some bp) :
    bp = { size := (bytes.length * 8) % ULONG_MOD, read_pos := 0, data_size := bytes.length,
           data := bytes, error := BITPACK_ERR_CLEAR, error_str := "" } := by
  unfold bitpack_init_from_bytes at hs
  simp only at hs
  cases hi : bitpack_init h bytes.length with
  | none => rw [hi] at hs; exact Option.noConfusion hs
  | some bp0 =>
    rw [hi] at hs
    have h0 := bitpack_init_eq hi
    subst h0
    unfold memcpy at hs
    simp only [List.length_replicate, Nat.zero_add, Nat.le_refl, if_true, List.take_zero,
      List.nil_append] at hs
    have hd : List.drop bytes.length (List.replicate bytes.length 0) = [] :=
      List.drop_eq_nil_of_le (by simp)
    rw [hd, List.append_nil] at hs
    injection hs with hs1
    exact hs1.symm

theorem raw_bit_replicate_zero (n k : Nat) : raw_bit (List.replicate n 0) k = 0 := by
  have := raw_bit_append_zeros [] n k
  rw [List.nil_append] at this
  rw [this]
  exact raw_bit_out (by simp)

/-- The constructors return objects that satisfy the invariant. -/
theorem Inv_created {h : Heap} {bp : bitpack_t} (hc : Created h bp) : Inv bp := by
  rcases hc with ⟨n, hn, hs⟩ | ⟨bytes, hb, hl, hs⟩
  · have := bitpack_init_eq hs
    subst this
    refine ⟨⟨?_, ?_, hn, ?_, ?_, ?_⟩, ?_, ?_⟩
    · unfold ULONG_MOD; norm_num
    · unfold ULONG_MOD; norm_num
    · simp
    · simp
    · intro b hb
      rw [List.eq_of_mem_replicate hb]; norm_num
    · intro k _
      exact raw_bit_replicate_zero n k
    · simp
  · have := bitpack_init_from_bytes_eq hs
    subst this
    have hmod : (bytes.length * 8) % ULONG_MOD = 8 * bytes.length := by
      rw [Nat.mod_eq_of_lt (by omega)]; omega
    refine ⟨⟨?_, ?_, ?_, ?_, ?_, hb⟩, ?_, ?_⟩
    · simp only [hmod]; exact hl
    · unfold ULONG_MOD; norm_num
    · simp only; omega
    · rfl
    · simp only [hmod]; omega
    · intro k hk
      simp only [hmod] at hk
      exact raw_bit_out (show bytes.length ≤ k / 8 by omega)
    · simp

/-- A successful `bitpack_on` or `bitpack_off` keeps the invariant. -/
theorem Inv_poke {f : Nat → Nat → Nat} {v : Nat} (hf : writes_bit f v) {h : Heap}
    {bp bp' : bitpack_t} {index : Nat} (hi : Inv bp) (hr : index + 1 < ULONG_MOD)
    (hs : poke f h bp index = .success bp' ()) : Inv bp' := by
  obtain ⟨hw, hp, hrp⟩ := hi
  obtain ⟨hw', hsz, hrp', -, -, -, hbits⟩ := poke_success hf hw hr hs
  refine ⟨hw', ?_, by omega⟩
  intro k hk
  rw [hbits, if_neg (by omega)]
  exact hp k (by omega)

/-- A successful `bitpack_set_bits` keeps the invariant. -/
theorem Inv_set_bits {h : Heap} {bp bp' : bitpack_t} {value num_bits index : Nat}
    (hi : Inv bp) (hr : index + num_bits + 7 < ULONG_MOD)
    (hs : bitpack_set_bits h bp value num_bits index = .success bp' ()) : Inv bp' := by
  obtain ⟨hw, hp, hrp⟩ := hi
  obtain ⟨-, -, hw', hsz, -, hrp', -, -, hbits⟩ := set_bits_success hw (Or.inr hr) hs
  refine ⟨hw', ?_, by omega⟩
  intro k hk
  rw [hbits, if_neg (by omega)]
  exact hp k (by omega)

/-- A successful `bitpack_set_bytes` keeps the invariant. -/
theorem Inv_set_bytes {h : Heap} {bp bp' : bitpack_t} {value : List Nat} {index : Nat}
    (hi : Inv bp) (hv : ∀ b ∈ value, b < 256)
    (hr : index + 8 * value.length + 7 < ULONG_MOD)
    (hs : bitpack_set_bytes h bp value index = .success bp' ()) : Inv bp' := by
  obtain ⟨hw, hp, hrp⟩ := hi
  obtain ⟨hw', hsz, -, hrp', -, -, hbits⟩ := set_bytes_success hw hv hr hs
  refine ⟨hw', ?_, by omega⟩
  intro k hk
  rw [hbits, if_neg (by omega)]
  exact hp k (by omega)

/-- With allocation succeeding, every call with arguments in range that has a defined
outcome, success or failure, keeps the invariant. -/
theorem Inv_call {h : Heap} (hu : h.unlimited) {bp bp' : bitpack_t} (hi : Inv bp) (op : Op)
    (hr : op.in_range) (hs : (op.call h bp).state = some bp') : Inv bp' := by
  rcases op with index | index | index | ⟨value, num_bits, index⟩ | ⟨value, index⟩ |
    ⟨num_bits, index⟩ | ⟨num_bytes, index⟩ | num_bits | num_bytes | _ | _ | _
  · -- bitpack_on
    simp only [Op.in_range] at hr
    simp only [Op.call, bitpack_on_eq_poke] at hs
    obtain ⟨bp1, h1⟩ := poke_ok on_byte hu hi.1 (show index + 8 < ULONG_MOD by omega)
    rw [h1] at hs
    injection hs with h2
    subst h2
    exact Inv_poke on_byte_writes hi (by omega) h1
  · -- bitpack_off
    simp only [Op.in_range] at hr
    simp only [Op.call, bitpack_off_eq_poke] at hs
    obtain ⟨bp1, h1⟩ := poke_ok off_byte hu hi.1 (show index + 8 < ULONG_MOD by omega)
    rw [h1] at hs
    injection hs with h2
    subst h2
    exact Inv_poke off_byte_writes hi (by omega) h1
  · -- bitpack_get
    simp only [Op.call, forget_state] at hs
    exact Inv_of_same_core hi (get_state hs)
  · -- bitpack_set_bits
    simp only [Op.in_range] at hr
    simp only [Op.call] at hs
    cases hc : bitpack_set_bits h bp value num_bits index with
    | undefined => rw [hc] at hs; exact Option.noConfusion hs
    | success bp1 u =>
      rw [hc] at hs
      injection hs with h2
      subst h2
      exact Inv_set_bits hi hr hc
    | error bp1 =>
      rw [hc] at hs
      injection hs with h2
      subst h2
      rcases set_bits_error_cases hc with ⟨-, h3⟩ | ⟨-, -, h3⟩ | h3
      · rw [h3]; exact Inv_of_same_core hi (same_core_set_error _ _ _)
      · rw [h3]; exact Inv_of_same_core hi (same_core_set_error _ _ _)
      · exfalso
        by_cases hn : num_bits ≤ ULONG_BITS
        · by_cases hv : to_double value ≤ pow2_minus_1 num_bits
          · obtain ⟨bp2, h4⟩ := set_bits_ok hu hi.1 hr hn hv
            rw [h4] at hc
            exact Res.noConfusion hc
          · unfold bitpack_set_bits at hc
            simp only at hc
            rw [if_neg (by omega), if_pos (by omega)] at hc
            injection hc with h5
            rw [← h5] at h3
            exact bitpack_err_t.noConfusion h3
        · unfold bitpack_set_bits at hc
          simp only at hc
          rw [if_pos (by omega)] at hc
          injection hc with h5
          rw [← h5] at h3
          exact bitpack_err_t.noConfusion h3
  · -- bitpack_set_bytes
    simp only [Op.in_range] at hr
    simp only [Op.call] at hs
    obtain ⟨bp1, h1⟩ := set_bytes_ok hu hi.1 hr.2 hr.1
    rw [h1] at hs
    injection hs with h2
    subst h2
    exact Inv_set_bytes hi hr.2 hr.1 h1
  · -- bitpack_get_bits
    simp only [Op.call, forget_state] at hs
    exact Inv_of_same_core hi (get_bits_state hs)
  · -- bitpack_get_bytes
    simp only [Op.call, forget_state] at hs
    exact Inv_of_same_core hi (get_bytes_state hs)
  · -- bitpack_read_bits
    simp only [Op.call, forget_state] at hs
    obtain ⟨a, b, c, d⟩ := read_bits_state hs
    obtain ⟨⟨w1, w2, w3, w4, w5, w6⟩, hp, hrp⟩ := hi
    have hrp' : bp'.read_pos ≤ bp.size := by omega
    refine ⟨⟨by omega, by omega, by omega, ?_, by omega, ?_⟩, ?_, by omega⟩
    · rw [c, b]; exact w4
    · rw [c]; exact w6
    · rw [a, c]; exact hp
  · -- bitpack_read_bytes
    simp only [Op.call, forget_state] at hs
    obtain ⟨a, b, c, d⟩ := read_bytes_state hs
    obtain ⟨⟨w1, w2, w3, w4, w5, w6⟩, hp, hrp⟩ := hi
    have hrp' : bp'.read_pos ≤ bp.size := by omega
    refine ⟨⟨by omega, by omega, by omega, ?_, by omega, ?_⟩, ?_, by omega⟩
    · rw [c, b]; exact w4
    · rw [c]; exact w6
    · rw [a, c]; exact hp
  · -- bitpack_reset_read_pos
    simp only [Op.call] at hs
    injection hs with h2
    subst h2
    obtain ⟨⟨w1, w2, w3, w4, w5, w6⟩, hp, hrp⟩ := hi
    exact ⟨⟨w1, by unfold ULONG_MOD bitpack_reset_read_pos; norm_num, w3, w4, w5, w6⟩, hp,
      Nat.zero_le _⟩
  · -- bitpack_to_bin
    simp only [Op.call, forget_state] at hs
    exact Inv_of_same_core hi (to_bin_state hs)
  · -- bitpack_to_bytes
    simp only [Op.call, forget_state] at hs
    exact Inv_of_same_core hi (to_bytes_state hs)

/-- With allocation succeeding, a sequence of calls with arguments in range keeps the
invariant. -/
theorem Inv_run_ops {h : Heap} (hu : h.unlimited) :
    ∀ (ops : List Op) (bp bp' : bitpack_t), Inv bp → (∀ op ∈ ops, op.in_range) →
      run_ops h bp ops = some bp' → Inv bp' := by
  intro ops
  induction ops with
  | nil =>
    intro bp bp' hi _ hs
    unfold run_ops at hs
    injection hs with h1
    rw [← h1]; exact hi
  | cons op ops ih =>
    intro bp bp' hi hr hs
    unfold run_ops at hs
    cases hc : (op.call h bp).state with
    | none => rw [hc] at hs; exact Option.noConfusion hs
    | some bp1 =>
      rw [hc] at hs
      exact ih bp1 bp' (Inv_call hu hi op (hr op (List.mem_cons_self _ _)) hc)
        (fun o ho => hr o (List.mem_cons_of_mem _ ho)) hs


/-! ## The state after a write -/

theorem grows_refl (bp : bitpack_t) : grows bp bp := ⟨Nat.le_refl _, Nat.le_refl _, rfl⟩

theorem grows_trans {a b c : bitpack_t} (h1 : grows a b) (h2 : grows b c) : grows a c :=
  ⟨Nat.le_trans h1.1 h2.1, Nat.le_trans h1.2.1 h2.2.1, h2.2.2.trans h1.2.2⟩

theorem grows_err_clear (bp : bitpack_t) : grows bp (_bitpack_err_clear bp) :=
  ⟨by simp, by simp, by simp⟩

theorem grows_set_error (bp : bitpack_t) (e : bitpack_err_t) (s : String) :
    grows bp { _bitpack_err_clear bp with error := e, error_str := s } :=
  ⟨by simp, by simp, by simp⟩


/-! ## The state after a write, whatever its arguments -/

theorem realloc_length {h : Heap} {data data' : List Nat} {n : Nat}
    (hr : realloc h data n = some data') : data'.length = n ∧ h.avail n = true := by
  unfold realloc at hr
  by_cases ha : h.avail n = true
  · rw [if_pos ha] at hr
    injection hr with h1
    rw [← h1]
    refine ⟨?_, ha⟩
    simp only [List.length_append, List.length_take, List.length_map, List.length_range]
    omega
  · rw [if_neg ha] at hr
    exact Option.noConfusion hr

theorem memset_length {data data' : List Nat} {off c n : Nat}
    (hm : memset data off c n = some data') : data'.length = data.length := by
  unfold memset at hm
  by_cases hc : off + n ≤ data.length
  · rw [if_pos hc] at hm
    injection hm with h1
    rw [← h1]
    simp only [List.length_append, List.length_take, List.length_replicate, List.length_drop]
    omega
  · rw [if_neg hc] at hm
    exact Option.noConfusion hm

theorem memcpy_length {data data' src : List Nat} {off : Nat}
    (hm : memcpy data off src = some data') : data'.length = data.length := by
  unfold memcpy at hm
  by_cases hc : off + src.length ≤ data.length
  · rw [if_pos hc] at hm
    injection hm with h1
    rw [← h1]
    simp only [List.length_append, List.length_take, List.length_drop]
    omega
  · rw [if_neg hc] at hm
    exact Option.noConfusion hm

/-- Whatever `_bitpack_resize` returns on a bounded heap: after success the size is the new
size, after failure the size is the old one; the allocated size has not decreased, the
read position has not changed and the block has less than 2^61 bytes. -/
theorem resize_keeps {h : Heap} (hb : h.bounded) {bp bp' : bitpack_t} {n : Nat}
    {r : Res Unit} (hl : 8 * bp.data.length < ULONG_MOD) (hs : _bitpack_resize h bp n = r)
    (hst : r.state = some bp') :
    ((r = .success bp' () ∧ bp'.size = n) ∨ (r = .error bp' ∧ bp'.size = bp.size)) ∧
    bp.data_size ≤ bp'.data_size ∧ bp'.read_pos = bp.read_pos ∧
    8 * bp'.data.length < ULONG_MOD := by
  unfold _bitpack_resize at hs
  simp only at hs
  by_cases hg : round8 n / 8 > bp.data_size
  · rw [if_pos hg] at hs
    cases hr : realloc h bp.data (round8 n / 8) with
    | none =>
      simp only [hr] at hs
      subst hs
      injection hst with h1
      subst h1
      refine ⟨Or.inr ⟨rfl, rfl⟩, Nat.le_refl _, rfl, ?_⟩
      simp only [List.length_nil]
      unfold ULONG_MOD; norm_num
    | some data =>
      simp only [hr] at hs
      obtain ⟨hlen, hav⟩ := realloc_length hr
      cases hm : memset data bp.data_size 0 (round8 n / 8 - bp.data_size) with
      | none =>
        simp only [hm] at hs
        subst hs
        exact Option.noConfusion hst
      | some data2 =>
        simp only [hm] at hs
        subst hs
        injection hst with h1
        subst h1
        refine ⟨Or.inl ⟨rfl, rfl⟩, by simp only; omega, rfl, ?_⟩
        simp only
        rw [memset_length hm, hlen]
        exact hb _ hav
  · rw [if_neg hg] at hs
    subst hs
    injection hst with h1
    subst h1
    exact ⟨Or.inl ⟨rfl, rfl⟩, Nat.le_refl _, rfl, hl⟩

/-- Whatever `bitpack_on` or `bitpack_off` returns on a bounded heap, for whatever index:
neither the size nor the allocated size has decreased, the read position has not changed
and the block has less than 2^61 bytes. -/
theorem poke_keeps {f : Nat → Nat → Nat} {h : Heap} (hb : h.bounded) {bp bp' : bitpack_t}
    {index : Nat} (hl : 8 * bp.data.length < ULONG_MOD)
    (hs : (poke f h bp index).state = some bp') :
    grows bp bp' ∧ 8 * bp'.data.length < ULONG_MOD := by
  unfold poke at hs
  rw [grow_for_bit_eq] at hs
  simp only [err_clear_size] at hs
  by_cases hc : bp.size ≤ index
  · rw [if_pos hc] at hs
    cases hr : _bitpack_resize h (_bitpack_err_clear bp) ((index + 1) % ULONG_MOD) with
    | undefined => rw [hr] at hs; exact Option.noConfusion hs
    | error bp1 =>
      rw [hr] at hs
      injection hs with h1
      subst h1
      obtain ⟨hk, k2, k3, k4⟩ := resize_keeps hb (show 8 * (_bitpack_err_clear bp).data.length
        < ULONG_MOD by simpa using hl) hr rfl
      rcases hk with ⟨k0, -⟩ | ⟨-, k1⟩
      · exact Res.noConfusion k0
      · simp only [err_clear_size, err_clear_data_size, err_clear_read_pos] at k1 k2 k3
        exact ⟨⟨by omega, k2, k3⟩, k4⟩
    | success bp1 u =>
      rw [hr] at hs
      simp only at hs
      obtain ⟨hk, k2, k3, k4⟩ := resize_keeps hb (show 8 * (_bitpack_err_clear bp).data.length
        < ULONG_MOD by simpa using hl) hr rfl
      rcases hk with ⟨-, k1⟩ | ⟨k0, -⟩
      · simp only [err_clear_data_size, err_clear_read_pos] at k2 k3
        cases hd : bp1.data[index / 8]? with
        | none => rw [hd] at hs; exact Option.noConfusion hs
        | some b =>
          rw [hd] at hs
          injection hs with h1
          rw [← h1]
          have hlt : index / 8 < bp1.data.length := by
            by_contra hc2
            rw [List.getElem?_eq_none (by omega)] at hd
            exact Option.noConfusion hd
          have hi : index + 1 < ULONG_MOD := by omega
          rw [Nat.mod_eq_of_lt hi] at k1
          refine ⟨⟨by simp only; omega, k2, k3⟩, ?_⟩
          simp only [List.length_set]
          exact k4
      · exact Res.noConfusion k0
  · rw [if_neg hc] at hs
    simp only [err_clear_data] at hs
    cases hd : bp.data[index / 8]? with
    | none => rw [hd] at hs; exact Option.noConfusion hs
    | some b =>
      rw [hd] at hs
      injection hs with h1
      rw [← h1]
      refine ⟨⟨by simp, by simp, by simp⟩, ?_⟩
      simp only [List.length_set]
      exact hl

/-- Whatever the loop of `bitpack_set_bits` returns on a bounded heap, neither the size nor
the allocated size has decreased, the read position has not changed and the block has less
than 2^61 bytes. -/
theorem set_bits_loop_keeps {h : Heap} (hb : h.bounded) (value : Nat) :
    ∀ (i : Nat) (bp bp' : bitpack_t) (index : Nat), 8 * bp.data.length < ULONG_MOD →
      (bitpack_set_bits_loop h value i bp index).state = some bp' →
      grows bp bp' ∧ 8 * bp'.data.length < ULONG_MOD := by
  intro i
  induction i with
  | zero =>
    intro bp bp' index hl hs
    unfold bitpack_set_bits_loop at hs
    injection hs with h1
    rw [← h1]; exact ⟨grows_refl _, hl⟩
  | succ i ih =>
    intro bp bp' index hl hs
    rw [set_bits_loop_step] at hs
    cases hp : poke (if field_bit value (i + 1) 0 = 1 then on_byte else off_byte) h bp index with
    | undefined => rw [hp] at hs; exact Option.noConfusion hs
    | error bp1 =>
      rw [hp, andThen_error] at hs
      injection hs with h1
      rw [← h1]
      exact @poke_keeps _ h hb bp bp1 index hl (by rw [hp]; rfl)
    | success bp1 u =>
      obtain ⟨g1, l1⟩ := @poke_keeps _ h hb bp bp1 index hl (by rw [hp]; rfl)
      rw [hp, andThen_success] at hs
      obtain ⟨g2, l2⟩ := ih bp1 bp' _ l1 hs
      exact ⟨grows_trans g1 g2, l2⟩

/-- Whatever `bitpack_set_bits` returns on a bounded heap, for whatever arguments: neither
the size nor the allocated size has decreased, the read position has not changed and the
block has less than 2^61 bytes. -/
theorem set_bits_keeps {h : Heap} (hb : h.bounded) {bp bp' : bitpack_t}
    {value num_bits index : Nat} (hl : 8 * bp.data.length < ULONG_MOD)
    (hs : (bitpack_set_bits h bp value num_bits index).state = some bp') :
    grows bp bp' ∧ 8 * bp'.data.length < ULONG_MOD := by
  unfold bitpack_set_bits bitpack_size at hs
  simp only [err_clear_size] at hs
  split at hs
  · injection hs with h1; rw [← h1]; exact ⟨⟨by simp, by simp, by simp⟩, by simpa using hl⟩
  · split at hs
    · injection hs with h1; rw [← h1]; exact ⟨⟨by simp, by simp, by simp⟩, by simpa using hl⟩
    · have hl0 : 8 * (_bitpack_err_clear bp).data.length < ULONG_MOD := by simpa using hl
      have key : ∀ bp1, (if bp.size < (index + num_bits) % ULONG_MOD then
          _bitpack_resize h (_bitpack_err_clear bp) ((index + num_bits) % ULONG_MOD)
          else Res.success (_bitpack_err_clear bp) ()).state = some bp1 →
          grows bp bp1 ∧ 8 * bp1.data.length < ULONG_MOD := by
        intro bp1 h1
        by_cases hc : bp.size < (index + num_bits) % ULONG_MOD
        · rw [if_pos hc] at h1
          obtain ⟨hk, k2, k3, k4⟩ := resize_keeps hb hl0 rfl h1
          simp only [err_clear_size, err_clear_data_size, err_clear_read_pos] at hk k2 k3
          refine ⟨⟨?_, k2, k3⟩, k4⟩
          rcases hk with ⟨-, k1⟩ | ⟨-, k1⟩ <;> omega
        · rw [if_neg hc] at h1
          injection h1 with h2
          rw [← h2]; exact ⟨grows_err_clear bp, hl0⟩
      cases hg : (if bp.size < (index + num_bits) % ULONG_MOD then
          _bitpack_resize h (_bitpack_err_clear bp) ((index + num_bits) % ULONG_MOD)
          else Res.success (_bitpack_err_clear bp) ()) with
      | undefined => rw [hg] at hs; exact Option.noConfusion hs
      | error bp1 =>
        rw [hg] at hs
        injection hs with h1
        rw [← h1]
        exact key bp1 (by rw [hg]; rfl)
      | success bp1 u =>
        rw [hg] at hs
        obtain ⟨g1, l1⟩ := key bp1 (by rw [hg]; rfl)
        obtain ⟨g2, l2⟩ := set_bits_loop_keeps hb value num_bits bp1 bp' index l1 hs
        exact ⟨grows_trans g1 g2, l2⟩

/-- Whatever the loop of `bitpack_set_bytes` returns on a bounded heap, neither the size nor
the allocated size has decreased, the read position has not changed and the block has less
than 2^61 bytes. -/
theorem set_bytes_loop_keeps {h : Heap} (hb : h.bounded) (value : List Nat) (index : Nat) :
    ∀ (n i : Nat) (bp bp' : bitpack_t), 8 * bp.data.length < ULONG_MOD →
      (bitpack_set_bytes_loop h value index n i bp).state = some bp' →
      grows bp bp' ∧ 8 * bp'.data.length < ULONG_MOD := by
  intro n
  induction n with
  | zero =>
    intro i bp bp' hl hs
    unfold bitpack_set_bytes_loop at hs
    injection hs with h1
    rw [← h1]; exact ⟨grows_refl _, hl⟩
  | succ n ih =>
    intro i bp bp' hl hs
    unfold bitpack_set_bytes_loop at hs
    cases hv : value[i]? with
    | none => rw [hv] at hs; exact Option.noConfusion hs
    | some b =>
      rw [hv] at hs
      simp only at hs
      cases hp : bitpack_set_bits h bp b 8 ((index + (i * 8) % ULONG_MOD) % ULONG_MOD) with
      | undefined => rw [hp] at hs; exact Option.noConfusion hs
      | error bp1 =>
        rw [hp] at hs
        injection hs with h1
        rw [← h1]
        exact @set_bits_keeps h hb bp bp1 b 8 _ hl (by rw [hp]; rfl)
      | success bp1 u =>
        obtain ⟨g1, l1⟩ := @set_bits_keeps h hb bp bp1 b 8 _ hl (by rw [hp]; rfl)
        rw [hp] at hs
        obtain ⟨g2, l2⟩ := ih (i + 1) bp1 bp' l1 hs
        exact ⟨grows_trans g1 g2, l2⟩

/-- Whatever `bitpack_set_bytes` returns on a bounded heap, for whatever arguments: neither
the size nor the allocated size has decreased, the read position has not changed and the
block has less than 2^61 bytes. -/
theorem set_bytes_keeps {h : Heap} (hb : h.bounded) {bp bp' : bitpack_t} {value : List Nat}
    {index : Nat} (hl : 8 * bp.data.length < ULONG_MOD)
    (hs : (bitpack_set_bytes h bp value index).state = some bp') :
    grows bp bp' ∧ 8 * bp'.data.length < ULONG_MOD := by
  unfold bitpack_set_bytes bitpack_size at hs
  simp only [err_clear_size] at hs
  have hl0 : 8 * (_bitpack_err_clear bp).data.length < ULONG_MOD := by simpa using hl
  have key : ∀ bp1, (if bp.size < (index + (value.length * 8) % ULONG_MOD) % ULONG_MOD then
      _bitpack_resize h (_bitpack_err_clear bp)
        ((index + (value.length * 8) % ULONG_MOD) % ULONG_MOD)
      else Res.success (_bitpack_err_clear bp) ()).state = some bp1 →
      grows bp bp1 ∧ 8 * bp1.data.length < ULONG_MOD := by
    intro bp1 h1
    by_cases hc : bp.size < (index + (value.length * 8) % ULONG_MOD) % ULONG_MOD
    · rw [if_pos hc] at h1
      obtain ⟨hk, k2, k3, k4⟩ := resize_keeps hb hl0 rfl h1
      simp only [err_clear_size, err_clear_data_size, err_clear_read_pos] at hk k2 k3
      refine ⟨⟨?_, k2, k3⟩, k4⟩
      rcases hk with ⟨-, k1⟩ | ⟨-, k1⟩ <;> omega
    · rw [if_neg hc] at h1
      injection h1 with h2
      rw [← h2]; exact ⟨grows_err_clear bp, hl0⟩
  cases hg : (if bp.size < (index + (value.length * 8) % ULONG_MOD) % ULONG_MOD then
      _bitpack_resize h (_bitpack_err_clear bp)
        ((index + (value.length * 8) % ULONG_MOD) % ULONG_MOD)
      else Res.success (_bitpack_err_clear bp) ()) with
  | undefined => rw [hg] at hs; exact Option.noConfusion hs
  | error bp1 =>
    rw [hg] at hs
    injection hs with h1
    rw [← h1]
    exact key bp1 (by rw [hg]; rfl)
  | success bp1 u =>
    rw [hg] at hs
    simp only at hs
    obtain ⟨g1, l1⟩ := key bp1 (by rw [hg]; rfl)
    split at hs
    · cases hm : memcpy bp1.data (index / 8) value with
      | none => rw [hm] at hs; exact Option.noConfusion hs
      | some data =>
        rw [hm] at hs
        injection hs with h1
        rw [← h1]
        refine ⟨g1, ?_⟩
        simp only
        rw [memcpy_length hm]
        exact l1
    · obtain ⟨g2, l2⟩ := set_bytes_loop_keeps hb value index value.length 0 bp1 bp' l1 hs
      exact ⟨grows_trans g1 g2, l2⟩


/-! ## C18: the allocated size after a sequence of writes -/

/-- C18 as stated fails when the object starts with more storage than the writes need: on a
new object of 4 bytes the write `bitpack_set_bits(0xff, 8, 0)` of the test succeeds, the
highest bit index written is 7, and the allocated size is 4, not `ceil((7 + 1) / 8) = 1`. -/
theorem C18_counterexample :
    bitpack_init plenty 4 = some bp_new4 ∧
    run_successful plenty bp_new4 [.set_bits 0xff 8 0] = some bp_8_bits ∧
    bitpack_data_size bp_8_bits = 4 ∧ (7 + 1 + 7) / 8 = 1 :=
  ⟨by decide, by decide, by decide, by decide⟩

/-- C18, amended: for every well-formed object and every sequence of successful writes with
arguments in range (the bytes of a byte array below 256, the extent `index + width` of each
write an `unsigned long`, and `index + 7` an `unsigned long` for a write of no bits), the
allocated size afterwards is the larger of the allocated size before the writes and
`ceil(e / 8)`, where `e` is the largest extent of the writes (`k + 1` for the highest bit
index `k` written; a write of no bits counts with its index). -/
theorem C18_growth_exactness (h : Heap) :
    ∀ (ws : List Op) (bp bp' : bitpack_t), WF bp →
      (∀ w ∈ ws, w.is_write = true ∧ w.fits) → run_successful h bp ws = some bp' →
      bitpack_data_size bp' = max (bitpack_data_size bp) ((max_extent ws + 7) / 8) := by
  intro ws
  induction ws with
  | nil =>
    intro bp bp' _ _ hs
    unfold run_successful at hs
    injection hs with h1
    rw [← h1]
    simp [max_extent]
  | cons w ws ih =>
    intro bp bp' hw hws hs
    unfold run_successful at hs
    cases hc : w.call h bp with
    | undefined => rw [hc] at hs; exact Option.noConfusion hs
    | error bp1 => rw [hc] at hs; exact Option.noConfusion hs
    | success bp1 u =>
      rw [hc] at hs
      simp only at hs
      obtain ⟨hwr, hr⟩ := hws w (List.mem_cons_self _ _)
      obtain ⟨hw1, -, hd1⟩ := write_grown hw w hwr hr hc
      have h2 := ih bp1 bp' hw1 (fun o ho => hws o (List.mem_cons_of_mem _ ho)) hs
      unfold bitpack_data_size at h2 ⊢
      rw [h2, hd1]
      simp only [max_extent]
      omega

/-- Witness of C18, amended: the four writes of the test, from a new object of 4 bytes to
48 bits in 6 bytes. -/
theorem C18_growth_exactness_witness :
    bitpack_data_size bp_48_bits
      = max (bitpack_data_size bp_new4) ((max_extent test_writes + 7) / 8) :=
  C18_growth_exactness plenty test_writes bp_new4 bp_48_bits (by decide) (by decide)
    (by decide)

/-! ## C19: the storage invariant -/

/-- C19 at a failing input: on a new object of 4 bytes the call
`bitpack_set_bits(bp, 0, 0, ULONG_MAX)` returns success and leaves the size `2 ^ 64 - 1`
with an allocated size of 4 bytes: in `_bitpack_resize`, `round8(ULONG_MAX)` wraps to 0 and
the storage is not grown.  The size is then above 8 times the allocated size, and
`bitpack_get(bp, 1000)` reads outside the block. -/
theorem C19_storage_invariant_broken :
    bitpack_init plenty 4 = some bp_new4 ∧
    round8 (2 ^ 64 - 1) = 0 ∧
    bitpack_set_bits plenty bp_new4 0 0 (2 ^ 64 - 1) = .success bp_oversized () ∧
    run_ops plenty bp_new4 [.set_bits 0 0 (2 ^ 64 - 1)] = some bp_oversized ∧
    ¬ bitpack_size bp_oversized ≤ 8 * bitpack_data_size bp_oversized ∧
    bitpack_get bp_oversized 1000 = .undefined :=
  ⟨by decide, by decide, by decide, by decide, by decide, by decide⟩

/-! ## C20: the read position -/

theorem init_avail {h : Heap} {n : Nat} {bp : bitpack_t} (hs : bitpack_init h n = some bp) :
    h.avail n = true := by
  unfold bitpack_init malloc at hs
  by_contra hc
  by_cases h1 : h.avail sizeof_bitpack_t = true
  · simp only [h1, if_true, hc] at hs
    exact Option.noConfusion hs
  · simp only [h1] at hs
    exact Option.noConfusion hs

/-- On a bounded heap the block of a new object has less than 2^61 bytes. -/
theorem created_short {h : Heap} (hb : h.bounded) {bp : bitpack_t} (hc : Created h bp) :
    8 * bp.data.length < ULONG_MOD := by
  rcases hc with ⟨n, -, hs⟩ | ⟨bytes, -, hl, hs⟩
  · have ha := hb n (init_avail hs)
    have := bitpack_init_eq hs
    subst this
    simpa using ha
  · have := bitpack_init_from_bytes_eq hs
    subst this
    exact hl

/-- Whatever a call returns on a bounded heap, for whatever arguments: the read position is
not past the size afterwards if it was not before, and the block has less than 2^61
bytes. -/
theorem cursor_call {h : Heap} (hb : h.bounded) {bp bp' : bitpack_t}
    (hl : 8 * bp.data.length < ULONG_MOD) (hi : bp.read_pos ≤ bp.size) (op : Op)
    (hs : (op.call h bp).state = some bp') :
    8 * bp'.data.length < ULONG_MOD ∧ bp'.read_pos ≤ bp'.size := by
  rcases op with index | index | index | ⟨value, num_bits, index⟩ | ⟨value, index⟩ |
    ⟨num_bits, index⟩ | ⟨num_bytes, index⟩ | num_bits | num_bytes | _ | _ | _
  · simp only [Op.call, bitpack_on_eq_poke] at hs
    obtain ⟨⟨a, -, c⟩, l⟩ := poke_keeps hb hl hs
    exact ⟨l, by omega⟩
  · simp only [Op.call, bitpack_off_eq_poke] at hs
    obtain ⟨⟨a, -, c⟩, l⟩ := poke_keeps hb hl hs
    exact ⟨l, by omega⟩
  · simp only [Op.call, forget_state] at hs
    obtain ⟨a, b, -, d⟩ := get_state hs
    exact ⟨by rw [← d]; exact hl, by omega⟩
  · simp only [Op.call] at hs
    obtain ⟨⟨a, -, c⟩, l⟩ := set_bits_keeps hb hl hs
    exact ⟨l, by omega⟩
  · simp only [Op.call] at hs
    obtain ⟨⟨a, -, c⟩, l⟩ := set_bytes_keeps hb hl hs
    exact ⟨l, by omega⟩
  · simp only [Op.call, forget_state] at hs
    obtain ⟨a, b, -, d⟩ := get_bits_state hs
    exact ⟨by rw [← d]; exact hl, by omega⟩
  · simp only [Op.call, forget_state] at hs
    obtain ⟨a, b, -, d⟩ := get_bytes_state hs
    exact ⟨by rw [← d]; exact hl, by omega⟩
  · simp only [Op.call, forget_state] at hs
    obtain ⟨a, -, c, d⟩ := read_bits_state hs
    exact ⟨by rw [c]; exact hl, by omega⟩
  · simp only [Op.call, forget_state] at hs
    obtain ⟨a, -, c, d⟩ := read_bytes_state hs
    exact ⟨by rw [c]; exact hl, by omega⟩
  · simp only [Op.call] at hs
    injection hs with h1
    rw [← h1]
    exact ⟨hl, Nat.zero_le _⟩
  · simp only [Op.call, forget_state] at hs
    obtain ⟨a, b, -, d⟩ := to_bin_state hs
    exact ⟨by rw [← d]; exact hl, by omega⟩
  · simp only [Op.call, forget_state] at hs
    obtain ⟨a, b, -, d⟩ := to_bytes_state hs
    exact ⟨by rw [← d]; exact hl, by omega⟩

/-- A sequence of calls on a bounded heap keeps the read position from passing the size. -/
theorem cursor_run_ops {h : Heap} (hb : h.bounded) :
    ∀ (ops : List Op) (bp bp' : bitpack_t), 8 * bp.data.length < ULONG_MOD →
      bp.read_pos ≤ bp.size → run_ops h bp ops = some bp' → bp'.read_pos ≤ bp'.size := by
  intro ops
  induction ops with
  | nil =>
    intro bp bp' _ hi hs
    unfold run_ops at hs
    injection hs with h1
    rw [← h1]; exact hi
  | cons op ops ih =>
    intro bp bp' hl hi hs
    unfold run_ops at hs
    cases hc : (op.call h bp).state with
    | none => rw [hc] at hs; exact Option.noConfusion hs
    | some bp1 =>
      rw [hc] at hs
      obtain ⟨l1, i1⟩ := cursor_call hb hl hi op hc
      exact ih bp1 bp' l1 i1 hs

/-- C20: in every state reached from `bitpack_init(n)` or `bitpack_init_from_bytes(b)` by a
sequence of public calls, whatever their arguments and whether they succeed or fail, the
read position is at most the size; the heap has no block of 2^61 bytes or more. -/
theorem C20_cursor_invariant (h : Heap) (hb : h.bounded) (bp0 bp : bitpack_t) (ops : List Op)
    (hc : Created h bp0) (hrun : run_ops h bp0 ops = some bp) :
    bitpack_read_pos bp ≤ bitpack_size bp :=
  cursor_run_ops hb ops bp0 bp (created_short hb hc) (Inv_created hc).2.2 hrun

/-- Witness of C20: six calls, two of them failing, on a new object of 4 bytes. -/
theorem C20_cursor_invariant_witness :
    bitpack_read_pos bp_after_calls ≤ bitpack_size bp_after_calls :=
  C20_cursor_invariant roomy (fun _ hn => of_decide_eq_true hn) bp_new4 bp_after_calls
    some_calls (Or.inl ⟨4, by decide, by decide⟩) (by decide)


/-! ## The outcome of a read depends on the size and the block only -/

theorem outcome_cases {α : Type} {r1 r2 : Res α} (h : r1.outcome = r2.outcome) :
    (∃ a b v, r1 = .success a v ∧ r2 = .success b v) ∨
    (∃ a b, r1 = .error a ∧ r2 = .error b ∧ a.error = b.error) ∨
    (r1 = .undefined ∧ r2 = .undefined) := by
  cases r1 with
  | success a v =>
    cases r2 with
    | success b w =>
      simp only [Res.outcome, Option.some.injEq, Sum.inr.injEq] at h
      exact Or.inl ⟨a, b, v, rfl, by rw [h]⟩
    | error b => simp [Res.outcome] at h
    | undefined => simp [Res.outcome] at h
  | error a =>
    cases r2 with
    | success b w => simp [Res.outcome] at h
    | error b =>
      simp only [Res.outcome, Option.some.injEq, Sum.inl.injEq] at h
      exact Or.inr (Or.inl ⟨a, b, rfl, rfl, h⟩)
    | undefined => simp [Res.outcome] at h
  | undefined =>
    cases r2 with
    | success b w => simp [Res.outcome] at h
    | error b => simp [Res.outcome] at h
    | undefined => exact Or.inr (Or.inr ⟨rfl, rfl⟩)

/-- The outcome of `bitpack_get` depends on the size and the block only. -/
theorem get_outcome {a b : bitpack_t} (hs : a.size = b.size) (hd : a.data = b.data)
    (index : Nat) : (bitpack_get a index).outcome = (bitpack_get b index).outcome := by
  unfold bitpack_get bitpack_size
  simp only [err_clear_size, err_clear_data, hs, hd]
  by_cases h0 : b.size = 0
  · simp only [h0, if_true]; rfl
  · by_cases h1 : index > b.size - 1
    · simp only [h0, h1, if_true, if_false]; rfl
    · simp only [h0, h1, if_false]
      cases b.data[index / 8]? with
      | none => rfl
      | some x =>
        simp only
        by_cases h2 : x &&& (0x80 >>> (index % 8)) ≠ 0
        · rw [if_pos h2, if_pos h2]; rfl
        · rw [if_neg h2, if_neg h2]; rfl

/-- The outcome of the loop of `bitpack_get_bits` depends on the size and the block only. -/
theorem get_bits_loop_outcome (num_bits index : Nat) :
    ∀ (n i : Nat) (a b : bitpack_t) (v : Nat) (bit : Option Nat),
      a.size = b.size → a.data = b.data →
      (bitpack_get_bits_loop num_bits index n i a v bit).outcome
        = (bitpack_get_bits_loop num_bits index n i b v bit).outcome := by
  intro n
  induction n with
  | zero =>
    intro i a b v bit _ _
    unfold bitpack_get_bits_loop
    rfl
  | succ n ih =>
    intro i a b v bit hs hd
    have ho := get_outcome hs hd ((index + i) % ULONG_MOD)
    unfold bitpack_get_bits_loop
    rcases outcome_cases ho with ⟨a1, b1, x, ha, hb⟩ | ⟨a1, b1, ha, hb, -⟩ | ⟨ha, hb⟩
    · have ca := get_state (show (bitpack_get a ((index + i) % ULONG_MOD)).state = some a1 by
        rw [ha]; rfl)
      have cb := get_state (show (bitpack_get b ((index + i) % ULONG_MOD)).state = some b1 by
        rw [hb]; rfl)
      rw [ha, hb]
      exact ih _ a1 b1 _ _ (by rw [← ca.1, ← cb.1]; exact hs)
        (by rw [← ca.2.2.2, ← cb.2.2.2]; exact hd)
    · have ca := get_state (show (bitpack_get a ((index + i) % ULONG_MOD)).state = some a1 by
        rw [ha]; rfl)
      have cb := get_state (show (bitpack_get b ((index + i) % ULONG_MOD)).state = some b1 by
        rw [hb]; rfl)
      rw [ha, hb]
      cases bit with
      | none => rfl
      | some x =>
        exact ih _ a1 b1 _ _ (by rw [← ca.1, ← cb.1]; exact hs)
          (by rw [← ca.2.2.2, ← cb.2.2.2]; exact hd)
    · rw [ha, hb]

/-- The outcome of `bitpack_get_bits` depends on the size and the block only: not on the
read position, the allocated size or the error left by an earlier call. -/
theorem get_bits_outcome {a b : bitpack_t} (hs : a.size = b.size) (hd : a.data = b.data)
    (num_bits index : Nat) :
    (bitpack_get_bits a num_bits index).outcome = (bitpack_get_bits b num_bits index).outcome := by
  unfold bitpack_get_bits bitpack_size
  simp only [err_clear_size, hs]
  by_cases h1 : index ≥ b.size
  · simp only [h1, if_true]; rfl
  · by_cases h2 : (index + num_bits) % ULONG_MOD > b.size
    · simp only [h1, h2, if_true, if_false]; rfl
    · by_cases h3 : num_bits > ULONG_BITS
      · simp only [h1, h2, h3, if_true, if_false]; rfl
      · simp only [h1, h2, h3, if_false]
        exact get_bits_loop_outcome num_bits index num_bits 0 _ _ 0 none
          (by simp only [err_clear_size]; exact hs) (by simp only [err_clear_data]; exact hd)

/-- The outcome of the loop of `bitpack_get_bytes` depends on the size and the block
only. -/
theorem get_bytes_loop_outcome (index : Nat) :
    ∀ (n i : Nat) (a b : bitpack_t) (byte : Option Nat) (unpacked : List Nat),
      a.size = b.size → a.data = b.data →
      (bitpack_get_bytes_loop index n i a byte unpacked).outcome
        = (bitpack_get_bytes_loop index n i b byte unpacked).outcome := by
  intro n
  induction n with
  | zero =>
    intro i a b byte unpacked _ _
    unfold bitpack_get_bytes_loop
    rfl
  | succ n ih =>
    intro i a b byte unpacked hs hd
    have ho := get_bits_outcome hs hd 8 ((index + (i * 8) % ULONG_MOD) % ULONG_MOD)
    unfold bitpack_get_bytes_loop
    rcases outcome_cases ho with ⟨a1, b1, x, ha, hb⟩ | ⟨a1, b1, ha, hb, -⟩ | ⟨ha, hb⟩
    · have ca := get_bits_state (show (bitpack_get_bits a 8
        ((index + (i * 8) % ULONG_MOD) % ULONG_MOD)).state = some a1 by rw [ha]; rfl)
      have cb := get_bits_state (show (bitpack_get_bits b 8
        ((index + (i * 8) % ULONG_MOD) % ULONG_MOD)).state = some b1 by rw [hb]; rfl)
      rw [ha, hb]
      exact ih _ a1 b1 _ _ (by rw [← ca.1, ← cb.1]; exact hs)
        (by rw [← ca.2.2.2, ← cb.2.2.2]; exact hd)
    · have ca := get_bits_state (show (bitpack_get_bits a 8
        ((index + (i * 8) % ULONG_MOD) % ULONG_MOD)).state = some a1 by rw [ha]; rfl)
      have cb := get_bits_state (show (bitpack_get_bits b 8
        ((index + (i * 8) % ULONG_MOD) % ULONG_MOD)).state = some b1 by rw [hb]; rfl)
      rw [ha, hb]
      cases byte with
      | none => rfl
      | some x =>
        exact ih _ a1 b1 _ _ (by rw [← ca.1, ← cb.1]; exact hs)
          (by rw [← ca.2.2.2, ← cb.2.2.2]; exact hd)
    · rw [ha, hb]

theorem malloc_none_iff (h1 h2 : Heap) (ha : ∀ n, h1.avail n = h2.avail n) (n : Nat) :
    (malloc h1 n).isSome = (malloc h2 n).isSome := by
  unfold malloc
  rw [ha n]
  by_cases hc : h2.avail n = true
  · rw [if_pos hc, if_pos hc]; rfl
  · rw [if_neg hc, if_neg hc]

/-- The outcome of `bitpack_get_bytes` depends on the size, the block and the answer of the
allocator only. -/
theorem get_bytes_outcome {h1 h2 : Heap} (hav : ∀ n, h1.avail n = h2.avail n)
    {a b : bitpack_t} (hs : a.size = b.size) (hd : a.data = b.data) (num_bytes index : Nat) :
    (bitpack_get_bytes h1 a num_bytes index).outcome
      = (bitpack_get_bytes h2 b num_bytes index).outcome := by
  unfold bitpack_get_bytes bitpack_size
  simp only [err_clear_size, err_clear_data, hs, hd]
  by_cases c1 : index ≥ b.size
  · simp only [c1, if_true]; rfl
  · by_cases c2 : (index + (num_bytes * 8) % ULONG_MOD) % ULONG_MOD > b.size
    · simp only [c1, c2, if_true, if_false]; rfl
    · simp only [c1, c2, if_false]
      have hm := malloc_none_iff h1 h2 hav num_bytes
      cases m1 : malloc h1 num_bytes with
      | none =>
        cases m2 : malloc h2 num_bytes with
        | none => rfl
        | some y => rw [m1, m2] at hm; exact Bool.noConfusion hm
      | some x =>
        cases m2 : malloc h2 num_bytes with
        | none => rw [m1, m2] at hm; exact Bool.noConfusion hm
        | some y =>
          simp only
          by_cases c3 : index % 8 = 0
          · simp only [c3, if_true]
            cases memread b.data (index / 8) num_bytes <;> rfl
          · simp only [c3, if_false]
            exact get_bytes_loop_outcome index num_bytes 0 _ _ none []
              (by simp only [err_clear_size]; exact hs)
              (by simp only [err_clear_data]; exact hd)


/-! ## C21: reading at the read position -/

theorem get_bits_clear (bp : bitpack_t) (num_bits index : Nat) :
    bitpack_get_bits (_bitpack_err_clear bp) num_bits index = bitpack_get_bits bp num_bits index := by
  simp only [bitpack_get_bits, err_clear_idem]

theorem get_bytes_clear (h : Heap) (bp : bitpack_t) (num_bytes index : Nat) :
    bitpack_get_bytes h (_bitpack_err_clear bp) num_bytes index
      = bitpack_get_bytes h bp num_bytes index := by
  simp only [bitpack_get_bytes, err_clear_idem]

/-- A successful `bitpack_read_bits` returns what `bitpack_get_bits` returns at the read
position and moves the read position by `num_bits`, in `unsigned long`. -/
theorem read_bits_success {bp bp' : bitpack_t} {num_bits v : Nat}
    (hs : bitpack_read_bits bp num_bits = .success bp' v) :
    (∃ bp1, bitpack_get_bits bp num_bits bp.read_pos = .success bp1 v) ∧
    bp'.read_pos = (bp.read_pos + num_bits) % ULONG_MOD := by
  unfold bitpack_read_bits bitpack_size at hs
  simp only [err_clear_size, err_clear_read_pos, get_bits_clear] at hs
  by_cases hc : (bp.read_pos + num_bits) % ULONG_MOD > bp.size
  · rw [if_pos hc] at hs; exact Res.noConfusion hs
  · rw [if_neg hc] at hs
    cases hg : bitpack_get_bits bp num_bits bp.read_pos with
    | undefined => simp only [hg] at hs; exact Res.noConfusion hs
    | error bp1 => simp only [hg] at hs; exact Res.noConfusion hs
    | success bp1 v1 =>
      simp only [hg, Res.success.injEq] at hs
      have c := get_bits_state (show (bitpack_get_bits bp num_bits bp.read_pos).state
        = some bp1 by rw [hg]; rfl)
      obtain ⟨h1, h2⟩ := hs
      refine ⟨⟨bp1, by rw [h2]⟩, ?_⟩
      rw [← h1]
      simp only
      rw [← c.2.1]

/-- A failed `bitpack_read_bits` leaves the read position where it was. -/
theorem read_bits_error {bp bp' : bitpack_t} {num_bits : Nat}
    (hs : bitpack_read_bits bp num_bits = .error bp') : bp'.read_pos = bp.read_pos := by
  unfold bitpack_read_bits bitpack_size at hs
  simp only [err_clear_size, err_clear_read_pos, get_bits_clear] at hs
  by_cases hc : (bp.read_pos + num_bits) % ULONG_MOD > bp.size
  · rw [if_pos hc] at hs
    simp only [Res.error.injEq] at hs
    subst hs
    simp
  · rw [if_neg hc] at hs
    cases hg : bitpack_get_bits bp num_bits bp.read_pos with
    | undefined => simp only [hg] at hs; exact Res.noConfusion hs
    | success bp1 v1 => simp only [hg] at hs; exact Res.noConfusion hs
    | error bp1 =>
      simp only [hg, Res.error.injEq] at hs
      have c := get_bits_state (show (bitpack_get_bits bp num_bits bp.read_pos).state
        = some bp1 by rw [hg]; rfl)
      rw [← hs, ← c.2.1]

/-- A successful `bitpack_read_bytes` returns what `bitpack_get_bytes` returns at the read
position and moves the read position by `num_bytes * 8`, in `unsigned long`. -/
theorem read_bytes_success {h : Heap} {bp bp' : bitpack_t} {num_bytes : Nat} {v : List Nat}
    (hs : bitpack_read_bytes h bp num_bytes = .success bp' v) :
    (∃ bp1, bitpack_get_bytes h bp num_bytes bp.read_pos = .success bp1 v) ∧
    bp'.read_pos = (bp.read_pos + (num_bytes * 8) % ULONG_MOD) % ULONG_MOD := by
  unfold bitpack_read_bytes bitpack_size at hs
  simp only [err_clear_size, err_clear_read_pos, get_bytes_clear] at hs
  by_cases hc : (bp.read_pos + (num_bytes * 8) % ULONG_MOD) % ULONG_MOD > bp.size
  · rw [if_pos hc] at hs; exact Res.noConfusion hs
  · rw [if_neg hc] at hs
    cases hg : bitpack_get_bytes h bp num_bytes bp.read_pos with
    | undefined => simp only [hg] at hs; exact Res.noConfusion hs
    | error bp1 => simp only [hg] at hs; exact Res.noConfusion hs
    | success bp1 v1 =>
      simp only [hg, Res.success.injEq] at hs
      have c := get_bytes_state (show (bitpack_get_bytes h bp num_bytes bp.read_pos).state
        = some bp1 by rw [hg]; rfl)
      obtain ⟨h1, h2⟩ := hs
      refine ⟨⟨bp1, by rw [h2]⟩, ?_⟩
      rw [← h1]
      simp only
      rw [← c.2.1]

/-- A failed `bitpack_read_bytes` leaves the read position where it was. -/
theorem read_bytes_error {h : Heap} {bp bp' : bitpack_t} {num_bytes : Nat}
    (hs : bitpack_read_bytes h bp num_bytes = .error bp') : bp'.read_pos = bp.read_pos := by
  unfold bitpack_read_bytes bitpack_size at hs
  simp only [err_clear_size, err_clear_read_pos, get_bytes_clear] at hs
  by_cases hc : (bp.read_pos + (num_bytes * 8) % ULONG_MOD) % ULONG_MOD > bp.size
  · rw [if_pos hc] at hs
    simp only [Res.error.injEq] at hs
    subst hs
    simp
  · rw [if_neg hc] at hs
    cases hg : bitpack_get_bytes h bp num_bytes bp.read_pos with
    | undefined => simp only [hg] at hs; exact Res.noConfusion hs
    | success bp1 v1 => simp only [hg] at hs; exact Res.noConfusion hs
    | error bp1 =>
      simp only [hg, Res.error.injEq] at hs
      have c := get_bytes_state (show (bitpack_get_bytes h bp num_bytes bp.read_pos).state
        = some bp1 by rw [hg]; rfl)
      rw [← hs, ← c.2.1]

/-- C23: `bitpack_get`, `bitpack_get_bits`, `bitpack_get_bytes`, `bitpack_to_bin` and
`bitpack_to_bytes` leave the size, the allocated size, the block and the read position
unchanged whether they succeed or fail, and the outcome of `bitpack_get_bits` and
`bitpack_get_bytes` at an explicit index is the same for every value of the read
position. -/
theorem C23_reads_are_pure (h : Heap) (bp bp' : bitpack_t) :
    (∀ index, (bitpack_get bp index).state = some bp' → same_core bp bp') ∧
    (∀ num_bits index, (bitpack_get_bits bp num_bits index).state = some bp' →
      same_core bp bp') ∧
    (∀ num_bytes index, (bitpack_get_bytes h bp num_bytes index).state = some bp' →
      same_core bp bp') ∧
    ((bitpack_to_bin h bp).state = some bp' → same_core bp bp') ∧
    ((bitpack_to_bytes h bp).state = some bp' → same_core bp bp') ∧
    (∀ r num_bits index,
      (bitpack_get_bits { bp with read_pos := r } num_bits index).outcome
        = (bitpack_get_bits bp num_bits index).outcome) ∧
    (∀ r num_bytes index,
      (bitpack_get_bytes h { bp with read_pos := r } num_bytes index).outcome
        = (bitpack_get_bytes h bp num_bytes index).outcome) :=
  ⟨fun _ hs => get_state hs, fun _ _ hs => get_bits_state hs,
   fun _ _ hs => get_bytes_state hs, fun hs => to_bin_state hs, fun hs => to_bytes_state hs,
   fun r num_bits index =>
     @get_bits_outcome { bp with read_pos := r } bp rfl rfl num_bits index,
   fun r num_bytes index =>
     @get_bytes_outcome h h (fun _ => rfl) { bp with read_pos := r } bp rfl rfl num_bytes
       index⟩

/-- Witness of C23: the failing `bitpack_get(bp, 10)` and the successful
`bitpack_get_bits(bp, 8, 0)` on objects of the tests. -/
theorem C23_reads_are_pure_witness :
    same_core bp_1010101010 bp_1010101010_invalid_index ∧ same_core bp_48_bits bp_48_bits :=
  ⟨(C23_reads_are_pure plenty bp_1010101010 bp_1010101010_invalid_index).1 10 (by decide),
   (C23_reads_are_pure plenty bp_48_bits bp_48_bits).2.1 8 0 (by decide)⟩

/-! ## C22: reading again after a reset -/

theorem outcome_map {α β : Type} (f : α → β) (r : Res α) :
    (r.map f).outcome = r.outcome.map (Sum.map id f) := by
  cases r <;> rfl

theorem state_map {α β : Type} (f : α → β) (r : Res α) : (r.map f).state = r.state := by
  cases r <;> rfl

/-- The outcome of `bitpack_read_bits` depends on the size, the block and the read position
only. -/
theorem read_bits_outcome {a b : bitpack_t} (hs : a.size = b.size) (hd : a.data = b.data)
    (hr : a.read_pos = b.read_pos) (num_bits : Nat) :
    (bitpack_read_bits a num_bits).outcome = (bitpack_read_bits b num_bits).outcome := by
  have ho := get_bits_outcome hs hd num_bits b.read_pos
  unfold bitpack_read_bits bitpack_size
  simp only [err_clear_size, err_clear_read_pos, get_bits_clear, hs, hr]
  by_cases hc : (b.read_pos + num_bits) % ULONG_MOD > b.size
  · simp only [hc, if_true]; rfl
  · simp only [hc, if_false]
    rcases outcome_cases ho with ⟨a1, b1, x, ha, hb⟩ | ⟨a1, b1, ha, hb, he⟩ | ⟨ha, hb⟩
    · rw [ha, hb]; rfl
    · rw [ha, hb]; simp only [Res.outcome, he]
    · rw [ha, hb]

/-- The outcome of `bitpack_read_bytes` depends on the size, the block, the read position
and the answer of the allocator only. -/
theorem read_bytes_outcome {h1 h2 : Heap} (hav : ∀ n, h1.avail n = h2.avail n)
    {a b : bitpack_t} (hs : a.size = b.size) (hd : a.data = b.data)
    (hr : a.read_pos = b.read_pos) (num_bytes : Nat) :
    (bitpack_read_bytes h1 a num_bytes).outcome
      = (bitpack_read_bytes h2 b num_bytes).outcome := by
  have ho := get_bytes_outcome hav hs hd num_bytes b.read_pos
  unfold bitpack_read_bytes bitpack_size
  simp only [err_clear_size, err_clear_read_pos, get_bytes_clear, hs, hr]
  by_cases hc : (b.read_pos + (num_bytes * 8) % ULONG_MOD) % ULONG_MOD > b.size
  · simp only [hc, if_true]; rfl
  · simp only [hc, if_false]
    rcases outcome_cases ho with ⟨a1, b1, x, ha, hb⟩ | ⟨a1, b1, ha, hb, he⟩ | ⟨ha, hb⟩
    · rw [ha, hb]; rfl
    · rw [ha, hb]; simp only [Res.outcome, he]
    · rw [ha, hb]

/-- The outcome of a call at the read position depends on the size, the block, the read
position and the answer of the allocator only. -/
theorem read_call_outcome {h1 h2 : Heap} (hav : ∀ n, h1.avail n = h2.avail n)
    {a b : bitpack_t} (hs : a.size = b.size) (hd : a.data = b.data)
    (hr : a.read_pos = b.read_pos) (r : Read) :
    (r.call h1 a).outcome = (r.call h2 b).outcome := by
  cases r with
  | bits n => simp only [Read.call, outcome_map, read_bits_outcome hs hd hr n]
  | bytes n => simp only [Read.call, outcome_map, read_bytes_outcome hav hs hd hr n]

/-- A call at the read position leaves the size and the block; the read position moves by
the width of the read when the call succeeds and stays when it fails. -/
theorem read_call_state {h : Heap} {a a' : bitpack_t} (r : Read)
    (hs : (r.call h a).state = some a') :
    a'.size = a.size ∧ a'.data = a.data ∧
    ((∃ v, (r.call h a).outcome = some (.inr v)) ∧
        a'.read_pos = (a.read_pos + r.width) % ULONG_MOD ∨
      (∃ e, (r.call h a).outcome = some (.inl e)) ∧ a'.read_pos = a.read_pos) := by
  cases r with
  | bits n =>
    simp only [Read.call, state_map] at hs
    obtain ⟨c1, -, c3, -⟩ := read_bits_state hs
    refine ⟨c1, c3, ?_⟩
    simp only [Read.call, outcome_map, Read.width]
    cases hc : bitpack_read_bits a n with
    | undefined => rw [hc] at hs; exact Option.noConfusion hs
    | error a1 =>
      rw [hc] at hs
      injection hs with h1
      subst h1
      exact Or.inr ⟨⟨_, rfl⟩, read_bits_error hc⟩
    | success a1 v =>
      rw [hc] at hs
      injection hs with h1
      subst h1
      exact Or.inl ⟨⟨_, rfl⟩, (read_bits_success hc).2⟩
  | bytes n =>
    simp only [Read.call, state_map] at hs
    obtain ⟨c1, -, c3, -⟩ := read_bytes_state hs
    refine ⟨c1, c3, ?_⟩
    simp only [Read.call, outcome_map, Read.width]
    cases hc : bitpack_read_bytes h a n with
    | undefined => rw [hc] at hs; exact Option.noConfusion hs
    | error a1 =>
      rw [hc] at hs
      injection hs with h1
      subst h1
      exact Or.inr ⟨⟨_, rfl⟩, read_bytes_error hc⟩
    | success a1 v =>
      rw [hc] at hs
      injection hs with h1
      subst h1
      exact Or.inl ⟨⟨_, rfl⟩, (read_bytes_success hc).2⟩

theorem run_reads_cons {h : Heap} {a a'' : bitpack_t} {r : Read} {rs : List Read}
    {os : List (bitpack_err_t ⊕ ReadValue)} (hrun : run_reads h a (r :: rs) = some (a'', os)) :
    ∃ a' o os', (r.call h a).state = some a' ∧ (r.call h a).outcome = some o ∧
      run_reads h a' rs = some (a'', os') ∧ os = o :: os' := by
  unfold run_reads at hrun
  cases hst : (r.call h a).state with
  | none => simp only [hst] at hrun; exact Option.noConfusion hrun
  | some a' =>
    cases hout : (r.call h a).outcome with
    | none => simp only [hst, hout] at hrun; exact Option.noConfusion hrun
    | some o =>
      simp only [hst, hout] at hrun
      cases hrest : run_reads h a' rs with
      | none => simp only [hrest] at hrun; exact Option.noConfusion hrun
      | some p =>
        obtain ⟨a3, os'⟩ := p
        simp only [hrest, Option.some.injEq, Prod.mk.injEq] at hrun
        exact ⟨a', o, os', rfl, rfl, by rw [hrest, hrun.1], hrun.2.symm⟩

theorem run_reads_of_cons {h : Heap} {a a' a'' : bitpack_t} {r : Read} {rs : List Read}
    {o : bitpack_err_t ⊕ ReadValue} {os : List (bitpack_err_t ⊕ ReadValue)}
    (hst : (r.call h a).state = some a') (hout : (r.call h a).outcome = some o)
    (hrest : run_reads h a' rs = some (a'', os)) :
    run_reads h a (r :: rs) = some (a'', o :: os) := by
  unfold run_reads
  simp only [hst, hout, hrest]

/-- A sequence of calls at the read position leaves the size and the block. -/
theorem run_reads_frame (h : Heap) :
    ∀ (rs : List Read) (a a' : bitpack_t) (os : List (bitpack_err_t ⊕ ReadValue)),
      run_reads h a rs = some (a', os) → a'.size = a.size ∧ a'.data = a.data := by
  intro rs
  induction rs with
  | nil =>
    intro a a' os hrun
    unfold run_reads at hrun
    simp only [Option.some.injEq, Prod.mk.injEq] at hrun
    rw [← hrun.1]
    exact ⟨rfl, rfl⟩
  | cons r rs ih =>
    intro a a' os hrun
    obtain ⟨a1, o, os', hst, -, hrest, -⟩ := run_reads_cons hrun
    obtain ⟨c1, c2, -⟩ := read_call_state r hst
    obtain ⟨d1, d2⟩ := ih a1 a' os' hrest
    exact ⟨d1.trans c1, d2.trans c2⟩

/-- Two runs of the same calls at the read position, from objects of the same size, block
and read position, with allocators that answer alike: when the first run returns, the
second returns the same outcomes. -/
theorem run_reads_congr {h1 h2 : Heap} (hav : ∀ n, h1.avail n = h2.avail n) :
    ∀ (rs : List Read) (a b a' : bitpack_t) (os : List (bitpack_err_t ⊕ ReadValue)),
      a.size = b.size → a.data = b.data → a.read_pos = b.read_pos →
      run_reads h1 a rs = some (a', os) → ∃ b', run_reads h2 b rs = some (b', os) := by
  intro rs
  induction rs with
  | nil =>
    intro a b a' os _ _ _ hrun
    unfold run_reads at hrun ⊢
    simp only [Option.some.injEq, Prod.mk.injEq] at hrun
    exact ⟨b, by rw [← hrun.2]⟩
  | cons r rs ih =>
    intro a b a' os hs hd hr hrun
    obtain ⟨a1, o, os', hst, hout, hrest, hos⟩ := run_reads_cons hrun
    have ho := read_call_outcome hav hs hd hr r
    rw [hout] at ho
    have hbst : ∃ b1, (r.call h2 b).state = some b1 := by
      cases hc : r.call h2 b with
      | undefined => rw [hc] at ho; exact Option.noConfusion ho
      | error b1 => exact ⟨b1, rfl⟩
      | success b1 v => exact ⟨b1, rfl⟩
    obtain ⟨b1, hb1⟩ := hbst
    obtain ⟨c1, c2, c3⟩ := read_call_state r hst
    obtain ⟨d1, d2, d3⟩ := read_call_state r hb1
    have hpos : a1.read_pos = b1.read_pos := by
      rw [hout] at c3
      rw [← ho] at d3
      rcases c3 with ⟨⟨v, hv⟩, p1⟩ | ⟨⟨e, he⟩, p1⟩
      · rcases d3 with ⟨-, p2⟩ | ⟨⟨e2, he2⟩, -⟩
        · rw [p1, p2, hr]
        · rw [hv] at he2; simp at he2
      · rcases d3 with ⟨⟨v2, hv2⟩, -⟩ | ⟨-, p2⟩
        · rw [he] at hv2; simp at hv2
        · rw [p1, p2, hr]
    obtain ⟨b', hb'⟩ := ih a1 b1 a' os' (by rw [c1, d1, hs]) (by rw [c2, d2, hd]) hpos hrest
    exact ⟨b', by rw [hos]; exact run_reads_of_cons hb1 ho.symm hb'⟩

/-- C22: for every object `s` and every finite sequence of `bitpack_read_bits` and
`bitpack_read_bytes` calls: when the sequence, run after `bitpack_reset_read_pos(s)`, has
left the object `s1` and the outcomes `os`, the same sequence run after another
`bitpack_reset_read_pos(s1)` returns, call by call, the same outcomes (the same values on
success, the same kinds of error on failure), the allocator answering each request as
before. -/
theorem C22_idempotent_reset (h1 h2 : Heap) (hav : ∀ n, h1.avail n = h2.avail n)
    (s s1 : bitpack_t) (rs : List Read) (os : List (bitpack_err_t ⊕ ReadValue))
    (hrun : run_reads h1 (bitpack_reset_read_pos s) rs = some (s1, os)) :
    ∃ s2, run_reads h2 (bitpack_reset_read_pos s1) rs = some (s2, os) := by
  obtain ⟨c1, c2⟩ := run_reads_frame h1 rs _ s1 os hrun
  exact run_reads_congr hav rs (bitpack_reset_read_pos s) (bitpack_reset_read_pos s1) s1 os
    c1.symm c2.symm rfl hrun

/-- Witness of C22: the reads of the test `test_bitpack_read_bits` on its 48-bit object,
the failing read at the end included. -/
theorem C22_idempotent_reset_witness :
    ∃ s2, run_reads plenty (bitpack_reset_read_pos bp_48_bits_read_out) test_reads
      = some (s2, test_outcomes) :=
  C22_idempotent_reset plenty plenty (fun _ => rfl) bp_48_bits bp_48_bits_read_out test_reads
    test_outcomes (by decide)


/-! ## C24: the text of the bits -/

theorem bin_text_zero (data : List Nat) (i : Nat) : bin_text data i 0 = "" := rfl

theorem bin_text_succ (data : List Nat) (i n : Nat) :
    bin_text data i (n + 1) = String.mk [bit_char (raw_bit data i)] ++ bin_text data (i + 1) n := by
  unfold bin_text
  apply String.ext
  simp only [List.range'_succ, List.map_cons, String.data_append, List.singleton_append]

theorem bin_text_append (data : List Nat) (i n m : Nat) :
    bin_text data i (n + m) = bin_text data i n ++ bin_text data (i + n) m := by
  unfold bin_text
  apply String.ext
  have h := List.range'_append i n m 1
  simp only [Nat.one_mul] at h
  rw [Nat.add_comm n m, ← h]
  simp only [List.map_append, String.data_append]

theorem bin_text_congr {d1 d2 : List Nat} {i j n : Nat}
    (hb : ∀ t, t < n → raw_bit d1 (i + t) = raw_bit d2 (j + t)) :
    bin_text d1 i n = bin_text d2 j n := by
  induction n generalizing i j with
  | zero => rfl
  | succ n ih =>
    rw [bin_text_succ, bin_text_succ]
    have h0 := hb 0 (by omega)
    simp only [Nat.add_zero] at h0
    have hrest : bin_text d1 (i + 1) n = bin_text d2 (j + 1) n :=
      @ih (i + 1) (j + 1) (fun t ht => by
        have := hb (t + 1) (by omega)
        rw [show i + 1 + t = i + (t + 1) by omega, show j + 1 + t = j + (t + 1) by omega]
        exact this)
    rw [h0, hrest]

theorem bin_text_length (data : List Nat) (i n : Nat) : (bin_text data i n).length = n := by
  unfold bin_text
  show ((List.range' i n).map _).length = n
  rw [List.length_map, List.length_range']

theorem bin_text_getElem? (data : List Nat) (i n k : Nat) (hk : k < n) :
    (bin_text data i n).data[k]? = some (bit_char (raw_bit data (i + k))) := by
  unfold bin_text
  simp only [List.getElem?_map, List.getElem?_range' i 1 hk, Option.map_some', Nat.one_mul]

set_option maxRecDepth 100000 in
theorem bit_text (b : Nat) (hb : b ≤ 1) : (toString b).take 1 = String.mk [bit_char b] := by
  have h : b = 0 ∨ b = 1 := by omega
  rcases h with h | h <;> subst h <;> decide

/-- Below the size `bitpack_get` returns the bit of the block, or reads outside the
block. -/
theorem get_below_size (bp : bitpack_t) {k : Nat} (hk : k < bp.size) :
    (k / 8 < bp.data.length ∧
      bitpack_get bp k = .success (_bitpack_err_clear bp) (raw_bit bp.data k)) ∨
    (bp.data.length ≤ k / 8 ∧ bitpack_get bp k = .undefined) := by
  by_cases hd : k / 8 < bp.data.length
  · exact Or.inl ⟨hd, bitpack_get_eq bp k hk hd⟩
  · refine Or.inr ⟨by omega, ?_⟩
    have h0 : bp.size ≠ 0 := by omega
    have h1 : ¬ k > bp.size - 1 := by omega
    have hn : bp.data[k / 8]? = none := List.getElem?_eq_none (by omega)
    simp only [bitpack_get, bitpack_size, err_clear_size, err_clear_data, h0, h1, if_false, hn]

/-- A successful loop of `bitpack_to_bin` that runs below the size has appended the text of
the bits it ran over, and the last of them lies in the block. -/
theorem to_bin_loop_text :
    ∀ (n i : Nat) (bp : bitpack_t) (bit : Option Nat) (string : String) (bp' : bitpack_t)
      (s : String), i + n ≤ bp.size →
      bitpack_to_bin_loop n i bp bit string = .success bp' s →
      s = string ++ bin_text bp.data i n ∧ (0 < n → (i + n - 1) / 8 < bp.data.length) := by
  intro n
  induction n with
  | zero =>
    intro i bp bit string bp' s _ hs
    unfold bitpack_to_bin_loop at hs
    simp only [Res.success.injEq] at hs
    refine ⟨?_, fun hc => absurd hc (by omega)⟩
    rw [← hs.2, bin_text_zero]
    exact (String.append_empty string).symm
  | succ n ih =>
    intro i bp bit string bp' s hi hs
    unfold bitpack_to_bin_loop at hs
    rcases get_below_size bp (show i < bp.size by omega) with ⟨hd, hg⟩ | ⟨-, hg⟩
    · simp only [hg] at hs
      obtain ⟨h1, h2⟩ := ih (i + 1) (_bitpack_err_clear bp) _ _ bp' s
        (by simp only [err_clear_size]; omega) hs
      simp only [err_clear_data] at h1 h2
      refine ⟨?_, fun _ => ?_⟩
      · rw [h1, bit_text _ (raw_bit_le_one _ _), bin_text_succ, String.append_assoc]
      · by_cases h0 : n = 0
        · subst h0; simpa using hd
        · have := h2 (by omega)
          rw [show i + (n + 1) - 1 = i + 1 + n - 1 by omega]
          exact this
    · simp only [hg] at hs
      exact Res.noConfusion hs

/-- A successful `bitpack_to_bin` returns the text of the bits below the size, and these
bits lie in the block. -/
theorem to_bin_text {h : Heap} {bp bp' : bitpack_t} {s : String}
    (hs : bitpack_to_bin h bp = .success bp' s) :
    s = bin_text bp.data 0 bp.size ∧ (0 < bp.size → (bp.size - 1) / 8 < bp.data.length) := by
  unfold bitpack_to_bin bitpack_size at hs
  simp only [err_clear_size] at hs
  cases hm : malloc h ((bp.size + 1) % ULONG_MOD) with
  | none => simp only [hm] at hs; exact Res.noConfusion hs
  | some string =>
    simp only [hm] at hs
    by_cases hl : string.length = 0
    · rw [if_pos hl] at hs; exact Res.noConfusion hs
    · rw [if_neg hl] at hs
      obtain ⟨h1, h2⟩ := to_bin_loop_text bp.size 0 (_bitpack_err_clear bp) none "" bp' s
        (by simp only [err_clear_size]; omega) hs
      simp only [err_clear_data, Nat.zero_add] at h1 h2
      refine ⟨?_, h2⟩
      rw [h1]
      exact String.empty_append _

/-- On a well-formed object the loop of `bitpack_to_bin`, run below the size, succeeds. -/
theorem to_bin_loop_ok :
    ∀ (n i : Nat) (bp : bitpack_t) (bit : Option Nat) (string : String), WF bp →
      i + n ≤ bp.size → ∃ bp' s, bitpack_to_bin_loop n i bp bit string = .success bp' s := by
  intro n
  induction n with
  | zero =>
    intro i bp bit string _ _
    exact ⟨bp, string, by unfold bitpack_to_bin_loop; rfl⟩
  | succ n ih =>
    intro i bp bit string hw hi
    obtain ⟨bp', s, hs⟩ := ih (i + 1) (_bitpack_err_clear bp) (some (raw_bit bp.data i))
      (string ++ (toString (raw_bit bp.data i)).take 1) (WF_err_clear hw)
      (by simp only [err_clear_size]; omega)
    refine ⟨bp', s, ?_⟩
    unfold bitpack_to_bin_loop
    simp only [bitpack_get_WF hw (show i < bp.size by omega)]
    exact hs

/-- On a well-formed object `bitpack_to_bin` succeeds when its request for
`size + 1` bytes, an `unsigned long`, is granted. -/
theorem to_bin_ok {h : Heap} {bp : bitpack_t} (hw : WF bp) (hM : bp.size + 1 < ULONG_MOD)
    (ha : h.avail (bp.size + 1) = true) : ∃ bp' s, bitpack_to_bin h bp = .success bp' s := by
  obtain ⟨bp', s, hs⟩ := to_bin_loop_ok bp.size 0 (_bitpack_err_clear bp) none ""
    (WF_err_clear hw) (by simp only [err_clear_size]; omega)
  refine ⟨bp', s, ?_⟩
  unfold bitpack_to_bin bitpack_size malloc
  simp only [err_clear_size, Nat.mod_eq_of_lt hM, ha, if_true, List.length_map,
    List.length_range]
  rw [if_neg (by omega)]
  exact hs

/-- An empty object gives the empty string when one byte can be allocated. -/
theorem to_bin_empty {h : Heap} {bp : bitpack_t} (h0 : bp.size = 0) (ha : h.avail 1 = true) :
    bitpack_to_bin h bp = .success (_bitpack_err_clear bp) "" := by
  have hM : (0 + 1) % ULONG_MOD = 1 := by decide
  unfold bitpack_to_bin bitpack_size malloc
  simp only [err_clear_size, h0, hM, ha, if_true, List.length_map, List.length_range]
  rw [if_neg (by omega)]
  unfold bitpack_to_bin_loop
  rfl

/-- C24: when `bitpack_to_bin` succeeds it returns a string of exactly `size` characters
whose `i`-th character (from 0) is `1` if `bitpack_get(i)` returns 1 and `0` if it returns
0; it succeeds on every well-formed object when its request for `size + 1` bytes is
granted, and for an object of size 0 it returns the empty string. -/
theorem C24_to_bin (h : Heap) (bp : bitpack_t) :
    (∀ bp' s, bitpack_to_bin h bp = .success bp' s →
      s.length = bitpack_size bp ∧
      ∀ i, i < bitpack_size bp →
        ((bitpack_get bp i).value = some 1 ∧ s.data[i]? = some '1') ∨
        ((bitpack_get bp i).value = some 0 ∧ s.data[i]? = some '0')) ∧
    (WF bp → bp.size + 1 < ULONG_MOD → h.avail (bp.size + 1) = true →
      ∃ bp' s, bitpack_to_bin h bp = .success bp' s) ∧
    (bitpack_size bp = 0 → h.avail 1 = true →
      ∃ bp', bitpack_to_bin h bp = .success bp' "") := by
  unfold bitpack_size
  refine ⟨?_, fun hw hM ha => to_bin_ok hw hM ha, fun h0 ha => ⟨_, to_bin_empty h0 ha⟩⟩
  intro bp' s hs
  obtain ⟨h1, h2⟩ := to_bin_text hs
  refine ⟨by rw [h1, bin_text_length], ?_⟩
  intro i hi
  have hd : i / 8 < bp.data.length := by
    have := h2 (by omega)
    omega
  have hg : (bitpack_get bp i).value = some (raw_bit bp.data i) := by
    rw [bitpack_get_eq bp i hi hd]; rfl
  have hc := bin_text_getElem? bp.data 0 bp.size i hi
  rw [Nat.zero_add, ← h1] at hc
  have hb := raw_bit_le_one bp.data i
  by_cases hone : raw_bit bp.data i = 1
  · left
    rw [hg, hc, hone]
    exact ⟨rfl, rfl⟩
  · right
    have hz : raw_bit bp.data i = 0 := by omega
    rw [hg, hc, hz]
    exact ⟨rfl, rfl⟩

/-- Witness of C24: the object `bitpack_init_from_bytes` builds from the four bytes of the
test `test_bitpack_constructor`. -/
theorem C24_to_bin_witness :
    ("10101011110011011110111100010010").length = bitpack_size bp_abcdef12 ∧
    ∀ i, i < bitpack_size bp_abcdef12 →
      ((bitpack_get bp_abcdef12 i).value = some 1 ∧
        ("10101011110011011110111100010010").data[i]? = some '1') ∨
      ((bitpack_get bp_abcdef12 i).value = some 0 ∧
        ("10101011110011011110111100010010").data[i]? = some '0') :=
  (C24_to_bin plenty bp_abcdef12).1 bp_abcdef12 "10101011110011011110111100010010" (by decide)


/-! ## C26, C28: the constructors -/

/-- With both requests granted `bitpack_init` returns an empty object of `n` zero bytes. -/
theorem bitpack_init_ok {h : Heap} {n : Nat} (h1 : h.avail sizeof_bitpack_t = true)
    (h2 : h.avail n = true) :
    bitpack_init h n = some { size := 0, read_pos := 0, data_size := n,
                              data := List.replicate n 0,
                              error := BITPACK_ERR_CLEAR, error_str := "" } := by
  cases hi : bitpack_init h n with
  | some bp =>
    have := bitpack_init_eq hi
    rw [← this]
  | none =>
    unfold bitpack_init malloc memset at hi
    simp only [h1, h2, if_true, List.length_map, List.length_range, Nat.zero_add, Nat.le_refl]
      at hi
    exact Option.noConfusion hi

/-- With both requests granted `bitpack_init_from_bytes` returns an object that holds the
bytes. -/
theorem bitpack_init_from_bytes_ok {h : Heap} {bytes : List Nat}
    (h1 : h.avail sizeof_bitpack_t = true) (h2 : h.avail bytes.length = true) :
    bitpack_init_from_bytes h bytes
      = some { size := (bytes.length * 8) % ULONG_MOD, read_pos := 0,
               data_size := bytes.length, data := bytes,
               error := BITPACK_ERR_CLEAR, error_str := "" } := by
  cases hi : bitpack_init_from_bytes h bytes with
  | some bp =>
    have := bitpack_init_from_bytes_eq hi
    rw [← this]
  | none =>
    unfold bitpack_init_from_bytes at hi
    simp only [bitpack_init_ok h1 h2] at hi
    unfold memcpy at hi
    simp only [List.length_replicate, Nat.zero_add, Nat.le_refl, if_true] at hi
    exact Option.noConfusion hi

/-- C28: for every `n`, both requests to the allocator granted, `bitpack_init(n)` returns an
object with size 0, allocated size `n`, read position 0, error `BITPACK_ERR_CLEAR` with an
empty message and `n` bytes that are all zero, for which `bitpack_to_bin` returns the empty
string; `bitpack_init_default` is `bitpack_init(32)`. -/
theorem C28_init (h : Heap) (n : Nat) (h1 : h.avail sizeof_bitpack_t = true)
    (h2 : h.avail n = true) :
    (∃ bp, bitpack_init h n = some bp ∧ bitpack_size bp = 0 ∧ bitpack_data_size bp = n ∧
      bitpack_read_pos bp = 0 ∧ bitpack_get_error bp = BITPACK_ERR_CLEAR ∧
      bitpack_get_error_str bp = "" ∧ bp.data = List.replicate n 0 ∧
      (h.avail 1 = true → ∃ bp', bitpack_to_bin h bp = .success bp' "")) ∧
    bitpack_init_default h = bitpack_init h 32 :=
  ⟨⟨_, bitpack_init_ok h1 h2, rfl, rfl, rfl, rfl, rfl, rfl,
    fun ha => ⟨_, to_bin_empty rfl ha⟩⟩, rfl⟩

/-- Witness of C28: `bitpack_init(4)`, as in the tests. -/
theorem C28_init_witness :
    (∃ bp, bitpack_init plenty 4 = some bp ∧ bitpack_size bp = 0 ∧ bitpack_data_size bp = 4 ∧
      bitpack_read_pos bp = 0 ∧ bitpack_get_error bp = BITPACK_ERR_CLEAR ∧
      bitpack_get_error_str bp = "" ∧ bp.data = List.replicate 4 0 ∧
      (plenty.avail 1 = true → ∃ bp', bitpack_to_bin plenty bp = .success bp' "")) ∧
    bitpack_init_default plenty = bitpack_init plenty 32 :=
  C28_init plenty 4 rfl rfl

/-- C26: for every array of bytes whose size in bits is an `unsigned long`, both requests
to the allocator granted, `bitpack_init_from_bytes(bytes)` returns an object with size
`8 * len(bytes)`, allocated size `len(bytes)`, read position 0 and error
`BITPACK_ERR_CLEAR`, in which for every `i < 8 * len(bytes)` `bitpack_get(i)` returns bit
`7 - i mod 8`, counted from the least significant bit, of `bytes[i / 8]`. -/
theorem C26_from_bytes (h : Heap) (bytes : List Nat) (hv : ∀ b ∈ bytes, b < 256)
    (hl : 8 * bytes.length < ULONG_MOD) (h1 : h.avail sizeof_bitpack_t = true)
    (h2 : h.avail bytes.length = true) :
    ∃ bp, bitpack_init_from_bytes h bytes = some bp ∧
      bitpack_size bp = 8 * bytes.length ∧ bitpack_data_size bp = bytes.length ∧
      bitpack_read_pos bp = 0 ∧ bitpack_get_error bp = BITPACK_ERR_CLEAR ∧
      ∀ i, i < 8 * bytes.length →
        (bitpack_get bp i).value = some (bytes.getD (i / 8) 0 / 2 ^ (7 - i % 8) % 2) := by
  have hsz : (bytes.length * 8) % ULONG_MOD = 8 * bytes.length := by
    rw [Nat.mod_eq_of_lt (by omega)]; omega
  refine ⟨_, bitpack_init_from_bytes_ok h1 h2, ?_, rfl, rfl, rfl, ?_⟩
  · exact hsz
  · intro i hi
    have hw : WF { size := (bytes.length * 8) % ULONG_MOD, read_pos := 0,
                   data_size := bytes.length, data := bytes,
                   error := BITPACK_ERR_CLEAR, error_str := "" } := by
      refine ⟨?_, ?_, ?_, rfl, ?_, hv⟩
      · simp only [hsz]; exact hl
      · unfold ULONG_MOD; norm_num
      · simp only; omega
      · simp only [hsz]; exact Nat.le_refl _
    rw [bitpack_get_value hw (by simp only [hsz]; exact hi)]
    have hlt : i / 8 < bytes.length := by omega
    have hb : bytes[i / 8]? = some bytes[i / 8] := List.getElem?_eq_getElem hlt
    simp only
    rw [raw_bit_eq_div hv hb, List.getD_eq_getElem?_getD, hb]
    rfl

/-- Witness of C26: the four bytes of the test `test_bitpack_constructor`. -/
theorem C26_from_bytes_witness :
    ∃ bp, bitpack_init_from_bytes plenty [0xab, 0xcd, 0xef, 0x12] = some bp ∧
      bitpack_size bp = 8 * [0xab, 0xcd, 0xef, 0x12].length ∧
      bitpack_data_size bp = [0xab, 0xcd, 0xef, 0x12].length ∧
      bitpack_read_pos bp = 0 ∧ bitpack_get_error bp = BITPACK_ERR_CLEAR ∧
      ∀ i, i < 8 * [0xab, 0xcd, 0xef, 0x12].length →
        (bitpack_get bp i).value
          = some ([0xab, 0xcd, 0xef, 0x12].getD (i / 8) 0 / 2 ^ (7 - i % 8) % 2) :=
  C26_from_bytes plenty [0xab, 0xcd, 0xef, 0x12] (by decide) (by decide) rfl rfl

/-! ## C25, C27: the conversion to bytes -/

theorem raw_bit_take (data : List Nat) {n k : Nat} (hk : k / 8 < n) :
    raw_bit (data.take n) k = raw_bit data k := by
  unfold raw_bit
  simp only [List.getD_eq_getElem?_getD, List.getElem?_take_of_lt hk]

/-- When the block holds the bytes it asks for and the allocator grants them,
`bitpack_to_bytes` returns the first `round8(size) / 8` bytes of the block and their
number. -/
theorem to_bytes_eq {h : Heap} {bp : bitpack_t} (hd : round8 bp.size / 8 ≤ bp.data.length)
    (ha : h.avail (round8 bp.size / 8) = true) :
    bitpack_to_bytes h bp
      = .success (_bitpack_err_clear bp)
          (bp.data.take (round8 bp.size / 8), round8 bp.size / 8) := by
  unfold bitpack_to_bytes malloc memread
  simp only [ha, if_true, err_clear_data, Nat.zero_add, hd, List.drop_zero]

/-- Past the size `bitpack_get` fails, with an error that depends on the size only. -/
theorem get_outcome_out {a b : bitpack_t} (hs : a.size = b.size) {index : Nat}
    (hi : a.size ≤ index) : (bitpack_get a index).outcome = (bitpack_get b index).outcome := by
  unfold bitpack_get bitpack_size
  simp only [err_clear_size, hs]
  by_cases h0 : b.size = 0
  · simp only [h0, if_true]; rfl
  · have h1 : index > b.size - 1 := by omega
    simp only [h0, h1, if_true, if_false]; rfl

/-- On a well-formed object whose bits past the size are zero and whose size, rounded up to
a multiple of 8, is an `unsigned long`, `bitpack_to_bytes` returns exactly
`ceil(size / 8)` bytes and that number when the allocator grants them; bit `7 - j` of
byte `k` is the bit of the object at index `8 * k + j` below the size, and 0 past it. -/
theorem to_bytes_spec {h : Heap} {bp : bitpack_t} (hw : WF bp)
    (hz : ∀ k, bp.size ≤ k → raw_bit bp.data k = 0) (hM : bp.size + 7 < ULONG_MOD)
    (ha : h.avail ((bp.size + 7) / 8) = true) :
    ∃ bp' bytes, bitpack_to_bytes h bp = .success bp' (bytes, (bp.size + 7) / 8) ∧
      bytes.length = (bp.size + 7) / 8 ∧
      (∀ k j, j < 8 → 8 * k + j < bp.size →
        (bitpack_get bp (8 * k + j)).value = some (bytes.getD k 0 / 2 ^ (7 - j) % 2)) ∧
      (∀ k j, j < 8 → k < bytes.length → bp.size ≤ 8 * k + j →
        bytes.getD k 0 / 2 ^ (7 - j) % 2 = 0) := by
  obtain ⟨w1, w2, w3, w4, w5, w6⟩ := hw
  have hr : round8 bp.size / 8 = (bp.size + 7) / 8 := round8_div hM
  have hd : round8 bp.size / 8 ≤ bp.data.length := by rw [hr]; omega
  have hlen : (bp.data.take ((bp.size + 7) / 8)).length = (bp.size + 7) / 8 := by
    rw [List.length_take]; omega
  have hbytes : ∀ b ∈ bp.data.take ((bp.size + 7) / 8), b < 256 :=
    fun b hb => w6 b (List.mem_of_mem_take hb)
  have hbit : ∀ k j, j < 8 → k < (bp.size + 7) / 8 →
      (bp.data.take ((bp.size + 7) / 8)).getD k 0 / 2 ^ (7 - j) % 2
        = raw_bit bp.data (8 * k + j) := by
    intro k j hj hk
    have hq : (8 * k + j) / 8 = k := by omega
    have hm : (8 * k + j) % 8 = j := by omega
    have hb : (bp.data.take ((bp.size + 7) / 8))[(8 * k + j) / 8]?
        = some ((bp.data.take ((bp.size + 7) / 8)).getD k 0) := by
      rw [hq, List.getD_eq_getElem?_getD,
        List.getElem?_eq_getElem (show k < (bp.data.take ((bp.size + 7) / 8)).length by
          rw [hlen]; exact hk)]
      rfl
    have h1 := raw_bit_eq_div hbytes hb
    rw [hm, raw_bit_take bp.data (by rw [hq]; exact hk)] at h1
    exact h1.symm
  refine ⟨_, _, by rw [to_bytes_eq hd (by rw [hr]; exact ha), hr], hlen, ?_, ?_⟩
  · intro k j hj hk
    rw [bitpack_get_value ⟨w1, w2, w3, w4, w5, w6⟩ hk, hbit k j hj (by omega)]
  · intro k j hj hk hs
    rw [hlen] at hk
    rw [hbit k j hj hk]
    exact hz _ hs

/-- C25 at a failing input: after `bitpack_init(4)` and the successful call
`bitpack_set_bits(bp, 0, 0, ULONG_MAX)` the size is `2 ^ 64 - 1`, and `bitpack_to_bytes`
returns success with no byte and the count 0, not the `ceil(size / 8) = 2 ^ 61` bytes of the
size: `round8(size)` wraps to 0. -/
theorem C25_to_bytes_oversized :
    bitpack_init plenty 4 = some bp_new4 ∧
    run_ops plenty bp_new4 [.set_bits 0 0 (2 ^ 64 - 1)] = some bp_oversized ∧
    bitpack_size bp_oversized = 2 ^ 64 - 1 ∧
    bitpack_to_bytes plenty bp_oversized = .success bp_oversized ([], 0) ∧
    (bitpack_size bp_oversized + 7) / 8 = 2 ^ 61 :=
  ⟨by decide, by decide, by decide, by decide, by decide⟩

/-- C27: for every array of bytes `b` whose size in bits is an `unsigned long`,
`bitpack_to_bytes` on the object `bitpack_init_from_bytes(b)` returns exactly `b` with the
count `len(b)`; and for every well-formed object whose size is a multiple of 8, the requests
to the allocator granted, `bitpack_init_from_bytes` on the bytes `bitpack_to_bytes` returns
gives an object of the same size in which `bitpack_get` has the same outcome at every
index. -/
theorem C27_persistence (h : Heap) :
    (∀ b bp, 8 * b.length < ULONG_MOD → bitpack_init_from_bytes h b = some bp →
      ∃ bp', bitpack_to_bytes h bp = .success bp' (b, b.length)) ∧
    (∀ bp, WF bp → bitpack_size bp % 8 = 0 → h.avail sizeof_bitpack_t = true →
      h.avail (bitpack_size bp / 8) = true →
      ∃ bp1 bytes bp2, bitpack_to_bytes h bp = .success bp1 (bytes, bitpack_size bp / 8) ∧
        bitpack_init_from_bytes h bytes = some bp2 ∧ bitpack_size bp2 = bitpack_size bp ∧
        ∀ i, (bitpack_get bp2 i).outcome = (bitpack_get bp i).outcome) := by
  unfold bitpack_size
  refine ⟨?_, ?_⟩
  · intro b bp hl hs
    have hsz : (b.length * 8) % ULONG_MOD = 8 * b.length := by
      rw [Nat.mod_eq_of_lt (by omega)]; omega
    have hav : h.avail b.length = true := by
      unfold bitpack_init_from_bytes at hs
      cases hi : bitpack_init h b.length with
      | none => simp only [hi] at hs; exact Option.noConfusion hs
      | some bp0 => exact init_avail hi
    have hbp := bitpack_init_from_bytes_eq hs
    subst hbp
    have hl7 : 8 * b.length + 7 < ULONG_MOD := by
      unfold ULONG_MOD at hl ⊢
      omega
    have hr : round8 (8 * b.length) / 8 = b.length := by
      rw [round8_div hl7]; omega
    have heq := @to_bytes_eq h { size := (b.length * 8) % ULONG_MOD, read_pos := 0,
                                 data_size := b.length, data := b,
                                 error := BITPACK_ERR_CLEAR, error_str := "" }
      (by simp only [hsz, hr]; exact Nat.le_refl _) (by simp only [hsz, hr]; exact hav)
    simp only [hsz, hr, List.take_length] at heq
    simp only [hsz]
    exact ⟨_, heq⟩
  · intro bp hw h8 h1 h2
    obtain ⟨w1, w2, w3, w4, w5, w6⟩ := hw
    have hr : round8 bp.size / 8 = bp.size / 8 := by
      unfold round8
      rw [if_neg (by omega)]
    have hd : round8 bp.size / 8 ≤ bp.data.length := by rw [hr]; omega
    have hlen : (bp.data.take (bp.size / 8)).length = bp.size / 8 := by
      rw [List.length_take]; omega
    have hsz : ((bp.data.take (bp.size / 8)).length * 8) % ULONG_MOD = bp.size := by
      rw [hlen, Nat.mod_eq_of_lt (by omega)]; omega
    refine ⟨_, _, _, by rw [to_bytes_eq hd (by rw [hr]; exact h2), hr],
      bitpack_init_from_bytes_ok h1 (by rw [hlen]; exact h2), hsz, ?_⟩
    intro i
    by_cases hi : i < bp.size
    · have hw2 : WF { size := ((bp.data.take (bp.size / 8)).length * 8) % ULONG_MOD,
                      read_pos := 0, data_size := (bp.data.take (bp.size / 8)).length,
                      data := bp.data.take (bp.size / 8),
                      error := BITPACK_ERR_CLEAR, error_str := "" } := by
        refine ⟨?_, ?_, ?_, rfl, ?_, fun b hb => w6 b (List.mem_of_mem_take hb)⟩
        · show ((bp.data.take (bp.size / 8)).length * 8) % ULONG_MOD < ULONG_MOD
          rw [hsz]; exact w1
        · unfold ULONG_MOD; norm_num
        · show (bp.data.take (bp.size / 8)).length < ULONG_MOD
          rw [hlen]; omega
        · show ((bp.data.take (bp.size / 8)).length * 8) % ULONG_MOD
            ≤ 8 * (bp.data.take (bp.size / 8)).length
          rw [hsz, hlen]; omega
      rw [bitpack_get_WF hw2 (show i < ((bp.data.take (bp.size / 8)).length * 8) % ULONG_MOD by
          rw [hsz]; exact hi),
        bitpack_get_WF ⟨w1, w2, w3, w4, w5, w6⟩ hi]
      simp only [Res.outcome]
      rw [raw_bit_take bp.data (by omega)]
    · exact get_outcome_out hsz (show ((bp.data.take (bp.size / 8)).length * 8) % ULONG_MOD ≤ i by
        rw [hsz]; omega)

/-- Witness of C27: the four bytes of the test `test_bitpack_constructor`, and the 48-bit
object of the test `test_bitpack_append_bytes`. -/
theorem C27_persistence_witness :
    (∃ bp', bitpack_to_bytes plenty bp_abcdef12
      = .success bp' ([0xab, 0xcd, 0xef, 0x12], [0xab, 0xcd, 0xef, 0x12].length)) ∧
    (∃ bp1 bytes bp2, bitpack_to_bytes plenty bp_24_plus_24_bits
        = .success bp1 (bytes, bitpack_size bp_24_plus_24_bits / 8) ∧
      bitpack_init_from_bytes plenty bytes = some bp2 ∧
      bitpack_size bp2 = bitpack_size bp_24_plus_24_bits ∧
      ∀ i, (bitpack_get bp2 i).outcome = (bitpack_get bp_24_plus_24_bits i).outcome) :=
  ⟨(C27_persistence plenty).1 [0xab, 0xcd, 0xef, 0x12] bp_abcdef12 (by decide) (by decide),
   (C27_persistence plenty).2 bp_24_plus_24_bits (by decide) (by decide) rfl rfl⟩


/-! ## C29, C30: appending -/

/-- What a successful `bitpack_set_bits` leaves, for every field whose end is an
`unsigned long`: the bits of the field, the other bits as they were. -/
theorem set_bits_full {h : Heap} {bp bp' : bitpack_t} {value num_bits index : Nat}
    (hw : WF bp) (hM : index + num_bits < ULONG_MOD)
    (hn : index + num_bits ≤ bp.size ∨ 0 < num_bits ∨ index + num_bits + 7 < ULONG_MOD)
    (hs : bitpack_set_bits h bp value num_bits index = .success bp' ()) :
    WF bp' ∧ bp'.size = max bp.size (index + num_bits) ∧
    ∀ k, raw_bit bp'.data k =
      if index ≤ k ∧ k < index + num_bits then field_bit value num_bits (k - index)
      else raw_bit bp.data k := by
  by_cases hc : index + num_bits ≤ bp.size ∨ index + num_bits + 7 < ULONG_MOD
  · obtain ⟨-, -, hw', hsz, -, -, -, -, hbits⟩ := set_bits_success hw hc hs
    exact ⟨hw', hsz, hbits⟩
  · have hlt : bp.size < index + num_bits := by omega
    have hz : ULONG_MOD ≤ index + num_bits + 7 := by omega
    obtain ⟨hw', hsz, -, hle⟩ := set_bits_wrap hw hM hz (by omega) hlt hs
    obtain ⟨ha, hv⟩ := set_bits_accepts hs
    obtain ⟨w1, w2, w3, w4, w5, w6⟩ := hw
    rw [set_bits_unfold h bp value num_bits index ha hv hM, if_pos hlt, resize_wrap h _ hM hz,
      andThen_success] at hs
    have hw1 : WF { _bitpack_err_clear bp with size := index + num_bits } :=
      ⟨hM, by simpa using w2, by simpa using w3, by simpa using w4, by simpa using hle,
       by simpa using w6⟩
    obtain ⟨-, -, -, -, -, hbits⟩ := set_bits_loop_success h value num_bits _ bp' index hw1
      (Nat.le_refl _) hs
    simp only [err_clear_data] at hbits
    exact ⟨hw', by rw [hsz]; omega, hbits⟩

/-- What a successful `bitpack_set_bytes` leaves, for all bytes whose end is an
`unsigned long`: the bits of the bytes, the other bits as they were. -/
theorem set_bytes_full {h : Heap} {bp bp' : bitpack_t} {value : List Nat} {index : Nat}
    (hw : WF bp) (hv : ∀ b ∈ value, b < 256) (hM : index + 8 * value.length < ULONG_MOD)
    (hn : index + 8 * value.length ≤ bp.size ∨ 0 < value.length ∨
      index + 8 * value.length + 7 < ULONG_MOD)
    (hs : bitpack_set_bytes h bp value index = .success bp' ()) :
    WF bp' ∧ bp'.size = max bp.size (index + 8 * value.length) ∧
    ∀ k, raw_bit bp'.data k =
      if index ≤ k ∧ k < index + 8 * value.length then raw_bit value (k - index)
      else raw_bit bp.data k := by
  by_cases hc : index + 8 * value.length + 7 < ULONG_MOD
  · obtain ⟨hw', hsz, -, -, -, -, hbits⟩ := set_bytes_success hw hv hc hs
    exact ⟨hw', hsz, hbits⟩
  · have hz : ULONG_MOD ≤ index + 8 * value.length + 7 := by omega
    by_cases hlt : bp.size < index + 8 * value.length
    · obtain ⟨-, -, -, hle⟩ := set_bytes_wrap hw hM hz (by omega) hs
      obtain ⟨w1, w2, w3, w4, w5, w6⟩ := hw
      rw [set_bytes_unfold h bp value index hM, if_pos hlt, resize_wrap h _ hM hz,
        andThen_success] at hs
      have hw1 : WF { _bitpack_err_clear bp with size := index + 8 * value.length } :=
        ⟨hM, by simpa using w2, by simpa using w3, by simpa using w4, by simpa using hle,
         by simpa using w6⟩
      obtain ⟨bp2, h2, hw2, hsz2, -, -, -, hbits⟩ :=
        set_bytes_body_spec h value index hv _ hw1 (Nat.le_refl _)
      rw [hs] at h2
      simp only [Res.success.injEq, and_true] at h2
      subst h2
      simp only [err_clear_data] at hbits
      exact ⟨hw2, by rw [hsz2]; simp only; omega, hbits⟩
    · rw [set_bytes_unfold h bp value index hM, if_neg hlt, andThen_success] at hs
      obtain ⟨bp2, h2, hw2, hsz2, -, -, -, hbits⟩ :=
        set_bytes_body_spec h value index hv _ (WF_err_clear hw)
          (by simp only [err_clear_size]; omega)
      rw [hs] at h2
      simp only [Res.success.injEq, and_true] at h2
      subst h2
      simp only [err_clear_data, err_clear_size] at hbits hsz2
      exact ⟨hw2, by rw [hsz2]; omega, hbits⟩

/-- C29: a successful `bitpack_append_bits(value, num_bits)`, which is
`bitpack_set_bits(value, num_bits, bitpack_size(bp))`, on a well-formed object, the new
size being an `unsigned long`, increases the size by exactly `num_bits` and leaves every
bit below the old size unchanged. -/
theorem C29_append_bits (h : Heap) (bp bp' : bitpack_t) (value num_bits : Nat) (hw : WF bp)
    (hM : bitpack_size bp + num_bits < ULONG_MOD)
    (hs : bitpack_append_bits h bp value num_bits = .success bp' ()) :
    bitpack_append_bits h bp value num_bits
      = bitpack_set_bits h bp value num_bits (bitpack_size bp) ∧
    bitpack_size bp' = bitpack_size bp + num_bits ∧
    ∀ k, k < bitpack_size bp →
      ∃ b, (bitpack_get bp k).value = some b ∧ (bitpack_get bp' k).value = some b := by
  unfold bitpack_append_bits bitpack_size at *
  obtain ⟨hw', hsz, hbits⟩ := set_bits_full hw hM (by omega) hs
  refine ⟨rfl, by rw [hsz]; omega, ?_⟩
  intro k hk
  refine ⟨raw_bit bp.data k, bitpack_get_value hw hk, ?_⟩
  rw [bitpack_get_value hw' (by rw [hsz]; omega), hbits, if_neg (by omega)]

/-- Witness of C29: the append of 32 bits to the 16-bit object of the test
`test_bitpack_append_bits`. -/
theorem C29_append_bits_witness :
    bitpack_append_bits plenty bp_16_bits 0xffffffff 32
      = bitpack_set_bits plenty bp_16_bits 0xffffffff 32 (bitpack_size bp_16_bits) ∧
    bitpack_size bp_48_bits = bitpack_size bp_16_bits + 32 ∧
    ∀ k, k < bitpack_size bp_16_bits →
      ∃ b, (bitpack_get bp_16_bits k).value = some b ∧
        (bitpack_get bp_48_bits k).value = some b :=
  C29_append_bits plenty bp_16_bits bp_48_bits 0xffffffff 32 (by decide) (by decide)
    (by decide)

theorem raw_bit_cons (b : Nat) (bs : List Nat) (t : Nat) :
    raw_bit (b :: bs) (8 + t) = raw_bit bs t := by
  unfold raw_bit
  have h1 : (8 + t) / 8 = t / 8 + 1 := by omega
  have h2 : (8 + t) % 8 = t % 8 := by omega
  rw [h1, h2]
  rfl

/-- The text of the bits of an array of bytes is the binary form of each byte in order. -/
theorem bin_text_bytes (bytes : List Nat) (hv : ∀ b ∈ bytes, b < 256) :
    bin_text bytes 0 (8 * bytes.length) = bytes_text bytes := by
  induction bytes with
  | nil => rfl
  | cons b bs ih =>
    have hlen : 8 * (b :: bs).length = 8 + 8 * bs.length := by
      simp only [List.length_cons]; omega
    rw [hlen, bin_text_append]
    have hrest : bin_text (b :: bs) (0 + 8) (8 * bs.length) = bin_text bs 0 (8 * bs.length) :=
      bin_text_congr (fun t _ => by
        rw [show 0 + 8 + t = 8 + t by omega, Nat.zero_add]
        exact raw_bit_cons b bs t)
    have hfirst : bin_text (b :: bs) 0 8 = String.mk (byte_text b) := by
      unfold bin_text byte_text
      rw [← List.range_eq_range']
      congr 1
      apply List.map_congr_left
      intro j hj
      have hj8 : j < 8 := List.mem_range.mp hj
      have hb : (b :: bs)[j / 8]? = some b := by
        have : j / 8 = 0 := by omega
        rw [this]; simp
      rw [raw_bit_eq_div hv hb]
      have : j % 8 = j := by omega
      rw [this]
    rw [hrest, hfirst, ih (fun x hx => hv x (List.mem_cons_of_mem _ hx))]
    unfold bytes_text
    apply String.ext
    simp only [String.data_append, List.flatMap_cons]

/-- C30: a successful `bitpack_append_bytes(bytes)`, which is
`bitpack_set_bytes(bytes, bitpack_size(bp))`, on a well-formed object increases the size by
exactly `8 * len(bytes)`, and `bitpack_to_bin` afterwards returns what it returned before
followed by the 8-character binary form, most significant bit first, of each byte in
order, whether or not the old size was a multiple of 8; the request of the later
`bitpack_to_bin` for `size + 8 * len(bytes) + 1` bytes is an `unsigned long` and is
granted. -/
theorem C30_append_bytes (h : Heap) (bp bp' bp1 : bitpack_t) (bytes : List Nat) (s1 : String)
    (hw : WF bp) (hv : ∀ b ∈ bytes, b < 256)
    (hM : bitpack_size bp + 8 * bytes.length + 1 < ULONG_MOD)
    (hs : bitpack_append_bytes h bp bytes = .success bp' ())
    (hb : bitpack_to_bin h bp = .success bp1 s1)
    (ha : h.avail (bitpack_size bp + 8 * bytes.length + 1) = true) :
    bitpack_append_bytes h bp bytes = bitpack_set_bytes h bp bytes (bitpack_size bp) ∧
    bitpack_size bp' = bitpack_size bp + 8 * bytes.length ∧
    ∃ bp2, bitpack_to_bin h bp' = .success bp2 (s1 ++ bytes_text bytes) := by
  unfold bitpack_append_bytes bitpack_size at *
  obtain ⟨hw', hsz, hbits⟩ := set_bytes_full hw hv (by omega) (by omega) hs
  have hsz' : bp'.size = bp.size + 8 * bytes.length := by rw [hsz]; omega
  refine ⟨rfl, hsz', ?_⟩
  obtain ⟨bp2, s2, h2⟩ := to_bin_ok hw' (by rw [hsz']; exact hM) (by rw [hsz']; exact ha)
  refine ⟨bp2, ?_⟩
  rw [h2]
  obtain ⟨t1, -⟩ := to_bin_text hb
  obtain ⟨t2, -⟩ := to_bin_text h2
  rw [t2, t1, hsz', bin_text_append, ← bin_text_bytes bytes hv]
  have e1 : bin_text bp'.data 0 bp.size = bin_text bp.data 0 bp.size :=
    bin_text_congr (fun t ht => by
      rw [hbits, if_neg (by omega)])
  have e2 : bin_text bp'.data (0 + bp.size) (8 * bytes.length)
      = bin_text bytes 0 (8 * bytes.length) :=
    bin_text_congr (fun t ht => by
      rw [hbits, if_pos (by omega)]
      congr 1
      omega)
  rw [e1, e2]

/-- Witness of C30: the append of the bytes 0xC3, 0x01 to the 10-bit object `1010101010`,
whose size is not a multiple of 8. -/
theorem C30_append_bytes_witness :
    bitpack_append_bytes plenty bp_1010101010 [0xC3, 0x01]
      = bitpack_set_bytes plenty bp_1010101010 [0xC3, 0x01] (bitpack_size bp_1010101010) ∧
    bitpack_size bp_10_plus_16_bits = bitpack_size bp_1010101010 + 8 * [0xC3, 0x01].length ∧
    ∃ bp2, bitpack_to_bin plenty bp_10_plus_16_bits
      = .success bp2 ("1010101010" ++ bytes_text [0xC3, 0x01]) :=
  C30_append_bytes plenty bp_1010101010 bp_10_plus_16_bits bp_1010101010 [0xC3, 0x01]
    "1010101010" (by decide) (by decide) (by decide) (by decide) (by decide) rfl


/-! ## C31: clearing of the error state at the start of a call -/

/-- Every fallible public function clears the error state before anything else: its outcome
on an object is its outcome on the object with the error state cleared. -/
theorem clears_at_start (h : Heap) (bp : bitpack_t) (op : Op) (hf : op.fallible = true) :
    op.call h bp = op.call h (_bitpack_err_clear bp) := by
  rcases op with index | index | index | ⟨value, num_bits, index⟩ | ⟨value, index⟩ |
    ⟨num_bits, index⟩ | ⟨num_bytes, index⟩ | num_bits | num_bytes | _ | _ | _
  · simp only [Op.call, bitpack_on, err_clear_idem]
  · simp only [Op.call, bitpack_off, err_clear_idem]
  · simp only [Op.call, bitpack_get, err_clear_idem]
  · simp only [Op.call, bitpack_set_bits, err_clear_idem]
  · simp only [Op.call, bitpack_set_bytes, err_clear_idem]
  · simp only [Op.call, bitpack_get_bits, err_clear_idem]
  · simp only [Op.call, bitpack_get_bytes, err_clear_idem]
  · simp only [Op.call, bitpack_read_bits, err_clear_idem]
  · simp only [Op.call, bitpack_read_bytes, err_clear_idem]
  · exact absurd hf (by decide)
  · simp only [Op.call, bitpack_to_bin, err_clear_idem]
  · simp only [Op.call, bitpack_to_bytes, err_clear_idem, err_clear_size]

/-- C31 at a failing input: on the 10-bit object `1010101010` the calls
`bitpack_read_bits(bp, 8)` (success), `bitpack_read_bits(bp, 8)` (failure, read past end)
and `bitpack_reset_read_pos(bp)` leave the read position 0 and the error state of the
failed read, kind `BITPACK_ERR_READ_PAST_END` with its message: `bitpack_reset_read_pos`
only sets the read position and does not call `_bitpack_err_clear`, as the eleven other
state-changing functions do. -/
theorem C31_reset_read_pos_keeps_error :
    run_ops plenty bp_1010101010 [.read_bits 8, .read_bits 8, .reset_read_pos]
      = some bp_1010101010_past_end ∧
    bitpack_read_pos bp_1010101010_past_end = 0 ∧
    bitpack_get_error bp_1010101010_past_end = BITPACK_ERR_READ_PAST_END ∧
    bitpack_get_error_str bp_1010101010_past_end
      = "attempted to read past end of bitpack (last index is 9)" ∧
    bitpack_reset_read_pos bp_1010101010_past_end = bp_1010101010_past_end :=
  ⟨by decide, by decide, by decide, by decide, by decide⟩

/-! ## C33: a failed growth -/

/-- A failed `_bitpack_resize` reports `BITPACK_ERR_MALLOC_FAILED` and keeps the size, the
allocated size and the read position, but the data pointer is `NULL` afterwards. -/
theorem resize_error_loses_block {h : Heap} {bp bp' : bitpack_t} {n : Nat}
    (hs : _bitpack_resize h bp n = .error bp') :
    bp'.error = BITPACK_ERR_MALLOC_FAILED ∧ bp'.size = bp.size ∧
    bp'.data_size = bp.data_size ∧ bp'.read_pos = bp.read_pos ∧ bp'.data = [] := by
  unfold _bitpack_resize at hs
  simp only at hs
  by_cases hc : round8 n / 8 > bp.data_size
  · rw [if_pos hc] at hs
    cases hr : realloc h bp.data (round8 n / 8) with
    | none =>
      simp only [hr] at hs
      injection hs with h1
      subst h1
      exact ⟨rfl, rfl, rfl, rfl, rfl⟩
    | some data =>
      simp only [hr] at hs
      cases hm : memset data bp.data_size 0 (round8 n / 8 - bp.data_size) with
      | none => simp only [hm] at hs; exact Res.noConfusion hs
      | some d => simp only [hm] at hs; exact Res.noConfusion hs
  · rw [if_neg hc] at hs
    exact Res.noConfusion hs

/-- C33 at a failing input: on the 10-bit object `1010101010` with 32 bytes of storage,
`bitpack_on(bp, 300)` needs 38 bytes; with no memory left it fails with
`BITPACK_ERR_MALLOC_FAILED` and keeps the size 10 and the allocated size 32, but the data
pointer is `NULL`: the bit at index 0, which read 1 before the call, cannot be read any
more, and a write inside the old size has no storage to write to. -/
theorem C33_failed_growth_loses_storage :
    bitpack_get bp_1010101010 0 = .success bp_1010101010 1 ∧
    bitpack_on exhausted bp_1010101010 300 = .error bp_1010101010_lost ∧
    bitpack_get_error bp_1010101010_lost = BITPACK_ERR_MALLOC_FAILED ∧
    bitpack_size bp_1010101010_lost = bitpack_size bp_1010101010 ∧
    bitpack_data_size bp_1010101010_lost = bitpack_data_size bp_1010101010 ∧
    bp_1010101010.data ≠ [] ∧ bp_1010101010_lost.data = [] ∧
    bitpack_get bp_1010101010_lost 0 = .undefined ∧
    bitpack_on plenty bp_1010101010_lost 0 = .undefined :=
  ⟨by decide, by decide, by decide, by decide, by decide, by decide, by decide, by decide,
   by decide⟩

/-! ## C35: the exception table of the binding -/

/-- The five kinds other than `BITPACK_ERR_EMPTY` that a failed call can leave are inside
the array `bp_exceptions`. -/
theorem kinds_inside_table (kind : bitpack_err_t) (hk : kind ≠ BITPACK_ERR_EMPTY) :
    kind.toNat < bp_exceptions.length := by
  cases kind <;> first | exact absurd rfl hk | decide

/-- C35 at a failing input: the array `bp_exceptions` has 6 entries, with the indices 0 to
5, and `BITPACK_ERR_EMPTY` is 6.  The first five assignments of `Init_bitpack` fill the
entries 1 to 5, the sixth, `bp_exceptions[BITPACK_ERR_EMPTY] = rb_eRangeError`, is outside
the array; `bitpack_get` on an empty object fails with `BITPACK_ERR_EMPTY`, and the lookup
`bp_exceptions[bitpack_get_error(bp)]` of `bp_get` is outside the array, while for the
failing `bitpack_get(bp, 10)` on the 10-bit object it yields `rb_eRangeError`. -/
theorem C35_empty_kind_outside_table :
    bp_exceptions.length = 6 ∧ BITPACK_ERR_EMPTY.toNat = 6 ∧
    Init_bitpack_first_five = some bp_exceptions_filled ∧
    table_store bp_exceptions_filled BITPACK_ERR_EMPTY rb_exception.rb_eRangeError = none ∧
    Init_bitpack = none ∧
    bitpack_get bp_empty32 0 = .error bp_empty32_empty ∧
    bitpack_get_error bp_empty32_empty = BITPACK_ERR_EMPTY ∧
    table_lookup bp_exceptions_filled bp_empty32_empty = none ∧
    bp_get bp_exceptions_filled bp_empty32 0 = none ∧
    bp_get bp_exceptions_filled bp_1010101010 10
      = some (.inr (some rb_exception.rb_eRangeError, "invalid index (10), max index is 9")) :=
  ⟨by decide, by decide, by decide, by decide, by decide, by decide, by decide, by decide,
   by decide, by decide⟩

/-! ## C37: the value of a field -/

/-- For widths up to 31 the value `bitpack_get_bits` returns for a field inside a
well-formed object is below `2 ^ num_bits`. -/
theorem get_bits_below_width {bp bp' : bitpack_t} (hw : WF bp) {num_bits index v : Nat}
    (hn : num_bits ≤ 31) (he : index + num_bits ≤ bp.size)
    (hs : bitpack_get_bits bp num_bits index = .success bp' v) : v < 2 ^ num_bits := by
  by_cases hi : index < bp.size
  · rw [get_bits_eq hw hi he (by unfold ULONG_BITS; omega)] at hs
    injection hs with h1 h2
    rw [← h2]
    exact gather_lt bp.data index hn
  · unfold bitpack_get_bits at hs
    simp only [bitpack_size, err_clear_size] at hs
    rw [if_pos (by omega)] at hs
    exact Res.noConfusion hs

/-- C37 at a failing input: on the object made from the bytes `0x80, 0, 0, 1`,
`bitpack_get_bits(32, 0)` succeeds with `num_bits = 32 < 64` and returns
`0xffffffff80000001`, which is not below `2 ^ 32`: the `int` value `bit << 31` is negative
and is sign-extended when it is or-ed into the `unsigned long` result. -/
theorem C37_get_bits_32_bits_above_width :
    bitpack_init_from_bytes plenty [0x80, 0, 0, 1] = some (bp_of_4_bytes 0x80 0 0 1) ∧
    bitpack_get_bits (bp_of_4_bytes 0x80 0 0 1) 32 0
      = .success (bp_of_4_bytes 0x80 0 0 1) 0xffffffff80000001 ∧
    32 < 64 ∧ ¬ 0xffffffff80000001 < 2 ^ 32 :=
  ⟨by decide, by decide, by decide, by decide⟩


/-! ## C38: fields of 1 to 31 bits -/

/-- For a width of 1 to 31 bits, a value below `2 ^ num_bits` and a field whose extent
rounded up to a multiple of 8 is an `unsigned long`, `bitpack_set_bits` succeeds on a
well-formed object when the allocator grants every request, and a following
`bitpack_get_bits` of the same field returns the value. -/
theorem set_get_bits_31 {h : Heap} (hu : h.unlimited) {bp : bitpack_t} (hw : WF bp)
    {value num_bits index : Nat} (h1 : 1 ≤ num_bits) (h31 : num_bits ≤ 31)
    (hv : value < 2 ^ num_bits) (hi : index + num_bits + 7 < ULONG_MOD) :
    ∃ bp', bitpack_set_bits h bp value num_bits index = .success bp' () ∧
      bitpack_get_bits bp' num_bits index = .success bp' value := by
  obtain ⟨bp', hs⟩ := set_bits_ok hu hw hi (by unfold ULONG_BITS; omega)
    (value_fits (by omega) hv)
  obtain ⟨-, -, hw', hsz, -, -, he, -, hbits⟩ := set_bits_success hw (Or.inr hi) hs
  refine ⟨bp', hs, ?_⟩
  rw [get_bits_eq hw' (by omega) (by omega) (by unfold ULONG_BITS; omega),
    err_clear_of_clear he]
  congr 1
  apply Nat.eq_of_testBit_eq
  intro t
  rw [gather_field_testBit bp'.data index h31 t]
  by_cases ht : t < num_bits
  · rw [hbits, if_pos ⟨by omega, by omega⟩]
    have e1 : index + (num_bits - 1 - t) - index = num_bits - 1 - t := by omega
    have e2 : num_bits - 1 - (num_bits - 1 - t) = t := by omega
    rw [e1, field_bit_eq value (by omega), e2]
    simp only [ht, decide_True, Bool.true_and, Nat.testBit, Nat.shiftRight_eq_div_pow]
    have hm : value / 2 ^ t % 2 = 0 ∨ value / 2 ^ t % 2 = 1 := by omega
    rcases hm with hm | hm
    · simp [hm, Nat.and_one_is_mod]
    · simp [hm, Nat.and_one_is_mod]
  · have hlt : value < 2 ^ t :=
      Nat.lt_of_lt_of_le hv (Nat.pow_le_pow_right (by decide) (by omega))
    simp [ht, Nat.testBit_lt_two_pow hlt]

/-- C38 at a failing input: on a new object of 4 bytes, `bitpack_set_bits(bp, 1, 1,
ULONG_MAX - 1)`, with `num_bits = 1` and `value = 1 < 2 ^ 1`, does not return success.  It
calls `_bitpack_resize(bp, ULONG_MAX)`, where `round8(ULONG_MAX)` wraps to 0, so the size
becomes `2 ^ 64 - 1` and no storage is allocated; `bitpack_on(bp, ULONG_MAX - 1)` then
writes to `data[2 ^ 61 - 1]`, outside the block of 4 bytes. -/
theorem C38_set_bits_last_index :
    bitpack_init plenty 4 = some bp_new4 ∧ 1 < 2 ^ 1 ∧
    _bitpack_resize plenty bp_new4 ((2 ^ 64 - 2 + 1) % ULONG_MOD) = .success bp_oversized () ∧
    bitpack_on plenty bp_oversized (2 ^ 64 - 2) = .undefined ∧
    bitpack_set_bits plenty bp_new4 1 1 (2 ^ 64 - 2) = .undefined :=
  ⟨by decide, by decide, by decide, by decide, by decide⟩

/-! ## C36: the gap a write leaves behind the old size -/

/-- On a well-formed object whose storage bits at or past the size are zero, a successful
write with arguments in range that starts past the size leaves every bit between the old
size and its start index reading 0. -/
theorem gap_zero_fill {h : Heap} {bp bp' : bitpack_t} (hw : WF bp)
    (hz : ∀ k, bp.size ≤ k → raw_bit bp.data k = 0) (op : Op) (hwr : op.is_write = true)
    (hr : op.fits) (hs : op.call h bp = .success bp' ()) (k : Nat) (hk : bp.size ≤ k)
    (hki : k < op.start) : (bitpack_get bp' k).value = some 0 := by
  have key : WF bp' ∧ k < bp'.size ∧ raw_bit bp'.data k = raw_bit bp.data k := by
    rcases op with index | index | index | ⟨value, num_bits, index⟩ | ⟨value, index⟩ |
      ⟨num_bits, index⟩ | ⟨num_bytes, index⟩ | num_bits | num_bytes | _ | _ | _
    · simp only [Op.fits] at hr
      simp only [Op.start] at hki
      simp only [Op.call, bitpack_on_eq_poke] at hs
      obtain ⟨hw', hsz, -, -, -, -, hbits⟩ := poke_success on_byte_writes hw hr hs
      exact ⟨hw', by omega, by rw [hbits, if_neg (by omega)]⟩
    · simp only [Op.fits] at hr
      simp only [Op.start] at hki
      simp only [Op.call, bitpack_off_eq_poke] at hs
      obtain ⟨hw', hsz, -, -, -, -, hbits⟩ := poke_success off_byte_writes hw hr hs
      exact ⟨hw', by omega, by rw [hbits, if_neg (by omega)]⟩
    · exact Bool.noConfusion hwr
    · simp only [Op.fits] at hr
      simp only [Op.start] at hki
      simp only [Op.call] at hs
      obtain ⟨hw', hsz, hbits⟩ := set_bits_full hw hr.1 (by omega) hs
      exact ⟨hw', by omega, by rw [hbits, if_neg (by omega)]⟩
    · simp only [Op.fits] at hr
      simp only [Op.start] at hki
      simp only [Op.call] at hs
      obtain ⟨hw', hsz, hbits⟩ := set_bytes_full hw hr.1 hr.2.1 (by omega) hs
      exact ⟨hw', by omega, by rw [hbits, if_neg (by omega)]⟩
    all_goals exact Bool.noConfusion hwr
  obtain ⟨hw', hlt, hb⟩ := key
  rw [bitpack_get_value hw' hlt, hb, hz k hk]

/-- C36 at a failing input: on a new object of 4 bytes, of size 0, the call
`bitpack_set_bits(bp, 0, 0, ULONG_MAX)` is a successful write that starts past the size and
grows the size to `2 ^ 64 - 1`; the storage stays at 4 bytes, and the bits of the gap from
index 32 on are outside it: `bitpack_get` at the indices 32 and 1000 reads outside the
block. -/
theorem C36_gap_outside_storage :
    bitpack_init plenty 4 = some bp_new4 ∧ bitpack_size bp_new4 = 0 ∧
    Op.call plenty bp_new4 (.set_bits 0 0 (2 ^ 64 - 1)) = .success bp_oversized () ∧
    bitpack_size bp_oversized = 2 ^ 64 - 1 ∧ bitpack_data_size bp_oversized = 4 ∧
    bitpack_get bp_oversized 32 = .undefined ∧ bitpack_get bp_oversized 1000 = .undefined :=
  ⟨by decide, by decide, by decide, by decide, by decide, by decide, by decide⟩


/-! ## C32: the size and the allocated size never decrease -/

/-- On a bounded heap no call, successful or failing, decreases the size or the allocated
size of an object whose block has less than 2^61 bytes, and the block stays that short. -/
theorem never_shrinks_call {h : Heap} (hb : h.bounded) {bp bp' : bitpack_t}
    (hl : 8 * bp.data.length < ULONG_MOD) (op : Op)
    (hs : (op.call h bp).state = some bp') :
    bp.size ≤ bp'.size ∧ bp.data_size ≤ bp'.data_size ∧ 8 * bp'.data.length < ULONG_MOD := by
  rcases op with index | index | index | ⟨value, num_bits, index⟩ | ⟨value, index⟩ |
    ⟨num_bits, index⟩ | ⟨num_bytes, index⟩ | num_bits | num_bytes | _ | _ | _
  · simp only [Op.call, bitpack_on_eq_poke] at hs
    obtain ⟨⟨a, b, -⟩, l⟩ := poke_keeps hb hl hs
    exact ⟨a, b, l⟩
  · simp only [Op.call, bitpack_off_eq_poke] at hs
    obtain ⟨⟨a, b, -⟩, l⟩ := poke_keeps hb hl hs
    exact ⟨a, b, l⟩
  · simp only [Op.call, forget_state] at hs
    obtain ⟨a, -, c, d⟩ := get_state hs
    exact ⟨by omega, by omega, by rw [← d]; exact hl⟩
  · simp only [Op.call] at hs
    obtain ⟨⟨a, b, -⟩, l⟩ := set_bits_keeps hb hl hs
    exact ⟨a, b, l⟩
  · simp only [Op.call] at hs
    obtain ⟨⟨a, b, -⟩, l⟩ := set_bytes_keeps hb hl hs
    exact ⟨a, b, l⟩
  · simp only [Op.call, forget_state] at hs
    obtain ⟨a, -, c, d⟩ := get_bits_state hs
    exact ⟨by omega, by omega, by rw [← d]; exact hl⟩
  · simp only [Op.call, forget_state] at hs
    obtain ⟨a, -, c, d⟩ := get_bytes_state hs
    exact ⟨by omega, by omega, by rw [← d]; exact hl⟩
  · simp only [Op.call, forget_state] at hs
    obtain ⟨a, c, d, -⟩ := read_bits_state hs
    exact ⟨by omega, by omega, by rw [d]; exact hl⟩
  · simp only [Op.call, forget_state] at hs
    obtain ⟨a, c, d, -⟩ := read_bytes_state hs
    exact ⟨by omega, by omega, by rw [d]; exact hl⟩
  · simp only [Op.call] at hs
    injection hs with h1
    rw [← h1]
    exact ⟨Nat.le_refl _, Nat.le_refl _, hl⟩
  · simp only [Op.call, forget_state] at hs
    obtain ⟨a, -, c, d⟩ := to_bin_state hs
    exact ⟨by omega, by omega, by rw [← d]; exact hl⟩
  · simp only [Op.call, forget_state] at hs
    obtain ⟨a, -, c, d⟩ := to_bytes_state hs
    exact ⟨by omega, by omega, by rw [← d]; exact hl⟩

/-- On a bounded heap no sequence of calls decreases the size or the allocated size. -/
theorem never_shrinks_run {h : Heap} (hb : h.bounded) :
    ∀ (ops : List Op) (bp bp' : bitpack_t), 8 * bp.data.length < ULONG_MOD →
      run_ops h bp ops = some bp' →
      bp.size ≤ bp'.size ∧ bp.data_size ≤ bp'.data_size ∧
        8 * bp'.data.length < ULONG_MOD := by
  intro ops
  induction ops with
  | nil =>
    intro bp bp' hl hs
    unfold run_ops at hs
    injection hs with h1
    rw [← h1]; exact ⟨Nat.le_refl _, Nat.le_refl _, hl⟩
  | cons op ops ih =>
    intro bp bp' hl hs
    unfold run_ops at hs
    cases hc : (op.call h bp).state with
    | none => rw [hc] at hs; exact Option.noConfusion hs
    | some bp1 =>
      rw [hc] at hs
      obtain ⟨a1, b1, l1⟩ := never_shrinks_call hb hl op hc
      obtain ⟨a2, b2, l2⟩ := ih bp1 bp' l1 hs
      exact ⟨Nat.le_trans a1 a2, Nat.le_trans b1 b2, l2⟩

/-- C32: along every sequence of public calls, whatever their arguments and whether they
succeed or fail, the size and the allocated size never decrease: between any two states of
a run that starts from an object whose block has less than 2^61 bytes, on a heap that has
no block of 2^61 bytes or more, both are non-decreasing. -/
theorem C32_never_shrinks (h : Heap) (hb : h.bounded) (bp0 bp1 bp2 : bitpack_t)
    (ops1 ops2 : List Op) (hl : 8 * bp0.data.length < ULONG_MOD)
    (h1 : run_ops h bp0 ops1 = some bp1) (h2 : run_ops h bp1 ops2 = some bp2) :
    bitpack_size bp1 ≤ bitpack_size bp2 ∧ bitpack_data_size bp1 ≤ bitpack_data_size bp2 := by
  obtain ⟨-, -, l1⟩ := never_shrinks_run hb ops1 bp0 bp1 hl h1
  obtain ⟨a, b, -⟩ := never_shrinks_run hb ops2 bp1 bp2 l1 h2
  exact ⟨a, b⟩

/-- Witness of C32: on a new object of 4 bytes, two calls lead to an object of 2 bits, and
four more calls, two of them failing, to an object of 11 bits; the allocated size is 4
throughout. -/
theorem C32_never_shrinks_witness :
    bitpack_size bp_2_bits ≤ bitpack_size bp_after_calls ∧
    bitpack_data_size bp_2_bits ≤ bitpack_data_size bp_after_calls :=
  C32_never_shrinks roomy (fun _ hn => of_decide_eq_true hn) bp_new4 bp_2_bits bp_after_calls
    [.on 0, .off 1] [.set_bits 8 3 0, .set_bytes [0xAA] 3, .get 100, .read_bits 2]
    (by decide) (by decide) (by decide)


/-! ## C34: the text of the error messages -/

theorem toString_eq_decimal (n : Nat) : toString n = decimal n := rfl

/-- The invalid-index message on a non-empty object. -/
theorem invalid_index_str_eq (index : Nat) {bp : bitpack_t} (h0 : bp.size ≠ 0)
    (hsz : bp.size < ULONG_MOD) :
    invalid_index_str index (_bitpack_err_clear bp)
      = "invalid index (" ++ decimal index ++ "), max index is " ++ decimal (bp.size - 1) := by
  have e : (bp.size + ULONG_MOD - 1) % ULONG_MOD = bp.size - 1 := by
    have : bp.size + ULONG_MOD - 1 = (bp.size - 1) + ULONG_MOD := by omega
    rw [this, Nat.add_mod_right, Nat.mod_eq_of_lt (by omega)]
  unfold invalid_index_str size_minus_1 bitpack_size
  rw [err_clear_size, e, toString_eq_decimal, toString_eq_decimal]

/-- The loop of `bitpack_get_bits` never returns a failure. -/
theorem get_bits_loop_not_error (num_bits index : Nat) :
    ∀ (n i : Nat) (bp : bitpack_t) (v : Nat) (bit : Option Nat) (bp' : bitpack_t),
      bitpack_get_bits_loop num_bits index n i bp v bit ≠ .error bp' := by
  intro n
  induction n with
  | zero =>
    intro i bp v bit bp' hs
    unfold bitpack_get_bits_loop at hs
    exact Res.noConfusion hs
  | succ n ih =>
    intro i bp v bit bp' hs
    unfold bitpack_get_bits_loop at hs
    cases hg : bitpack_get bp ((index + i) % ULONG_MOD) with
    | undefined => simp only [hg] at hs; exact Res.noConfusion hs
    | error bp1 =>
      simp only [hg] at hs
      cases bit with
      | none => exact Res.noConfusion hs
      | some b => exact ih _ _ _ _ _ hs
    | success bp1 b =>
      simp only [hg] at hs
      exact ih _ _ _ _ _ hs

/-- The loop of `bitpack_get_bytes` never returns a failure. -/
theorem get_bytes_loop_not_error (index : Nat) :
    ∀ (n i : Nat) (bp : bitpack_t) (byte : Option Nat) (unpacked : List Nat)
      (bp' : bitpack_t), bitpack_get_bytes_loop index n i bp byte unpacked ≠ .error bp' := by
  intro n
  induction n with
  | zero =>
    intro i bp byte unpacked bp' hs
    unfold bitpack_get_bytes_loop at hs
    exact Res.noConfusion hs
  | succ n ih =>
    intro i bp byte unpacked bp' hs
    unfold bitpack_get_bytes_loop at hs
    cases hg : bitpack_get_bits bp 8 ((index + (i * 8) % ULONG_MOD) % ULONG_MOD) with
    | undefined => simp only [hg] at hs; exact Res.noConfusion hs
    | error bp1 =>
      simp only [hg] at hs
      cases byte with
      | none => exact Res.noConfusion hs
      | some b => exact ih _ _ _ _ _ hs
    | success bp1 b =>
      simp only [hg] at hs
      exact ih _ _ _ _ _ hs

/-- The loop of `bitpack_to_bin` never returns a failure. -/
theorem to_bin_loop_not_error :
    ∀ (n i : Nat) (bp : bitpack_t) (bit : Option Nat) (string : String) (bp' : bitpack_t),
      bitpack_to_bin_loop n i bp bit string ≠ .error bp' := by
  intro n
  induction n with
  | zero =>
    intro i bp bit string bp' hs
    unfold bitpack_to_bin_loop at hs
    exact Res.noConfusion hs
  | succ n ih =>
    intro i bp bit string bp' hs
    unfold bitpack_to_bin_loop at hs
    cases hg : bitpack_get bp i with
    | undefined => simp only [hg] at hs; exact Res.noConfusion hs
    | error bp1 =>
      simp only [hg] at hs
      cases bit with
      | none => exact Res.noConfusion hs
      | some b => exact ih _ _ _ _ _ hs
    | success bp1 b =>
      simp only [hg] at hs
      exact ih _ _ _ _ _ hs

/-- The object a failed `bitpack_get` leaves. -/
theorem get_error_cases {bp bp' : bitpack_t} {index : Nat}
    (hs : bitpack_get bp index = .error bp') :
    (bp.size = 0 ∧ bp' = { _bitpack_err_clear bp with
        error := BITPACK_ERR_EMPTY, error_str := "bitpack is empty" }) ∨
    (bp.size ≠ 0 ∧ bp.size ≤ index ∧ bp' = { _bitpack_err_clear bp with
        error := BITPACK_ERR_INVALID_INDEX,
        error_str := invalid_index_str index (_bitpack_err_clear bp) }) := by
  have e : (_bitpack_err_clear bp).size = bp.size := err_clear_size bp
  unfold bitpack_get bitpack_size at hs
  simp only at hs
  by_cases h0 : (_bitpack_err_clear bp).size = 0
  · rw [if_pos h0] at hs
    injection hs with h1
    exact Or.inl ⟨by omega, h1.symm⟩
  · rw [if_neg h0] at hs
    by_cases h1 : index > (_bitpack_err_clear bp).size - 1
    · rw [if_pos h1] at hs
      injection hs with h2
      exact Or.inr ⟨by omega, by omega, h2.symm⟩
    · rw [if_neg h1] at hs
      cases hd : (_bitpack_err_clear bp).data[index / 8]? with
      | none => simp only [hd] at hs; exact Res.noConfusion hs
      | some b =>
        simp only [hd] at hs
        split at hs <;> exact Res.noConfusion hs

/-- The object a failed `bitpack_get_bits` leaves. -/
theorem get_bits_error_cases {bp bp' : bitpack_t} {num_bits index : Nat}
    (hs : bitpack_get_bits bp num_bits index = .error bp') :
    (bp.size ≤ index ∧ bp' = { _bitpack_err_clear bp with
        error := BITPACK_ERR_INVALID_INDEX,
        error_str := invalid_index_str index (_bitpack_err_clear bp) }) ∨
    (index < bp.size ∧ bp.size < (index + num_bits) % ULONG_MOD ∧
      bp' = { _bitpack_err_clear bp with
        error := BITPACK_ERR_READ_PAST_END,
        error_str := read_past_end_str (_bitpack_err_clear bp) }) ∨
    (index < bp.size ∧ (index + num_bits) % ULONG_MOD ≤ bp.size ∧ ULONG_BITS < num_bits ∧
      bp' = { _bitpack_err_clear bp with
        error := BITPACK_ERR_RANGE_TOO_BIG, error_str := range_too_big_str num_bits }) := by
  have e : (_bitpack_err_clear bp).size = bp.size := err_clear_size bp
  unfold bitpack_get_bits bitpack_size at hs
  simp only at hs
  by_cases h1 : index ≥ (_bitpack_err_clear bp).size
  · rw [if_pos h1] at hs
    injection hs with h2
    exact Or.inl ⟨by omega, h2.symm⟩
  · rw [if_neg h1] at hs
    by_cases h2 : (index + num_bits) % ULONG_MOD > (_bitpack_err_clear bp).size
    · rw [if_pos h2] at hs
      injection hs with h3
      exact Or.inr (Or.inl ⟨by omega, by omega, h3.symm⟩)
    · rw [if_neg h2] at hs
      by_cases h3 : num_bits > ULONG_BITS
      · rw [if_pos h3] at hs
        injection hs with h4
        exact Or.inr (Or.inr ⟨by omega, by omega, h3, h4.symm⟩)
      · rw [if_neg h3] at hs
        exact absurd hs (get_bits_loop_not_error _ _ _ _ _ _ _ _)

/-- The object a failed `bitpack_get_bytes` leaves. -/
theorem get_bytes_error_cases {h : Heap} {bp bp' : bitpack_t} {num_bytes index : Nat}
    (hs : bitpack_get_bytes h bp num_bytes index = .error bp') :
    (bp.size ≤ index ∧ bp' = { _bitpack_err_clear bp with
        error := BITPACK_ERR_INVALID_INDEX,
        error_str := invalid_index_str index (_bitpack_err_clear bp) }) ∨
    (index < bp.size ∧ bp.size < (index + (num_bytes * 8) % ULONG_MOD) % ULONG_MOD ∧
      bp' = { _bitpack_err_clear bp with
        error := BITPACK_ERR_READ_PAST_END,
        error_str := read_past_end_str (_bitpack_err_clear bp) }) ∨
    (index < bp.size ∧ (index + (num_bytes * 8) % ULONG_MOD) % ULONG_MOD ≤ bp.size ∧
      h.avail num_bytes = false ∧
      bp' = { _bitpack_err_clear bp with
        error := BITPACK_ERR_MALLOC_FAILED, error_str := "memory allocation failed" }) := by
  have e : (_bitpack_err_clear bp).size = bp.size := err_clear_size bp
  unfold bitpack_get_bytes bitpack_size at hs
  simp only at hs
  by_cases h1 : index ≥ (_bitpack_err_clear bp).size
  · rw [if_pos h1] at hs
    injection hs with h2
    exact Or.inl ⟨by omega, h2.symm⟩
  · rw [if_neg h1] at hs
    by_cases h2 : (index + (num_bytes * 8) % ULONG_MOD) % ULONG_MOD
        > (_bitpack_err_clear bp).size
    · rw [if_pos h2] at hs
      injection hs with h3
      exact Or.inr (Or.inl ⟨by omega, by omega, h3.symm⟩)
    · rw [if_neg h2] at hs
      cases hm : malloc h num_bytes with
      | none =>
        simp only [hm] at hs
        injection hs with h3
        have ha : h.avail num_bytes = false := by
          unfold malloc at hm
          by_contra hc
          rw [if_pos (by simpa using hc)] at hm
          exact Option.noConfusion hm
        exact Or.inr (Or.inr ⟨by omega, by omega, ha, h3.symm⟩)
      | some block =>
        simp only [hm] at hs
        by_cases h4 : index % 8 = 0
        · rw [if_pos h4] at hs
          split at hs <;> exact Res.noConfusion hs
        · rw [if_neg h4] at hs
          exact absurd hs (get_bytes_loop_not_error _ _ _ _ _ _ _)

/-- C34: on a non-empty object, a `bitpack_get`, `bitpack_get_bits` or `bitpack_get_bytes`
that fails with `BITPACK_ERR_INVALID_INDEX` leaves the message
`invalid index (<index>), max index is <size - 1>`, and a `bitpack_set_bits` that fails with
`BITPACK_ERR_VALUE_TOO_BIG` leaves the message `value <value> does not fit in <num_bits>
bits`, every number in decimal.  The size is an `unsigned long`. -/
theorem C34_error_messages (h : Heap) (bp bp' : bitpack_t) (hsz : bp.size < ULONG_MOD) :
    (∀ index, bitpack_size bp ≠ 0 → bitpack_get bp index = .error bp' →
      bitpack_get_error bp' = BITPACK_ERR_INVALID_INDEX →
      bitpack_get_error_str bp'
        = "invalid index (" ++ decimal index ++ "), max index is "
            ++ decimal (bitpack_size bp - 1)) ∧
    (∀ num_bits index, bitpack_size bp ≠ 0 →
      bitpack_get_bits bp num_bits index = .error bp' →
      bitpack_get_error bp' = BITPACK_ERR_INVALID_INDEX →
      bitpack_get_error_str bp'
        = "invalid index (" ++ decimal index ++ "), max index is "
            ++ decimal (bitpack_size bp - 1)) ∧
    (∀ num_bytes index, bitpack_size bp ≠ 0 →
      bitpack_get_bytes h bp num_bytes index = .error bp' →
      bitpack_get_error bp' = BITPACK_ERR_INVALID_INDEX →
      bitpack_get_error_str bp'
        = "invalid index (" ++ decimal index ++ "), max index is "
            ++ decimal (bitpack_size bp - 1)) ∧
    (∀ value num_bits index, bitpack_set_bits h bp value num_bits index = .error bp' →
      bitpack_get_error bp' = BITPACK_ERR_VALUE_TOO_BIG →
      bitpack_get_error_str bp'
        = "value " ++ decimal value ++ " does not fit in " ++ decimal num_bits ++ " bits") := by
  refine ⟨?_, ?_, ?_, ?_⟩
  · intro index h0 hs hk
    rcases get_error_cases hs with ⟨-, e⟩ | ⟨-, -, e⟩
    · subst e; exact bitpack_err_t.noConfusion hk
    · subst e; exact invalid_index_str_eq index h0 hsz
  · intro num_bits index h0 hs hk
    rcases get_bits_error_cases hs with ⟨-, e⟩ | ⟨-, -, e⟩ | ⟨-, -, -, e⟩
    · subst e; exact invalid_index_str_eq index h0 hsz
    · subst e; exact bitpack_err_t.noConfusion hk
    · subst e; exact bitpack_err_t.noConfusion hk
  · intro num_bytes index h0 hs hk
    rcases get_bytes_error_cases hs with ⟨-, e⟩ | ⟨-, -, e⟩ | ⟨-, -, -, e⟩
    · subst e; exact invalid_index_str_eq index h0 hsz
    · subst e; exact bitpack_err_t.noConfusion hk
    · subst e; exact bitpack_err_t.noConfusion hk
  · intro value num_bits index hs hk
    rcases set_bits_error_cases hs with ⟨-, e⟩ | ⟨-, -, e⟩ | e
    · subst e; exact bitpack_err_t.noConfusion hk
    · subst e
      show value_too_big_str value num_bits = _
      unfold value_too_big_str
      rw [toString_eq_decimal, toString_eq_decimal]
    · unfold bitpack_get_error at hk
      rw [e] at hk
      exact absurd hk (by decide)

/-- Witness of C34: the failing `bitpack_get(bp, 10)` of the test `test_bitpack_get_on_off`
on the 10-bit object, whose message is `invalid index (10), max index is 9`. -/
theorem C34_error_messages_witness :
    bitpack_get bp_1010101010 10 = .error bp_1010101010_invalid_index ∧
    bitpack_get_error_str bp_1010101010_invalid_index
      = "invalid index (" ++ decimal 10 ++ "), max index is " ++ decimal (10 - 1) ∧
    bitpack_get_error_str bp_1010101010_invalid_index
      = "invalid index (10), max index is 9" :=
  ⟨by decide,
   (C34_error_messages plenty bp_1010101010 bp_1010101010_invalid_index (by decide)).1 10
     (by decide) (by decide) (by decide),
   by decide⟩


/-! ## C39: when `bitpack_read_bits` succeeds -/

/-- Past the size `bitpack_get` fails and leaves the size and the block as they were. -/
theorem get_past_size (bp : bitpack_t) {index : Nat} (hi : bp.size ≤ index) :
    ∃ bp', bitpack_get bp index = .error bp' ∧ bp'.size = bp.size ∧ bp'.data = bp.data := by
  have e : (_bitpack_err_clear bp).size = bp.size := err_clear_size bp
  unfold bitpack_get bitpack_size
  simp only
  by_cases h0 : (_bitpack_err_clear bp).size = 0
  · rw [if_pos h0]
    exact ⟨_, rfl, e, err_clear_data bp⟩
  · rw [if_neg h0, if_pos (show index > (_bitpack_err_clear bp).size - 1 by omega)]
    exact ⟨_, rfl, e, err_clear_data bp⟩

/-- When every bit below the size lies inside the block, the loop of `bitpack_get_bits`
returns success, provided its first call of `bitpack_get` is below the size. -/
theorem get_bits_loop_total (num_bits index : Nat) :
    ∀ (n i : Nat) (bp : bitpack_t) (v : Nat) (bit : Option Nat),
      (∀ k, k < bp.size → k / 8 < bp.data.length) →
      (n = 0 ∨ bit ≠ none ∨ (index + i) % ULONG_MOD < bp.size) →
      ∃ bp' v', bitpack_get_bits_loop num_bits index n i bp v bit = .success bp' v' := by
  intro n
  induction n with
  | zero =>
    intro i bp v bit _ _
    unfold bitpack_get_bits_loop
    exact ⟨_, _, rfl⟩
  | succ n ih =>
    intro i bp v bit hd hb
    unfold bitpack_get_bits_loop
    by_cases hk : (index + i) % ULONG_MOD < bp.size
    · rw [bitpack_get_eq bp _ hk (hd _ hk)]
      simp only
      exact ih _ _ _ _ (by simpa using hd) (Or.inr (Or.inl (by simp)))
    · obtain ⟨bp1, hg, hs1, hd1⟩ := get_past_size bp (show bp.size ≤ _ from Nat.le_of_not_lt hk)
      rw [hg]
      cases bit with
      | none =>
        rcases hb with hb | hb | hb
        · exact absurd hb (Nat.succ_ne_zero n)
        · exact absurd rfl hb
        · exact absurd hb hk
      | some b =>
        simp only
        exact ih _ _ _ _ (by rw [hs1, hd1]; exact hd) (Or.inr (Or.inl (by simp)))

/-- The checks a successful `bitpack_get_bits` has passed. -/
theorem get_bits_checks {bp bp' : bitpack_t} {num_bits index v : Nat}
    (hs : bitpack_get_bits bp num_bits index = .success bp' v) :
    index < bp.size ∧ (index + num_bits) % ULONG_MOD ≤ bp.size ∧ num_bits ≤ ULONG_BITS := by
  have e : (_bitpack_err_clear bp).size = bp.size := err_clear_size bp
  unfold bitpack_get_bits bitpack_size at hs
  simp only at hs
  by_cases h1 : index ≥ (_bitpack_err_clear bp).size
  · rw [if_pos h1] at hs; exact Res.noConfusion hs
  · rw [if_neg h1] at hs
    by_cases h2 : (index + num_bits) % ULONG_MOD > (_bitpack_err_clear bp).size
    · rw [if_pos h2] at hs; exact Res.noConfusion hs
    · rw [if_neg h2] at hs
      by_cases h3 : num_bits > ULONG_BITS
      · rw [if_pos h3] at hs; exact Res.noConfusion hs
      · exact ⟨by omega, by omega, by omega⟩

/-- On a well-formed object `bitpack_get_bits` succeeds whenever its three checks pass. -/
theorem get_bits_total {bp : bitpack_t} (hw : WF bp) {num_bits index : Nat}
    (hi : index < bp.size) (he : (index + num_bits) % ULONG_MOD ≤ bp.size)
    (hn : num_bits ≤ ULONG_BITS) :
    ∃ bp' v, bitpack_get_bits bp num_bits index = .success bp' v := by
  have e : (_bitpack_err_clear bp).size = bp.size := err_clear_size bp
  unfold bitpack_get_bits bitpack_size
  simp only
  rw [if_neg (show ¬ index ≥ (_bitpack_err_clear bp).size by omega),
    if_neg (show ¬ (index + num_bits) % ULONG_MOD > (_bitpack_err_clear bp).size by omega),
    if_neg (show ¬ num_bits > ULONG_BITS by omega)]
  refine get_bits_loop_total num_bits index num_bits 0 _ 0 none ?_ (Or.inr (Or.inr ?_))
  · intro k hk
    rw [err_clear_data]
    exact WF_index hw (by omega)
  · obtain ⟨w1, -⟩ := hw
    rw [Nat.add_zero, Nat.mod_eq_of_lt (by omega)]
    omega

/-- On a well-formed object `bitpack_read_bits` succeeds exactly when the read position is
below the size, the end of the range, computed in `unsigned long`, is not past the size, and
the width is at most 64. -/
theorem read_bits_iff {bp : bitpack_t} (hw : WF bp) (num_bits : Nat) :
    (∃ bp' v, bitpack_read_bits bp num_bits = .success bp' v) ↔
      bp.read_pos < bp.size ∧ (bp.read_pos + num_bits) % ULONG_MOD ≤ bp.size ∧
        num_bits ≤ ULONG_BITS := by
  constructor
  · rintro ⟨bp', v, hs⟩
    obtain ⟨⟨bp1, hg⟩, -⟩ := read_bits_success hs
    exact get_bits_checks hg
  · rintro ⟨h1, h2, h3⟩
    obtain ⟨bp1, v, hg⟩ := get_bits_total hw h1 h2 h3
    unfold bitpack_read_bits bitpack_size
    simp only [err_clear_size, err_clear_read_pos, get_bits_clear]
    rw [if_neg (show ¬ (bp.read_pos + num_bits) % ULONG_MOD > bp.size by omega), hg]
    exact ⟨_, _, rfl⟩

/-- A `bitpack_read_bits` whose range is not past the size fails the way `bitpack_get_bits`
at the read position fails. -/
theorem read_bits_fails_as_get_bits {bp bp1 : bitpack_t} {num_bits : Nat}
    (he : (bp.read_pos + num_bits) % ULONG_MOD ≤ bp.size)
    (hg : bitpack_get_bits bp num_bits bp.read_pos = .error bp1) :
    bitpack_read_bits bp num_bits = .error bp1 := by
  unfold bitpack_read_bits bitpack_size
  simp only [err_clear_size, err_clear_read_pos, get_bits_clear]
  rw [if_neg (show ¬ (bp.read_pos + num_bits) % ULONG_MOD > bp.size by omega), hg]

/-- C39: on a well-formed object `bitpack_read_bits(num_bits)` succeeds if and only if the
read position is below the size, the read position plus `num_bits`, as the `unsigned long`
sum the code computes, is at most the size, and `num_bits` is at most 64; the sum is the
plain sum when it is below 2^64, or the width is above 64, or the size is at most
2^64 - 64.  A zero-width read with the read position at the size (also on an empty object)
fails with `BITPACK_ERR_INVALID_INDEX`, a read wider than 64 bits that fits below the size
fails with `BITPACK_ERR_RANGE_TOO_BIG`, and both leave the read position unchanged. -/
theorem C39_read_bits_succeeds_iff (bp : bitpack_t) (hw : WF bp) (num_bits : Nat) :
    ((∃ bp' v, bitpack_read_bits bp num_bits = .success bp' v) ↔
      bitpack_read_pos bp < bitpack_size bp ∧
      (bitpack_read_pos bp + num_bits) % ULONG_MOD ≤ bitpack_size bp ∧ num_bits ≤ 64) ∧
    (bitpack_read_pos bp + num_bits < ULONG_MOD ∨ 64 < num_bits ∨
        bitpack_size bp + 64 ≤ ULONG_MOD →
      ((∃ bp' v, bitpack_read_bits bp num_bits = .success bp' v) ↔
        bitpack_read_pos bp < bitpack_size bp ∧
        bitpack_read_pos bp + num_bits ≤ bitpack_size bp ∧ num_bits ≤ 64)) ∧
    (bitpack_read_pos bp = bitpack_size bp →
      ∃ bp', bitpack_read_bits bp 0 = .error bp' ∧
        bitpack_get_error bp' = BITPACK_ERR_INVALID_INDEX ∧
        bitpack_read_pos bp' = bitpack_read_pos bp) ∧
    (64 < num_bits → bitpack_read_pos bp < bitpack_size bp →
      bitpack_read_pos bp + num_bits ≤ bitpack_size bp →
      ∃ bp', bitpack_read_bits bp num_bits = .error bp' ∧
        bitpack_get_error bp' = BITPACK_ERR_RANGE_TOO_BIG ∧
        bitpack_read_pos bp' = bitpack_read_pos bp) := by
  have hiff := read_bits_iff hw num_bits
  obtain ⟨w1, w2, -⟩ := hw
  unfold bitpack_read_pos bitpack_size bitpack_get_error
  unfold ULONG_BITS at hiff
  refine ⟨hiff, ?_, ?_, ?_⟩
  · intro hc
    rw [hiff]
    constructor
    · rintro ⟨a, b, c⟩
      have hlt : bp.read_pos + num_bits < ULONG_MOD := by
        rcases hc with hc | hc | hc <;> omega
      rw [Nat.mod_eq_of_lt hlt] at b
      exact ⟨a, b, c⟩
    · rintro ⟨a, b, c⟩
      exact ⟨a, by rw [Nat.mod_eq_of_lt (by omega)]; exact b, c⟩
  · intro hp
    have he : (bp.read_pos + 0) % ULONG_MOD ≤ bp.size := by
      rw [Nat.add_zero, Nat.mod_eq_of_lt w2]; omega
    have hg : bitpack_get_bits bp 0 bp.read_pos
        = .error { _bitpack_err_clear bp with
            error := BITPACK_ERR_INVALID_INDEX,
            error_str := invalid_index_str bp.read_pos (_bitpack_err_clear bp) } := by
      unfold bitpack_get_bits bitpack_size
      simp only
      rw [if_pos (show bp.read_pos ≥ (_bitpack_err_clear bp).size by
        rw [err_clear_size]; omega)]
    exact ⟨_, read_bits_fails_as_get_bits he hg, rfl, err_clear_read_pos bp⟩
  · intro hn hp hle
    have he : (bp.read_pos + num_bits) % ULONG_MOD ≤ bp.size := by
      rw [Nat.mod_eq_of_lt (by omega)]; exact hle
    have hg : bitpack_get_bits bp num_bits bp.read_pos
        = .error { _bitpack_err_clear bp with
            error := BITPACK_ERR_RANGE_TOO_BIG,
            error_str := range_too_big_str num_bits } := by
      have e : (_bitpack_err_clear bp).size = bp.size := err_clear_size bp
      unfold bitpack_get_bits bitpack_size
      simp only
      rw [if_neg (show ¬ bp.read_pos ≥ (_bitpack_err_clear bp).size by omega),
        if_neg (show ¬ (bp.read_pos + num_bits) % ULONG_MOD > (_bitpack_err_clear bp).size by
          omega),
        if_pos (show num_bits > ULONG_BITS by unfold ULONG_BITS; omega)]
    exact ⟨_, read_bits_fails_as_get_bits he hg, rfl, err_clear_read_pos bp⟩

/-- Witness of C39: on the 48-bit object of the tests with the read position at 40, a read
of 8 bits succeeds; on the empty object a zero-width read fails with
`BITPACK_ERR_INVALID_INDEX`. -/
theorem C39_read_bits_succeeds_iff_witness :
    (∃ bp' v, bitpack_read_bits (bp_48_bits_at 40) 8 = .success bp' v) ∧
    ¬ (∃ bp' v, bitpack_read_bits (bp_48_bits_at 40) 9 = .success bp' v) ∧
    bitpack_read_bits bp_empty32 0 = .error bp_empty32_invalid_index :=
  ⟨(C39_read_bits_succeeds_iff (bp_48_bits_at 40) (by decide) 8).1.mpr
     ⟨by decide, by decide, by decide⟩,
   fun hx => absurd
     ((C39_read_bits_succeeds_iff (bp_48_bits_at 40) (by decide) 9).1.mp hx).2.1 (by decide),
   by decide⟩


/-! ## C40: the return value and the error state -/

theorem clean_of_clear {bp : bitpack_t} (hc : err_consistent bp) :
    clean (_bitpack_err_clear bp) := by
  unfold clean bitpack_get_error bitpack_get_error_str _bitpack_err_clear
  by_cases he : bp.error = BITPACK_ERR_CLEAR
  · rw [if_neg (not_not.mpr he)]
    exact ⟨he, hc he⟩
  · rw [if_pos he]
    exact ⟨rfl, rfl⟩

theorem consistent_of_clean {bp : bitpack_t} (hc : clean bp) : err_consistent bp :=
  fun _ => hc.2

theorem clear_of_clean {bp : bitpack_t} (hc : clean bp) : _bitpack_err_clear bp = bp :=
  err_clear_of_clear hc.1

theorem forget_flagged {α : Type} (r : Res α) : r.forget.flagged ↔ r.flagged := by
  cases r <;> rfl

theorem andThen_flagged {α β : Type} {r : Res α} {f : bitpack_t → α → Res β}
    (hr : r.flagged) (hf : ∀ bp v, clean bp → (f bp v).flagged) : (r.andThen f).flagged := by
  cases r with
  | success bp v => exact hf bp v hr
  | error bp => exact hr
  | undefined => trivial

/-- The outcome of `_bitpack_resize` on an object with a clean error state: a success leaves it
clean, a failure sets a kind. -/
theorem resize_flagged {h : Heap} {bp : bitpack_t} {n : Nat} (hc : clean bp) {r : Res Unit}
    (hs : _bitpack_resize h bp n = r) : r.flagged := by
  unfold _bitpack_resize at hs
  simp only at hs
  by_cases hg : round8 n / 8 > bp.data_size
  · rw [if_pos hg] at hs
    cases hr : realloc h bp.data (round8 n / 8) with
    | none =>
      simp only [hr] at hs
      subst hs
      exact fun hx => bitpack_err_t.noConfusion hx
    | some data =>
      simp only [hr] at hs
      cases hm : memset data bp.data_size 0 (round8 n / 8 - bp.data_size) with
      | none => simp only [hm] at hs; subst hs; trivial
      | some d => simp only [hm] at hs; subst hs; exact hc
  · rw [if_neg hg] at hs
    subst hs
    exact hc

/-- The outcome of `bitpack_on` and `bitpack_off`. -/
theorem poke_flagged {f : Nat → Nat → Nat} {h : Heap} {bp : bitpack_t} {index : Nat}
    (hc : err_consistent bp) {r : Res Unit} (hs : poke f h bp index = r) : r.flagged := by
  have hg : (grow_for_bit h (_bitpack_err_clear bp) index).flagged := by
    unfold grow_for_bit
    split
    · exact resize_flagged (clean_of_clear hc) rfl
    · exact clean_of_clear hc
  unfold poke at hs
  cases hr : grow_for_bit h (_bitpack_err_clear bp) index with
  | undefined => simp only [hr] at hs; subst hs; trivial
  | error bp1 =>
    rw [hr] at hg
    simp only [hr] at hs
    subst hs
    exact hg
  | success bp1 u =>
    rw [hr] at hg
    simp only [hr] at hs
    cases hd : bp1.data[index / 8]? with
    | none => simp only [hd] at hs; subst hs; trivial
    | some b => simp only [hd] at hs; subst hs; exact hg

/-- The outcome of the loop of `bitpack_set_bits`. -/
theorem set_bits_loop_flagged (h : Heap) (value : Nat) :
    ∀ (i : Nat) (bp : bitpack_t) (index : Nat), clean bp →
      (bitpack_set_bits_loop h value i bp index).flagged := by
  intro i
  induction i with
  | zero =>
    intro bp index hc
    unfold bitpack_set_bits_loop
    exact hc
  | succ i ih =>
    intro bp index hc
    rw [set_bits_loop_step]
    exact andThen_flagged (poke_flagged (consistent_of_clean hc) rfl)
      (fun bp1 _ h1 => ih bp1 _ h1)

/-- The outcome of `bitpack_set_bits`. -/
theorem set_bits_flagged {h : Heap} {bp : bitpack_t} {value num_bits index : Nat}
    (hc : err_consistent bp) {r : Res Unit}
    (hs : bitpack_set_bits h bp value num_bits index = r) : r.flagged := by
  have hcl := clean_of_clear hc
  unfold bitpack_set_bits at hs
  simp only at hs
  by_cases h1 : num_bits > ULONG_BITS
  · rw [if_pos h1] at hs
    subst hs
    exact fun hx => bitpack_err_t.noConfusion hx
  · rw [if_neg h1] at hs
    by_cases h2 : to_double value > pow2_minus_1 num_bits
    · rw [if_pos h2] at hs
      subst hs
      exact fun hx => bitpack_err_t.noConfusion hx
    · rw [if_neg h2] at hs
      by_cases h3 : bitpack_size (_bitpack_err_clear bp) < (index + num_bits) % ULONG_MOD
      · simp only [if_pos h3] at hs
        have hg := @resize_flagged h (_bitpack_err_clear bp) ((index + num_bits) % ULONG_MOD)
          hcl _ rfl
        cases hr : _bitpack_resize h (_bitpack_err_clear bp) ((index + num_bits) % ULONG_MOD) with
        | undefined => simp only [hr] at hs; subst hs; trivial
        | error bp1 => rw [hr] at hg; simp only [hr] at hs; subst hs; exact hg
        | success bp1 u =>
          rw [hr] at hg
          simp only [hr] at hs
          subst hs
          exact set_bits_loop_flagged h value num_bits bp1 index hg
      · simp only [if_neg h3] at hs
        subst hs
        exact set_bits_loop_flagged h value num_bits _ index hcl

/-- The outcome of the loop of `bitpack_set_bytes`. -/
theorem set_bytes_loop_flagged (h : Heap) (value : List Nat) (index : Nat) :
    ∀ (n i : Nat) (bp : bitpack_t), clean bp →
      (bitpack_set_bytes_loop h value index n i bp).flagged := by
  intro n
  induction n with
  | zero =>
    intro i bp hc
    unfold bitpack_set_bytes_loop
    exact hc
  | succ n ih =>
    intro i bp hc
    unfold bitpack_set_bytes_loop
    cases hv : value[i]? with
    | none => trivial
    | some b =>
      simp only
      have hg := @set_bits_flagged h bp b 8 ((index + (i * 8) % ULONG_MOD) % ULONG_MOD)
        (consistent_of_clean hc) _ rfl
      cases hr : bitpack_set_bits h bp b 8 ((index + (i * 8) % ULONG_MOD) % ULONG_MOD) with
      | undefined => trivial
      | error bp1 => rw [hr] at hg; exact hg
      | success bp1 u => rw [hr] at hg; exact ih _ _ hg

/-- The outcome of `bitpack_set_bytes`. -/
theorem set_bytes_flagged {h : Heap} {bp : bitpack_t} {value : List Nat} {index : Nat}
    (hc : err_consistent bp) {r : Res Unit}
    (hs : bitpack_set_bytes h bp value index = r) : r.flagged := by
  have hcl := clean_of_clear hc
  have body : ∀ bp1, clean bp1 →
      (if index % 8 = 0 then
        match memcpy bp1.data (index / 8) value with
        | none => (Res.undefined : Res Unit)
        | some data => .success { bp1 with data := data } ()
      else bitpack_set_bytes_loop h value index value.length 0 bp1).flagged := by
    intro bp1 h1
    by_cases ha : index % 8 = 0
    · rw [if_pos ha]
      cases hm : memcpy bp1.data (index / 8) value with
      | none => trivial
      | some data => exact h1
    · rw [if_neg ha]
      exact set_bytes_loop_flagged h value index _ _ _ h1
  unfold bitpack_set_bytes at hs
  simp only at hs
  by_cases h3 : bitpack_size (_bitpack_err_clear bp)
      < (index + (value.length * 8) % ULONG_MOD) % ULONG_MOD
  · simp only [if_pos h3] at hs
    have hg := @resize_flagged h (_bitpack_err_clear bp)
      ((index + (value.length * 8) % ULONG_MOD) % ULONG_MOD) hcl _ rfl
    cases hr : _bitpack_resize h (_bitpack_err_clear bp)
        ((index + (value.length * 8) % ULONG_MOD) % ULONG_MOD) with
    | undefined => simp only [hr] at hs; subst hs; trivial
    | error bp1 => rw [hr] at hg; simp only [hr] at hs; subst hs; exact hg
    | success bp1 u =>
      rw [hr] at hg
      simp only [hr] at hs
      subst hs
      exact body bp1 hg
  · simp only [if_neg h3] at hs
    subst hs
    exact body _ hcl


/-- A successful `bitpack_get` only clears the error state. -/
theorem get_success_state {bp bp' : bitpack_t} {index b : Nat}
    (hs : bitpack_get bp index = .success bp' b) : bp' = _bitpack_err_clear bp := by
  unfold bitpack_get bitpack_size at hs
  simp only at hs
  by_cases h0 : (_bitpack_err_clear bp).size = 0
  · rw [if_pos h0] at hs; exact Res.noConfusion hs
  · rw [if_neg h0] at hs
    by_cases h1 : index > (_bitpack_err_clear bp).size - 1
    · rw [if_pos h1] at hs; exact Res.noConfusion hs
    · rw [if_neg h1] at hs
      cases hd : (_bitpack_err_clear bp).data[index / 8]? with
      | none => simp only [hd] at hs; exact Res.noConfusion hs
      | some x =>
        simp only [hd] at hs
        split at hs
        · injection hs with e1 e2; exact e1.symm
        · injection hs with e1 e2; exact e1.symm

/-- The outcome of `bitpack_get`. -/
theorem get_flagged {bp : bitpack_t} (hc : err_consistent bp) (index : Nat) :
    (bitpack_get bp index).flagged := by
  cases hr : bitpack_get bp index with
  | undefined => trivial
  | error bp1 =>
    rcases get_error_cases hr with ⟨-, e⟩ | ⟨-, -, e⟩
    · subst e; exact fun hx => bitpack_err_t.noConfusion hx
    · subst e; exact fun hx => bitpack_err_t.noConfusion hx
  | success bp1 b =>
    rw [get_success_state hr]
    exact clean_of_clear hc

/-- On an object with a clear error kind the loop of `bitpack_get_bits` over bits below the
size either reads outside the block or returns success and leaves the object as it is. -/
theorem get_bits_loop_inside (num_bits index : Nat) :
    ∀ (n i : Nat) (bp : bitpack_t) (v : Nat) (bit : Option Nat),
      bp.error = BITPACK_ERR_CLEAR →
      (∀ j, i ≤ j → j < i + n → (index + j) % ULONG_MOD < bp.size) →
      ∀ r, bitpack_get_bits_loop num_bits index n i bp v bit = r →
        r = .undefined ∨ ∃ v', r = .success bp v' := by
  intro n
  induction n with
  | zero =>
    intro i bp v bit _ _ r hs
    unfold bitpack_get_bits_loop at hs
    exact Or.inr ⟨v, hs.symm⟩
  | succ n ih =>
    intro i bp v bit he hin r hs
    unfold bitpack_get_bits_loop at hs
    have hk := hin i (Nat.le_refl _) (by omega)
    rcases get_below_size bp hk with ⟨-, hg⟩ | ⟨-, hg⟩
    · rw [hg, err_clear_of_clear he] at hs
      simp only at hs
      exact ih _ _ _ _ he (fun j h1 h2 => hin j (by omega) (by omega)) r hs
    · rw [hg] at hs
      exact Or.inl hs.symm

/-- A `bitpack_get_bits` of a field below the size either reads outside the block or returns
success and only clears the error state. -/
theorem get_bits_inside (bp : bitpack_t) {num_bits index : Nat} (hi : index < bp.size)
    (he : index + num_bits ≤ bp.size) (hM : index + num_bits < ULONG_MOD)
    (hn : num_bits ≤ ULONG_BITS) :
    bitpack_get_bits bp num_bits index = .undefined ∨
      ∃ v, bitpack_get_bits bp num_bits index = .success (_bitpack_err_clear bp) v := by
  have e : (_bitpack_err_clear bp).size = bp.size := err_clear_size bp
  unfold bitpack_get_bits bitpack_size
  simp only
  rw [if_neg (show ¬ index ≥ (_bitpack_err_clear bp).size by omega),
    if_neg (show ¬ (index + num_bits) % ULONG_MOD > (_bitpack_err_clear bp).size by
      rw [Nat.mod_eq_of_lt hM]; omega),
    if_neg (show ¬ num_bits > ULONG_BITS by omega)]
  exact get_bits_loop_inside num_bits index num_bits 0 _ 0 none (err_clear_error bp)
    (fun j _ h2 => by rw [Nat.mod_eq_of_lt (by omega), e]; omega) _ rfl

/-- The outcome of `bitpack_get_bits` when `index + num_bits` does not wrap. -/
theorem get_bits_flagged {bp : bitpack_t} (hc : err_consistent bp) {num_bits index : Nat}
    (hM : index + num_bits < ULONG_MOD) : (bitpack_get_bits bp num_bits index).flagged := by
  cases hr : bitpack_get_bits bp num_bits index with
  | undefined => trivial
  | error bp1 =>
    rcases get_bits_error_cases hr with ⟨-, e⟩ | ⟨-, -, e⟩ | ⟨-, -, -, e⟩
    · subst e; exact fun hx => bitpack_err_t.noConfusion hx
    · subst e; exact fun hx => bitpack_err_t.noConfusion hx
    · subst e; exact fun hx => bitpack_err_t.noConfusion hx
  | success bp1 v =>
    obtain ⟨h1, h2, h3⟩ := get_bits_checks hr
    rw [Nat.mod_eq_of_lt hM] at h2
    rcases get_bits_inside bp h1 h2 hM h3 with hu | ⟨v', hv⟩
    · rw [hu] at hr; exact Res.noConfusion hr
    · rw [hv] at hr
      injection hr with e1 e2
      rw [← e1]
      exact clean_of_clear hc

/-- On an object with a clear error kind the loop of `bitpack_get_bytes` over bytes below
the size either reads outside the block or returns success and leaves the object as it
is. -/
theorem get_bytes_loop_inside (index : Nat) :
    ∀ (n i : Nat) (bp : bitpack_t) (byte : Option Nat) (unpacked : List Nat),
      bp.error = BITPACK_ERR_CLEAR → index + 8 * (i + n) ≤ bp.size →
      index + 8 * (i + n) < ULONG_MOD →
      ∀ r, bitpack_get_bytes_loop index n i bp byte unpacked = r →
        r = .undefined ∨ ∃ out, r = .success bp out := by
  intro n
  induction n with
  | zero =>
    intro i bp byte unpacked _ _ _ r hs
    unfold bitpack_get_bytes_loop at hs
    exact Or.inr ⟨unpacked, hs.symm⟩
  | succ n ih =>
    intro i bp byte unpacked he hin hM r hs
    unfold bitpack_get_bytes_loop at hs
    have hidx : (index + (i * 8) % ULONG_MOD) % ULONG_MOD = index + 8 * i := by
      rw [Nat.mod_eq_of_lt (show i * 8 < ULONG_MOD by omega), Nat.mod_eq_of_lt (by omega)]
      omega
    rw [hidx] at hs
    rcases get_bits_inside bp (show index + 8 * i < bp.size by omega)
        (show index + 8 * i + 8 ≤ bp.size by omega) (by omega)
        (show 8 ≤ ULONG_BITS by decide) with hg | ⟨v, hg⟩
    · rw [hg] at hs
      exact Or.inl hs.symm
    · rw [hg, err_clear_of_clear he] at hs
      simp only at hs
      exact ih _ _ _ _ he (by omega) (by omega) r hs

/-- The outcome of `bitpack_get_bytes` when `index + 8 * num_bytes` does not wrap. -/
theorem get_bytes_flagged {h : Heap} {bp : bitpack_t} (hc : err_consistent bp)
    {num_bytes index : Nat} (hM : index + 8 * num_bytes < ULONG_MOD) :
    (bitpack_get_bytes h bp num_bytes index).flagged := by
  cases hr : bitpack_get_bytes h bp num_bytes index with
  | undefined => trivial
  | error bp1 =>
    rcases get_bytes_error_cases hr with ⟨-, e⟩ | ⟨-, -, e⟩ | ⟨-, -, -, e⟩
    · subst e; exact fun hx => bitpack_err_t.noConfusion hx
    · subst e; exact fun hx => bitpack_err_t.noConfusion hx
    · subst e; exact fun hx => bitpack_err_t.noConfusion hx
  | success bp1 out =>
    obtain ⟨h1, h2, -⟩ := get_bytes_checks hM hr
    have e : (_bitpack_err_clear bp).size = bp.size := err_clear_size bp
    have hmul : (num_bytes * 8) % ULONG_MOD = 8 * num_bytes := by
      rw [Nat.mod_eq_of_lt (by omega)]; omega
    unfold bitpack_get_bytes bitpack_size at hr
    simp only at hr
    rw [if_neg (show ¬ index ≥ (_bitpack_err_clear bp).size by omega),
      if_neg (show ¬ (index + (num_bytes * 8) % ULONG_MOD) % ULONG_MOD
          > (_bitpack_err_clear bp).size by
        rw [hmul, Nat.mod_eq_of_lt hM]; omega)] at hr
    cases hm : malloc h num_bytes with
    | none => simp only [hm] at hr; exact Res.noConfusion hr
    | some block =>
      simp only [hm] at hr
      by_cases ha : index % 8 = 0
      · rw [if_pos ha] at hr
        cases hd : memread (_bitpack_err_clear bp).data (index / 8) num_bytes with
        | none => simp only [hd] at hr; exact Res.noConfusion hr
        | some bytes =>
          simp only [hd] at hr
          injection hr with e1 e2
          rw [← e1]
          exact clean_of_clear hc
      · rw [if_neg ha] at hr
        rcases get_bytes_loop_inside index num_bytes 0 (_bitpack_err_clear bp) none []
            (err_clear_error bp) (by rw [e]; omega) (by omega) _ hr with hu | ⟨o, ho⟩
        · exact Res.noConfusion hu
        · injection ho with e1 e2
          rw [e1]
          exact clean_of_clear hc

/-- On an object with a clear error kind the loop of `bitpack_to_bin` over bits below the
size either reads outside the block or returns success and leaves the object as it is. -/
theorem to_bin_loop_inside :
    ∀ (n i : Nat) (bp : bitpack_t) (bit : Option Nat) (string : String),
      bp.error = BITPACK_ERR_CLEAR → i + n ≤ bp.size →
      ∀ r, bitpack_to_bin_loop n i bp bit string = r →
        r = .undefined ∨ ∃ s, r = .success bp s := by
  intro n
  induction n with
  | zero =>
    intro i bp bit string _ _ r hs
    unfold bitpack_to_bin_loop at hs
    exact Or.inr ⟨string, hs.symm⟩
  | succ n ih =>
    intro i bp bit string he hin r hs
    unfold bitpack_to_bin_loop at hs
    rcases get_below_size bp (show i < bp.size by omega) with ⟨-, hg⟩ | ⟨-, hg⟩
    · rw [hg, err_clear_of_clear he] at hs
      simp only at hs
      exact ih _ _ _ _ he (by omega) r hs
    · rw [hg] at hs
      exact Or.inl hs.symm

/-- The outcome of `bitpack_to_bin`. -/
theorem to_bin_flagged {h : Heap} {bp : bitpack_t} (hc : err_consistent bp) :
    (bitpack_to_bin h bp).flagged := by
  have e : (_bitpack_err_clear bp).size = bp.size := err_clear_size bp
  cases hr : bitpack_to_bin h bp with
  | undefined => trivial
  | error bp1 =>
    unfold bitpack_to_bin bitpack_size at hr
    simp only at hr
    cases hm : malloc h (((_bitpack_err_clear bp).size + 1) % ULONG_MOD) with
    | none =>
      simp only [hm] at hr
      injection hr with e1
      rw [← e1]
      exact fun hx => bitpack_err_t.noConfusion hx
    | some s =>
      simp only [hm] at hr
      by_cases hl : s.length = 0
      · rw [if_pos hl] at hr; exact Res.noConfusion hr
      · rw [if_neg hl] at hr
        exact absurd hr (to_bin_loop_not_error _ _ _ _ _ _)
  | success bp1 out =>
    unfold bitpack_to_bin bitpack_size at hr
    simp only at hr
    cases hm : malloc h (((_bitpack_err_clear bp).size + 1) % ULONG_MOD) with
    | none => simp only [hm] at hr; exact Res.noConfusion hr
    | some s =>
      simp only [hm] at hr
      by_cases hl : s.length = 0
      · rw [if_pos hl] at hr; exact Res.noConfusion hr
      · rw [if_neg hl] at hr
        rcases to_bin_loop_inside _ 0 (_bitpack_err_clear bp) none "" (err_clear_error bp)
            (by omega) _ hr with hu | ⟨o, ho⟩
        · exact Res.noConfusion hu
        · injection ho with e1 e2
          rw [e1]
          exact clean_of_clear hc

/-- The outcome of `bitpack_to_bytes`. -/
theorem to_bytes_flagged {h : Heap} {bp : bitpack_t} (hc : err_consistent bp) :
    (bitpack_to_bytes h bp).flagged := by
  unfold bitpack_to_bytes
  simp only
  cases hm : malloc h (round8 bp.size / 8) with
  | none => exact fun hx => bitpack_err_t.noConfusion hx
  | some s =>
    simp only
    cases hd : memread (_bitpack_err_clear bp).data 0 (round8 bp.size / 8) with
    | none => trivial
    | some bytes => exact clean_of_clear hc

/-- The outcome of `bitpack_read_bits`, from that of `bitpack_get_bits` at the read
position. -/
theorem read_bits_flagged_of {bp : bitpack_t} {num_bits : Nat}
    (hg : (bitpack_get_bits bp num_bits bp.read_pos).flagged) :
    (bitpack_read_bits bp num_bits).flagged := by
  unfold bitpack_read_bits bitpack_size
  simp only [err_clear_size, err_clear_read_pos, get_bits_clear]
  by_cases h1 : (bp.read_pos + num_bits) % ULONG_MOD > bp.size
  · rw [if_pos h1]
    exact fun hx => bitpack_err_t.noConfusion hx
  · rw [if_neg h1]
    cases hr : bitpack_get_bits bp num_bits bp.read_pos with
    | undefined => trivial
    | error bp1 => rw [hr] at hg; exact hg
    | success bp1 v => rw [hr] at hg; exact hg

/-- The outcome of `bitpack_read_bytes`, from that of `bitpack_get_bytes` at the read
position. -/
theorem read_bytes_flagged_of {h : Heap} {bp : bitpack_t} {num_bytes : Nat}
    (hg : (bitpack_get_bytes h bp num_bytes bp.read_pos).flagged) :
    (bitpack_read_bytes h bp num_bytes).flagged := by
  unfold bitpack_read_bytes bitpack_size
  simp only [err_clear_size, err_clear_read_pos, get_bytes_clear]
  by_cases h1 : (bp.read_pos + (num_bytes * 8) % ULONG_MOD) % ULONG_MOD > bp.size
  · rw [if_pos h1]
    exact fun hx => bitpack_err_t.noConfusion hx
  · rw [if_neg h1]
    cases hr : bitpack_get_bytes h bp num_bytes bp.read_pos with
    | undefined => trivial
    | error bp1 => rw [hr] at hg; exact hg
    | success bp1 v => rw [hr] at hg; exact hg

/-- For every fallible call whose range does not wrap, on an object whose message is empty
when its kind is clear: a success leaves a clean error state, a failure leaves a kind other
than `BITPACK_ERR_CLEAR`. -/
theorem call_flagged (h : Heap) {bp : bitpack_t} (hc : err_consistent bp) (op : Op)
    (hf : op.fallible = true) (hr : op.reach bp < ULONG_MOD) : (op.call h bp).flagged := by
  rcases op with index | index | index | ⟨value, num_bits, index⟩ | ⟨value, index⟩ |
    ⟨num_bits, index⟩ | ⟨num_bytes, index⟩ | num_bits | num_bytes | _ | _ | _
  · exact poke_flagged hc (bitpack_on_eq_poke h bp index).symm
  · exact poke_flagged hc (bitpack_off_eq_poke h bp index).symm
  · exact (forget_flagged _).mpr (get_flagged hc index)
  · exact set_bits_flagged hc rfl
  · exact set_bytes_flagged hc rfl
  · exact (forget_flagged _).mpr (get_bits_flagged hc hr)
  · exact (forget_flagged _).mpr (get_bytes_flagged hc hr)
  · exact (forget_flagged _).mpr (read_bits_flagged_of (get_bits_flagged hc hr))
  · exact (forget_flagged _).mpr (read_bytes_flagged_of (get_bytes_flagged hc hr))
  · exact absurd hf (by decide)
  · exact (forget_flagged _).mpr (to_bin_flagged hc)
  · exact (forget_flagged _).mpr (to_bytes_flagged hc)


/-! ## The error state of every object the library produces -/

theorem consistent_of_flagged {α : Type} {r : Res α} (hf : r.flagged) {bp' : bitpack_t}
    (hs : r.state = some bp') : err_consistent bp' := by
  cases r with
  | undefined => exact Option.noConfusion hs
  | error bp1 =>
    injection hs with e1
    subst e1
    exact fun hx => absurd hx hf
  | success bp1 v =>
    injection hs with e1
    subst e1
    exact consistent_of_clean hf

theorem consistent_set_error (bp : bitpack_t) {e : bitpack_err_t} (s : String)
    (he : e ≠ BITPACK_ERR_CLEAR) : err_consistent { bp with error := e, error_str := s } :=
  fun hx => absurd hx he

/-- The loop of `bitpack_get_bits` keeps the message empty when the kind is clear. -/
theorem get_bits_loop_consistent (num_bits index : Nat) :
    ∀ (n i : Nat) (bp : bitpack_t) (v : Nat) (bit : Option Nat) (bp' : bitpack_t),
      err_consistent bp →
      (bitpack_get_bits_loop num_bits index n i bp v bit).state = some bp' →
      err_consistent bp' := by
  intro n
  induction n with
  | zero =>
    intro i bp v bit bp' hc hs
    unfold bitpack_get_bits_loop at hs
    injection hs with e1
    rw [← e1]; exact hc
  | succ n ih =>
    intro i bp v bit bp' hc hs
    unfold bitpack_get_bits_loop at hs
    have hg := get_flagged hc ((index + i) % ULONG_MOD)
    cases hr : bitpack_get bp ((index + i) % ULONG_MOD) with
    | undefined => simp only [hr] at hs; exact Option.noConfusion hs
    | error bp1 =>
      simp only [hr] at hs
      have c1 : err_consistent bp1 := consistent_of_flagged hg (by rw [hr]; rfl)
      cases bit with
      | none => exact Option.noConfusion hs
      | some b => exact ih _ _ _ _ _ c1 hs
    | success bp1 b =>
      simp only [hr] at hs
      have c1 : err_consistent bp1 := consistent_of_flagged hg (by rw [hr]; rfl)
      exact ih _ _ _ _ _ c1 hs

/-- A `bitpack_get_bits` keeps the message empty when the kind is clear. -/
theorem get_bits_consistent {bp bp' : bitpack_t} (hc : err_consistent bp)
    {num_bits index : Nat} (hs : (bitpack_get_bits bp num_bits index).state = some bp') :
    err_consistent bp' := by
  unfold bitpack_get_bits at hs
  simp only at hs
  split at hs
  · injection hs with e1; rw [← e1]; exact fun hx => bitpack_err_t.noConfusion hx
  · split at hs
    · injection hs with e1; rw [← e1]; exact fun hx => bitpack_err_t.noConfusion hx
    · split at hs
      · injection hs with e1; rw [← e1]; exact fun hx => bitpack_err_t.noConfusion hx
      · exact get_bits_loop_consistent _ _ _ _ _ _ _ _
          (consistent_of_clean (clean_of_clear hc)) hs

/-- The loop of `bitpack_get_bytes` keeps the message empty when the kind is clear. -/
theorem get_bytes_loop_consistent (index : Nat) :
    ∀ (n i : Nat) (bp : bitpack_t) (byte : Option Nat) (unpacked : List Nat)
      (bp' : bitpack_t), err_consistent bp →
      (bitpack_get_bytes_loop index n i bp byte unpacked).state = some bp' →
      err_consistent bp' := by
  intro n
  induction n with
  | zero =>
    intro i bp byte unpacked bp' hc hs
    unfold bitpack_get_bytes_loop at hs
    injection hs with e1
    rw [← e1]; exact hc
  | succ n ih =>
    intro i bp byte unpacked bp' hc hs
    unfold bitpack_get_bytes_loop at hs
    cases hr : bitpack_get_bits bp 8 ((index + (i * 8) % ULONG_MOD) % ULONG_MOD) with
    | undefined => simp only [hr] at hs; exact Option.noConfusion hs
    | error bp1 =>
      simp only [hr] at hs
      have c1 : err_consistent bp1 := get_bits_consistent hc (by rw [hr]; rfl)
      cases byte with
      | none => exact Option.noConfusion hs
      | some b => exact ih _ _ _ _ _ c1 hs
    | success bp1 b =>
      simp only [hr] at hs
      have c1 : err_consistent bp1 := get_bits_consistent hc (by rw [hr]; rfl)
      exact ih _ _ _ _ _ c1 hs

/-- A `bitpack_get_bytes` keeps the message empty when the kind is clear. -/
theorem get_bytes_consistent {h : Heap} {bp bp' : bitpack_t} (hc : err_consistent bp)
    {num_bytes index : Nat} (hs : (bitpack_get_bytes h bp num_bytes index).state = some bp') :
    err_consistent bp' := by
  unfold bitpack_get_bytes at hs
  simp only at hs
  split at hs
  · injection hs with e1; rw [← e1]; exact fun hx => bitpack_err_t.noConfusion hx
  · split at hs
    · injection hs with e1; rw [← e1]; exact fun hx => bitpack_err_t.noConfusion hx
    · split at hs
      · injection hs with e1; rw [← e1]; exact fun hx => bitpack_err_t.noConfusion hx
      · split at hs
        · split at hs
          · exact Option.noConfusion hs
          · injection hs with e1
            rw [← e1]
            exact consistent_of_clean (clean_of_clear hc)
        · exact get_bytes_loop_consistent _ _ _ _ _ _ _
            (consistent_of_clean (clean_of_clear hc)) hs

/-- A `bitpack_read_bits` keeps the message empty when the kind is clear. -/
theorem read_bits_consistent {bp bp' : bitpack_t} (hc : err_consistent bp) {num_bits : Nat}
    (hs : (bitpack_read_bits bp num_bits).state = some bp') : err_consistent bp' := by
  unfold bitpack_read_bits at hs
  simp only at hs
  split at hs
  · injection hs with e1; rw [← e1]; exact fun hx => bitpack_err_t.noConfusion hx
  · cases hr : bitpack_get_bits (_bitpack_err_clear bp) num_bits
        (_bitpack_err_clear bp).read_pos with
    | undefined => simp only [hr] at hs; exact Option.noConfusion hs
    | error bp1 =>
      simp only [hr] at hs
      injection hs with e1
      rw [← e1]
      exact get_bits_consistent (consistent_of_clean (clean_of_clear hc)) (by rw [hr]; rfl)
    | success bp1 v =>
      simp only [hr] at hs
      injection hs with e1
      rw [← e1]
      have c1 : err_consistent bp1 :=
        get_bits_consistent (consistent_of_clean (clean_of_clear hc)) (by rw [hr]; rfl)
      exact c1

/-- A `bitpack_read_bytes` keeps the message empty when the kind is clear. -/
theorem read_bytes_consistent {h : Heap} {bp bp' : bitpack_t} (hc : err_consistent bp)
    {num_bytes : Nat} (hs : (bitpack_read_bytes h bp num_bytes).state = some bp') :
    err_consistent bp' := by
  unfold bitpack_read_bytes at hs
  simp only at hs
  split at hs
  · injection hs with e1; rw [← e1]; exact fun hx => bitpack_err_t.noConfusion hx
  · cases hr : bitpack_get_bytes h (_bitpack_err_clear bp) num_bytes
        (_bitpack_err_clear bp).read_pos with
    | undefined => simp only [hr] at hs; exact Option.noConfusion hs
    | error bp1 =>
      simp only [hr] at hs
      injection hs with e1
      rw [← e1]
      exact get_bytes_consistent (consistent_of_clean (clean_of_clear hc)) (by rw [hr]; rfl)
    | success bp1 v =>
      simp only [hr] at hs
      injection hs with e1
      rw [← e1]
      have c1 : err_consistent bp1 :=
        get_bytes_consistent (consistent_of_clean (clean_of_clear hc)) (by rw [hr]; rfl)
      exact c1

/-- Every call, whatever its arguments, keeps the message empty when the kind is clear. -/
theorem consistent_call {h : Heap} {bp bp' : bitpack_t} (hc : err_consistent bp) (op : Op)
    (hs : (op.call h bp).state = some bp') : err_consistent bp' := by
  rcases op with index | index | index | ⟨value, num_bits, index⟩ | ⟨value, index⟩ |
    ⟨num_bits, index⟩ | ⟨num_bytes, index⟩ | num_bits | num_bytes | _ | _ | _
  · exact consistent_of_flagged (poke_flagged hc (bitpack_on_eq_poke h bp index).symm) hs
  · exact consistent_of_flagged (poke_flagged hc (bitpack_off_eq_poke h bp index).symm) hs
  · simp only [Op.call, forget_state] at hs
    exact consistent_of_flagged (get_flagged hc index) hs
  · exact consistent_of_flagged (set_bits_flagged hc rfl) hs
  · exact consistent_of_flagged (set_bytes_flagged hc rfl) hs
  · simp only [Op.call, forget_state] at hs
    exact get_bits_consistent hc hs
  · simp only [Op.call, forget_state] at hs
    exact get_bytes_consistent hc hs
  · simp only [Op.call, forget_state] at hs
    exact read_bits_consistent hc hs
  · simp only [Op.call, forget_state] at hs
    exact read_bytes_consistent hc hs
  · simp only [Op.call] at hs
    injection hs with e1
    rw [← e1]
    exact hc
  · simp only [Op.call, forget_state] at hs
    exact consistent_of_flagged (to_bin_flagged hc) hs
  · simp only [Op.call, forget_state] at hs
    exact consistent_of_flagged (to_bytes_flagged hc) hs

/-- In every state reached from a new object by a sequence of calls, whatever their
arguments, the message is empty when the kind is clear. -/
theorem consistent_run_ops {h : Heap} :
    ∀ (ops : List Op) (bp bp' : bitpack_t), err_consistent bp →
      run_ops h bp ops = some bp' → err_consistent bp' := by
  intro ops
  induction ops with
  | nil =>
    intro bp bp' hc hs
    unfold run_ops at hs
    injection hs with h1
    rw [← h1]; exact hc
  | cons op ops ih =>
    intro bp bp' hc hs
    unfold run_ops at hs
    cases hr : (op.call h bp).state with
    | none => rw [hr] at hs; exact Option.noConfusion hs
    | some bp1 =>
      rw [hr] at hs
      exact ih bp1 bp' (consistent_call hc op hr) hs

/-- The objects the constructors return have a clean error state. -/
theorem consistent_created {h : Heap} {bp : bitpack_t} (hc : Created h bp) :
    err_consistent bp := by
  rcases hc with ⟨n, -, hs⟩ | ⟨bytes, -, -, hs⟩
  · have := bitpack_init_eq hs
    subst this
    exact fun _ => rfl
  · have := bitpack_init_from_bytes_eq hs
    subst this
    exact fun _ => rfl


/-! ## Reads whose range wraps

On an object whose block has at most 2^60 bytes a read that returns success has read its
first bit inside the block, so its index is below 2^63 and its range does not wrap. -/

/-- A successful `bitpack_get_bits` of at least one bit has read its first bit inside the
block. -/
theorem get_bits_first_inside {bp bp' : bitpack_t} {num_bits index v : Nat}
    (hs : bitpack_get_bits bp num_bits index = .success bp' v) (hn : 1 ≤ num_bits)
    (hi : index < ULONG_MOD) : index / 8 < bp.data.length := by
  obtain ⟨h1, h2, h3⟩ := get_bits_checks hs
  have e : (_bitpack_err_clear bp).size = bp.size := err_clear_size bp
  rcases get_below_size (_bitpack_err_clear bp) (show index < (_bitpack_err_clear bp).size by
    omega) with ⟨hin, -⟩ | ⟨-, hg⟩
  · rw [err_clear_data] at hin
    exact hin
  · exfalso
    obtain ⟨k, rfl⟩ : ∃ k, num_bits = k + 1 := ⟨num_bits - 1, by omega⟩
    unfold bitpack_get_bits bitpack_size at hs
    simp only at hs
    rw [if_neg (show ¬ index ≥ (_bitpack_err_clear bp).size by omega),
      if_neg (show ¬ (index + (k + 1)) % ULONG_MOD > (_bitpack_err_clear bp).size by omega),
      if_neg (show ¬ k + 1 > ULONG_BITS by omega)] at hs
    unfold bitpack_get_bits_loop at hs
    rw [Nat.add_zero, Nat.mod_eq_of_lt hi] at hs
    rw [hg] at hs
    exact Res.noConfusion hs

/-- The outcome of `bitpack_get_bits` on an object whose size is an `unsigned long` and whose
block has at most 2^60 bytes, whatever the arguments. -/
theorem get_bits_flagged_modest {bp : bitpack_t} (hc : err_consistent bp)
    (hsz : bp.size < ULONG_MOD) (hl : 16 * bp.data.length ≤ ULONG_MOD)
    (num_bits index : Nat) : (bitpack_get_bits bp num_bits index).flagged := by
  by_cases hM : index + num_bits < ULONG_MOD
  · exact get_bits_flagged hc hM
  · cases hr : bitpack_get_bits bp num_bits index with
    | undefined => trivial
    | error bp1 =>
      rcases get_bits_error_cases hr with ⟨-, e⟩ | ⟨-, -, e⟩ | ⟨-, -, -, e⟩
      · subst e; exact fun hx => bitpack_err_t.noConfusion hx
      · subst e; exact fun hx => bitpack_err_t.noConfusion hx
      · subst e; exact fun hx => bitpack_err_t.noConfusion hx
    | success bp1 v =>
      exfalso
      obtain ⟨h1, -, h3⟩ := get_bits_checks hr
      unfold ULONG_BITS at h3
      have hin := get_bits_first_inside hr (by omega) (by omega)
      unfold ULONG_MOD at hM hl hsz
      omega

/-- The outcome of `bitpack_get_bytes` on a heap without blocks above 2^60 bytes and an
object whose size is an `unsigned long` and whose block has at most 2^60 bytes, whatever the
arguments. -/
theorem get_bytes_flagged_modest {h : Heap} (hm : h.modest) {bp : bitpack_t}
    (hc : err_consistent bp) (hsz : bp.size < ULONG_MOD)
    (hl : 16 * bp.data.length ≤ ULONG_MOD) (num_bytes index : Nat) :
    (bitpack_get_bytes h bp num_bytes index).flagged := by
  by_cases hM : index + 8 * num_bytes < ULONG_MOD
  · exact get_bytes_flagged hc hM
  · cases hr : bitpack_get_bytes h bp num_bytes index with
    | undefined => trivial
    | error bp1 =>
      rcases get_bytes_error_cases hr with ⟨-, e⟩ | ⟨-, -, e⟩ | ⟨-, -, -, e⟩
      · subst e; exact fun hx => bitpack_err_t.noConfusion hx
      · subst e; exact fun hx => bitpack_err_t.noConfusion hx
      · subst e; exact fun hx => bitpack_err_t.noConfusion hx
    | success bp1 out =>
      exfalso
      have e : (_bitpack_err_clear bp).size = bp.size := err_clear_size bp
      unfold bitpack_get_bytes bitpack_size at hr
      simp only at hr
      by_cases h1 : index ≥ (_bitpack_err_clear bp).size
      · rw [if_pos h1] at hr; exact Res.noConfusion hr
      · rw [if_neg h1] at hr
        by_cases h2 : (index + (num_bytes * 8) % ULONG_MOD) % ULONG_MOD
            > (_bitpack_err_clear bp).size
        · rw [if_pos h2] at hr; exact Res.noConfusion hr
        · rw [if_neg h2] at hr
          cases hma : malloc h num_bytes with
          | none => simp only [hma] at hr; exact Res.noConfusion hr
          | some block =>
            simp only [hma] at hr
            have ha : h.avail num_bytes = true := by
              unfold malloc at hma
              by_contra hx
              rw [if_neg hx] at hma
              exact Option.noConfusion hma
            have hn := hm num_bytes ha
            have hidx : index < ULONG_MOD := by omega
            have hbig : ULONG_MOD ≤ 2 * index := by omega
            have h1n : 1 ≤ num_bytes := by omega
            by_cases hal : index % 8 = 0
            · rw [if_pos hal] at hr
              cases hd : memread (_bitpack_err_clear bp).data (index / 8) num_bytes with
              | none => simp only [hd] at hr; exact Res.noConfusion hr
              | some bytes =>
                unfold memread at hd
                rw [err_clear_data] at hd
                by_cases hle : index / 8 + num_bytes ≤ bp.data.length
                · unfold ULONG_MOD at hbig hl
                  omega
                · rw [if_neg hle] at hd
                  exact Option.noConfusion hd
            · rw [if_neg hal] at hr
              obtain ⟨k, rfl⟩ : ∃ k, num_bytes = k + 1 := ⟨num_bytes - 1, by omega⟩
              unfold bitpack_get_bytes_loop at hr
              have hz : (index + (0 * 8) % ULONG_MOD) % ULONG_MOD = index := by
                rw [Nat.zero_mul, Nat.zero_mod, Nat.add_zero, Nat.mod_eq_of_lt hidx]
              rw [hz, get_bits_clear] at hr
              cases hg : bitpack_get_bits bp 8 index with
              | undefined => simp only [hg] at hr; exact Res.noConfusion hr
              | error bp2 => simp only [hg] at hr; exact Res.noConfusion hr
              | success bp2 b =>
                have hin := get_bits_first_inside hg (by decide) hidx
                unfold ULONG_MOD at hbig hl
                omega

/-- For every fallible call, whatever its arguments, on a heap without blocks above 2^60
bytes and an object whose size is an `unsigned long`, whose block has at most 2^60 bytes and
whose message is empty when its kind is clear: a success leaves a clean error state, a
failure leaves a kind other than `BITPACK_ERR_CLEAR`. -/
theorem call_flagged_modest {h : Heap} (hm : h.modest) {bp : bitpack_t}
    (hc : err_consistent bp) (hsz : bp.size < ULONG_MOD)
    (hl : 16 * bp.data.length ≤ ULONG_MOD) (op : Op) (hf : op.fallible = true) :
    (op.call h bp).flagged := by
  rcases op with index | index | index | ⟨value, num_bits, index⟩ | ⟨value, index⟩ |
    ⟨num_bits, index⟩ | ⟨num_bytes, index⟩ | num_bits | num_bytes | _ | _ | _
  · exact poke_flagged hc (bitpack_on_eq_poke h bp index).symm
  · exact poke_flagged hc (bitpack_off_eq_poke h bp index).symm
  · exact (forget_flagged _).mpr (get_flagged hc index)
  · exact set_bits_flagged hc rfl
  · exact set_bytes_flagged hc rfl
  · exact (forget_flagged _).mpr (get_bits_flagged_modest hc hsz hl _ _)
  · exact (forget_flagged _).mpr (get_bytes_flagged_modest hm hc hsz hl _ _)
  · exact (forget_flagged _).mpr
      (read_bits_flagged_of (get_bits_flagged_modest hc hsz hl _ _))
  · exact (forget_flagged _).mpr
      (read_bytes_flagged_of (get_bytes_flagged_modest hm hc hsz hl _ _))
  · exact absurd hf (by decide)
  · exact (forget_flagged _).mpr (to_bin_flagged hc)
  · exact (forget_flagged _).mpr (to_bytes_flagged hc)


/-- C40: for every fallible public function and all its arguments, on every heap without
blocks above 2^60 bytes and every prior state whose size is an `unsigned long`, whose block
has at most 2^60 bytes and whose message is empty when its kind is clear (as in every state
the library produces): the call returns `BITPACK_RV_ERROR` if and only if the error kind is
different from `BITPACK_ERR_CLEAR` when it returns, and a call that returns
`BITPACK_RV_SUCCESS` leaves the kind `BITPACK_ERR_CLEAR` with an empty message, also when
it ran other public functions internally. -/
theorem C40_failure_iff_error_set (h : Heap) (hm : h.modest) (bp bp' : bitpack_t) (op : Op)
    (hf : op.fallible = true) (hc : err_consistent bp) (hsz : bp.size < ULONG_MOD)
    (hl : 16 * bp.data.length ≤ ULONG_MOD) (hs : (op.call h bp).state = some bp') :
    ((op.call h bp).rv = some BITPACK_RV_ERROR ↔
      bitpack_get_error bp' ≠ BITPACK_ERR_CLEAR) ∧
    ((op.call h bp).rv = some BITPACK_RV_SUCCESS →
      bitpack_get_error bp' = BITPACK_ERR_CLEAR ∧ bitpack_get_error_str bp' = "") := by
  have hfl := call_flagged_modest hm hc hsz hl op hf
  cases hcall : op.call h bp with
  | undefined => rw [hcall] at hs; exact Option.noConfusion hs
  | error bp1 =>
    rw [hcall] at hs hfl
    injection hs with e1
    subst e1
    refine ⟨⟨fun _ => hfl, fun _ => rfl⟩, fun hx => ?_⟩
    simp [Res.rv, BITPACK_RV_ERROR, BITPACK_RV_SUCCESS] at hx
  | success bp1 u =>
    rw [hcall] at hs hfl
    injection hs with e1
    subst e1
    refine ⟨⟨fun hx => ?_, fun hx => absurd hfl.1 hx⟩, fun _ => hfl⟩
    simp [Res.rv, BITPACK_RV_ERROR, BITPACK_RV_SUCCESS] at hx

/-- Witness of C40: on the 48-bit object of the test `test_bitpack_get_set_bits`, after the
failing `bitpack_set_bits(bp, 0, 65, 0)`, the successful `bitpack_get_bits(bp, 8, 16)` leaves
a clean error state. -/
theorem C40_failure_iff_error_set_witness :
    bitpack_set_bits ample bp_48_bits 0 65 0 = .error bp_48_bits_range_too_big ∧
    Op.call ample bp_48_bits_range_too_big (.get_bits 8 16) = .success bp_48_bits () ∧
    bitpack_get_error bp_48_bits = BITPACK_ERR_CLEAR ∧ bitpack_get_error_str bp_48_bits = "" :=
  ⟨by decide, by decide,
   (C40_failure_iff_error_set ample (fun _ hn => of_decide_eq_true hn)
    bp_48_bits_range_too_big bp_48_bits (.get_bits 8 16) (by decide)
    (fun hx => absurd hx (by decide)) (by decide) (by decide) (by decide)).2 (by decide)⟩


/-! ## The fallible functions clear the error state first -/

/-- Clearing the error state of an object whose message is empty when its kind is clear
gives the object with the kind `BITPACK_ERR_CLEAR` and the empty message. -/
theorem err_clear_eq {bp : bitpack_t} (hc : err_consistent bp) :
    _bitpack_err_clear bp = { bp with error := BITPACK_ERR_CLEAR, error_str := "" } := by
  unfold _bitpack_err_clear
  by_cases he : bp.error = BITPACK_ERR_CLEAR
  · rw [if_neg (not_not.mpr he)]
    have hm := hc he
    cases bp
    simp only at he hm
    subst he hm
    rfl
  · rw [if_pos he]

/-- Every fallible public function (`bitpack_on`, `bitpack_off`,
`bitpack_get`, `bitpack_set_bits`, `bitpack_get_bits`, `bitpack_set_bytes`,
`bitpack_get_bytes`, `bitpack_read_bits`, `bitpack_read_bytes`, `bitpack_to_bin`,
`bitpack_to_bytes`) clears the error state at its start: its outcome is its outcome on the
object with kind `BITPACK_ERR_CLEAR` and an empty message, whatever an earlier call left;
and when the call returns success the error state is clean (on a heap without blocks above
2^60 bytes and an object whose size is an `unsigned long` and whose block has at most 2^60
bytes).  `bitpack_reset_read_pos` leaves the error state as it is.  The prior state is one
in which the message is empty when the kind is clear, as in every state the library
produces. -/
theorem fallible_calls_clear_error (h : Heap) (bp : bitpack_t) (op : Op)
    (hf : op.fallible = true) (hc : err_consistent bp) :
    op.call h bp = op.call h { bp with error := BITPACK_ERR_CLEAR, error_str := "" } ∧
    (h.modest → bp.size < ULONG_MOD → 16 * bp.data.length ≤ ULONG_MOD →
      ∀ bp' u, op.call h bp = .success bp' u →
        bitpack_get_error bp' = BITPACK_ERR_CLEAR ∧ bitpack_get_error_str bp' = "") ∧
    bitpack_get_error (bitpack_reset_read_pos bp) = bitpack_get_error bp ∧
    bitpack_get_error_str (bitpack_reset_read_pos bp) = bitpack_get_error_str bp := by
  refine ⟨?_, ?_, rfl, rfl⟩
  · rw [← err_clear_eq hc]
    exact clears_at_start h bp op hf
  · intro hm hsz hl bp' u hs
    have hfl := call_flagged_modest hm hc hsz hl op hf
    rw [hs] at hfl
    exact hfl

/-- On the 10-bit object, after the failed `bitpack_get(bp, 10)`, the call
`bitpack_get(bp, 3)` behaves as on the object without the error and leaves a clean error
state. -/
theorem fallible_calls_clear_error_example :
    Op.call ample bp_1010101010_invalid_index (.get 3)
      = Op.call ample { bp_1010101010_invalid_index with
          error := BITPACK_ERR_CLEAR, error_str := "" } (.get 3) ∧
    Op.call ample bp_1010101010_invalid_index (.get 3) = .success bp_1010101010 () ∧
    bitpack_get_error bp_1010101010 = BITPACK_ERR_CLEAR ∧
    bitpack_get_error_str bp_1010101010 = "" :=
  ⟨(fallible_calls_clear_error ample bp_1010101010_invalid_index (.get 3) (by decide)
      (fun hx => absurd hx (by decide))).1,
   by decide,
   (fallible_calls_clear_error ample bp_1010101010_invalid_index (.get 3) (by decide)
      (fun hx => absurd hx (by decide))).2.1 (fun _ hn => of_decide_eq_true hn) (by decide)
      (by decide) bp_1010101010 () (by decide)⟩

end Bitpack
